import Mathlib

/-!
# Symbol table and hash dictionary of the C1 analyser

A shallow embedding of `dict.c` and `symtab.c` (Exercise 4, `analysis/src/lib`), and of
`calculator.c` and `printer.c` (Exercise 1, `syntree/src/lib`).

Conventions of the embedding

* `unsigned int` and `uint32_t` values are natural numbers; every operation that can
  wrap in C is written with an explicit `% U32`.
* A C string is the list of its bytes before the terminating NUL (`Key`).  `char` is
  taken to be signed, as on x86-64, so a byte above 127 is sign-extended when it is
  promoted to `int` (`charToHash`).
* A dynamically allocated array is a `List`; an access outside the array, a failed
  `assert`, a shift by an out-of-range amount, the use of an uninitialised variable and a
  loop that does not return are all modelled by the result `none`.
* Functions that mutate `*self` return the new value of `*self`.
* An `int` value is an integer; an operation on `int` whose result leaves the 32 bit range
  and a division by zero are undefined and modelled by the result `none`.
-/

namespace Analysis

/-! ## dict.c -/

/-- Number of values of a 32 bit unsigned integer. -/
def U32 : Nat := 4294967296

/-- The value `-1u`, used by the dictionary for "no value". -/
def NOVAL : Nat := 4294967295

/-- Bytes of a C string, without the terminating NUL. -/
abbrev Key := List Nat

/-- The `char *key` field of an entry: `(char*) 0`, `(char*) -1` or an owned string. -/
inductive KeyPtr where
  | null : KeyPtr
  | prevUsed : KeyPtr
  | str (s : Key) : KeyPtr
  deriving DecidableEq, Repr

/-- Entry of the dictionary (`DictEntry`). -/
structure DictEntry where
  key : KeyPtr
  val : Nat
  deriving DecidableEq, Repr

/-- The dictionary (`Dict`). -/
structure Dict where
  data : List DictEntry
  left : Nat
  bits : Nat
  deriving DecidableEq, Repr

def FNVHashSeed : Nat := 0x811c9dc5

def FNVHashPrime : Nat := 0x1000193

def isNeverUsed (entry : DictEntry) : Bool :=
  decide (entry.key = KeyPtr.null)

def isPrevUsed (entry : DictEntry) : Bool :=
  decide (entry.key = KeyPtr.prevUsed)

def isUnused (entry : DictEntry) : Bool :=
  isNeverUsed entry || isPrevUsed entry

/-- Marks an entry as formerly used; the `assert` fails on an unused entry. -/
def setUnused (entry : DictEntry) : Option DictEntry :=
  if isUnused entry then none else some { entry with key := KeyPtr.prevUsed }

/-- Value of a `char` after promotion to `int` and conversion to `uint32_t`
(signed `char`: bytes from 128 on are sign-extended). -/
def charToHash (c : Nat) : Nat :=
  if c % 256 < 128 then c % 256 else c % 256 + 4294967040

/-- The loop of `fnvHash`, started with the hash value `hash`. -/
def fnvLoop : Nat → Key → Nat
  | hash, [] => hash
  | hash, c :: key => fnvLoop (((hash ^^^ charToHash c) * FNVHashPrime) % U32) key

def fnvHash (key : Key) : Nat :=
  fnvLoop FNVHashSeed key

/-- The local `enum { UNUSED, FORMER, MATCH }` of `locate`. -/
inductive LocState where
  | UNUSED : LocState
  | FORMER : LocState
  | MATCH : LocState
  deriving DecidableEq, Repr

/-- Outcome of one pass through the body of the loop of `locate`: the loop is left by
`break`, or the body reaches the step to the next index. Both carry `state` and the index
written to `*result` (`none` while `*result` is uninitialised). -/
inductive Flow where
  | brk (state : LocState) (result : Option Nat) : Flow
  | cont (state : LocState) (result : Option Nat) : Flow
  deriving DecidableEq, Repr

/-- The body of the `do` loop of `locate` up to the step to the next index, for the entry
`e` found at index `i`. -/
def locateBody (e : DictEntry) (key : Key) (i : Nat) (state : LocState)
    (result : Option Nat) : Flow :=
  if isNeverUsed e then
    Flow.brk state (if state = LocState.UNUSED then some i else result)
  else if isPrevUsed e then
    if state = LocState.UNUSED then Flow.cont LocState.FORMER (some i)
    else Flow.cont state result
  else if e.key = KeyPtr.str key then
    Flow.brk LocState.MATCH (some i)
  else
    Flow.cont state result

/-- The `do ... while (probe.i != initial)` loop of `locate`. The first argument bounds
the number of passes; `none` is returned when it is used up or when the index is outside
the array. -/
def locateLoop (data : List DictEntry) (key : Key) (hash mask initial : Nat) :
    Nat → Nat → LocState → Option Nat → Option (LocState × Option Nat)
  | 0, _, _, _ => none
  | fuel + 1, i, state, result =>
    match data[i]? with
    | none => none
    | some e =>
      match locateBody e key i state result with
      | Flow.brk state1 result1 => some (state1, result1)
      | Flow.cont state1 result1 =>
        if ((i + hash) % U32) &&& mask ≠ initial then
          locateLoop data key hash mask initial fuel (((i + hash) % U32) &&& mask)
            state1 result1
        else
          some (state1, result1)

/-- The function `locate`: returns whether the key was found and the index written to
`*result` (`none` if nothing was written). The shifts are defined for
`2 ≤ bits ≤ 31` only. The loop is given `2 ^ bits` passes, which is the number of
passes after which the probe index is back at `initial` (`locate_isSome`). -/
def locate (self : Dict) (key : Key) : Option (Bool × Option Nat) :=
  if self.bits < 2 ∨ 31 < self.bits then none
  else
    let hash := fnvHash key
    let mask := (1 <<< self.bits) % U32 - 1
    let initial := hash &&& mask
    let step := (hash >>> (self.bits - 1)) ||| ((hash <<< (32 - self.bits + 1)) % U32) ||| 1
    match locateLoop self.data key step mask initial (2 ^ self.bits) initial
        LocState.UNUSED none with
    | none => none
    | some (state, result) => some (decide (state = LocState.MATCH), result)

/-- The loop of `grow` over the entries of the old array. -/
def growLoop : List DictEntry → Dict → Option Dict
  | [], self => some self
  | it :: rest, self =>
    if !isUnused it then
      match it.key with
      | KeyPtr.str k =>
        match locate self k with
        | some (_, some i) =>
          if i < self.data.length then
            growLoop rest { self with data := self.data.set i it }
          else none
        | _ => none
      | _ => none
    else growLoop rest self

/-- The function `grow`. -/
def grow (self : Dict) : Option Dict :=
  if 31 < self.bits then none
  else
    let data := self.data
    let cap := (1 <<< self.bits) % U32
    growLoop data
      { data := List.replicate ((2 * cap) % U32) { key := KeyPtr.null, val := 0 },
        bits := (self.bits + 1) % U32,
        left := (self.left + cap / 4 * 3) % U32 }

def dictInit : Dict :=
  let bits := 3
  let cap := (1 <<< bits) % U32
  { data := List.replicate cap { key := KeyPtr.null, val := 0 },
    bits := bits,
    left := cap / 4 * 3 }

def dictInsert (self : Dict) (key : Key) (val : Nat) : Option (Dict × Nat) :=
  if val = NOVAL then none
  else
    match (if self.left = 0 then grow self else some self) with
    | none => none
    | some self1 =>
      match locate self1 key with
      | some (true, some i) =>
        match self1.data[i]? with
        | some e =>
          some ({ self1 with data := self1.data.set i { e with val := val } }, e.val)
        | none => none
      | some (false, some i) =>
        if i < self1.data.length then
          some ({ self1 with
                    data := self1.data.set i { key := KeyPtr.str key, val := val },
                    left := (self1.left + U32 - 1) % U32 }, NOVAL)
        else none
      | _ => none

def dictGet (self : Dict) (key : Key) : Option Nat :=
  match locate self key with
  | some (true, some i) =>
    match self.data[i]? with
    | some e => some e.val
    | none => none
  | some (true, none) => none
  | some (false, _) => some NOVAL
  | none => none

def dictRemove (self : Dict) (key : Key) : Option (Dict × Nat) :=
  match locate self key with
  | some (true, some i) =>
    match self.data[i]? with
    | some e =>
      match setUnused e with
      | some e1 =>
        some ({ self with data := self.data.set i e1, left := (self.left + 1) % U32 }, e.val)
      | none => none
    | none => none
  | some (true, none) => none
  | some (false, _) => some (self, NOVAL)
  | none => none

/-- Dictionaries obtained from `dictInit` by calls of `dictInsert` and `dictRemove`
that return. -/
inductive Reachable : Dict → Prop where
  | init : Reachable dictInit
  | insert {d d1 : Dict} {k : Key} {v old : Nat} :
      Reachable d → dictInsert d k v = some (d1, old) → Reachable d1
  | remove {d d1 : Dict} {k : Key} {old : Nat} :
      Reachable d → dictRemove d k = some (d1, old) → Reachable d1

/-! ## symtab.c -/

/-- Modelled from the spec: `DefId` is declared in `ast.h`, which is not part of the
sources; it is an index into the definition store with one reserved value for
"invalid". -/
structure DefId where
  index : Nat
  deriving DecidableEq, Repr

/-- Modelled from the spec: the reserved "invalid/none" value of `DefId` (declared in
`ast.h`), taken to be the index `-1u`. -/
def INVALID_DEF_ID : DefId := { index := 4294967295 }

/-- Modelled from the spec: the test for the reserved value (declared in `ast.h`). -/
def defIdIsInvalid (id : DefId) : Bool :=
  decide (id.index = 4294967295)

/-- Modelled from the spec: `ItemId` is declared in `ast.h`; an index into the item list
of the program with one reserved value for "none". -/
structure ItemId where
  index : Nat
  deriving DecidableEq, Repr

/-- Modelled from the spec: the reserved "none" value of `ItemId` (declared in `ast.h`). -/
def INVALID_ITEM_ID : ItemId := { index := 4294967295 }

/-- Modelled from the spec: `DataType` is declared in `ast.h`; the symbol table stores and
copies it without looking at it. -/
abbrev DataType := Nat

/-- Modelled from the spec: `vec.c` is not part of the sources; a vector is the list of
its elements, `vecPush` appends at the end, and `vecLen` is the number of elements. -/
def vecLen {α : Type} (self : List α) : Nat :=
  self.length

/-- Modelled from the spec: `vecTop` is the last element of the vector (`vec.h`),
undefined on an empty vector. -/
def vecTop {α : Type} (self : List α) : Option α :=
  self.getLast?

/-- Modelled from the spec: `vecPop` removes the last element and yields it (`vec.h`),
undefined on an empty vector. -/
def vecPop {α : Type} (self : List α) : Option (List α × α) :=
  match self.getLast? with
  | none => none
  | some a => some (self.dropLast, a)

structure FuncInfo where
  item_id : ItemId
  return_type : DataType
  local_vars : List DefId
  param_count : Nat
  deriving DecidableEq, Repr

structure VarInfo where
  data_type : DataType
  offset : Nat
  deriving DecidableEq, Repr

/-- The tag of a `DefInfo`. -/
inductive DefTag where
  | SYM_DEF_FUNC : DefTag
  | SYM_DEF_LOCAL_VAR : DefTag
  | SYM_DEF_GLOBAL_VAR : DefTag
  deriving DecidableEq, Repr

/-- The anonymous union of a `DefInfo`. -/
inductive DefBody where
  | func (f : FuncInfo) : DefBody
  | var (v : VarInfo) : DefBody
  deriving DecidableEq, Repr

structure DefInfo where
  tag : DefTag
  ident : Key
  body : DefBody
  deriving DecidableEq, Repr

structure SymtabSymbol where
  ident : Key
  prev_record : Nat
  «def» : DefId
  deriving DecidableEq, Repr

structure Symtab where
  map : Dict
  global_count : Nat
  decl : List SymtabSymbol
  vars_in_scope : List Nat
  current_func : DefId
  definitions : List DefInfo
  deriving DecidableEq, Repr

def isGlobalScope (self : Symtab) : Bool :=
  decide (vecLen self.vars_in_scope = 1)

/-- The internal function `define`; the result is the new table and the returned id. -/
def define (self : Symtab) (d : DefInfo) : Option (Symtab × DefId) :=
  let sym := vecLen self.decl
  match dictGet self.map d.ident with
  | none => none
  | some prev =>
    let def_id : DefId := { index := vecLen self.definitions }
    match vecTop self.vars_in_scope with
    | none => none
    | some top =>
      if prev ≠ NOVAL ∧ (sym + U32 - prev) % U32 ≤ top then
        some (self, INVALID_DEF_ID)
      else
        match dictInsert self.map d.ident sym with
        | none => none
        | some (map1, _) =>
          some ({ self with
                    vars_in_scope := self.vars_in_scope.dropLast ++ [(top + 1) % U32],
                    definitions := self.definitions ++ [d],
                    decl := self.decl ++
                      [{ «def» := def_id, ident := d.ident, prev_record := prev }],
                    map := map1 }, def_id)

def symtabNew : Symtab :=
  { map := dictInit,
    definitions := [],
    decl := [],
    vars_in_scope := [0],
    global_count := 0,
    current_func := INVALID_DEF_ID }

/-- The function `symtabIndex`: `none` is the NULL pointer, `some i` the address of
`definitions[i]` (which lies outside the array if `i` is not below its length). -/
def symtabIndex (_self : Symtab) (def_id : DefId) : Option Nat :=
  if defIdIsInvalid def_id then none else some def_id.index

/-- The function `symtabCurrentFunc`: the outer `none` stands for a failed assertion or
an invalid access, the inner `none` for the NULL pointer. -/
def symtabCurrentFunc (self : Symtab) : Option (Option FuncInfo) :=
  let func := symtabIndex self self.current_func
  if isGlobalScope self then some none
  else
    match func with
    | none => none
    | some i =>
      match self.definitions[i]? with
      | none => none
      | some d =>
        if d.tag = DefTag.SYM_DEF_FUNC then
          match d.body with
          | DefBody.func f => some (some f)
          | DefBody.var _ => none
        else none

def symtabDefineFunc (self : Symtab) (ident : Key) (return_type : DataType) :
    Option (Symtab × Bool) :=
  if !isGlobalScope self then none
  else
    let d : DefInfo :=
      { tag := DefTag.SYM_DEF_FUNC,
        ident := ident,
        body := DefBody.func
          { item_id := INVALID_ITEM_ID, return_type := return_type,
            local_vars := [], param_count := 0 } }
    match define self d with
    | none => none
    | some (self1, id) =>
      let self2 := { self1 with current_func := id }
      if defIdIsInvalid self2.current_func then some (self2, false)
      else some (self2, true)

def symtabDefineVar (self : Symtab) (ident : Key) (data_type : DataType) :
    Option (Symtab × DefId) :=
  match (if isGlobalScope self then some (self.global_count, DefTag.SYM_DEF_GLOBAL_VAR)
         else
           match symtabCurrentFunc self with
           | some (some f) => some (vecLen f.local_vars, DefTag.SYM_DEF_LOCAL_VAR)
           | _ => none) with
  | none => none
  | some (offset, tag) =>
    let d : DefInfo :=
      { tag := tag, ident := ident,
        body := DefBody.var { data_type := data_type, offset := offset } }
    match define self d with
    | none => none
    | some (self1, def_id) =>
      if defIdIsInvalid def_id then some (self1, def_id)
      else if isGlobalScope self1 then
        some ({ self1 with global_count := (self1.global_count + 1) % U32 }, def_id)
      else
        match symtabIndex self1 self1.current_func with
        | none => none
        | some i =>
          match self1.definitions[i]? with
          | none => none
          | some fd =>
            match fd.body with
            | DefBody.func f =>
              let f1 : FuncInfo := { f with local_vars := f.local_vars ++ [def_id] }
              let fd1 : DefInfo := { fd with body := DefBody.func f1 }
              some ({ self1 with definitions := self1.definitions.set i fd1 }, def_id)
            | DefBody.var _ => none

def symtabDefineParam (self : Symtab) (ident : Key) (data_type : DataType) :
    Option (Symtab × Bool) :=
  if isGlobalScope self then none
  else
    match symtabDefineVar self ident data_type with
    | none => none
    | some (self1, id) =>
      if defIdIsInvalid id then some (self1, false)
      else
        match self1.definitions[self1.current_func.index]? with
        | none => none
        | some fd =>
          match fd.body with
          | DefBody.func f =>
            let f1 : FuncInfo := { f with param_count := (f.param_count + 1) % U32 }
            let fd1 : DefInfo := { fd with body := DefBody.func f1 }
            some ({ self1 with
                      definitions := self1.definitions.set self1.current_func.index fd1 },
                  true)
          | DefBody.var _ => none

def symtabScopeEnter (self : Symtab) : Symtab :=
  { self with vars_in_scope := self.vars_in_scope ++ [0] }

/-- The `for` loop of `symtabScopeLeave`, for the remaining number of passes. -/
def scopeLeaveLoop : Nat → Symtab → Option Symtab
  | 0, self => some self
  | n + 1, self =>
    match vecPop self.decl with
    | none => none
    | some (decl1, sym) =>
      if sym.prev_record = NOVAL then
        match dictRemove self.map sym.ident with
        | none => none
        | some (map1, _) => scopeLeaveLoop n { self with decl := decl1, map := map1 }
      else
        match dictInsert self.map sym.ident sym.prev_record with
        | none => none
        | some (map1, _) => scopeLeaveLoop n { self with decl := decl1, map := map1 }

def symtabScopeLeave (self : Symtab) : Option Symtab :=
  if isGlobalScope self then none
  else
    match vecPop self.vars_in_scope with
    | none => none
    | some (vars1, count) => scopeLeaveLoop count { self with vars_in_scope := vars1 }

def symtabResolve (self : Symtab) (ident : Key) : Option DefId :=
  match dictGet self.map ident with
  | none => none
  | some sym =>
    if sym = NOVAL then some INVALID_DEF_ID
    else
      match self.decl[sym]? with
      | none => none
      | some s => some s.«def»

/-- Symbol tables obtained from `symtabNew` by the operations of the interface that
change the table, each with its assertions holding. -/
inductive SymReachable : Symtab → Prop where
  | new : SymReachable symtabNew
  | defineFunc {t t1 : Symtab} {x : Key} {ty : DataType} {ok : Bool} :
      SymReachable t → symtabDefineFunc t x ty = some (t1, ok) → SymReachable t1
  | defineParam {t t1 : Symtab} {x : Key} {ty : DataType} {ok : Bool} :
      SymReachable t → symtabDefineParam t x ty = some (t1, ok) → SymReachable t1
  | defineVar {t t1 : Symtab} {x : Key} {ty : DataType} {id : DefId} :
      SymReachable t → symtabDefineVar t x ty = some (t1, id) → SymReachable t1
  | scopeEnter {t : Symtab} : SymReachable t → SymReachable (symtabScopeEnter t)
  | scopeLeave {t t1 : Symtab} :
      SymReachable t → symtabScopeLeave t = some t1 → SymReachable t1

/-- Modelled from the spec: the items of a program are declared in `ast.h`; an item is a
global variable or a function definition, and a function definition exposes its
identifier. -/
inductive Item where
  | ITEM_GLOBAL_VAR : Item
  | ITEM_FUNC_DEF (ident : Key) : Item
  deriving DecidableEq, Repr

/-- Modelled from the spec: the program is the list of its items (declared in `ast.h`). -/
structure Program where
  items : List Item
  deriving DecidableEq, Repr

structure SymDefTable where
  main_func : DefId
  global_count : Nat
  definitions : List DefInfo
  deriving DecidableEq, Repr

/-- The identifier "main". -/
def mainIdent : Key := [109, 97, 105, 110]

/-- The `for` loop of `symDefTableNew` over the items from position `i` on. -/
def symDefTableLoop : List Item → Nat → Symtab → Option Symtab
  | [], _, tab => some tab
  | Item.ITEM_GLOBAL_VAR :: rest, i, tab => symDefTableLoop rest (i + 1) tab
  | Item.ITEM_FUNC_DEF ident :: rest, i, tab =>
    match symtabResolve tab ident with
    | none => none
    | some id =>
      match symtabIndex tab id with
      | none => symDefTableLoop rest (i + 1) tab
      | some j =>
        match tab.definitions[j]? with
        | none => none
        | some d =>
          if d.tag = DefTag.SYM_DEF_FUNC then
            match d.body with
            | DefBody.func f =>
              let f1 : FuncInfo := { f with item_id := { index := i } }
              let d1 : DefInfo := { d with body := DefBody.func f1 }
              symDefTableLoop rest (i + 1) { tab with definitions := tab.definitions.set j d1 }
            | DefBody.var _ => none
          else none

/-- The function `symDefTableNew`; the symbol table is released by the call and not
returned. -/
def symDefTableNew (tab : Symtab) (ast : Program) : Option SymDefTable :=
  match symDefTableLoop ast.items 0 tab with
  | none => none
  | some tab1 =>
    match symtabResolve tab1 mainIdent with
    | none => none
    | some m =>
      some { definitions := tab1.definitions,
             global_count := tab1.global_count,
             main_func := m }

/-- The function `symDefTableResolve`: the address of `definitions[def_id.index]`, given
as the index; the assertion fails for the invalid id. -/
def symDefTableResolve (_self : SymDefTable) (def_id : DefId) : Option Nat :=
  if defIdIsInvalid def_id then none else some def_id.index

/-! ## Notions used to state the properties of the dictionary -/

/-- Index probed in pass `j` of the loop of `locate`. -/
def probeIdx (initial step cap j : Nat) : Nat :=
  (initial + j * step) % cap

/-- The indices probed by `locate` in a table of capacity `cap`, in order. -/
def probeSeq (initial step cap : Nat) : List Nat :=
  (List.range cap).map (probeIdx initial step cap)

/-- The step width `locate` derives from the hash value. -/
def stepOf (hash bits : Nat) : Nat :=
  (hash >>> (bits - 1)) ||| ((hash <<< (32 - bits + 1)) % U32) ||| 1

/-- The probe sequence of a key in a table with `2 ^ bits` entries. -/
def keyProbe (bits : Nat) (key : Key) : List Nat :=
  probeSeq (fnvHash key % 2 ^ bits) (stepOf (fnvHash key) bits) (2 ^ bits)

/-- The entry at index `i`, a never used entry outside the array. -/
def entryAt (data : List DictEntry) (i : Nat) : DictEntry :=
  data.getD i { key := KeyPtr.null, val := 0 }

/-- The loop of `locate` run over a list of indices. -/
def scan (data : List DictEntry) (key : Key) :
    List Nat → LocState → Option Nat → LocState × Option Nat
  | [], state, result => (state, result)
  | i :: rest, state, result =>
    match locateBody (entryAt data i) key i state result with
    | Flow.brk state1 result1 => (state1, result1)
    | Flow.cont state1 result1 => scan data key rest state1 result1

/-- Number of entries that hold a key. -/
def occupied (data : List DictEntry) : Nat :=
  data.countP (fun e => !isUnused e)

/-- Invariant of the array of a dictionary with `2 ^ bits` entries: keys are unique, and
every stored key is met on its probe sequence before any never used entry. -/
structure TableInv (bits : Nat) (data : List DictEntry) : Prop where
  len : data.length = 2 ^ bits
  uniq : ∀ (i j : Nat) (k : Key), (entryAt data i).key = KeyPtr.str k →
    (entryAt data j).key = KeyPtr.str k → i = j
  chain : ∀ (i : Nat) (k : Key), (entryAt data i).key = KeyPtr.str k →
    i ∈ (keyProbe bits k).takeWhile (fun a => !isNeverUsed (entryAt data a))

/-- Invariant of a dictionary. -/
structure WF (d : Dict) : Prop where
  bits_lo : 3 ≤ d.bits
  bits_hi : d.bits ≤ 31
  inv : TableInv d.bits d.data
  count : d.left + occupied d.data = 3 * 2 ^ (d.bits - 2)

/-- State of the new table while `grow` has copied the entries `done` of the old array. -/
structure GrowInv (nd : Dict) (done : List DictEntry) : Prop where
  bits_lo : 2 ≤ nd.bits
  bits_hi : nd.bits ≤ 31
  inv : TableInv nd.bits nd.data
  noTomb : ∀ i, (entryAt nd.data i).key ≠ KeyPtr.prevUsed
  content : ∀ (k : Key) (w : Nat),
    (∃ i, entryAt nd.data i = { key := KeyPtr.str k, val := w }) ↔
      ({ key := KeyPtr.str k, val := w } : DictEntry) ∈ done
  occ : occupied nd.data = occupied done

/-- The key `k` is stored with the value `v`. -/
def Holds (d : Dict) (k : Key) (v : Nat) : Prop :=
  ∃ i, entryAt d.data i = { key := KeyPtr.str k, val := v }

/-- Value of `left` after the growth step at the start of `dictInsert`. -/
def leftAfterGrow (d : Dict) : Nat :=
  d.left + (if d.left = 0 then 2 ^ d.bits / 4 * 3 else 0)

/-- The key `k` is not stored. -/
def Absent (d : Dict) (k : Key) : Prop :=
  ∀ i, (entryAt d.data i).key ≠ KeyPtr.str k

/-- Key "One" of the usage example of `dict.h`. -/
def keyOne : Key := [79, 110, 101]

/-- Key "Two" of the usage example of `dict.h`. -/
def keyTwo : Key := [84, 119, 111]

/-- Key "Three" of the usage example of `dict.h`. -/
def keyThree : Key := [84, 104, 114, 101, 101]

/-- The never used entry. -/
def emptyEntry : DictEntry := { key := KeyPtr.null, val := 0 }

/-- The dictionary left by `dictInsert` (the dictionary itself if the call does not
return). -/
def insertD (d : Dict) (k : Key) (v : Nat) : Dict :=
  match dictInsert d k v with
  | some (d1, _) => d1
  | none => d

/-- The dictionary left by `dictRemove` (the dictionary itself if the call does not
return). -/
def removeD (d : Dict) (k : Key) : Dict :=
  match dictRemove d k with
  | some (d1, _) => d1
  | none => d

/-- The dictionary of the usage example of `dict.h` after its three insertions. -/
def exDict3 : Dict :=
  insertD (insertD (insertD dictInit keyOne 1) keyTwo 2) keyThree 3

/-- The dictionary of the usage example after the first insertion. -/
def exDict1 : Dict :=
  { data := [emptyEntry, emptyEntry, emptyEntry, emptyEntry, emptyEntry, emptyEntry,
      emptyEntry, { key := KeyPtr.str keyOne, val := 1 }],
    left := 5, bits := 3 }

/-! ## Notions used to state the properties of the symbol table -/

/-- Search of `lastIdx` on the reversed declaration stack. -/
def lastIdxRev : List SymtabSymbol → Key → Nat
  | [], _ => NOVAL
  | s :: rest, x => if s.ident = x then rest.length else lastIdxRev rest x

/-- Index of the topmost record of the declaration stack with the identifier `x`, `-1u`
if there is none. -/
def lastIdx (decl : List SymtabSymbol) (x : Key) : Nat :=
  lastIdxRev decl.reverse x

/-- The records of the declaration stack that belong to the innermost scope: the topmost
ones, as many as the top of the scope-count stack says. -/
def scopeDecls (t : Symtab) : List SymtabSymbol :=
  match vecTop t.vars_in_scope with
  | some top => t.decl.drop (t.decl.length - top)
  | none => []

/-- The identifier `x` has a declaration among those of the innermost scope. -/
def declaredInScope (t : Symtab) (x : Key) : Prop :=
  x ∈ (scopeDecls t).map (fun s => s.ident)

instance (t : Symtab) (x : Key) : Decidable (declaredInScope t x) := by
  unfold declaredInScope; infer_instance

/-- Invariant that ties the dictionary of a symbol table to its declaration stack. -/
structure CoreInv (map : Dict) (decl : List SymtabSymbol) : Prop where
  map_wf : WF map
  decl_lt : decl.length < U32
  nearest : ∀ x, dictGet map x = some (lastIdx decl x)
  prev : ∀ (i : Nat) (s : SymtabSymbol), decl[i]? = some s →
    s.prev_record = lastIdx (decl.take i) s.ident

/-- Invariant of a symbol table. -/
structure SymInv (t : Symtab) : Prop where
  core : CoreInv t.map t.decl
  scopes_ne : t.vars_in_scope ≠ []
  scopes_sum : t.vars_in_scope.sum = t.decl.length
  defs : ∀ s ∈ t.decl, s.«def».index < t.definitions.length

/-- A successful definition of `x` with the id `id` leads from `t` to `t1`, as far as the
scope-count stack, the declaration stack and the size of the definition store go. -/
structure Pushed (t t1 : Symtab) (x : Key) (id : DefId) : Prop where
  vars : ∃ top, vecTop t.vars_in_scope = some top ∧
    t1.vars_in_scope = t.vars_in_scope.dropLast ++ [top + 1]
  decl : t1.decl = t.decl ++ [{ ident := x, prev_record := lastIdx t.decl x, «def» := id }]
  id_eq : id = { index := t.definitions.length }
  len : t1.definitions.length = t.definitions.length + 1
  map : ∃ old, dictInsert t.map x t.decl.length = some (t1.map, old)

/-- The table `define` builds on success, given the previous mapping `prev` of the
identifier, the top `top` of the scope-count stack and the new dictionary `map1`. -/
def pushDef (t : Symtab) (d : DefInfo) (prev top : Nat) (map1 : Dict) : Symtab :=
  { t with
      vars_in_scope := t.vars_in_scope.dropLast ++ [(top + 1) % U32],
      definitions := t.definitions ++ [d],
      decl := t.decl ++
        [{ «def» := { index := vecLen t.definitions }, ident := d.ident, prev_record := prev }],
      map := map1 }

/-- The id of the topmost record of the declaration stack with the identifier `x`, the
invalid id if there is none. -/
def resolveSpec (decl : List SymtabSymbol) (x : Key) : DefId :=
  if lastIdx decl x = NOVAL then INVALID_DEF_ID
  else
    match decl[lastIdx decl x]? with
    | some s => s.«def»
    | none => INVALID_DEF_ID

/-- The table has room for one more definition within the 32 bit index range. -/
def Fits (t : Symtab) : Prop :=
  t.decl.length < NOVAL ∧ t.definitions.length < NOVAL ∧ (t.map.bits < 31 ∨ t.map.left ≠ 0)

instance (t : Symtab) : Decidable (Fits t) := by
  unfold Fits; infer_instance

/-- The operations that may occur between entering and leaving a scope. -/
inductive ScopeOp where
  | defineVar (x : Key) (ty : DataType) : ScopeOp
  | defineParam (x : Key) (ty : DataType) : ScopeOp
  | enter : ScopeOp
  | leave : ScopeOp
  deriving DecidableEq, Repr

/-- One operation on a symbol table; `none` if it does not return. -/
def runOp (t : Symtab) : ScopeOp → Option Symtab
  | ScopeOp.defineVar x ty =>
    match symtabDefineVar t x ty with
    | some (t1, _) => some t1
    | none => none
  | ScopeOp.defineParam x ty =>
    match symtabDefineParam t x ty with
    | some (t1, _) => some t1
    | none => none
  | ScopeOp.enter => some (symtabScopeEnter t)
  | ScopeOp.leave => symtabScopeLeave t

/-- A sequence of operations on a symbol table. -/
def runOps : List ScopeOp → Symtab → Option Symtab
  | [], t => some t
  | op :: rest, t =>
    match runOp t op with
    | some t1 => runOps rest t1
    | none => none

/-- The scope operations of the sequence are balanced when it starts at nesting depth
`depth`: no scope is left that was not entered, and the sequence ends at depth 0. -/
def balanced : Nat → List ScopeOp → Bool
  | depth, [] => decide (depth = 0)
  | depth, ScopeOp.enter :: rest => balanced (depth + 1) rest
  | depth, ScopeOp.leave :: rest => decide (depth ≠ 0) && balanced (depth - 1) rest
  | depth, ScopeOp.defineVar _ _ :: rest => balanced depth rest
  | depth, ScopeOp.defineParam _ _ :: rest => balanced depth rest

/-- Identifier "f". -/
def keyF : Key := [102]

/-- Identifier "a". -/
def keyA : Key := [97]

/-- Identifier "b". -/
def keyB : Key := [98]

/-- The table left by `symtabDefineFunc` (the table itself if the call does not return). -/
def afterDefineFunc (t : Symtab) (x : Key) (ty : DataType) : Symtab :=
  match symtabDefineFunc t x ty with
  | some (t1, _) => t1
  | none => t

/-- The table left by `symtabDefineVar` (the table itself if the call does not return). -/
def afterDefineVar (t : Symtab) (x : Key) (ty : DataType) : Symtab :=
  match symtabDefineVar t x ty with
  | some (t1, _) => t1
  | none => t

/-- The table after `symtabDefineFunc("f")` on a new table. -/
def exTabF : Symtab :=
  afterDefineFunc symtabNew keyF 0

/-- The table after `symtabDefineFunc("f")`, `symtabScopeEnter` and
`symtabDefineVar("a")` on a new table. -/
def exTabFA : Symtab :=
  afterDefineVar (symtabScopeEnter exTabF) keyA 0

/-- A sequence of operations inside a scope: a definition, its duplicate, a nested scope
with a shadowing definition and a parameter, and one more definition. -/
def exOps : List ScopeOp :=
  [ScopeOp.defineVar keyA 0, ScopeOp.defineVar keyA 0, ScopeOp.enter,
    ScopeOp.defineVar keyF 0, ScopeOp.defineParam keyB 0, ScopeOp.leave,
    ScopeOp.defineVar keyB 0]

/-- The table after entering a scope of `exTabF`, running `exOps` and leaving the scope. -/
def exRoundTrip : Symtab :=
  match runOps (ScopeOp.enter :: exOps ++ [ScopeOp.leave]) exTabF with
  | some t => t
  | none => exTabF

/-! ## Notions used to state the properties of the definition store -/

/-- The record `symtabDefineFunc` builds for the function `x` with return type `ty`. -/
def funcRecord (x : Key) (ty : DataType) : DefInfo :=
  { tag := DefTag.SYM_DEF_FUNC, ident := x,
    body := DefBody.func
      { item_id := INVALID_ITEM_ID, return_type := ty, local_vars := [], param_count := 0 } }

/-- The record `symtabDefineVar` builds for the variable `x`. -/
def varRecord (tag : DefTag) (x : Key) (ty : DataType) (offset : Nat) : DefInfo :=
  { tag := tag, ident := x, body := DefBody.var { data_type := ty, offset := offset } }

/-- Applies `g` to the function information of a record; a variable record is left as it
is. -/
def applyFunc (g : FuncInfo → FuncInfo) (d : DefInfo) : DefInfo :=
  match d.body with
  | DefBody.func f => { d with body := DefBody.func (g f) }
  | DefBody.var _ => d

/-- Applies `g` to the function information of the record at index `c` of the store. -/
def updFunc (defs : List DefInfo) (c : Nat) (g : FuncInfo → FuncInfo) : List DefInfo :=
  match defs[c]? with
  | some d => defs.set c (applyFunc g d)
  | none => defs

/-- Appends an id to the list of local variables. -/
def addLocal (id : DefId) (f : FuncInfo) : FuncInfo :=
  { f with local_vars := f.local_vars ++ [id] }

/-- Increments the parameter count. -/
def incParam (f : FuncInfo) : FuncInfo :=
  { f with param_count := (f.param_count + 1) % U32 }

/-- Sets the item id. -/
def setItem (i : Nat) (f : FuncInfo) : FuncInfo :=
  { f with item_id := { index := i } }

/-- The record is a global variable. -/
def isGlobalVar (d : DefInfo) : Bool :=
  decide (d.tag = DefTag.SYM_DEF_GLOBAL_VAR)

/-- The offset of a variable record (0 for a function record). -/
def offsetOf (d : DefInfo) : Nat :=
  match d.body with
  | DefBody.var v => v.offset
  | DefBody.func _ => 0

/-- The offsets of the global variables of the store, in the order of the store. -/
def globalOffsets (defs : List DefInfo) : List Nat :=
  (defs.filter isGlobalVar).map offsetOf

/-- Tag and union of every record agree: exactly the records with the tag
`SYM_DEF_FUNC` hold function information. -/
def Shape (defs : List DefInfo) : Prop :=
  ∀ (i : Nat) (d : DefInfo), defs[i]? = some d →
    (d.tag = DefTag.SYM_DEF_FUNC ↔ ∃ f, d.body = DefBody.func f)

/-- No function record has an item id. -/
def ItemOk (defs : List DefInfo) : Prop :=
  ∀ (i : Nat) (d : DefInfo) (f : FuncInfo), defs[i]? = some d → d.body = DefBody.func f →
    f.item_id = INVALID_ITEM_ID

/-- For every function record, the `j`-th id of its local variables is the id of a local
variable record with the offset `j`. -/
def LocalsOk (defs : List DefInfo) : Prop :=
  ∀ (i : Nat) (d : DefInfo) (f : FuncInfo), defs[i]? = some d → d.body = DefBody.func f →
    ∀ (j : Nat) (id : DefId), f.local_vars[j]? = some id →
      ∃ dv v, defs[id.index]? = some dv ∧ dv.tag = DefTag.SYM_DEF_LOCAL_VAR ∧
        dv.body = DefBody.var v ∧ v.offset = j

/-- Within the 32 bit index range, the global variables of the store have the offsets
0, 1, ... in the order of their definition, up to `global_count`. -/
def GlobalsOk (defs : List DefInfo) (global_count : Nat) : Prop :=
  defs.length ≤ NOVAL → globalOffsets defs = List.range global_count

/-- The current function is the invalid id or the id of a function record. -/
def CurOk (defs : List DefInfo) (cur : DefId) : Prop :=
  defIdIsInvalid cur = true ∨
    ∃ d f, defs[cur.index]? = some d ∧ d.tag = DefTag.SYM_DEF_FUNC ∧ d.body = DefBody.func f

/-- Invariant of a definition store with the current function `cur` and the counter
`global_count`. -/
structure StoreInv (defs : List DefInfo) (cur : DefId) (global_count : Nat) : Prop where
  shape : Shape defs
  cur : CurOk defs cur
  item : ItemOk defs
  locals : LocalsOk defs
  globals : GlobalsOk defs global_count

/-- Invariant of the definition store of a symbol table. -/
def DefInv (t : Symtab) : Prop :=
  StoreInv t.definitions t.current_func t.global_count

/-- Reachable symbol tables together with their history: `calls i` is the number of
successful `symtabDefineParam` calls made while the id with index `i` was the current
function, `last` is the id given to the function of the most recent successful
`symtabDefineFunc` call, and `failed` tells whether the most recent `symtabDefineFunc`
call has failed. -/
inductive SymHist : Symtab → (Nat → Nat) → Option DefId → Bool → Prop where
  | new : SymHist symtabNew (fun _ => 0) none false
  | defineFunc {t t1 : Symtab} {calls : Nat → Nat} {last : Option DefId} {failed : Bool}
      {x : Key} {ty : DataType} {ok : Bool} :
      SymHist t calls last failed → symtabDefineFunc t x ty = some (t1, ok) →
      SymHist t1 calls (if ok then some t1.current_func else last) (!ok)
  | defineParam {t t1 : Symtab} {calls : Nat → Nat} {last : Option DefId} {failed : Bool}
      {x : Key} {ty : DataType} {ok : Bool} :
      SymHist t calls last failed → symtabDefineParam t x ty = some (t1, ok) →
      SymHist t1
        (fun i => if ok = true ∧ i = t.current_func.index then calls i + 1 else calls i)
        last failed
  | defineVar {t t1 : Symtab} {calls : Nat → Nat} {last : Option DefId} {failed : Bool}
      {x : Key} {ty : DataType} {id : DefId} :
      SymHist t calls last failed → symtabDefineVar t x ty = some (t1, id) →
      SymHist t1 calls last failed
  | scopeEnter {t : Symtab} {calls : Nat → Nat} {last : Option DefId} {failed : Bool} :
      SymHist t calls last failed → SymHist (symtabScopeEnter t) calls last failed
  | scopeLeave {t t1 : Symtab} {calls : Nat → Nat} {last : Option DefId} {failed : Bool} :
      SymHist t calls last failed → symtabScopeLeave t = some t1 →
      SymHist t1 calls last failed

/-- The parameter counts of the store agree with the numbers `calls` of successful
parameter definitions. -/
structure ParamInv (defs : List DefInfo) (calls : Nat → Nat) : Prop where
  count : ∀ (i : Nat) (d : DefInfo) (f : FuncInfo), defs[i]? = some d →
    d.body = DefBody.func f → f.param_count = calls i % U32 ∧ calls i ≤ f.local_vars.length
  zero : ∀ i, defs.length ≤ i → calls i = 0

/-- The current function agrees with the history of `symtabDefineFunc` calls. -/
def LastInv (cur : DefId) (last : Option DefId) (failed : Bool) : Prop :=
  (failed = true → cur = INVALID_DEF_ID) ∧
    (failed = false →
      match last with
      | some n => cur = n ∧ defIdIsInvalid n = false
      | none => cur = INVALID_DEF_ID)

/-- The table after `symtabDefineFunc("f")` twice and `symtabScopeEnter` on a new table:
the second definition of "f" fails. -/
def exTabDupScope : Symtab :=
  symtabScopeEnter (afterDefineFunc exTabF keyF 0)

/-- Modelled from the spec: the data type `int` of the scenarios (`DataType` is declared in
`ast.h`); the symbol table stores the type without looking at it. -/
def intType : DataType := 0

/-- Identifier "x". -/
def keyX : Key := [120]

/-- Identifier "y". -/
def keyY : Key := [121]

/-- The table left by `symtabDefineParam` (the table itself if the call does not return). -/
def afterDefineParam (t : Symtab) (x : Key) (ty : DataType) : Symtab :=
  match symtabDefineParam t x ty with
  | some (t1, _) => t1
  | none => t

/-- The table left by `symtabScopeLeave` (the table itself if the call does not return). -/
def afterScopeLeave (t : Symtab) : Symtab :=
  match symtabScopeLeave t with
  | some t1 => t1
  | none => t

/-- The table after `symtabDefineFunc("f")`, `symtabScopeEnter` and
`symtabDefineParam("a")` on a new table. -/
def scenParam : Symtab :=
  afterDefineParam (symtabScopeEnter exTabF) keyA intType

/-- The table `scenParam` after `symtabDefineVar("b")`. -/
def scenVar : Symtab :=
  afterDefineVar scenParam keyB intType

/-- The table `scenVar` after `symtabScopeLeave`. -/
def scenLeft : Symtab :=
  afterScopeLeave scenVar

/-- The table after `symtabDefineVar("x")` on a new table. -/
def exTabX : Symtab :=
  afterDefineVar symtabNew keyX intType

/-- The table after `symtabDefineVar("x")` and `symtabDefineVar("y")` on a new table. -/
def exTabXY : Symtab :=
  afterDefineVar exTabX keyY intType

/-- The function information of "f" in the scenarios, with the local variables `locals`
and `n` parameters. -/
def scenFunc (locals : List DefId) (n : Nat) : FuncInfo :=
  { item_id := INVALID_ITEM_ID, return_type := intType, local_vars := locals, param_count := n }

/-- The item `it` is a function definition whose identifier resolves to the definition
with the index `i`. -/
def resolvesTo (t : Symtab) (it : Item) (i : Nat) : Bool :=
  match it with
  | Item.ITEM_FUNC_DEF ident =>
    decide (symtabResolve t ident = some { index := i }) && !defIdIsInvalid { index := i }
  | Item.ITEM_GLOBAL_VAR => false

/-- Position of the last item that resolves to the definition `i`, among the items
`items` standing at the positions `p`, `p + 1`, ...; `acc` if there is none. -/
def lastItemFrom (t : Symtab) : List Item → Nat → Nat → Option Nat → Option Nat
  | [], _, _, acc => acc
  | it :: rest, p, i, acc =>
    lastItemFrom t rest (p + 1) i (if resolvesTo t it i then some p else acc)

/-- The record `d` with the item id set to the position `a`, if there is one. -/
def patchRec (a : Option Nat) (d : DefInfo) : DefInfo :=
  match a with
  | none => d
  | some p => applyFunc (setItem p) d

/-- The record `d` without its item id: two records with the same image differ at most in
the item id. -/
def eraseItem (d : DefInfo) : DefInfo :=
  applyFunc (fun f => { f with item_id := INVALID_ITEM_ID }) d

/-- The function record `d` with the function information `f`, its item id set to the
position `p`. -/
def itemSet (d : DefInfo) (f : FuncInfo) (p : Nat) : DefInfo :=
  { d with body := DefBody.func { f with item_id := { index := p } } }

/-- A program: a global variable, the function "f", a function "a" and the function "f"
once more. -/
def exProgram : Program :=
  { items := [Item.ITEM_GLOBAL_VAR, Item.ITEM_FUNC_DEF keyF, Item.ITEM_FUNC_DEF keyA,
      Item.ITEM_FUNC_DEF keyF] }

/-- The definition table of `exTabF` and `exProgram`: the record of "f" has the item id 3,
there is no function "main". -/
def exFrozen : SymDefTable :=
  { main_func := INVALID_DEF_ID, global_count := 0,
    definitions := [itemSet (funcRecord keyF intType) (scenFunc [] 0) 3] }

/-! ## Notions used for the examples of the dictionary -/

/-- A call of `dictInsert` or of `dictRemove`. -/
inductive DictOp where
  | insert (k : Key) (v : Nat) : DictOp
  | remove (k : Key) : DictOp
  deriving DecidableEq, Repr

/-- Runs a sequence of calls; `none` if one of them does not return. -/
def runDict : List DictOp → Dict → Option Dict
  | [], d => some d
  | DictOp.insert k v :: rest, d =>
    match dictInsert d k v with
    | some (d1, _) => runDict rest d1
    | none => none
  | DictOp.remove k :: rest, d =>
    match dictRemove d k with
    | some (d1, _) => runDict rest d1
    | none => none

/-- Inserts the pairs of the list in order; `none` if a call does not return. -/
def insertAll : Dict → List (Key × Nat) → Option Dict
  | d, [] => some d
  | d, (k, v) :: rest =>
    match dictInsert d k v with
    | some (d1, _) => insertAll d1 rest
    | none => none

/-- The key that consists of the `n`-th small letter. -/
def letterKey (n : Nat) : Key := [97 + n]

/-- The dictionary after the insertion of "a" and "i", which start at the same index, and
the removal of "a": a formerly used entry stands before "i" on its probe sequence. -/
def exTomb : Dict :=
  { data := [emptyEntry, emptyEntry, emptyEntry, emptyEntry,
      { key := KeyPtr.prevUsed, val := 1 }, { key := KeyPtr.str (letterKey 8), val := 2 },
      emptyEntry, emptyEntry],
    left := 5, bits := 3 }

/-- The calls that lead to `exTomb`. -/
def exTombOps : List DictOp :=
  [DictOp.insert (letterKey 0) 1, DictOp.insert (letterKey 8) 2, DictOp.remove (letterKey 0)]

/-- The calls that lead to a table without a never used entry: six insertions, the removal
of the six keys, and two insertions that take the two never used entries. -/
def exFullOps : List DictOp :=
  (List.range 6).map (fun n => DictOp.insert (letterKey n) n) ++
    (List.range 6).map (fun n => DictOp.remove (letterKey n)) ++
    [DictOp.insert (letterKey 6) 6, DictOp.insert (letterKey 7) 7]

/-- The dictionary after the calls `exFullOps`: no entry is never used. -/
def exFull : Dict :=
  { data := [{ key := KeyPtr.prevUsed, val := 4 }, { key := KeyPtr.prevUsed, val := 5 },
      { key := KeyPtr.prevUsed, val := 2 }, { key := KeyPtr.prevUsed, val := 3 },
      { key := KeyPtr.prevUsed, val := 0 }, { key := KeyPtr.prevUsed, val := 1 },
      { key := KeyPtr.str (letterKey 6), val := 6 },
      { key := KeyPtr.str (letterKey 7), val := 7 }],
    left := 4, bits := 3 }

/-- Six pairs with distinct keys. -/
def exSix : List (Key × Nat) :=
  (List.range 6).map (fun n => (letterKey n, n))

/-- The standard FNV-1a hash of a sequence of bytes, each a value from 0 to 255. -/
def fnv1a (bytes : List Nat) : Nat :=
  bytes.foldl (fun h b => ((h ^^^ b) * 0x01000193) % 2 ^ 32) 0x811c9dc5

/-! ## calculator.c and printer.c (Exercise 1, `syntree/src/lib`) -/

/-- Modelled from the spec: the expressions of the syntax tree are declared in `syntree.h`;
an expression is an `int` literal, a variable named by a `char`, or one of the four binary
operations on two expressions. -/
inductive Expr where
  | EXPR_INT (val : Int) : Expr
  | EXPR_VAR (var : Char) : Expr
  | EXPR_ADD (lhs rhs : Expr) : Expr
  | EXPR_SUB (lhs rhs : Expr) : Expr
  | EXPR_MUL (lhs rhs : Expr) : Expr
  | EXPR_DIV (lhs rhs : Expr) : Expr
  deriving DecidableEq, Repr

/-- Modelled from the spec: the statements of the syntax tree (`syntree.h`); an expression
statement or the assignment of an expression to a variable. -/
inductive Stmt where
  | STMT_EXPR (expr : Expr) : Stmt
  | STMT_SET (var : Char) (expr : Expr) : Stmt
  deriving DecidableEq, Repr

/-- Modelled from the spec: the root of the syntax tree (`syntree.h`) holds the vector of
the statements, here the list of them in order. -/
structure Root where
  stmt_list : List Stmt
  deriving DecidableEq, Repr

/-- Modelled from the spec: the calculator (`calculator.h`) holds the array of the values
of the 26 variables and the result of the last visit. -/
structure Calculator where
  var_values : List Int
  result : Int
  deriving DecidableEq, Repr

/-- Modelled from the spec: the printer (`printer.h`) holds the output stream, here the
characters written to it so far. -/
structure Printer where
  out : List Char
  deriving DecidableEq, Repr

/-- The value is one of the type `int` (32 bits). -/
def intOk (v : Int) : Bool :=
  decide (-2147483648 ≤ v ∧ v ≤ 2147483647)

/-- Access to `var_values[var - 'a']`; `none` outside the array. -/
def varIndex (var : Char) : Option Nat :=
  let index : Int := (var.toNat : Int) - 97
  if 0 ≤ index ∧ index < 26 then some index.toNat else none

/-- The end of the four cases of `visitExpr` for a binary operation: the result of the
operation on the two values, `none` where the operation on `int` is undefined (overflow,
division by zero). -/
def Calculator.binop (self : Calculator) (value : Option Int) : Option Calculator :=
  match value with
  | some v => if intOk v then some { self with result := v } else none
  | none => none

/-- The function `visitExpr` of `calculator.c`. -/
def Calculator.visitExpr (self : Calculator) : Expr → Option Calculator
  | Expr.EXPR_INT val => some { self with result := val }
  | Expr.EXPR_VAR var =>
    match varIndex var with
    | none => none
    | some index =>
      match self.var_values[index]? with
      | none => none
      | some v => some { self with result := v }
  | Expr.EXPR_ADD l r =>
    match Calculator.visitExpr self l with
    | none => none
    | some s1 =>
      match Calculator.visitExpr s1 r with
      | none => none
      | some s2 => Calculator.binop s2 (some (s1.result + s2.result))
  | Expr.EXPR_SUB l r =>
    match Calculator.visitExpr self l with
    | none => none
    | some s1 =>
      match Calculator.visitExpr s1 r with
      | none => none
      | some s2 => Calculator.binop s2 (some (s1.result - s2.result))
  | Expr.EXPR_MUL l r =>
    match Calculator.visitExpr self l with
    | none => none
    | some s1 =>
      match Calculator.visitExpr s1 r with
      | none => none
      | some s2 => Calculator.binop s2 (some (s1.result * s2.result))
  | Expr.EXPR_DIV l r =>
    match Calculator.visitExpr self l with
    | none => none
    | some s1 =>
      match Calculator.visitExpr s1 r with
      | none => none
      | some s2 =>
        Calculator.binop s2
          (if s2.result = 0 then none else some (Int.tdiv s1.result s2.result))

/-- The function `visitStmt` of `calculator.c`. -/
def Calculator.visitStmt (self : Calculator) : Stmt → Option Calculator
  | Stmt.STMT_EXPR expr => Calculator.visitExpr self expr
  | Stmt.STMT_SET var expr =>
    match Calculator.visitExpr self expr with
    | none => none
    | some s1 =>
      match varIndex var with
      | none => none
      | some index =>
        if index < s1.var_values.length then
          some { var_values := s1.var_values.set index s1.result, result := 0 }
        else none

/-- The loop of `visitRoot` of `calculator.c` over the statements. -/
def Calculator.visitStmts (self : Calculator) : List Stmt → Option Calculator
  | [] => some self
  | stmt :: rest =>
    match Calculator.visitStmt self stmt with
    | none => none
    | some s1 => Calculator.visitStmts s1 rest

/-- The function `visitRoot` of `calculator.c`. -/
def Calculator.visitRoot (self : Calculator) (root : Root) : Option Calculator :=
  Calculator.visitStmts self root.stmt_list

/-- The loop `for (int i = 0; i < 26; i++) self->var_values[i] = 0` from `i` on, with
`n` passes left; `none` outside the array. -/
def zeroLoop : Nat → Nat → List Int → Option (List Int)
  | 0, _, vs => some vs
  | n + 1, i, vs => if i < vs.length then zeroLoop n (i + 1) (vs.set i 0) else none

/-- The function `calculatorCalc`: the calculator after the call and the returned value. -/
def calculatorCalc (self : Calculator) (root : Root) : Option (Calculator × Int) :=
  match zeroLoop 26 0 self.var_values with
  | none => none
  | some vs =>
    match Calculator.visitRoot { var_values := vs, result := 0 } root with
    | none => none
    | some s1 => some (s1, s1.result)

/-- Modelled from the spec: the characters `fprintf` writes for `%d`: the decimal digits
of the value, after a minus sign for a negative value. -/
def decimalText (val : Int) : List Char :=
  if val < 0 then "-".toList ++ Nat.toDigits 10 val.natAbs else Nat.toDigits 10 val.toNat

/-- A call of `fprintf` that writes the characters `text`. -/
def Printer.fprintf (self : Printer) (text : List Char) : Printer :=
  { self with out := self.out ++ text }

/-- The function `visitExpr` of `printer.c`. -/
def Printer.visitExpr (self : Printer) : Expr → Printer
  | Expr.EXPR_INT val => Printer.fprintf self (decimalText val)
  | Expr.EXPR_VAR var => Printer.fprintf self [var]
  | Expr.EXPR_ADD l r =>
    Printer.fprintf
      (Printer.visitExpr
        (Printer.fprintf (Printer.visitExpr (Printer.fprintf self "(".toList) l) "+".toList) r)
      ")".toList
  | Expr.EXPR_SUB l r =>
    Printer.fprintf
      (Printer.visitExpr
        (Printer.fprintf (Printer.visitExpr (Printer.fprintf self "(".toList) l) "-".toList) r)
      ")".toList
  | Expr.EXPR_MUL l r =>
    Printer.fprintf
      (Printer.visitExpr
        (Printer.fprintf (Printer.visitExpr (Printer.fprintf self "(".toList) l) "*".toList) r)
      ")".toList
  | Expr.EXPR_DIV l r =>
    Printer.fprintf
      (Printer.visitExpr
        (Printer.fprintf (Printer.visitExpr (Printer.fprintf self "(".toList) l) "/".toList) r)
      ")".toList

/-- The function `visitStmt` of `printer.c`. -/
def Printer.visitStmt (self : Printer) : Stmt → Printer
  | Stmt.STMT_EXPR expr => Printer.visitExpr self expr
  | Stmt.STMT_SET var expr =>
    Printer.fprintf
      (Printer.visitExpr (Printer.fprintf (Printer.fprintf self [var]) "=".toList) expr)
      "\n".toList

/-- The loop of `visitRoot` of `printer.c` over the statements. -/
def Printer.visitStmts (self : Printer) : List Stmt → Printer
  | [] => self
  | stmt :: rest => Printer.visitStmts (Printer.visitStmt self stmt) rest

/-- The function `visitRoot` of `printer.c`. -/
def Printer.visitRoot (self : Printer) (root : Root) : Printer :=
  Printer.visitStmts self root.stmt_list

/-- The function `printerFormat`. -/
def printerFormat (self : Printer) (root : Root) : Printer :=
  Printer.visitRoot self root

/-! ## Notions used to state the properties of the calculator and the printer -/

/-- The index of the variable `var` among the 26 variables. -/
def varSlot (var : Char) : Nat :=
  var.toNat - 97

/-- The variable name is one of the small letters "a" to "z". -/
def varOk (var : Char) : Bool :=
  decide (97 ≤ var.toNat ∧ var.toNat ≤ 122)

/-- The integer value of an expression under the values `env` of the variables; the
division is the one of C, which truncates towards zero. -/
def exprValue (env : Nat → Int) : Expr → Int
  | Expr.EXPR_INT val => val
  | Expr.EXPR_VAR var => env (varSlot var)
  | Expr.EXPR_ADD l r => exprValue env l + exprValue env r
  | Expr.EXPR_SUB l r => exprValue env l - exprValue env r
  | Expr.EXPR_MUL l r => exprValue env l * exprValue env r
  | Expr.EXPR_DIV l r => Int.tdiv (exprValue env l) (exprValue env r)

/-- The precondition on an expression: literals are `int` values, variable names are small
letters, no divisor is zero and no operation leaves the range of `int`. -/
def exprOk (env : Nat → Int) : Expr → Bool
  | Expr.EXPR_INT val => intOk val
  | Expr.EXPR_VAR var => varOk var
  | Expr.EXPR_ADD l r =>
    exprOk env l && exprOk env r && intOk (exprValue env l + exprValue env r)
  | Expr.EXPR_SUB l r =>
    exprOk env l && exprOk env r && intOk (exprValue env l - exprValue env r)
  | Expr.EXPR_MUL l r =>
    exprOk env l && exprOk env r && intOk (exprValue env l * exprValue env r)
  | Expr.EXPR_DIV l r =>
    exprOk env l && exprOk env r && decide (exprValue env r ≠ 0) &&
      intOk (Int.tdiv (exprValue env l) (exprValue env r))

/-- The values of the variables after a statement. -/
def stmtEnv (env : Nat → Int) : Stmt → Nat → Int
  | Stmt.STMT_EXPR _ => env
  | Stmt.STMT_SET var expr => fun i => if i = varSlot var then exprValue env expr else env i

/-- The value of a statement: that of its expression, 0 for an assignment. -/
def stmtValue (env : Nat → Int) : Stmt → Int
  | Stmt.STMT_EXPR expr => exprValue env expr
  | Stmt.STMT_SET _ _ => 0

/-- The precondition on a statement. -/
def stmtOk (env : Nat → Int) : Stmt → Bool
  | Stmt.STMT_EXPR expr => exprOk env expr
  | Stmt.STMT_SET var expr => varOk var && exprOk env expr

/-- The values of the variables after the statements. -/
def progEnv (env : Nat → Int) : List Stmt → Nat → Int
  | [] => env
  | stmt :: rest => progEnv (stmtEnv env stmt) rest

/-- The precondition on a program that starts with the values `env`. -/
def progOk (env : Nat → Int) : List Stmt → Bool
  | [] => true
  | stmt :: rest => stmtOk env stmt && progOk (stmtEnv env stmt) rest

/-- The value of a program: the value of its last statement, evaluated under the values
the statements before it have set, all variables being 0 at the start; 0 for the empty
program. -/
def progValue (stmts : List Stmt) : Int :=
  match stmts.getLast? with
  | none => 0
  | some stmt => stmtValue (progEnv (fun _ => 0) stmts.dropLast) stmt

/-- The array `var_values` holds the values `env` of the 26 variables. -/
def EnvRel (vs : List Int) (env : Nat → Int) : Prop :=
  vs.length = 26 ∧ ∀ i, i < 26 → vs[i]? = some (env i)

/-- The text of an expression: the decimal digits of a literal, the character of a
variable, and the two operands of an operation between parentheses with the operator
between them. -/
def exprText : Expr → List Char
  | Expr.EXPR_INT val => decimalText val
  | Expr.EXPR_VAR var => [var]
  | Expr.EXPR_ADD l r => "(".toList ++ exprText l ++ "+".toList ++ exprText r ++ ")".toList
  | Expr.EXPR_SUB l r => "(".toList ++ exprText l ++ "-".toList ++ exprText r ++ ")".toList
  | Expr.EXPR_MUL l r => "(".toList ++ exprText l ++ "*".toList ++ exprText r ++ ")".toList
  | Expr.EXPR_DIV l r => "(".toList ++ exprText l ++ "/".toList ++ exprText r ++ ")".toList

/-- The text of a statement: that of its expression, or the variable, the equals sign,
the text of the expression and a newline. -/
def stmtText : Stmt → List Char
  | Stmt.STMT_EXPR expr => exprText expr
  | Stmt.STMT_SET var expr => [var] ++ "=".toList ++ exprText expr ++ "\n".toList

/-- The text of a program: the texts of its statements one after the other. -/
def rootText (root : Root) : List Char :=
  (root.stmt_list.map stmtText).flatten

/-- The function `isspace` on the characters that occur: blank, tab, newline, vertical
tab, form feed and carriage return. -/
def isSpaceChar (c : Char) : Bool :=
  decide (c.toNat = 32) || decide (9 ≤ c.toNat ∧ c.toNat ≤ 13)

/-- The text without the white space at its end, as the function `test` of `printer.c`
compares it with the expected text. -/
def trimBack (text : List Char) : List Char :=
  (text.reverse.dropWhile isSpaceChar).reverse

/-- A calculator as a test leaves it uninitialised: some values in the array and in the
result. -/
def exCalc : Calculator :=
  { var_values := List.replicate 26 7, result := 5 }

/-- The program of the test `calc_complex_test`: `a=3; b=4; c=a+b; (a*b)+c`. -/
def exComplex : Root :=
  { stmt_list :=
      [Stmt.STMT_SET 'a' (Expr.EXPR_INT 3), Stmt.STMT_SET 'b' (Expr.EXPR_INT 4),
        Stmt.STMT_SET 'c' (Expr.EXPR_ADD (Expr.EXPR_VAR 'a') (Expr.EXPR_VAR 'b')),
        Stmt.STMT_EXPR (Expr.EXPR_ADD (Expr.EXPR_MUL (Expr.EXPR_VAR 'a') (Expr.EXPR_VAR 'b'))
          (Expr.EXPR_VAR 'c'))] }

/-- The program of the test `calc_vars`: `i=1; j=2; i+j`. -/
def exVars : Root :=
  { stmt_list :=
      [Stmt.STMT_SET 'i' (Expr.EXPR_INT 1), Stmt.STMT_SET 'j' (Expr.EXPR_INT 2),
        Stmt.STMT_EXPR (Expr.EXPR_ADD (Expr.EXPR_VAR 'i') (Expr.EXPR_VAR 'j'))] }

/-- The program of the tests that apply an operation to 4 and 2. -/
def exOp (op : Expr → Expr → Expr) : Root :=
  { stmt_list := [Stmt.STMT_EXPR (op (Expr.EXPR_INT 4) (Expr.EXPR_INT 2))] }

/-- The program of the tests `calc_set` and `printer_set`: `a=1`. -/
def exSet : Root :=
  { stmt_list := [Stmt.STMT_SET 'a' (Expr.EXPR_INT 1)] }

/-- The program of the test `printer_set_and_add`: `a=1; a+a`. -/
def exSetAdd : Root :=
  { stmt_list :=
      [Stmt.STMT_SET 'a' (Expr.EXPR_INT 1),
        Stmt.STMT_EXPR (Expr.EXPR_ADD (Expr.EXPR_VAR 'a') (Expr.EXPR_VAR 'a'))] }

/-! ## Notions used to state the invariants of the symbol table -/

/-- The scope depth: 0 at global scope, one more for every scope entered and not left. -/
def scopeDepth (t : Symtab) : Nat :=
  t.vars_in_scope.length - 1

/-- The record `d1` agrees with the record `d` in everything that is fixed at the
definition: tag, identifier and, for a variable, data type and offset, for a function, the
return type. -/
def stableRec (d d1 : DefInfo) : Prop :=
  d1.tag = d.tag ∧ d1.ident = d.ident ∧
    match d.body, d1.body with
    | DefBody.var v, DefBody.var v1 => v1 = v
    | DefBody.func f, DefBody.func f1 => f1.return_type = f.return_type
    | _, _ => False

/-- The store `defs1` holds every record of the store `defs` at its index, up to the
parts of a record that are not fixed at the definition. -/
def StableStore (defs defs1 : List DefInfo) : Prop :=
  defs.length ≤ defs1.length ∧
    ∀ (i : Nat) (d : DefInfo), defs[i]? = some d → ∃ d1, defs1[i]? = some d1 ∧ stableRec d d1

/-- The symbol table `t1` is obtained from `t` by operations of the interface, each with
its assertions holding. -/
inductive SymSteps (t : Symtab) : Symtab → Prop where
  | refl : SymSteps t t
  | defineFunc {t1 t2 : Symtab} {x : Key} {ty : DataType} {ok : Bool} :
      SymSteps t t1 → symtabDefineFunc t1 x ty = some (t2, ok) → SymSteps t t2
  | defineParam {t1 t2 : Symtab} {x : Key} {ty : DataType} {ok : Bool} :
      SymSteps t t1 → symtabDefineParam t1 x ty = some (t2, ok) → SymSteps t t2
  | defineVar {t1 t2 : Symtab} {x : Key} {ty : DataType} {id : DefId} :
      SymSteps t t1 → symtabDefineVar t1 x ty = some (t2, id) → SymSteps t t2
  | scopeEnter {t1 : Symtab} : SymSteps t t1 → SymSteps t (symtabScopeEnter t1)
  | scopeLeave {t1 t2 : Symtab} :
      SymSteps t t1 → symtabScopeLeave t1 = some t2 → SymSteps t t2

/-! ## Properties of the dictionary -/

theorem probeIdx_lt (initial step cap j : Nat) (hcap : 0 < cap) :
    probeIdx initial step cap j < cap :=
  Nat.mod_lt _ hcap

theorem odd_coprime_two_pow (step b : Nat) (hodd : step % 2 = 1) :
    Nat.Coprime (2 ^ b) step := by
  apply Nat.Coprime.pow_left
  exact Nat.coprime_two_left.mpr (Nat.odd_iff.mpr hodd)

theorem probeIdx_inj (initial step b j1 j2 : Nat) (hodd : step % 2 = 1)
    (h1 : j1 < 2 ^ b) (h2 : j2 < 2 ^ b)
    (h : probeIdx initial step (2 ^ b) j1 = probeIdx initial step (2 ^ b) j2) : j1 = j2 := by
  unfold probeIdx at h
  have h3 : j1 * step ≡ j2 * step [MOD 2 ^ b] := Nat.ModEq.add_left_cancel' initial h
  have h4 : j1 ≡ j2 [MOD 2 ^ b] :=
    Nat.ModEq.cancel_right_of_coprime (odd_coprime_two_pow step b hodd) h3
  exact Nat.ModEq.eq_of_lt_of_lt h4 h1 h2

theorem probeIdx_zero (initial step cap : Nat) (hi : initial < cap) :
    probeIdx initial step cap 0 = initial := by
  simp [probeIdx, Nat.mod_eq_of_lt hi]

theorem probeIdx_cap (initial step cap : Nat) (hi : initial < cap) :
    probeIdx initial step cap cap = initial := by
  simp [probeIdx, Nat.mod_eq_of_lt hi]

theorem probeIdx_ne_initial (initial step b j : Nat) (hodd : step % 2 = 1)
    (hi : initial < 2 ^ b) (h0 : 0 < j) (hj : j < 2 ^ b) :
    probeIdx initial step (2 ^ b) j ≠ initial := by
  intro h
  have h1 := probeIdx_inj initial step b j 0 hodd hj (by omega)
    (by rw [h, probeIdx_zero initial step _ hi])
  omega

theorem two_pow_lt_U32 (b : Nat) (hb : b ≤ 31) : 2 ^ b < U32 := by
  have h : (2:Nat) ^ b ≤ 2 ^ 31 := Nat.pow_le_pow_right (by norm_num) hb
  have : (2:Nat) ^ 31 < U32 := by norm_num [U32]
  omega

theorem two_pow_dvd_U32 (b : Nat) (hb : b ≤ 31) : 2 ^ b ∣ U32 := by
  have : U32 = 2 ^ 32 := by norm_num [U32]
  rw [this]; exact Nat.pow_dvd_pow 2 (by omega)

theorem mask_eq (b : Nat) (hb : b ≤ 31) : (1 <<< b) % U32 - 1 = 2 ^ b - 1 := by
  rw [Nat.one_shiftLeft, Nat.mod_eq_of_lt (two_pow_lt_U32 b hb)]

theorem probeIdx_succ (initial step b j : Nat) (hb : b ≤ 31) :
    ((probeIdx initial step (2 ^ b) j + step) % U32) &&& (2 ^ b - 1)
      = probeIdx initial step (2 ^ b) (j + 1) := by
  rw [Nat.and_pow_two_sub_one_eq_mod, Nat.mod_mod_of_dvd _ (two_pow_dvd_U32 b hb)]
  unfold probeIdx
  rw [Nat.mod_add_mod]
  congr 1; ring

theorem stepOf_odd (hash bits : Nat) : stepOf hash bits % 2 = 1 := by
  unfold stepOf
  exact Nat.or_mod_two_eq_one.mpr (Or.inr rfl)

theorem entryAt_of_getElem? {data : List DictEntry} {i : Nat} {e : DictEntry}
    (h : data[i]? = some e) : entryAt data i = e := by
  simp [entryAt, List.getD, h]

theorem getElem?_eq_entryAt {data : List DictEntry} {i : Nat} (h : i < data.length) :
    data[i]? = some (entryAt data i) := by
  simp [entryAt, List.getD, List.getElem?_eq_getElem h]

/-- The loop of `locate`, started in pass `j` with enough passes left to reach pass
`2 ^ b`, is the scan of the remaining probe indices. -/
theorem locateLoop_eq_scan (data : List DictEntry) (key : Key) (step initial b : Nat)
    (hb : b ≤ 31) (hlen : data.length = 2 ^ b) (hodd : step % 2 = 1)
    (hi : initial < 2 ^ b) :
    ∀ (n j : Nat) (st : LocState) (res : Option Nat), j + n = 2 ^ b → 0 < n →
      locateLoop data key step (2 ^ b - 1) initial n (probeIdx initial step (2 ^ b) j) st res
        = some (scan data key ((List.range' j n).map (probeIdx initial step (2 ^ b))) st res) := by
  intro n
  induction n with
  | zero => intro j st res _ h; omega
  | succ m ih =>
    intro j st res hj _
    have hpos : 0 < 2 ^ b := Nat.pow_pos (by norm_num)
    have hlt : probeIdx initial step (2 ^ b) j < data.length := by
      rw [hlen]; exact probeIdx_lt _ _ _ _ hpos
    rw [locateLoop, getElem?_eq_entryAt hlt]
    simp only [List.range'_succ, List.map_cons, scan]
    cases hbody : locateBody (entryAt data (probeIdx initial step (2 ^ b) j)) key
        (probeIdx initial step (2 ^ b) j) st res with
    | brk s r => rfl
    | cont s r =>
      simp only [probeIdx_succ initial step b j hb]
      by_cases hm : m = 0
      · subst hm
        have hj1 : j + 1 = 2 ^ b := by omega
        rw [hj1, probeIdx_cap initial step _ hi]
        simp [scan]
      · have hne := probeIdx_ne_initial initial step b (j + 1) hodd hi (by omega) (by omega)
        rw [if_pos hne]
        exact ih (j + 1) s r (by omega) (by omega)

theorem locate_eq_scan (d : Dict) (key : Key) (hb2 : 2 ≤ d.bits) (hb : d.bits ≤ 31)
    (hlen : d.data.length = 2 ^ d.bits) :
    locate d key = some
      (decide ((scan d.data key (keyProbe d.bits key) LocState.UNUSED none).1 = LocState.MATCH),
        (scan d.data key (keyProbe d.bits key) LocState.UNUSED none).2) := by
  have hpos : 0 < 2 ^ d.bits := Nat.pow_pos (by norm_num)
  have hinit : fnvHash key % 2 ^ d.bits < 2 ^ d.bits := Nat.mod_lt _ hpos
  have h := locateLoop_eq_scan d.data key (stepOf (fnvHash key) d.bits)
    (fnvHash key % 2 ^ d.bits) d.bits hb hlen (stepOf_odd _ _) hinit (2 ^ d.bits) 0
    LocState.UNUSED none (by omega) hpos
  rw [probeIdx_zero _ _ _ hinit] at h
  unfold locate
  rw [if_neg (by omega)]
  simp only [mask_eq d.bits hb, Nat.and_pow_two_sub_one_eq_mod]
  unfold stepOf at h
  rw [h]
  simp [keyProbe, probeSeq, List.range_eq_range', stepOf]

theorem locateBody_match {e : DictEntry} {key : Key} (h : e.key = KeyPtr.str key)
    (i : Nat) (st : LocState) (res : Option Nat) :
    locateBody e key i st res = Flow.brk LocState.MATCH (some i) := by
  simp [locateBody, isNeverUsed, isPrevUsed, h]

theorem scan_found (data : List DictEntry) (key : Key) (i : Nat)
    (hkey : (entryAt data i).key = KeyPtr.str key)
    (huniq : ∀ a, (entryAt data a).key = KeyPtr.str key → a = i) :
    ∀ (P : List Nat) (st : LocState) (res : Option Nat),
      i ∈ P.takeWhile (fun a => !isNeverUsed (entryAt data a)) →
      scan data key P st res = (LocState.MATCH, some i) := by
  intro P
  induction P with
  | nil => intro st res h; simp at h
  | cons a rest ih =>
    intro st res h
    rw [List.takeWhile_cons] at h
    by_cases hnu : isNeverUsed (entryAt data a) = true
    · simp [hnu] at h
    · simp only [Bool.not_eq_true] at hnu
      simp only [hnu, Bool.not_false, if_true] at h
      by_cases hai : a = i
      · subst hai
        simp [scan, locateBody_match hkey]
      · have hi : i ∈ List.takeWhile (fun a => !isNeverUsed (entryAt data a)) rest := by
          rcases List.mem_cons.mp h with h1 | h1
          · exact absurd h1.symm hai
          · exact h1
        have hak : (entryAt data a).key ≠ KeyPtr.str key := fun hk => hai (huniq a hk)
        have hbody : ∃ s r, locateBody (entryAt data a) key a st res = Flow.cont s r := by
          unfold locateBody
          rw [if_neg (by simp [hnu])]
          by_cases hp : isPrevUsed (entryAt data a) = true
          · rw [if_pos hp]
            by_cases hs : st = LocState.UNUSED
            · rw [if_pos hs]; exact ⟨_, _, rfl⟩
            · rw [if_neg hs]; exact ⟨_, _, rfl⟩
          · rw [if_neg hp, if_neg hak]; exact ⟨_, _, rfl⟩
        obtain ⟨s, r, hsr⟩ := hbody
        simp only [scan, hsr]
        exact ih s r hi

theorem scan_absent_former (data : List DictEntry) (key : Key) :
    ∀ (P : List Nat) (st : LocState) (res : Option Nat),
      (∀ a ∈ P, (entryAt data a).key ≠ KeyPtr.str key) → st ≠ LocState.UNUSED →
      scan data key P st res = (st, res) := by
  intro P
  induction P with
  | nil => intro st res _ _; rfl
  | cons a rest ih =>
    intro st res habs hst
    have hak := habs a (List.mem_cons_self _ _)
    have hrest : ∀ x ∈ rest, (entryAt data x).key ≠ KeyPtr.str key :=
      fun x hx => habs x (List.mem_cons_of_mem _ hx)
    simp only [scan, locateBody]
    by_cases hnu : isNeverUsed (entryAt data a) = true
    · simp [hnu, hst]
    · by_cases hp : isPrevUsed (entryAt data a) = true
      · simp only [hnu, hp, hst, if_true, if_false, Bool.false_eq_true]
        exact ih st res hrest hst
      · simp only [hnu, hp, hak, if_false, Bool.false_eq_true]
        exact ih st res hrest hst

theorem scan_absent (data : List DictEntry) (key : Key) :
    ∀ (P : List Nat), (∀ a ∈ P, (entryAt data a).key ≠ KeyPtr.str key) →
      (scan data key P LocState.UNUSED none).1 ≠ LocState.MATCH ∧
      (scan data key P LocState.UNUSED none).2
        = P.find? (fun a => isUnused (entryAt data a)) := by
  intro P
  induction P with
  | nil => intro _; simp [scan]
  | cons a rest ih =>
    intro habs
    have hak := habs a (List.mem_cons_self _ _)
    have hrest : ∀ x ∈ rest, (entryAt data x).key ≠ KeyPtr.str key :=
      fun x hx => habs x (List.mem_cons_of_mem _ hx)
    simp only [scan, locateBody, List.find?_cons]
    by_cases hnu : isNeverUsed (entryAt data a) = true
    · simp [hnu, isUnused]
    · by_cases hp : isPrevUsed (entryAt data a) = true
      · simp only [hnu, hp, if_true, if_false, Bool.false_eq_true, isUnused, Bool.or_true]
        rw [scan_absent_former data key rest LocState.FORMER (some a) hrest (by decide)]
        simp
      · simp only [hnu, hp, hak, if_false, Bool.false_eq_true, isUnused, Bool.or_false]
        exact ih hrest

theorem keyProbe_lt (b : Nat) (k : Key) (i : Nat) (h : i ∈ keyProbe b k) : i < 2 ^ b := by
  simp only [keyProbe, probeSeq, List.mem_map] at h
  obtain ⟨j, _, rfl⟩ := h
  exact probeIdx_lt _ _ _ _ (Nat.pow_pos (by norm_num))

theorem keyProbe_nodup (b : Nat) (k : Key) : (keyProbe b k).Nodup := by
  unfold keyProbe probeSeq
  apply List.Nodup.map_on _ (List.nodup_range _)
  intro x hx y hy hxy
  exact probeIdx_inj _ _ b x y (stepOf_odd _ _) (List.mem_range.mp hx) (List.mem_range.mp hy) hxy

/-- The probe sequence of a key visits every index of the table. -/
theorem keyProbe_mem (b : Nat) (k : Key) (i : Nat) (h : i < 2 ^ b) : i ∈ keyProbe b k := by
  have hsub : keyProbe b k ⊆ List.range (2 ^ b) :=
    fun x hx => List.mem_range.mpr (keyProbe_lt b k x hx)
  have hperm : (keyProbe b k).Perm (List.range (2 ^ b)) :=
    (List.subperm_of_subset (keyProbe_nodup b k) hsub).perm_of_length_le
      (by simp [keyProbe, probeSeq])
  exact hperm.mem_iff.mpr (List.mem_range.mpr h)

theorem entryAt_set (data : List DictEntry) (r i : Nat) (e : DictEntry) :
    entryAt (data.set r e) i = if r = i ∧ r < data.length then e else entryAt data i := by
  unfold entryAt
  simp only [List.getD_eq_getElem?_getD, List.getElem?_set]
  by_cases h1 : r = i
  · by_cases h2 : r < data.length
    · subst h1
      simp [h2]
    · subst h1
      simp [h2, List.getElem?_eq_none (Nat.le_of_not_lt h2)]
  · simp [h1]

theorem entryAt_of_ge (data : List DictEntry) (i : Nat) (h : data.length ≤ i) :
    entryAt data i = { key := KeyPtr.null, val := 0 } := by
  simp [entryAt, List.getD_eq_getElem?_getD, List.getElem?_eq_none h]

theorem lt_length_of_key {data : List DictEntry} {i : Nat} {k : Key}
    (h : (entryAt data i).key = KeyPtr.str k) : i < data.length := by
  by_contra hlt
  rw [entryAt_of_ge data i (by omega)] at h
  cases h

theorem lt_length_of_prevUsed {data : List DictEntry} {i : Nat}
    (h : (entryAt data i).key = KeyPtr.prevUsed) : i < data.length := by
  by_contra hlt
  rw [entryAt_of_ge data i (by omega)] at h
  cases h

theorem locate_found (d : Dict) (key : Key) (i : Nat) (hb2 : 2 ≤ d.bits) (hb : d.bits ≤ 31)
    (hinv : TableInv d.bits d.data) (hkey : (entryAt d.data i).key = KeyPtr.str key) :
    locate d key = some (true, some i) := by
  rw [locate_eq_scan d key hb2 hb hinv.len,
    scan_found d.data key i hkey (fun a ha => hinv.uniq a i key ha hkey) _ _ _
      (hinv.chain i key hkey)]
  simp

theorem locate_absent (d : Dict) (key : Key) (hb2 : 2 ≤ d.bits) (hb : d.bits ≤ 31)
    (hlen : d.data.length = 2 ^ d.bits) (habs : Absent d key) :
    locate d key = some (false,
      (keyProbe d.bits key).find? (fun a => isUnused (entryAt d.data a))) := by
  have h := scan_absent d.data key (keyProbe d.bits key) (fun a _ => habs a)
  rw [locate_eq_scan d key hb2 hb hlen, h.2]
  simp [h.1]

theorem countP_set (p : DictEntry → Bool) :
    ∀ (data : List DictEntry) (r : Nat) (e : DictEntry), r < data.length →
      (data.set r e).countP p + (if p (entryAt data r) then 1 else 0)
        = data.countP p + (if p e then 1 else 0) := by
  intro data
  induction data with
  | nil => intro r e h; simp at h
  | cons a rest ih =>
    intro r e h
    cases r with
    | zero =>
      simp only [List.set_cons_zero, List.countP_cons, entryAt, List.getD_cons_zero]
      omega
    | succ r =>
      simp only [List.set_cons_succ, List.countP_cons]
      have h1 := ih r e (by simpa using h)
      have h2 : entryAt (a :: rest) (r + 1) = entryAt rest r := by
        simp [entryAt]
      rw [h2]
      omega

theorem exists_unused (data : List DictEntry) (h : occupied data < data.length) :
    ∃ i, i < data.length ∧ isUnused (entryAt data i) = true := by
  by_contra hno
  have hall : ∀ a ∈ data, (fun e => !isUnused e) a = true := by
    intro a ha
    obtain ⟨i, hi, rfl⟩ := List.getElem_of_mem ha
    have h1 : ¬ isUnused (entryAt data i) = true := fun hu => hno ⟨i, hi, hu⟩
    have h2 : entryAt data i = data[i] := entryAt_of_getElem? (List.getElem?_eq_getElem hi)
    rw [h2] at h1
    simpa using h1
  have := List.countP_eq_length.mpr hall
  unfold occupied at h
  omega

/-- A table that is not full has a free slot on every probe sequence. -/
theorem find_unused_isSome (b : Nat) (data : List DictEntry) (k : Key)
    (hlen : data.length = 2 ^ b) (hocc : occupied data < data.length) :
    ∃ r, (keyProbe b k).find? (fun a => isUnused (entryAt data a)) = some r := by
  obtain ⟨i, hi, hu⟩ := exists_unused data hocc
  have hmem := keyProbe_mem b k i (by omega)
  cases hf : (keyProbe b k).find? (fun a => isUnused (entryAt data a)) with
  | some r => exact ⟨r, rfl⟩
  | none =>
    rw [List.find?_eq_none] at hf
    exact absurd hu (hf i hmem)

theorem mem_takeWhile_mono {p q : Nat → Bool} (hpq : ∀ a, p a = true → q a = true) :
    ∀ (l : List Nat) (x : Nat), x ∈ l.takeWhile p → x ∈ l.takeWhile q := by
  intro l
  induction l with
  | nil => intro x h; simp at h
  | cons a rest ih =>
    intro x h
    rw [List.takeWhile_cons] at h ⊢
    by_cases hp : p a = true
    · rw [if_pos hp] at h
      rw [if_pos (hpq a hp)]
      rcases List.mem_cons.mp h with h1 | h1
      · exact List.mem_cons.mpr (Or.inl h1)
      · exact List.mem_cons.mpr (Or.inr (ih x h1))
    · rw [if_neg hp] at h; simp at h

theorem mem_takeWhile_of_find {p q : Nat → Bool} (hpq : ∀ a, p a = false → q a = true) :
    ∀ (l : List Nat) (r : Nat), l.find? p = some r → q r = true → r ∈ l.takeWhile q := by
  intro l
  induction l with
  | nil => intro r h; simp at h
  | cons a rest ih =>
    intro r h hq
    rw [List.find?_cons] at h
    rw [List.takeWhile_cons]
    cases hp : p a with
    | true =>
      rw [hp] at h
      simp only [Option.some.injEq] at h
      subst h
      rw [if_pos hq]
      exact List.mem_cons_self _ _
    | false =>
      rw [hp] at h
      rw [if_pos (hpq a hp)]
      exact List.mem_cons_of_mem _ (ih r h hq)

theorem find_unused_spec {b : Nat} {data : List DictEntry} {k : Key} {r : Nat}
    (h : (keyProbe b k).find? (fun a => isUnused (entryAt data a)) = some r) :
    r < 2 ^ b ∧ isUnused (entryAt data r) = true := by
  have h1 := List.find?_some h
  have h2 := List.mem_of_find?_eq_some h
  exact ⟨keyProbe_lt b k r h2, h1⟩

theorem not_unused_of_key {e : DictEntry} {k : Key} (h : e.key = KeyPtr.str k) :
    isUnused e = false := by
  simp [isUnused, isNeverUsed, isPrevUsed, h]

theorem key_of_not_unused {e : DictEntry} (h : isUnused e = false) :
    ∃ k, e.key = KeyPtr.str k := by
  cases hk : e.key with
  | null => simp [isUnused, isNeverUsed, isPrevUsed, hk] at h
  | prevUsed => simp [isUnused, isNeverUsed, isPrevUsed, hk] at h
  | str s => exact ⟨s, rfl⟩

/-- Storing a new key in the first free slot of its probe sequence keeps the invariant. -/
theorem TableInv_place (b : Nat) (data : List DictEntry) (k : Key) (v r : Nat)
    (hinv : TableInv b data) (habs : ∀ i, (entryAt data i).key ≠ KeyPtr.str k)
    (hr : (keyProbe b k).find? (fun a => isUnused (entryAt data a)) = some r) :
    TableInv b (data.set r { key := KeyPtr.str k, val := v }) ∧
      occupied (data.set r { key := KeyPtr.str k, val := v }) = occupied data + 1 := by
  obtain ⟨hrlt, hru⟩ := find_unused_spec hr
  have hrlen : r < data.length := by rw [hinv.len]; exact hrlt
  have hat : ∀ i, entryAt (data.set r { key := KeyPtr.str k, val := v }) i
      = if r = i then { key := KeyPtr.str k, val := v } else entryAt data i := by
    intro i
    rw [entryAt_set]
    by_cases h : r = i
    · rw [if_pos ⟨h, hrlen⟩, if_pos h]
    · rw [if_neg (fun hh => h hh.1), if_neg h]
  have hmono : ∀ a, (fun a => !isNeverUsed (entryAt data a)) a = true →
      (fun a => !isNeverUsed (entryAt (data.set r { key := KeyPtr.str k, val := v }) a)) a
        = true := by
    intro a ha
    simp only [hat]
    by_cases h : r = a
    · simp [h, isNeverUsed]
    · simpa [h] using ha
  refine ⟨⟨by rw [List.length_set]; exact hinv.len, ?_, ?_⟩, ?_⟩
  · intro i j k1 hi hj
    rw [hat] at hi hj
    by_cases h1 : r = i
    · by_cases h2 : r = j
      · omega
      · rw [if_pos h1] at hi
        rw [if_neg h2] at hj
        simp only [KeyPtr.str.injEq] at hi
        subst hi
        exact absurd hj (habs j)
    · by_cases h2 : r = j
      · rw [if_neg h1] at hi
        rw [if_pos h2] at hj
        simp only [KeyPtr.str.injEq] at hj
        subst hj
        exact absurd hi (habs i)
      · rw [if_neg h1] at hi
        rw [if_neg h2] at hj
        exact hinv.uniq i j k1 hi hj
  · intro i k1 hi
    rw [hat] at hi
    by_cases h1 : r = i
    · rw [if_pos h1] at hi
      simp only [KeyPtr.str.injEq] at hi
      subst hi
      subst h1
      apply mem_takeWhile_of_find _ _ _ hr
      · simp [hat, isNeverUsed]
      · intro a ha
        simp only [hat]
        by_cases h : r = a
        · simp [h, isNeverUsed]
        · simp only [h, if_false]
          simp only [isUnused, Bool.or_eq_false_iff] at ha
          simp [ha.1]
    · rw [if_neg h1] at hi
      exact mem_takeWhile_mono hmono _ _ (hinv.chain i k1 hi)
  · have h := countP_set (fun e => !isUnused e) data r { key := KeyPtr.str k, val := v } hrlen
    simp only [hru, Bool.not_true, Bool.false_eq_true, if_false,
      not_unused_of_key (e := { key := KeyPtr.str k, val := v }) rfl, Bool.not_false,
      if_true] at h
    unfold occupied
    omega

/-- Changing entries without changing a key from or to "never used" and without
changing stored keys keeps the invariant. -/
theorem TableInv_of_keys (b : Nat) (data data1 : List DictEntry) (hinv : TableInv b data)
    (hlen : data1.length = data.length)
    (hkeys : ∀ i k, (entryAt data1 i).key = KeyPtr.str k → (entryAt data i).key = KeyPtr.str k)
    (hnull : ∀ i, (entryAt data1 i).key = KeyPtr.null → (entryAt data i).key = KeyPtr.null) :
    TableInv b data1 := by
  refine ⟨by rw [hlen]; exact hinv.len, ?_, ?_⟩
  · intro i j k hi hj
    exact hinv.uniq i j k (hkeys i k hi) (hkeys j k hj)
  · intro i k hi
    refine mem_takeWhile_mono ?_ _ _ (hinv.chain i k (hkeys i k hi))
    intro a ha
    simp only [isNeverUsed, Bool.not_eq_true', decide_eq_false_iff_not] at ha ⊢
    exact fun h => ha (hnull a h)

theorem holds_or_absent (d : Dict) (k : Key) : (∃ w, Holds d k w) ∨ Absent d k := by
  by_cases h : ∃ i, (entryAt d.data i).key = KeyPtr.str k
  · obtain ⟨i, hi⟩ := h
    left
    refine ⟨(entryAt d.data i).val, i, ?_⟩
    cases he : entryAt d.data i with
    | mk key val => rw [he] at hi; simp only at hi; subst hi; rfl
  · right
    intro i hi
    exact h ⟨i, hi⟩

theorem Holds.not_absent {d : Dict} {k : Key} {w : Nat} (h : Holds d k w) : ¬ Absent d k := by
  obtain ⟨i, hi⟩ := h
  intro habs
  exact habs i (by rw [hi])

theorem Holds.unique {d : Dict} {k : Key} {w1 w2 : Nat} (hinv : TableInv d.bits d.data)
    (h1 : Holds d k w1) (h2 : Holds d k w2) : w1 = w2 := by
  obtain ⟨i, hi⟩ := h1
  obtain ⟨j, hj⟩ := h2
  have hij : i = j := hinv.uniq i j k (by rw [hi]) (by rw [hj])
  subst hij
  rw [hi] at hj
  simpa using hj

theorem dictGet_of_holds (d : Dict) (k : Key) (w : Nat) (hwf : WF d) (h : Holds d k w) :
    dictGet d k = some w := by
  obtain ⟨i, hi⟩ := h
  have hkey : (entryAt d.data i).key = KeyPtr.str k := by rw [hi]
  have hlt := lt_length_of_key hkey
  unfold dictGet
  rw [locate_found d k i (by have := hwf.bits_lo; omega) hwf.bits_hi hwf.inv hkey]
  simp only [getElem?_eq_entryAt hlt, hi]

theorem dictGet_of_absent (d : Dict) (k : Key) (hwf : WF d) (h : Absent d k) :
    dictGet d k = some NOVAL := by
  unfold dictGet
  rw [locate_absent d k (by have := hwf.bits_lo; omega) hwf.bits_hi hwf.inv.len h]

/-- The result of `dictGet` is determined by the stored pairs. -/
theorem dictGet_congr (d d1 : Dict) (k : Key) (hwf : WF d) (hwf1 : WF d1)
    (h : ∀ w, Holds d1 k w ↔ Holds d k w) : dictGet d1 k = dictGet d k := by
  rcases holds_or_absent d k with ⟨w, hw⟩ | habs
  · rw [dictGet_of_holds d k w hwf hw, dictGet_of_holds d1 k w hwf1 ((h w).mpr hw)]
  · rcases holds_or_absent d1 k with ⟨w, hw⟩ | habs1
    · exact absurd habs ((h w).mp hw).not_absent
    · rw [dictGet_of_absent d k hwf habs, dictGet_of_absent d1 k hwf1 habs1]

theorem pow_split (b : Nat) (hb : 2 ≤ b) : 2 ^ b = 4 * 2 ^ (b - 2) := by
  have : b = (b - 2) + 2 := by omega
  conv_lhs => rw [this]
  rw [pow_add]; ring

theorem WF.left_lt {d : Dict} (hwf : WF d) : d.left + occupied d.data < U32 := by
  have h1 := hwf.count
  have h2 := two_pow_lt_U32 d.bits hwf.bits_hi
  have h3 := pow_split d.bits (by have := hwf.bits_lo; omega)
  omega

theorem WF.occupied_lt {d : Dict} (hwf : WF d) : occupied d.data < d.data.length := by
  have h1 := hwf.count
  have h3 := pow_split d.bits (by have := hwf.bits_lo; omega)
  have h4 := hwf.inv.len
  have h5 : 0 < 2 ^ (d.bits - 2) := Nat.pow_pos (by norm_num)
  omega

/-- `dictInsert` on a dictionary that does not have to grow. -/
theorem dictInsert_noGrow (d : Dict) (k : Key) (v : Nat) (hwf : WF d) (hv : v ≠ NOVAL)
    (hleft : d.left ≠ 0) :
    ∃ d1 old, dictInsert d k v = some (d1, old) ∧ WF d1 ∧ d1.bits = d.bits ∧ Holds d1 k v ∧
      (∀ k1 w, k1 ≠ k → (Holds d1 k1 w ↔ Holds d k1 w)) ∧
      (∀ w, Holds d k w → old = w ∧ d1.left = d.left) ∧
      (Absent d k → old = NOVAL ∧ d1.left + 1 = d.left) := by
  have hb2 : 2 ≤ d.bits := by have := hwf.bits_lo; omega
  unfold dictInsert
  rw [if_neg hv, if_neg hleft]
  simp only
  rcases holds_or_absent d k with ⟨w, hw⟩ | habs
  · obtain ⟨i, hi⟩ := hw
    have hkey : (entryAt d.data i).key = KeyPtr.str k := by rw [hi]
    have hlt := lt_length_of_key hkey
    rw [locate_found d k i hb2 hwf.bits_hi hwf.inv hkey]
    simp only [getElem?_eq_entryAt hlt, hi]
    have hat : ∀ j, entryAt (d.data.set i { key := KeyPtr.str k, val := v }) j
        = if i = j then { key := KeyPtr.str k, val := v } else entryAt d.data j := by
      intro j
      rw [entryAt_set]
      by_cases h : i = j
      · rw [if_pos ⟨h, hlt⟩, if_pos h]
      · rw [if_neg (fun hh => h hh.1), if_neg h]
    have hkeys : ∀ j, (entryAt (d.data.set i { key := KeyPtr.str k, val := v }) j).key
        = (entryAt d.data j).key := by
      intro j
      rw [hat]
      by_cases h : i = j
      · rw [if_pos h, ← h, hkey]
      · rw [if_neg h]
    refine ⟨_, _, rfl, ⟨hwf.bits_lo, hwf.bits_hi, ?_, ?_⟩, rfl, ⟨i, by rw [hat, if_pos rfl]⟩,
      ?_, ?_, ?_⟩
    · exact TableInv_of_keys d.bits d.data _ hwf.inv (List.length_set _ _ _)
        (fun j k1 h => by rw [← hkeys j]; exact h) (fun j h => by rw [← hkeys j]; exact h)
    · have h := countP_set (fun e => !isUnused e) d.data i
        { key := KeyPtr.str k, val := v } hlt
      simp only [not_unused_of_key hkey, Bool.not_false, if_true,
        not_unused_of_key (e := { key := KeyPtr.str k, val := v }) rfl] at h
      have := hwf.count
      simp only [occupied] at this ⊢
      omega
    · intro k1 w1 hk1
      constructor
      · rintro ⟨j, hj⟩
        rw [hat] at hj
        by_cases h : i = j
        · rw [if_pos h] at hj
          simp only [DictEntry.mk.injEq, KeyPtr.str.injEq] at hj
          exact absurd hj.1.symm hk1
        · rw [if_neg h] at hj
          exact ⟨j, hj⟩
      · rintro ⟨j, hj⟩
        refine ⟨j, ?_⟩
        rw [hat]
        by_cases h : i = j
        · subst h
          rw [hi] at hj
          simp only [DictEntry.mk.injEq, KeyPtr.str.injEq] at hj
          exact absurd hj.1.symm hk1
        · rw [if_neg h]; exact hj
    · intro w1 hw1
      exact ⟨Holds.unique hwf.inv ⟨i, hi⟩ hw1, rfl⟩
    · intro habs
      exact absurd hkey (habs i)
  · obtain ⟨r, hr⟩ := find_unused_isSome d.bits d.data k hwf.inv.len hwf.occupied_lt
    obtain ⟨hrlt, hru⟩ := find_unused_spec hr
    have hrlen : r < d.data.length := by rw [hwf.inv.len]; exact hrlt
    rw [locate_absent d k hb2 hwf.bits_hi hwf.inv.len habs, hr]
    simp only [if_pos hrlen]
    obtain ⟨hinv1, hocc1⟩ := TableInv_place d.bits d.data k v r hwf.inv habs hr
    have hat : ∀ j, entryAt (d.data.set r { key := KeyPtr.str k, val := v }) j
        = if r = j then { key := KeyPtr.str k, val := v } else entryAt d.data j := by
      intro j
      rw [entryAt_set]
      by_cases h : r = j
      · rw [if_pos ⟨h, hrlen⟩, if_pos h]
      · rw [if_neg (fun hh => h hh.1), if_neg h]
    have hlt := hwf.left_lt
    have hmod : (d.left + U32 - 1) % U32 = d.left - 1 := by
      have : d.left + U32 - 1 = (d.left - 1) + U32 := by omega
      rw [this, Nat.add_mod_right, Nat.mod_eq_of_lt (by omega)]
    refine ⟨_, _, rfl, ⟨hwf.bits_lo, hwf.bits_hi, hinv1, ?_⟩, rfl, ⟨r, by rw [hat, if_pos rfl]⟩,
      ?_, ?_, ?_⟩
    · simp only [hmod, hocc1]
      have := hwf.count
      omega
    · intro k1 w1 hk1
      constructor
      · rintro ⟨j, hj⟩
        rw [hat] at hj
        by_cases h : r = j
        · rw [if_pos h] at hj
          simp only [DictEntry.mk.injEq, KeyPtr.str.injEq] at hj
          exact absurd hj.1.symm hk1
        · rw [if_neg h] at hj
          exact ⟨j, hj⟩
      · rintro ⟨j, hj⟩
        refine ⟨j, ?_⟩
        rw [hat]
        by_cases h : r = j
        · subst h
          rw [hj] at hru
          simp [isUnused, isNeverUsed, isPrevUsed] at hru
        · rw [if_neg h]; exact hj
    · intro w1 hw1
      exact absurd habs hw1.not_absent
    · intro _
      refine ⟨rfl, ?_⟩
      simp only [hmod]
      omega

theorem dictRemove_spec (d : Dict) (k : Key) (hwf : WF d) :
    ∃ d1 old, dictRemove d k = some (d1, old) ∧ WF d1 ∧ d1.bits = d.bits ∧ Absent d1 k ∧
      (∀ k1 w, k1 ≠ k → (Holds d1 k1 w ↔ Holds d k1 w)) ∧
      (∀ w, Holds d k w → old = w ∧ d1.left = d.left + 1) ∧
      (Absent d k → old = NOVAL ∧ d1 = d) := by
  have hb2 : 2 ≤ d.bits := by have := hwf.bits_lo; omega
  unfold dictRemove
  rcases holds_or_absent d k with ⟨w, hw⟩ | habs
  · obtain ⟨i, hi⟩ := hw
    have hkey : (entryAt d.data i).key = KeyPtr.str k := by rw [hi]
    have hlt := lt_length_of_key hkey
    rw [locate_found d k i hb2 hwf.bits_hi hwf.inv hkey]
    simp only [getElem?_eq_entryAt hlt, hi, setUnused,
      not_unused_of_key (e := { key := KeyPtr.str k, val := w }) rfl, Bool.false_eq_true,
      if_false]
    have hat : ∀ j, entryAt (d.data.set i { key := KeyPtr.prevUsed, val := w }) j
        = if i = j then { key := KeyPtr.prevUsed, val := w } else entryAt d.data j := by
      intro j
      rw [entryAt_set]
      by_cases h : i = j
      · rw [if_pos ⟨h, hlt⟩, if_pos h]
      · rw [if_neg (fun hh => h hh.1), if_neg h]
    have hcnt := countP_set (fun e => !isUnused e) d.data i
        { key := KeyPtr.prevUsed, val := w } hlt
    simp only [not_unused_of_key hkey, Bool.not_false, if_true] at hcnt
    have hpu : isUnused { key := KeyPtr.prevUsed, val := w } = true := by
      simp [isUnused, isPrevUsed]
    simp only [hpu, Bool.not_true, Bool.false_eq_true, if_false] at hcnt
    have hltU := hwf.left_lt
    have hmod : (d.left + 1) % U32 = d.left + 1 := by
      apply Nat.mod_eq_of_lt
      simp only [occupied] at hltU
      omega
    refine ⟨_, _, rfl, ⟨hwf.bits_lo, hwf.bits_hi, ?_, ?_⟩, rfl, ?_, ?_, ?_, ?_⟩
    · apply TableInv_of_keys d.bits d.data _ hwf.inv (List.length_set _ _ _)
      · intro j k1 h
        rw [hat] at h
        by_cases hij : i = j
        · rw [if_pos hij] at h; cases h
        · rw [if_neg hij] at h; exact h
      · intro j h
        rw [hat] at h
        by_cases hij : i = j
        · rw [if_pos hij] at h; cases h
        · rw [if_neg hij] at h; exact h
    · simp only [hmod]
      have := hwf.count
      simp only [occupied] at this ⊢
      omega
    · intro j hj
      simp only at hj
      rw [hat] at hj
      by_cases hij : i = j
      · rw [if_pos hij] at hj; cases hj
      · rw [if_neg hij] at hj
        exact hij (hwf.inv.uniq i j k hkey hj)
    · intro k1 w1 hk1
      constructor
      · rintro ⟨j, hj⟩
        simp only at hj
        rw [hat] at hj
        by_cases h : i = j
        · rw [if_pos h] at hj; cases hj
        · rw [if_neg h] at hj
          exact ⟨j, hj⟩
      · rintro ⟨j, hj⟩
        refine ⟨j, ?_⟩
        simp only
        rw [hat]
        by_cases h : i = j
        · subst h
          rw [hi] at hj
          simp only [DictEntry.mk.injEq, KeyPtr.str.injEq] at hj
          exact absurd hj.1.symm hk1
        · rw [if_neg h]; exact hj
    · intro w1 hw1
      exact ⟨Holds.unique hwf.inv ⟨i, hi⟩ hw1, hmod⟩
    · intro habs
      exact absurd hkey (habs i)
  · rw [locate_absent d k hb2 hwf.bits_hi hwf.inv.len habs]
    refine ⟨d, NOVAL, rfl, hwf, rfl, habs, fun _ _ _ => Iff.rfl, ?_, fun _ => ⟨rfl, rfl⟩⟩
    intro w hw
    exact absurd habs hw.not_absent

theorem entryAt_replicate (n i : Nat) :
    entryAt (List.replicate n { key := KeyPtr.null, val := 0 }) i
      = { key := KeyPtr.null, val := 0 } := by
  simp only [entryAt, List.getD_eq_getElem?_getD, List.getElem?_replicate]
  by_cases h : i < n <;> simp [h]

theorem TableInv_replicate (b : Nat) :
    TableInv b (List.replicate (2 ^ b) { key := KeyPtr.null, val := 0 }) := by
  refine ⟨by simp, ?_, ?_⟩
  · intro i j k hi
    rw [entryAt_replicate] at hi; cases hi
  · intro i k hi
    rw [entryAt_replicate] at hi; cases hi

theorem occupied_replicate (n : Nat) :
    occupied (List.replicate n { key := KeyPtr.null, val := 0 }) = 0 := by
  unfold occupied
  rw [List.countP_eq_zero]
  intro a ha
  rw [List.eq_of_mem_replicate ha]
  simp [isUnused, isNeverUsed]

theorem entryAt_mem {data : List DictEntry} {i : Nat} (h : i < data.length) :
    entryAt data i ∈ data := by
  have h1 := getElem?_eq_entryAt h
  rw [List.getElem?_eq_getElem h] at h1
  have h2 : data[i] = entryAt data i := by simpa using h1
  rw [← h2]
  exact List.getElem_mem h

theorem exists_entryAt_of_mem {data : List DictEntry} {e : DictEntry} (h : e ∈ data) :
    ∃ i, i < data.length ∧ entryAt data i = e := by
  obtain ⟨i, hi, rfl⟩ := List.getElem_of_mem h
  exact ⟨i, hi, entryAt_of_getElem? (List.getElem?_eq_getElem hi)⟩

theorem entryAt_append_left (l1 l2 : List DictEntry) (i : Nat) (h : i < l1.length) :
    entryAt (l1 ++ l2) i = entryAt l1 i := by
  simp [entryAt, List.getD_eq_getElem?_getD, List.getElem?_append_left h]

theorem entryAt_append_length (l1 l2 : List DictEntry) (e : DictEntry) :
    entryAt (l1 ++ e :: l2) l1.length = e := by
  have h : (l1 ++ e :: l2)[l1.length]? = some e := by
    rw [List.getElem?_append_right (le_refl _)]
    simp
  exact entryAt_of_getElem? h

theorem occupied_append (l1 l2 : List DictEntry) :
    occupied (l1 ++ l2) = occupied l1 + occupied l2 := by
  simp [occupied, List.countP_append]

theorem occupied_le_length (l : List DictEntry) : occupied l ≤ l.length :=
  List.countP_le_length _

theorem growLoop_spec :
    ∀ (rest done : List DictEntry) (nd : Dict),
      (∀ i j k, (entryAt (done ++ rest) i).key = KeyPtr.str k →
        (entryAt (done ++ rest) j).key = KeyPtr.str k → i = j) →
      GrowInv nd done → occupied (done ++ rest) < 2 ^ nd.bits →
      ∃ nd1, growLoop rest nd = some nd1 ∧ GrowInv nd1 (done ++ rest) ∧
        nd1.left = nd.left ∧ nd1.bits = nd.bits := by
  intro rest
  induction rest with
  | nil =>
    intro done nd _ hg _
    exact ⟨nd, rfl, by simpa using hg, rfl, rfl⟩
  | cons it rest ih =>
    intro done nd huniq hg hroom
    have happ : done ++ it :: rest = (done ++ [it]) ++ rest := by simp
    rw [growLoop]
    cases hu : isUnused it with
    | true =>
      simp only [Bool.not_true, Bool.false_eq_true, if_false]
      have hg1 : GrowInv nd (done ++ [it]) := by
        refine ⟨hg.bits_lo, hg.bits_hi, hg.inv, hg.noTomb, ?_, ?_⟩
        · intro k w
          rw [hg.content k w, List.mem_append, List.mem_singleton]
          constructor
          · exact fun h => Or.inl h
          · rintro (h | h)
            · exact h
            · rw [← h] at hu
              simp [isUnused, isNeverUsed, isPrevUsed] at hu
        · rw [occupied_append, hg.occ]
          simp [occupied, hu]
      rw [happ] at huniq hroom ⊢
      exact ih (done ++ [it]) nd huniq hg1 hroom
    | false =>
      simp only [Bool.not_false, if_true]
      obtain ⟨k, hk⟩ := key_of_not_unused hu
      have hit : it = { key := KeyPtr.str k, val := it.val } := by
        cases it with
        | mk key val => simp only at hk; subst hk; rfl
      have habs : Absent nd k := by
        intro i hi
        have hmem : ({ key := KeyPtr.str k, val := (entryAt nd.data i).val } : DictEntry)
            ∈ done := by
          rw [← hg.content]
          refine ⟨i, ?_⟩
          cases he : entryAt nd.data i with
          | mk key val => rw [he] at hi; simp only at hi; subst hi; rfl
        obtain ⟨p, hp, hpe⟩ := exists_entryAt_of_mem hmem
        have h1 : (entryAt (done ++ it :: rest) p).key = KeyPtr.str k := by
          rw [entryAt_append_left _ _ _ hp, hpe]
        have h2 : (entryAt (done ++ it :: rest) done.length).key = KeyPtr.str k := by
          rw [entryAt_append_length, hk]
        have := huniq p done.length k h1 h2
        omega
      have hocc : occupied nd.data < nd.data.length := by
        rw [hg.inv.len, hg.occ]
        rw [occupied_append] at hroom
        omega
      obtain ⟨r, hr⟩ := find_unused_isSome nd.bits nd.data k hg.inv.len hocc
      obtain ⟨hrlt, hru⟩ := find_unused_spec hr
      have hrlen : r < nd.data.length := by rw [hg.inv.len]; exact hrlt
      simp only [hk]
      rw [locate_absent nd k hg.bits_lo hg.bits_hi hg.inv.len habs, hr]
      simp only [if_pos hrlen]
      have hplace := TableInv_place nd.bits nd.data k it.val r hg.inv habs hr
      rw [← hit] at hplace
      have hat : ∀ j, entryAt (nd.data.set r it) j = if r = j then it else entryAt nd.data j := by
        intro j
        rw [entryAt_set]
        by_cases h : r = j
        · rw [if_pos ⟨h, hrlen⟩, if_pos h]
        · rw [if_neg (fun hh => h hh.1), if_neg h]
      have hg1 : GrowInv { nd with data := nd.data.set r it } (done ++ [it]) := by
        refine ⟨hg.bits_lo, hg.bits_hi, hplace.1, ?_, ?_, ?_⟩
        · intro j hj
          simp only at hj
          rw [hat] at hj
          by_cases h : r = j
          · rw [if_pos h, hk] at hj; cases hj
          · rw [if_neg h] at hj; exact hg.noTomb j hj
        · intro k1 w1
          simp only
          rw [List.mem_append, List.mem_singleton, ← hg.content k1 w1]
          constructor
          · rintro ⟨j, hj⟩
            rw [hat] at hj
            by_cases h : r = j
            · rw [if_pos h] at hj; exact Or.inr hj.symm
            · rw [if_neg h] at hj; exact Or.inl ⟨j, hj⟩
          · rintro (⟨j, hj⟩ | h)
            · refine ⟨j, ?_⟩
              rw [hat]
              by_cases h : r = j
              · subst h
                rw [hj] at hru
                simp [isUnused, isNeverUsed, isPrevUsed] at hru
              · rw [if_neg h]; exact hj
            · exact ⟨r, by rw [hat, if_pos rfl, h]⟩
        · simp only
          rw [hplace.2, occupied_append, hg.occ]
          simp [occupied, hu]
      rw [happ] at huniq hroom ⊢
      obtain ⟨nd1, h1, h2, h3, h4⟩ := ih (done ++ [it]) { nd with data := nd.data.set r it }
        huniq hg1 hroom
      exact ⟨nd1, h1, h2, h3, h4⟩

/-- `grow` on a dictionary below the largest capacity. -/
theorem grow_spec (d : Dict) (hwf : WF d) (hb : d.bits < 31) :
    ∃ d1, grow d = some d1 ∧ WF d1 ∧ d1.bits = d.bits + 1 ∧
      d1.left = d.left + 2 ^ d.bits / 4 * 3 ∧
      (∀ i, (entryAt d1.data i).key ≠ KeyPtr.prevUsed) ∧
      (∀ k w, Holds d1 k w ↔ Holds d k w) := by
  have hb2 : 2 ≤ d.bits := by have := hwf.bits_lo; omega
  have hpow := two_pow_lt_U32 d.bits hwf.bits_hi
  have hpow1 := two_pow_lt_U32 (d.bits + 1) (by omega)
  have hsplit := pow_split d.bits hb2
  have hcount := hwf.count
  have hcap : (1 <<< d.bits) % U32 = 2 ^ d.bits := by
    rw [Nat.one_shiftLeft, Nat.mod_eq_of_lt hpow]
  have h2cap : (2 * 2 ^ d.bits) % U32 = 2 ^ (d.bits + 1) := by
    rw [pow_succ, Nat.mul_comm]
    rw [pow_succ] at hpow1
    exact Nat.mod_eq_of_lt hpow1
  have hbits : (d.bits + 1) % U32 = d.bits + 1 := by
    apply Nat.mod_eq_of_lt
    have : (32 : Nat) < U32 := by norm_num [U32]
    omega
  have hquarter : 2 ^ d.bits / 4 * 3 = 3 * 2 ^ (d.bits - 2) := by
    rw [hsplit]; omega
  have hleft : (d.left + 2 ^ d.bits / 4 * 3) % U32 = d.left + 2 ^ d.bits / 4 * 3 := by
    apply Nat.mod_eq_of_lt
    omega
  unfold grow
  rw [if_neg (by omega)]
  simp only [hcap, h2cap, hbits, hleft]
  have hg0 : GrowInv
      { data := List.replicate (2 ^ (d.bits + 1)) { key := KeyPtr.null, val := 0 },
        left := d.left + 2 ^ d.bits / 4 * 3, bits := d.bits + 1 } [] := by
    refine ⟨by simp only; omega, by simp only; omega, TableInv_replicate _, ?_, ?_, ?_⟩
    · intro i hi
      simp only at hi
      rw [entryAt_replicate] at hi; cases hi
    · intro k w
      simp only [entryAt_replicate]
      simp
    · simp only [occupied_replicate]
      rfl
  have hroom : occupied ([] ++ d.data) < 2 ^ (d.bits + 1) := by
    have := occupied_le_length d.data
    rw [hwf.inv.len] at this
    have hpos : 0 < 2 ^ d.bits := Nat.pow_pos (by norm_num)
    rw [List.nil_append, pow_succ]
    omega
  obtain ⟨d1, h1, h2, h3, h4⟩ := growLoop_spec d.data [] _
    (by simpa using hwf.inv.uniq) hg0 hroom
  simp only [List.nil_append] at h2
  simp only at h3 h4
  refine ⟨d1, h1, ⟨by omega, by omega, h2.inv, ?_⟩, h4, h3, h2.noTomb, ?_⟩
  · rw [h3, h2.occ, h4, hquarter]
    have : d.bits + 1 - 2 = (d.bits - 2) + 1 := by omega
    rw [this, pow_succ]
    omega
  · intro k w
    unfold Holds
    rw [h2.content k w]
    constructor
    · intro h
      obtain ⟨i, _, hi⟩ := exists_entryAt_of_mem h
      exact ⟨i, hi⟩
    · rintro ⟨i, hi⟩
      have hlt : i < d.data.length := lt_length_of_key (k := k) (by rw [hi])
      rw [← hi]
      exact entryAt_mem hlt

theorem growLoop_none :
    ∀ (rest : List DictEntry) (nd : Dict), 31 < nd.bits →
      (∃ e ∈ rest, isUnused e = false) → growLoop rest nd = none := by
  intro rest
  induction rest with
  | nil => intro nd _ h; simp at h
  | cons it rest ih =>
    intro nd hb h
    rw [growLoop]
    cases hu : isUnused it with
    | true =>
      simp only [Bool.not_true, Bool.false_eq_true, if_false]
      apply ih nd hb
      obtain ⟨e, he, heu⟩ := h
      rcases List.mem_cons.mp he with h1 | h1
      · rw [h1, hu] at heu; cases heu
      · exact ⟨e, h1, heu⟩
    | false =>
      simp only [Bool.not_false, if_true]
      obtain ⟨k, hk⟩ := key_of_not_unused hu
      simp only [hk]
      have : locate nd k = none := by
        unfold locate
        rw [if_pos (Or.inr hb)]
      rw [this]

/-- At the largest capacity a dictionary that has to grow cannot: `dictInsert` does not
return. -/
theorem dictInsert_none_of_full (d : Dict) (k : Key) (v : Nat) (hwf : WF d)
    (hb : ¬ d.bits < 31) (hleft : d.left = 0) : dictInsert d k v = none := by
  have hb31 : d.bits = 31 := by have := hwf.bits_hi; omega
  have hocc : 0 < occupied d.data := by
    have := hwf.count
    have hpos : 0 < 2 ^ (d.bits - 2) := Nat.pow_pos (by norm_num)
    omega
  have hex : ∃ e ∈ d.data, isUnused e = false := by
    unfold occupied at hocc
    obtain ⟨e, he, hp⟩ := List.countP_pos_iff.mp hocc
    exact ⟨e, he, by simpa using hp⟩
  have hgrow : grow d = none := by
    unfold grow
    rw [if_neg (by omega)]
    apply growLoop_none _ _ _ hex
    simp only [hb31]
    norm_num [U32]
  unfold dictInsert
  by_cases hv : v = NOVAL
  · rw [if_pos hv]
  · rw [if_neg hv, if_pos hleft, hgrow]

theorem dictInsert_spec (d : Dict) (k : Key) (v : Nat) (hwf : WF d) (hv : v ≠ NOVAL)
    (hroom : d.bits < 31 ∨ d.left ≠ 0) :
    ∃ d1 old, dictInsert d k v = some (d1, old) ∧ WF d1 ∧
      d1.bits = (if d.left = 0 then d.bits + 1 else d.bits) ∧ Holds d1 k v ∧
      (∀ k1 w, k1 ≠ k → (Holds d1 k1 w ↔ Holds d k1 w)) ∧
      (∀ w, Holds d k w → old = w ∧ d1.left = leftAfterGrow d) ∧
      (Absent d k → old = NOVAL ∧ d1.left + 1 = leftAfterGrow d) := by
  by_cases hleft : d.left = 0
  · have hb : d.bits < 31 := by
      rcases hroom with h | h
      · exact h
      · exact absurd hleft h
    obtain ⟨d0, hgrow, hwf0, hbits0, hleft0, _, hcont0⟩ := grow_spec d hwf hb
    have hpos : 0 < 2 ^ (d.bits - 2) := Nat.pow_pos (by norm_num)
    have hsplit := pow_split d.bits (by have := hwf.bits_lo; omega)
    have hne0 : d0.left ≠ 0 := by rw [hleft0, hsplit]; omega
    have heq : dictInsert d k v = dictInsert d0 k v := by
      unfold dictInsert
      simp only [if_neg hv, if_pos hleft, hgrow, if_neg hne0]
    obtain ⟨d1, old, h1, h2, h3, h4, h5, h6, h7⟩ := dictInsert_noGrow d0 k v hwf0 hv hne0
    have hlag : leftAfterGrow d = d0.left := by
      unfold leftAfterGrow; rw [if_pos hleft, hleft0]
    refine ⟨d1, old, by rw [heq, h1], h2, by rw [if_pos hleft, h3, hbits0], h4, ?_, ?_, ?_⟩
    · intro k1 w hk1
      rw [h5 k1 w hk1, hcont0]
    · intro w hw
      rw [hlag]
      exact h6 w ((hcont0 k w).mpr hw)
    · intro habs
      rw [hlag]
      apply h7
      intro i hi
      have : Holds d k (entryAt d0.data i).val := by
        rw [← hcont0]
        refine ⟨i, ?_⟩
        cases he : entryAt d0.data i with
        | mk key val => rw [he] at hi; simp only at hi; subst hi; rfl
      exact this.not_absent habs
  · obtain ⟨d1, old, h1, h2, h3, h4, h5, h6, h7⟩ := dictInsert_noGrow d k v hwf hv hleft
    have hlag : leftAfterGrow d = d.left := by
      unfold leftAfterGrow; rw [if_neg hleft]; rfl
    refine ⟨d1, old, h1, h2, by rw [if_neg hleft, h3], h4, h5, ?_, ?_⟩
    · intro w hw; rw [hlag]; exact h6 w hw
    · intro habs; rw [hlag]; exact h7 habs

/-- What a returning `dictInsert` has done. -/
theorem dictInsert_post (d d1 : Dict) (k : Key) (v old : Nat) (hwf : WF d)
    (h : dictInsert d k v = some (d1, old)) :
    v ≠ NOVAL ∧ (d.bits < 31 ∨ d.left ≠ 0) ∧ WF d1 ∧
      d1.bits = (if d.left = 0 then d.bits + 1 else d.bits) ∧ Holds d1 k v ∧
      (∀ k1 w, k1 ≠ k → (Holds d1 k1 w ↔ Holds d k1 w)) ∧
      (∀ w, Holds d k w → old = w ∧ d1.left = leftAfterGrow d) ∧
      (Absent d k → old = NOVAL ∧ d1.left + 1 = leftAfterGrow d) := by
  have hv : v ≠ NOVAL := by
    intro hv
    unfold dictInsert at h
    rw [if_pos hv] at h
    cases h
  have hroom : d.bits < 31 ∨ d.left ≠ 0 := by
    by_contra hno
    push_neg at hno
    rw [dictInsert_none_of_full d k v hwf (by omega) hno.2] at h
    cases h
  obtain ⟨d2, old2, h1, h2⟩ := dictInsert_spec d k v hwf hv hroom
  rw [h1] at h
  simp only [Option.some.injEq, Prod.mk.injEq] at h
  obtain ⟨rfl, rfl⟩ := h
  exact ⟨hv, hroom, h2⟩

theorem dictRemove_post (d d1 : Dict) (k : Key) (old : Nat) (hwf : WF d)
    (h : dictRemove d k = some (d1, old)) :
    WF d1 ∧ d1.bits = d.bits ∧ Absent d1 k ∧
      (∀ k1 w, k1 ≠ k → (Holds d1 k1 w ↔ Holds d k1 w)) ∧
      (∀ w, Holds d k w → old = w ∧ d1.left = d.left + 1) ∧
      (Absent d k → old = NOVAL ∧ d1 = d) := by
  obtain ⟨d2, old2, h1, h2⟩ := dictRemove_spec d k hwf
  rw [h1] at h
  simp only [Option.some.injEq, Prod.mk.injEq] at h
  obtain ⟨rfl, rfl⟩ := h
  exact h2

theorem WF_dictInit : WF dictInit := by
  refine ⟨by decide, by decide, ?_, by decide⟩
  exact TableInv_replicate 3

/-- Every reachable dictionary satisfies the invariant. -/
theorem Reachable.wf {d : Dict} (h : Reachable d) : WF d := by
  induction h with
  | init => exact WF_dictInit
  | insert _ hins ih => exact (dictInsert_post _ _ _ _ _ ih hins).2.2.1
  | remove _ hrem ih => exact (dictRemove_post _ _ _ _ ih hrem).1

theorem dictGet_insert_same (d d1 : Dict) (k : Key) (v old : Nat) (hwf : WF d)
    (h : dictInsert d k v = some (d1, old)) : dictGet d1 k = some v := by
  obtain ⟨_, _, hwf1, _, hh, _⟩ := dictInsert_post d d1 k v old hwf h
  exact dictGet_of_holds d1 k v hwf1 hh

theorem dictGet_insert_other (d d1 : Dict) (k k1 : Key) (v old : Nat) (hwf : WF d)
    (h : dictInsert d k v = some (d1, old)) (hne : k1 ≠ k) :
    dictGet d1 k1 = dictGet d k1 := by
  obtain ⟨_, _, hwf1, _, _, hfr, _⟩ := dictInsert_post d d1 k v old hwf h
  exact dictGet_congr d d1 k1 hwf hwf1 (fun w => hfr k1 w hne)

theorem dictInsert_old (d d1 : Dict) (k : Key) (v old : Nat) (hwf : WF d)
    (h : dictInsert d k v = some (d1, old)) : dictGet d k = some old := by
  obtain ⟨_, _, _, _, _, _, hp, ha⟩ := dictInsert_post d d1 k v old hwf h
  rcases holds_or_absent d k with ⟨w, hw⟩ | habs
  · rw [dictGet_of_holds d k w hwf hw, (hp w hw).1]
  · rw [dictGet_of_absent d k hwf habs, (ha habs).1]

theorem dictGet_remove_same (d d1 : Dict) (k : Key) (old : Nat) (hwf : WF d)
    (h : dictRemove d k = some (d1, old)) : dictGet d1 k = some NOVAL := by
  obtain ⟨hwf1, _, habs, _⟩ := dictRemove_post d d1 k old hwf h
  exact dictGet_of_absent d1 k hwf1 habs

theorem dictGet_remove_other (d d1 : Dict) (k k1 : Key) (old : Nat) (hwf : WF d)
    (h : dictRemove d k = some (d1, old)) (hne : k1 ≠ k) :
    dictGet d1 k1 = dictGet d k1 := by
  obtain ⟨hwf1, _, _, hfr, _⟩ := dictRemove_post d d1 k old hwf h
  exact dictGet_congr d d1 k1 hwf hwf1 (fun w => hfr k1 w hne)

theorem dictRemove_old (d d1 : Dict) (k : Key) (old : Nat) (hwf : WF d)
    (h : dictRemove d k = some (d1, old)) : dictGet d k = some old := by
  obtain ⟨_, _, _, _, hp, ha⟩ := dictRemove_post d d1 k old hwf h
  rcases holds_or_absent d k with ⟨w, hw⟩ | habs
  · rw [dictGet_of_holds d k w hwf hw, (hp w hw).1]
  · rw [dictGet_of_absent d k hwf habs, (ha habs).1]

theorem dictInsert_isSome (d : Dict) (k : Key) (v : Nat) (hwf : WF d) (hv : v ≠ NOVAL)
    (hroom : d.bits < 31 ∨ d.left ≠ 0) : (dictInsert d k v).isSome = true := by
  obtain ⟨d1, old, h, _⟩ := dictInsert_spec d k v hwf hv hroom
  rw [h]; rfl

/-! ### The claims about the dictionary -/

/-- C1: in a dictionary reachable from `dictInit`, for every key `k` and every value `v`
other than `-1u`, `dictGet` on the dictionary left by a returning `dictInsert(k, v)` yields
`v`, whether the insertion grows the table, reuses a formerly used slot or overwrites; and
`dictInsert` does return unless the table has the largest capacity `2 ^ 31` and would have
to grow. -/
theorem dictGet_after_dictInsert (d : Dict) (k : Key) (v : Nat) (hr : Reachable d)
    (hv : v ≠ NOVAL) :
    (∀ d1 old, dictInsert d k v = some (d1, old) → dictGet d1 k = some v) ∧
      ((d.bits < 31 ∨ d.left ≠ 0) → (dictInsert d k v).isSome = true) :=
  ⟨fun d1 old h => dictGet_insert_same d d1 k v old hr.wf h,
    fun hroom => dictInsert_isSome d k v hr.wf hv hroom⟩

theorem dictGet_after_dictInsert_witness :
    (1 : Nat) ≠ NOVAL ∧ dictInsert dictInit keyOne 1 = some (exDict1, NOVAL) ∧
      dictGet exDict1 keyOne = some 1 :=
  ⟨by decide, by decide,
    (dictGet_after_dictInsert dictInit keyOne 1 Reachable.init (by decide)).1 exDict1 NOVAL
      (by decide)⟩

/-- C2: in a dictionary reachable from `dictInit`, `dictRemove(k)` returns; the value it
returns is the value stored for `k`, or `-1u` if `k` is not stored (which is what `dictGet`
yields before the call), and `dictGet(k)` on the resulting dictionary yields `-1u`. -/
theorem dictRemove_returns_value (d : Dict) (k : Key) (hr : Reachable d) :
    ∃ d1 old, dictRemove d k = some (d1, old) ∧
      (∀ w, Holds d k w → old = w) ∧ (Absent d k → old = NOVAL) ∧
      dictGet d k = some old ∧ dictGet d1 k = some NOVAL := by
  obtain ⟨d1, old, h, _, _, _, _, hp, ha⟩ := dictRemove_spec d k hr.wf
  exact ⟨d1, old, h, fun w hw => (hp w hw).1, fun habs => (ha habs).1,
    dictRemove_old d d1 k old hr.wf h, dictGet_remove_same d d1 k old hr.wf h⟩

theorem dictRemove_returns_value_witness :
    ∃ d1 old, dictRemove exDict1 keyOne = some (d1, old) ∧
      (∀ w, Holds exDict1 keyOne w → old = w) ∧ (Absent exDict1 keyOne → old = NOVAL) ∧
      dictGet exDict1 keyOne = some old ∧ dictGet d1 keyOne = some NOVAL :=
  dictRemove_returns_value exDict1 keyOne
    (@Reachable.insert dictInit exDict1 keyOne 1 NOVAL Reachable.init (by decide))

theorem reachable_exDict3 : Reachable exDict3 :=
  @Reachable.insert (insertD (insertD dictInit keyOne 1) keyTwo 2) exDict3 keyThree 3 NOVAL
    (@Reachable.insert (insertD dictInit keyOne 1) (insertD (insertD dictInit keyOne 1) keyTwo 2)
      keyTwo 2 NOVAL
      (@Reachable.insert dictInit (insertD dictInit keyOne 1) keyOne 1 NOVAL Reachable.init
        (by decide))
      (by decide))
    (by decide)

/-- C3: in a dictionary reachable from `dictInit`, for keys `k1 ≠ k`, `dictGet(k1)` yields
the same before and after a returning `dictInsert(k, v)` and before and after a returning
`dictRemove(k)`; this covers insertions that double the table and tables with formerly used
slots on the probe sequence of `k1`. -/
theorem dictGet_other_key_unchanged (d : Dict) (k k1 : Key) (v : Nat) (hr : Reachable d)
    (hne : k1 ≠ k) :
    (∀ d1 old, dictInsert d k v = some (d1, old) → dictGet d1 k1 = dictGet d k1) ∧
      (∀ d1 old, dictRemove d k = some (d1, old) → dictGet d1 k1 = dictGet d k1) :=
  ⟨fun d1 old h => dictGet_insert_other d d1 k k1 v old hr.wf h hne,
    fun d1 old h => dictGet_remove_other d d1 k k1 old hr.wf h hne⟩

theorem dictGet_other_key_unchanged_witness :
    (keyThree ≠ keyOne ∧ keyThree ≠ keyTwo) ∧ dictGet exDict3 keyThree = some 3 ∧
      dictGet (insertD exDict3 keyOne 0) keyThree = dictGet exDict3 keyThree ∧
      dictGet (removeD (insertD exDict3 keyOne 0) keyTwo) keyThree
        = dictGet (insertD exDict3 keyOne 0) keyThree :=
  ⟨by decide, by decide,
    (dictGet_other_key_unchanged exDict3 keyOne keyThree 0 reachable_exDict3 (by decide)).1
      (insertD exDict3 keyOne 0) 1 (by decide),
    (dictGet_other_key_unchanged (insertD exDict3 keyOne 0) keyTwo keyThree 0
      (@Reachable.insert exDict3 (insertD exDict3 keyOne 0) keyOne 0 1 reachable_exDict3
        (by decide)) (by decide)).2
      (removeD (insertD exDict3 keyOne 0) keyTwo) 2 (by decide)⟩

/-- C4: in a dictionary reachable from `dictInit`, a returning `dictInsert(k, v)` returns
the value stored for `k` if there is one, stores `v` for `k`, and leaves `left` at its value
after the growth step; it returns `-1u` if `k` is not stored, and then `left` is one less
than its value after the growth step. An insertion of `k` right after `dictRemove(k)`
returns `-1u`. -/
theorem dictInsert_returns_previous (d : Dict) (k : Key) (v : Nat) (hr : Reachable d) :
    (∀ d1 old, dictInsert d k v = some (d1, old) →
      Holds d1 k v ∧ dictGet d k = some old ∧
      (∀ w, Holds d k w → old = w ∧ d1.left = leftAfterGrow d) ∧
      (Absent d k → old = NOVAL ∧ d1.left + 1 = leftAfterGrow d)) ∧
    (∀ d1 r d2 old, dictRemove d k = some (d1, r) → dictInsert d1 k v = some (d2, old) →
      old = NOVAL ∧ d2.left + 1 = leftAfterGrow d1) := by
  constructor
  · intro d1 old h
    obtain ⟨_, _, _, _, hh, _, hp, ha⟩ := dictInsert_post d d1 k v old hr.wf h
    exact ⟨hh, dictInsert_old d d1 k v old hr.wf h, hp, ha⟩
  · intro d1 r d2 old hrem hins
    obtain ⟨hwf1, _, habs, _⟩ := dictRemove_post d d1 k r hr.wf hrem
    obtain ⟨_, _, _, _, _, _, _, ha⟩ := dictInsert_post d1 d2 k v old hwf1 hins
    exact ha habs

theorem dictInsert_returns_previous_witness :
    dictInsert exDict3 keyOne 0 = some (insertD exDict3 keyOne 0, 1) ∧
      Holds (insertD exDict3 keyOne 0) keyOne 0 ∧ dictGet exDict3 keyOne = some 1 ∧
      (∀ w, Holds exDict3 keyOne w →
        1 = w ∧ (insertD exDict3 keyOne 0).left = leftAfterGrow exDict3) ∧
      (Absent exDict3 keyOne →
        1 = NOVAL ∧ (insertD exDict3 keyOne 0).left + 1 = leftAfterGrow exDict3) :=
  ⟨by decide,
    (dictInsert_returns_previous exDict3 keyOne 0 reachable_exDict3).1
      (insertD exDict3 keyOne 0) 1 (by decide)⟩

/-! ## Properties of the symbol table -/

theorem lastIdx_append (D : List SymtabSymbol) (s : SymtabSymbol) (x : Key) :
    lastIdx (D ++ [s]) x = if s.ident = x then D.length else lastIdx D x := by
  simp [lastIdx, lastIdxRev]

theorem lastIdx_nil (x : Key) : lastIdx [] x = NOVAL := rfl

theorem lastIdx_cases (D : List SymtabSymbol) (x : Key) :
    (lastIdx D x = NOVAL ∧ x ∉ D.map (fun s => s.ident)) ∨
      (lastIdx D x < D.length ∧ ∃ s, D[lastIdx D x]? = some s ∧ s.ident = x) := by
  induction D using List.reverseRecOn with
  | nil => left; simp [lastIdx_nil]
  | append_singleton D s ih =>
    rw [lastIdx_append]
    by_cases h : s.ident = x
    · right
      rw [if_pos h]
      refine ⟨by simp, s, by simp, h⟩
    · rw [if_neg h]
      rcases ih with ⟨h1, h2⟩ | ⟨h1, s1, h2, h3⟩
      · left
        refine ⟨h1, ?_⟩
        simp only [List.map_append, List.map_cons, List.map_nil, List.mem_append,
          List.mem_singleton, not_or]
        exact ⟨h2, fun hx => h hx.symm⟩
      · right
        refine ⟨by simp; omega, s1, ?_, h3⟩
        rw [List.getElem?_append_left h1]
        exact h2

theorem lastIdx_ne_NOVAL_iff (D : List SymtabSymbol) (x : Key) (hlen : D.length < U32) :
    lastIdx D x ≠ NOVAL ↔ x ∈ D.map (fun s => s.ident) := by
  have hU : U32 = NOVAL + 1 := by norm_num [U32, NOVAL]
  rcases lastIdx_cases D x with ⟨h1, h2⟩ | ⟨h1, s, h2, h3⟩
  · simp [h1, h2]
  · constructor
    · intro _
      rw [← h3]
      exact List.mem_map.mpr ⟨s, List.mem_iff_getElem?.mpr ⟨_, h2⟩, rfl⟩
    · intro _; omega

/-- The identifier occurs among the records from index `n` on exactly if its topmost
record has an index of at least `n`. -/
theorem mem_drop_iff_lastIdx (D : List SymtabSymbol) (x : Key) (hlen : D.length < U32) :
    ∀ n, x ∈ (D.drop n).map (fun s => s.ident) ↔ lastIdx D x ≠ NOVAL ∧ n ≤ lastIdx D x := by
  have hU : U32 = NOVAL + 1 := by norm_num [U32, NOVAL]
  induction D using List.reverseRecOn with
  | nil => intro n; simp [lastIdx_nil]
  | append_singleton D s ih =>
    intro n
    have hlen1 : D.length + 1 < U32 := by simpa using hlen
    have hlenD : D.length < U32 := by omega
    rw [lastIdx_append]
    by_cases hn : n ≤ D.length
    · rw [List.drop_append_of_le_length hn]
      simp only [List.map_append, List.map_cons, List.map_nil, List.mem_append,
        List.mem_singleton]
      by_cases h : s.ident = x
      · rw [if_pos h]
        constructor
        · intro _; exact ⟨by omega, hn⟩
        · intro _; exact Or.inr h.symm
      · rw [if_neg h, ih hlenD n]
        constructor
        · rintro (h1 | h1)
          · exact h1
          · exact absurd h1.symm h
        · intro h1; exact Or.inl h1
    · have hdrop : List.drop n (D ++ [s]) = [] := by
        apply List.drop_eq_nil_of_le
        simp; omega
      rw [hdrop]
      simp only [List.map_nil, List.not_mem_nil, false_iff, not_and, not_le]
      by_cases h : s.ident = x
      · rw [if_pos h]; intro _; omega
      · rw [if_neg h]
        intro h1
        rcases lastIdx_cases D x with ⟨h2, _⟩ | ⟨h2, _⟩
        · exact absurd h2 h1
        · omega

theorem vecTop_of_ne_nil (l : List Nat) (h : l ≠ []) :
    ∃ top, vecTop l = some top ∧ l = l.dropLast ++ [top] := by
  refine ⟨l.getLast h, ?_, ?_⟩
  · simp [vecTop, List.getLast?_eq_getLast _ h]
  · exact (List.dropLast_append_getLast h).symm

theorem vecTop_le_sum (l : List Nat) (top : Nat) (h : vecTop l = some top) : top ≤ l.sum := by
  have hne : l ≠ [] := by
    intro hl; subst hl; simp [vecTop] at h
  obtain ⟨top1, h1, h2⟩ := vecTop_of_ne_nil l hne
  rw [h] at h1
  simp only [Option.some.injEq] at h1
  subst h1
  rw [h2, List.sum_append]
  simp

theorem sum_dropLast (l : List Nat) (top : Nat) (h : vecTop l = some top) :
    l.dropLast.sum + top = l.sum := by
  have hne : l ≠ [] := by
    intro hl; subst hl; simp [vecTop] at h
  obtain ⟨top1, h1, h2⟩ := vecTop_of_ne_nil l hne
  rw [h] at h1
  simp only [Option.some.injEq] at h1
  subst h1
  conv_rhs => rw [h2]
  rw [List.sum_append]
  simp

theorem NOVAL_succ : U32 = NOVAL + 1 := by norm_num [U32, NOVAL]

theorem define_cond_iff (t : Symtab) (x : Key) (top : Nat) (hinv : SymInv t)
    (htop : vecTop t.vars_in_scope = some top) :
    (lastIdx t.decl x ≠ NOVAL ∧ (vecLen t.decl + U32 - lastIdx t.decl x) % U32 ≤ top) ↔
      declaredInScope t x := by
  have hU := NOVAL_succ
  have hlen := hinv.core.decl_lt
  unfold declaredInScope scopeDecls
  rw [htop]
  simp only
  rw [mem_drop_iff_lastIdx t.decl x hlen]
  unfold vecLen
  constructor
  · rintro ⟨h1, h2⟩
    refine ⟨h1, ?_⟩
    rcases lastIdx_cases t.decl x with ⟨h3, _⟩ | ⟨h3, _⟩
    · exact absurd h3 h1
    · have : t.decl.length + U32 - lastIdx t.decl x = (t.decl.length - lastIdx t.decl x) + U32 := by
        omega
      rw [this, Nat.add_mod_right, Nat.mod_eq_of_lt (by omega)] at h2
      omega
  · rintro ⟨h1, h2⟩
    refine ⟨h1, ?_⟩
    rcases lastIdx_cases t.decl x with ⟨h3, _⟩ | ⟨h3, _⟩
    · exact absurd h3 h1
    · have : t.decl.length + U32 - lastIdx t.decl x = (t.decl.length - lastIdx t.decl x) + U32 := by
        omega
      rw [this, Nat.add_mod_right, Nat.mod_eq_of_lt (by omega)]
      omega

/-- The function `define` on a table that satisfies the invariant. -/
theorem define_eq (t : Symtab) (d : DefInfo) (top : Nat) (hinv : SymInv t)
    (htop : vecTop t.vars_in_scope = some top) :
    define t d =
      if declaredInScope t d.ident then some (t, INVALID_DEF_ID)
      else
        match dictInsert t.map d.ident t.decl.length with
        | none => none
        | some (map1, _) =>
          some (pushDef t d (lastIdx t.decl d.ident) top map1,
            { index := t.definitions.length }) := by
  unfold define
  simp only [hinv.core.nearest d.ident, htop]
  by_cases h : declaredInScope t d.ident
  · rw [if_pos h, if_pos ((define_cond_iff t d.ident top hinv htop).mpr h)]
  · rw [if_neg h, if_neg (fun hc => h ((define_cond_iff t d.ident top hinv htop).mp hc))]
    rfl

theorem CoreInv_push (map map1 : Dict) (decl : List SymtabSymbol) (x : Key) (id : DefId)
    (old : Nat) (hc : CoreInv map decl)
    (hins : dictInsert map x decl.length = some (map1, old)) :
    CoreInv map1 (decl ++ [{ ident := x, prev_record := lastIdx decl x, «def» := id }]) := by
  have hU := NOVAL_succ
  obtain ⟨hv, _, hwf1, _⟩ := dictInsert_post map map1 x decl.length old hc.map_wf hins
  refine ⟨hwf1, ?_, ?_, ?_⟩
  · have := hc.decl_lt
    simp only [List.length_append, List.length_singleton]
    omega
  · intro y
    rw [lastIdx_append]
    by_cases hy : x = y
    · subst hy
      simp only [if_true]
      exact dictGet_insert_same map map1 x decl.length old hc.map_wf hins
    · simp only [hy, if_false]
      rw [dictGet_insert_other map map1 x y decl.length old hc.map_wf hins (fun h => hy h.symm)]
      exact hc.nearest y
  · intro i s hs
    by_cases hi : i < decl.length
    · rw [List.getElem?_append_left hi] at hs
      rw [List.take_append_of_le_length (by omega)]
      exact hc.prev i s hs
    · by_cases hi2 : i = decl.length
      · subst hi2
        simp only [List.getElem?_concat_length, Option.some.injEq] at hs
        subst hs
        simp
      · rw [List.getElem?_eq_none (by simp; omega)] at hs
        cases hs

theorem SymInv_push (t : Symtab) (d : DefInfo) (top : Nat) (map1 : Dict) (old : Nat)
    (hinv : SymInv t) (htop : vecTop t.vars_in_scope = some top)
    (hins : dictInsert t.map d.ident t.decl.length = some (map1, old)) :
    SymInv (pushDef t d (lastIdx t.decl d.ident) top map1) ∧
      Pushed t (pushDef t d (lastIdx t.decl d.ident) top map1) d.ident
        { index := t.definitions.length } := by
  have hU := NOVAL_succ
  have hle := vecTop_le_sum _ _ htop
  have hsum := hinv.scopes_sum
  have hlt := hinv.core.decl_lt
  have hmod : (top + 1) % U32 = top + 1 := by
    apply Nat.mod_eq_of_lt
    have hv := (dictInsert_post t.map map1 d.ident t.decl.length old hinv.core.map_wf hins).1
    omega
  refine ⟨⟨?_, ?_, ?_, ?_⟩, ⟨⟨top, htop, ?_⟩, rfl, rfl, ?_, ⟨old, hins⟩⟩⟩
  · exact CoreInv_push t.map map1 t.decl d.ident _ old hinv.core hins
  · simp [pushDef]
  · simp only [pushDef, hmod, List.sum_append, List.sum_cons, List.sum_nil,
      List.length_append, List.length_singleton]
    have := sum_dropLast _ _ htop
    omega
  · intro s hs
    simp only [pushDef, List.mem_append, List.mem_singleton] at hs
    simp only [pushDef, List.length_append, List.length_singleton]
    rcases hs with hs | hs
    · have := hinv.defs s hs; omega
    · subst hs; simp [vecLen]
  · simp [pushDef, hmod]
  · simp [pushDef]

/-- What a returning `define` has done. -/
theorem define_post (t t1 : Symtab) (d : DefInfo) (id : DefId) (hinv : SymInv t)
    (h : define t d = some (t1, id)) :
    SymInv t1 ∧
      ((declaredInScope t d.ident ∧ t1 = t ∧ id = INVALID_DEF_ID) ∨
        (¬ declaredInScope t d.ident ∧ Pushed t t1 d.ident id ∧
          t1.definitions = t.definitions ++ [d] ∧ t1.current_func = t.current_func ∧
          t1.global_count = t.global_count)) := by
  obtain ⟨top, htop, _⟩ := vecTop_of_ne_nil _ hinv.scopes_ne
  rw [define_eq t d top hinv htop] at h
  by_cases hd : declaredInScope t d.ident
  · rw [if_pos hd] at h
    simp only [Option.some.injEq, Prod.mk.injEq] at h
    obtain ⟨rfl, rfl⟩ := h
    exact ⟨hinv, Or.inl ⟨hd, rfl, rfl⟩⟩
  · rw [if_neg hd] at h
    cases hins : dictInsert t.map d.ident t.decl.length with
    | none => rw [hins] at h; cases h
    | some r =>
      obtain ⟨map1, old⟩ := r
      rw [hins] at h
      simp only [Option.some.injEq, Prod.mk.injEq] at h
      obtain ⟨rfl, rfl⟩ := h
      obtain ⟨h1, h2⟩ := SymInv_push t d top map1 old hinv htop hins
      exact ⟨h1, Or.inr ⟨hd, h2, rfl, rfl, rfl⟩⟩

/-- `define` returns on a table with room. -/
theorem define_isSome (t : Symtab) (d : DefInfo) (hinv : SymInv t) (hfit : Fits t) :
    ∃ t1 id, define t d = some (t1, id) ∧
      (id = INVALID_DEF_ID ↔ declaredInScope t d.ident) := by
  obtain ⟨top, htop, _⟩ := vecTop_of_ne_nil _ hinv.scopes_ne
  rw [define_eq t d top hinv htop]
  by_cases hd : declaredInScope t d.ident
  · rw [if_pos hd]
    exact ⟨t, INVALID_DEF_ID, rfl, by simp [hd]⟩
  · rw [if_neg hd]
    obtain ⟨map1, old, hins, _⟩ := dictInsert_spec t.map d.ident t.decl.length
      hinv.core.map_wf (by have := hfit.1; omega) hfit.2.2
    rw [hins]
    refine ⟨_, _, rfl, ?_⟩
    simp only [hd, iff_false]
    intro h
    have h1 := congrArg DefId.index h
    simp only [INVALID_DEF_ID] at h1
    have := hfit.2.1
    simp only [NOVAL] at this
    omega

theorem SymInv_congr (t t1 : Symtab) (hinv : SymInv t) (hmap : t1.map = t.map)
    (hdecl : t1.decl = t.decl) (hvars : t1.vars_in_scope = t.vars_in_scope)
    (hlen : t1.definitions.length = t.definitions.length) : SymInv t1 := by
  refine ⟨by rw [hmap, hdecl]; exact hinv.core, by rw [hvars]; exact hinv.scopes_ne,
    by rw [hvars, hdecl]; exact hinv.scopes_sum, ?_⟩
  rw [hdecl, hlen]
  exact hinv.defs

theorem Pushed_congr (t t0 t1 : Symtab) (x : Key) (id : DefId) (hp : Pushed t t0 x id)
    (hmap : t1.map = t0.map)
    (hdecl : t1.decl = t0.decl) (hvars : t1.vars_in_scope = t0.vars_in_scope)
    (hlen : t1.definitions.length = t0.definitions.length) : Pushed t t1 x id := by
  refine ⟨?_, by rw [hdecl]; exact hp.decl, hp.id_eq, by rw [hlen]; exact hp.len,
    by rw [hmap]; exact hp.map⟩
  obtain ⟨top, h1, h2⟩ := hp.vars
  exact ⟨top, h1, by rw [hvars]; exact h2⟩

/-- `symtabResolve` yields the id of the topmost record with the identifier. -/
theorem symtabResolve_eq (t : Symtab) (x : Key) (hc : CoreInv t.map t.decl) :
    symtabResolve t x = some (resolveSpec t.decl x) := by
  unfold symtabResolve resolveSpec
  rw [hc.nearest x]
  simp only
  by_cases h : lastIdx t.decl x = NOVAL
  · rw [if_pos h, if_pos h]
  · rw [if_neg h, if_neg h]
    rcases lastIdx_cases t.decl x with ⟨h1, _⟩ | ⟨_, s, h2, _⟩
    · exact absurd h1 h
    · rw [h2]

theorem resolveSpec_pushed (decl : List SymtabSymbol) (x : Key) (prev : Nat) (id : DefId)
    (hlen : decl.length + 1 < U32) :
    resolveSpec (decl ++ [{ ident := x, prev_record := prev, «def» := id }]) x = id := by
  have hU := NOVAL_succ
  unfold resolveSpec
  rw [lastIdx_append]
  simp only [if_true]
  rw [if_neg (by omega)]
  simp

theorem resolveSpec_pushed_other (decl : List SymtabSymbol) (x y : Key) (prev : Nat)
    (id : DefId) (hne : x ≠ y) :
    resolveSpec (decl ++ [{ ident := x, prev_record := prev, «def» := id }]) y
      = resolveSpec decl y := by
  unfold resolveSpec
  rw [lastIdx_append]
  simp only [hne, if_false]
  by_cases h : lastIdx decl y = NOVAL
  · rw [if_pos h, if_pos h]
  · rw [if_neg h, if_neg h]
    rcases lastIdx_cases decl y with ⟨h1, _⟩ | ⟨h1, _⟩
    · exact absurd h1 h
    · rw [List.getElem?_append_left h1]

theorem symtabResolve_pushed (t t1 : Symtab) (x : Key) (id : DefId) (hinv1 : SymInv t1)
    (hp : Pushed t t1 x id) : symtabResolve t1 x = some id := by
  rw [symtabResolve_eq t1 x hinv1.core, hp.decl]
  have := hinv1.core.decl_lt
  rw [hp.decl] at this
  simp only [List.length_append, List.length_singleton] at this
  rw [resolveSpec_pushed _ _ _ _ this]

theorem defIdIsInvalid_iff (id : DefId) : defIdIsInvalid id = true ↔ id = INVALID_DEF_ID := by
  cases id with
  | mk index => simp [defIdIsInvalid, INVALID_DEF_ID]

/-- What a returning `symtabDefineVar` has done. -/
theorem symtabDefineVar_post (t t1 : Symtab) (x : Key) (ty : DataType) (id : DefId)
    (hinv : SymInv t) (h : symtabDefineVar t x ty = some (t1, id)) :
    SymInv t1 ∧
      ((declaredInScope t x ∧ t1 = t ∧ id = INVALID_DEF_ID) ∨
        (¬ declaredInScope t x ∧ Pushed t t1 x id ∧ t1.current_func = t.current_func)) := by
  unfold symtabDefineVar at h
  cases hot : (if isGlobalScope t then some (t.global_count, DefTag.SYM_DEF_GLOBAL_VAR)
      else
        match symtabCurrentFunc t with
        | some (some f) => some (vecLen f.local_vars, DefTag.SYM_DEF_LOCAL_VAR)
        | _ => none) with
  | none => rw [hot] at h; cases h
  | some ot =>
    obtain ⟨offset, tag⟩ := ot
    rw [hot] at h
    simp only at h
    cases hdef : define t { tag := tag, ident := x, body := DefBody.var { data_type := ty, offset := offset } } with
    | none => rw [hdef] at h; cases h
    | some r =>
      obtain ⟨self1, def_id⟩ := r
      rw [hdef] at h
      simp only at h
      obtain ⟨hinv1, hcase⟩ := define_post t self1 _ def_id hinv hdef
      simp only at hcase
      by_cases hid : defIdIsInvalid def_id = true
      · rw [if_pos hid] at h
        simp only [Option.some.injEq, Prod.mk.injEq] at h
        obtain ⟨rfl, rfl⟩ := h
        refine ⟨hinv1, ?_⟩
        rcases hcase with ⟨h1, h2, h3⟩ | ⟨h1, h2, _, h4, _⟩
        · exact Or.inl ⟨h1, h2, h3⟩
        · exact Or.inr ⟨h1, h2, h4⟩
      · rw [if_neg hid] at h
        have hsucc : ¬ declaredInScope t x ∧ Pushed t self1 x def_id ∧
            self1.current_func = t.current_func := by
          rcases hcase with ⟨_, _, h3⟩ | ⟨h1, h2, _, h4, _⟩
          · exact absurd ((defIdIsInvalid_iff def_id).mpr h3) hid
          · exact ⟨h1, h2, h4⟩
        by_cases hg : isGlobalScope self1 = true
        · rw [if_pos hg] at h
          simp only [Option.some.injEq, Prod.mk.injEq] at h
          obtain ⟨rfl, rfl⟩ := h
          exact ⟨SymInv_congr self1 _ hinv1 rfl rfl rfl rfl,
            Or.inr ⟨hsucc.1, Pushed_congr t self1 _ x _ hsucc.2.1 rfl rfl rfl rfl, hsucc.2.2⟩⟩
        · rw [if_neg hg] at h
          cases hidx : symtabIndex self1 self1.current_func with
          | none => rw [hidx] at h; cases h
          | some i =>
            rw [hidx] at h
            simp only at h
            cases hfd : self1.definitions[i]? with
            | none => rw [hfd] at h; cases h
            | some fd =>
              rw [hfd] at h
              simp only at h
              cases hbody : fd.body with
              | var v => rw [hbody] at h; cases h
              | func f =>
                rw [hbody] at h
                simp only [Option.some.injEq, Prod.mk.injEq] at h
                obtain ⟨rfl, rfl⟩ := h
                exact ⟨SymInv_congr self1 _ hinv1 rfl rfl rfl (by simp),
                  Or.inr ⟨hsucc.1, Pushed_congr t self1 _ x _ hsucc.2.1 rfl rfl rfl (by simp),
                    hsucc.2.2⟩⟩

/-- What a returning `symtabDefineParam` has done. -/
theorem symtabDefineParam_post (t t1 : Symtab) (x : Key) (ty : DataType) (ok : Bool)
    (hinv : SymInv t) (h : symtabDefineParam t x ty = some (t1, ok)) :
    SymInv t1 ∧ isGlobalScope t = false ∧
      ((declaredInScope t x ∧ t1 = t ∧ ok = false) ∨
        (¬ declaredInScope t x ∧ ∃ id, Pushed t t1 x id ∧ ok = !defIdIsInvalid id)) := by
  unfold symtabDefineParam at h
  by_cases hg : isGlobalScope t = true
  · rw [if_pos hg] at h; cases h
  · rw [if_neg hg] at h
    cases hvar : symtabDefineVar t x ty with
    | none => rw [hvar] at h; cases h
    | some r =>
      obtain ⟨self1, id⟩ := r
      rw [hvar] at h
      simp only at h
      obtain ⟨hinv1, hcase⟩ := symtabDefineVar_post t self1 x ty id hinv hvar
      refine ⟨?_, by simpa using hg, ?_⟩
      · by_cases hid : defIdIsInvalid id = true
        · rw [if_pos hid] at h
          simp only [Option.some.injEq, Prod.mk.injEq] at h
          rw [← h.1]; exact hinv1
        · rw [if_neg hid] at h
          cases hfd : self1.definitions[self1.current_func.index]? with
          | none => rw [hfd] at h; cases h
          | some fd =>
            rw [hfd] at h
            simp only at h
            cases hbody : fd.body with
            | var v => rw [hbody] at h; cases h
            | func f =>
              rw [hbody] at h
              simp only [Option.some.injEq, Prod.mk.injEq] at h
              rw [← h.1]
              exact SymInv_congr self1 _ hinv1 rfl rfl rfl (by simp)
      · by_cases hid : defIdIsInvalid id = true
        · rw [if_pos hid] at h
          simp only [Option.some.injEq, Prod.mk.injEq] at h
          obtain ⟨rfl, rfl⟩ := h
          rcases hcase with ⟨h1, h2, _⟩ | ⟨h1, h2, _⟩
          · exact Or.inl ⟨h1, h2, rfl⟩
          · exact Or.inr ⟨h1, id, h2, by simp [hid]⟩
        · rw [if_neg hid] at h
          cases hfd : self1.definitions[self1.current_func.index]? with
          | none => rw [hfd] at h; cases h
          | some fd =>
            rw [hfd] at h
            simp only at h
            cases hbody : fd.body with
            | var v => rw [hbody] at h; cases h
            | func f =>
              rw [hbody] at h
              simp only [Option.some.injEq, Prod.mk.injEq] at h
              obtain ⟨rfl, rfl⟩ := h
              rcases hcase with ⟨_, _, h3⟩ | ⟨h1, h2, _⟩
              · exact absurd ((defIdIsInvalid_iff id).mpr h3) hid
              · exact Or.inr ⟨h1, id, Pushed_congr t self1 _ x _ h2 rfl rfl rfl (by simp),
                  by simp [hid]⟩

/-- What a returning `symtabDefineFunc` has done. -/
theorem symtabDefineFunc_post (t t1 : Symtab) (x : Key) (ty : DataType) (ok : Bool)
    (hinv : SymInv t) (h : symtabDefineFunc t x ty = some (t1, ok)) :
    SymInv t1 ∧ isGlobalScope t = true ∧
      ((declaredInScope t x ∧ t1 = { t with current_func := INVALID_DEF_ID } ∧ ok = false) ∨
        (¬ declaredInScope t x ∧ ∃ id, Pushed t t1 x id ∧ t1.current_func = id ∧
          ok = !defIdIsInvalid id)) := by
  unfold symtabDefineFunc at h
  by_cases hg : isGlobalScope t = true
  · simp only [hg, Bool.not_true, Bool.false_eq_true, if_false] at h
    cases hdef : define t { tag := DefTag.SYM_DEF_FUNC, ident := x, body := DefBody.func { item_id := INVALID_ITEM_ID, return_type := ty, local_vars := [], param_count := 0 } } with
    | none => rw [hdef] at h; cases h
    | some r =>
      obtain ⟨self1, id⟩ := r
      rw [hdef] at h
      simp only at h
      obtain ⟨hinv1, hcase⟩ := define_post t self1 _ id hinv hdef
      simp only at hcase
      have hres : t1 = { self1 with current_func := id } ∧ ok = !defIdIsInvalid id := by
        by_cases hid : defIdIsInvalid id = true
        · rw [if_pos hid] at h
          simp only [Option.some.injEq, Prod.mk.injEq] at h
          exact ⟨h.1.symm, by rw [← h.2, hid]; rfl⟩
        · rw [if_neg hid] at h
          simp only [Option.some.injEq, Prod.mk.injEq] at h
          simp only [Bool.not_eq_true] at hid
          exact ⟨h.1.symm, by rw [← h.2, hid]; rfl⟩
      obtain ⟨rfl, rfl⟩ := hres
      refine ⟨SymInv_congr self1 _ hinv1 rfl rfl rfl rfl, hg, ?_⟩
      rcases hcase with ⟨h1, h2, h3⟩ | ⟨h1, h2, _⟩
      · subst h2 h3
        exact Or.inl ⟨h1, rfl, by decide⟩
      · exact Or.inr ⟨h1, id, Pushed_congr t self1 _ x _ h2 rfl rfl rfl rfl, rfl, rfl⟩
  · simp only [Bool.not_eq_true] at hg
    simp only [hg, Bool.not_false, if_true] at h
    cases h

theorem vecPop_some {α : Type} {l l1 : List α} {a : α} (h : vecPop l = some (l1, a)) :
    l = l1 ++ [a] ∧ vecTop l = some a := by
  unfold vecPop at h
  cases hl : l.getLast? with
  | none => rw [hl] at h; cases h
  | some b =>
    rw [hl] at h
    simp only [Option.some.injEq, Prod.mk.injEq] at h
    obtain ⟨rfl, rfl⟩ := h
    exact ⟨(List.dropLast_append_getLast? b hl).symm, hl⟩

theorem vecPop_append {α : Type} (l : List α) (a : α) : vecPop (l ++ [a]) = some (l, a) := by
  simp [vecPop]

theorem absent_dictInit (x : Key) : Absent dictInit x := by
  intro i hi
  have : dictInit.data = List.replicate 8 { key := KeyPtr.null, val := 0 } := rfl
  rw [this, entryAt_replicate] at hi
  cases hi

theorem CoreInv_pop (map map1 : Dict) (D : List SymtabSymbol) (s : SymtabSymbol) (old : Nat)
    (hc : CoreInv map (D ++ [s]))
    (hstep : (s.prev_record = NOVAL ∧ dictRemove map s.ident = some (map1, old)) ∨
      (s.prev_record ≠ NOVAL ∧ dictInsert map s.ident s.prev_record = some (map1, old))) :
    CoreInv map1 D := by
  have hprev : s.prev_record = lastIdx D s.ident := by
    have := hc.prev D.length s (by simp)
    simpa using this
  have hwf1 : WF map1 := by
    rcases hstep with ⟨_, h⟩ | ⟨_, h⟩
    · exact (dictRemove_post map map1 s.ident old hc.map_wf h).1
    · exact (dictInsert_post map map1 s.ident s.prev_record old hc.map_wf h).2.2.1
  refine ⟨hwf1, ?_, ?_, ?_⟩
  · have := hc.decl_lt
    simp only [List.length_append, List.length_singleton] at this
    omega
  · intro y
    by_cases hy : y = s.ident
    · subst hy
      rw [← hprev]
      rcases hstep with ⟨h0, h⟩ | ⟨_, h⟩
      · rw [h0]; exact dictGet_remove_same map map1 s.ident old hc.map_wf h
      · exact dictGet_insert_same map map1 s.ident s.prev_record old hc.map_wf h
    · have hget : dictGet map1 y = dictGet map y := by
        rcases hstep with ⟨_, h⟩ | ⟨_, h⟩
        · exact dictGet_remove_other map map1 s.ident y old hc.map_wf h hy
        · exact dictGet_insert_other map map1 s.ident y s.prev_record old hc.map_wf h hy
      rw [hget, hc.nearest y, lastIdx_append, if_neg (fun h => hy h.symm)]
  · intro i s1 hs1
    have hi : i < D.length := by
      by_contra hge
      rw [List.getElem?_eq_none (by omega)] at hs1
      cases hs1
    have h1 := hc.prev i s1 (by rw [List.getElem?_append_left hi]; exact hs1)
    rw [List.take_append_of_le_length (by omega)] at h1
    exact h1

/-- What a returning run of the loop of `symtabScopeLeave` has done. -/
theorem scopeLeaveLoop_post :
    ∀ (n : Nat) (t t1 : Symtab), CoreInv t.map t.decl → scopeLeaveLoop n t = some t1 →
      n ≤ t.decl.length ∧ t1.decl = t.decl.take (t.decl.length - n) ∧
        CoreInv t1.map t1.decl ∧ t1.vars_in_scope = t.vars_in_scope ∧
        t1.definitions = t.definitions ∧ t1.current_func = t.current_func ∧
        t1.global_count = t.global_count := by
  intro n
  induction n with
  | zero =>
    intro t t1 hc h
    simp only [scopeLeaveLoop, Option.some.injEq] at h
    subst h
    exact ⟨by omega, by simp, hc, rfl, rfl, rfl, rfl⟩
  | succ n ih =>
    intro t t1 hc h
    rw [scopeLeaveLoop] at h
    cases hpop : vecPop t.decl with
    | none => rw [hpop] at h; cases h
    | some r =>
      obtain ⟨decl1, sym⟩ := r
      rw [hpop] at h
      simp only at h
      obtain ⟨hdecl, _⟩ := vecPop_some hpop
      rw [hdecl] at hc
      have hfin : ∀ map1 old,
          ((sym.prev_record = NOVAL ∧ dictRemove t.map sym.ident = some (map1, old)) ∨
            (sym.prev_record ≠ NOVAL ∧
              dictInsert t.map sym.ident sym.prev_record = some (map1, old))) →
          scopeLeaveLoop n { t with decl := decl1, map := map1 } = some t1 →
          n + 1 ≤ t.decl.length ∧ t1.decl = t.decl.take (t.decl.length - (n + 1)) ∧
            CoreInv t1.map t1.decl ∧ t1.vars_in_scope = t.vars_in_scope ∧
            t1.definitions = t.definitions ∧ t1.current_func = t.current_func ∧
            t1.global_count = t.global_count := by
        intro map1 old hstep hloop
        have hc1 := CoreInv_pop t.map map1 decl1 sym old hc hstep
        obtain ⟨h1, h2, h3, h4, h5, h6, h7⟩ := ih _ t1 hc1 hloop
        simp only at h1 h2 h4 h5 h6 h7
        refine ⟨by rw [hdecl]; simp; omega, ?_, h3, h4, h5, h6, h7⟩
        rw [h2, hdecl]
        simp only [List.length_append, List.length_singleton, Nat.add_sub_add_right]
        rw [List.take_append_of_le_length (by omega)]
      by_cases hp : sym.prev_record = NOVAL
      · rw [if_pos hp] at h
        cases hrem : dictRemove t.map sym.ident with
        | none => rw [hrem] at h; cases h
        | some r =>
          obtain ⟨map1, old⟩ := r
          rw [hrem] at h
          exact hfin map1 old (Or.inl ⟨hp, hrem⟩) h
      · rw [if_neg hp] at h
        cases hins : dictInsert t.map sym.ident sym.prev_record with
        | none => rw [hins] at h; cases h
        | some r =>
          obtain ⟨map1, old⟩ := r
          rw [hins] at h
          exact hfin map1 old (Or.inr ⟨hp, hins⟩) h

/-- The loop of `symtabScopeLeave` returns when the declaration stack is high enough and
the dictionary can take the writes. -/
theorem scopeLeaveLoop_isSome :
    ∀ (n : Nat) (t : Symtab), CoreInv t.map t.decl → n ≤ t.decl.length →
      (t.map.bits < 31 ∨ t.map.left ≠ 0) → ∃ t1, scopeLeaveLoop n t = some t1 := by
  intro n
  induction n with
  | zero => intro t _ _ _; exact ⟨t, rfl⟩
  | succ n ih =>
    intro t hc hn hroom
    have hne : t.decl ≠ [] := by
      intro h; rw [h] at hn; simp at hn
    have hdecl := (List.dropLast_append_getLast hne).symm
    generalize t.decl.getLast hne = sym at hdecl
    generalize t.decl.dropLast = decl1 at hdecl
    have hlen : n ≤ decl1.length := by
      rw [hdecl] at hn; simp at hn; omega
    rw [scopeLeaveLoop, hdecl, vecPop_append]
    simp only
    rw [hdecl] at hc
    by_cases hp : sym.prev_record = NOVAL
    · rw [if_pos hp]
      obtain ⟨map1, old, hrem, _, hbits, _, _, hh, ha⟩ := dictRemove_spec t.map sym.ident hc.map_wf
      rw [hrem]
      simp only
      have hc1 := CoreInv_pop t.map map1 decl1 sym old hc (Or.inl ⟨hp, hrem⟩)
      apply ih _ hc1 hlen
      simp only
      rcases holds_or_absent t.map sym.ident with ⟨w, hw⟩ | habs
      · right; rw [(hh w hw).2]; omega
      · rw [(ha habs).2]; exact hroom
    · rw [if_neg hp]
      obtain ⟨map1, old, hins, hwf1, hbits, _, _, hh, ha⟩ :=
        dictInsert_spec t.map sym.ident sym.prev_record hc.map_wf hp hroom
      rw [hins]
      simp only
      have hc1 := CoreInv_pop t.map map1 decl1 sym old hc (Or.inr ⟨hp, hins⟩)
      apply ih _ hc1 hlen
      simp only
      have hpres : ∃ w, Holds t.map sym.ident w := by
        rcases holds_or_absent t.map sym.ident with h | habs
        · exact h
        · exfalso
          have h1 := dictGet_of_absent t.map sym.ident hc.map_wf habs
          rw [hc.nearest sym.ident, lastIdx_append, if_pos rfl] at h1
          have h2 := hc.decl_lt
          have hU := NOVAL_succ
          simp only [List.length_append, List.length_singleton, Option.some.injEq] at h1 h2
          omega
      obtain ⟨w, hw⟩ := hpres
      right
      rw [(hh w hw).2]
      unfold leftAfterGrow
      by_cases hl : t.map.left = 0
      · rw [if_pos hl, hl]
        have hsplit := pow_split t.map.bits (by have := hc.map_wf.bits_lo; omega)
        have hpos : 0 < 2 ^ (t.map.bits - 2) := Nat.pow_pos (by norm_num)
        omega
      · rw [if_neg hl]; omega

theorem isGlobalScope_false_iff (t : Symtab) :
    isGlobalScope t = false ↔ t.vars_in_scope.length ≠ 1 := by
  simp [isGlobalScope, vecLen]

/-- What a returning `symtabScopeLeave` has done. -/
theorem symtabScopeLeave_post (t t1 : Symtab) (hinv : SymInv t)
    (h : symtabScopeLeave t = some t1) :
    SymInv t1 ∧ isGlobalScope t = false ∧
      ∃ top, vecTop t.vars_in_scope = some top ∧ top ≤ t.decl.length ∧
        t1.vars_in_scope = t.vars_in_scope.dropLast ∧
        t1.decl = t.decl.take (t.decl.length - top) ∧
        t1.definitions = t.definitions ∧ t1.current_func = t.current_func ∧
        t1.global_count = t.global_count := by
  unfold symtabScopeLeave at h
  by_cases hg : isGlobalScope t = true
  · rw [if_pos hg] at h; cases h
  · rw [if_neg hg] at h
    simp only [Bool.not_eq_true] at hg
    cases hpop : vecPop t.vars_in_scope with
    | none => rw [hpop] at h; cases h
    | some r =>
      obtain ⟨vars1, count⟩ := r
      rw [hpop] at h
      simp only at h
      obtain ⟨hvars, htop⟩ := vecPop_some hpop
      obtain ⟨h1, h2, h3, h4, h5, h6, h7⟩ := scopeLeaveLoop_post count { t with vars_in_scope := vars1 } t1 hinv.core h
      simp only at h1 h2 h4 h5 h6 h7
      have hd : t.vars_in_scope.dropLast = vars1 := by rw [hvars]; simp
      have hsum := hinv.scopes_sum
      have hs1 : vars1.sum + count = t.decl.length := by
        rw [← hsum, hvars, List.sum_append]; simp
      refine ⟨⟨h3, ?_, ?_, ?_⟩, hg, count, htop, h1, by rw [h4, hd], h2, h5, h6, h7⟩
      · rw [h4]
        intro hnil
        have := (isGlobalScope_false_iff t).mp hg
        rw [hvars, hnil] at this
        simp at this
      · rw [h4, h2, List.length_take]
        omega
      · intro s hs
        rw [h2] at hs
        rw [h5]
        exact hinv.defs s (List.mem_of_mem_take hs)

/-- `symtabScopeLeave` returns outside the global scope when the dictionary can take the
writes. -/
theorem symtabScopeLeave_isSome (t : Symtab) (hinv : SymInv t)
    (hg : isGlobalScope t = false) (hroom : t.map.bits < 31 ∨ t.map.left ≠ 0) :
    ∃ t1, symtabScopeLeave t = some t1 := by
  obtain ⟨top, htop, hvars⟩ := vecTop_of_ne_nil _ hinv.scopes_ne
  unfold symtabScopeLeave
  rw [hg]
  simp only [Bool.false_eq_true, if_false]
  have hpop : vecPop t.vars_in_scope = some (t.vars_in_scope.dropLast, top) := by
    conv_lhs => rw [hvars]
    rw [vecPop_append]
  rw [hpop]
  simp only
  apply scopeLeaveLoop_isSome top { t with vars_in_scope := t.vars_in_scope.dropLast } hinv.core _ hroom
  have := vecTop_le_sum _ _ htop
  have := hinv.scopes_sum
  simp only
  omega

theorem SymInv_symtabNew : SymInv symtabNew := by
  refine ⟨⟨WF_dictInit, by simp [symtabNew, U32], ?_, ?_⟩, by simp [symtabNew],
    by simp [symtabNew], by simp [symtabNew]⟩
  · intro x
    exact dictGet_of_absent dictInit x WF_dictInit (absent_dictInit x)
  · intro i s hs
    simp [symtabNew] at hs

theorem SymInv_symtabScopeEnter (t : Symtab) (hinv : SymInv t) :
    SymInv (symtabScopeEnter t) := by
  refine ⟨hinv.core, by simp [symtabScopeEnter], ?_, hinv.defs⟩
  simp only [symtabScopeEnter, List.sum_append, List.sum_cons, List.sum_nil]
  have := hinv.scopes_sum
  omega

/-- Every reachable symbol table satisfies the invariant. -/
theorem SymReachable.inv {t : Symtab} (h : SymReachable t) : SymInv t := by
  induction h with
  | new => exact SymInv_symtabNew
  | defineFunc _ hop ih => exact (symtabDefineFunc_post _ _ _ _ _ ih hop).1
  | defineParam _ hop ih => exact (symtabDefineParam_post _ _ _ _ _ ih hop).1
  | defineVar _ hop ih => exact (symtabDefineVar_post _ _ _ _ _ ih hop).1
  | scopeEnter _ ih => exact SymInv_symtabScopeEnter _ ih
  | scopeLeave _ hop ih => exact (symtabScopeLeave_post _ _ ih hop).1

theorem symtabCurrentFunc_some (t : Symtab) (f : FuncInfo) (hg : isGlobalScope t = false)
    (h : symtabCurrentFunc t = some (some f)) :
    ∃ d, symtabIndex t t.current_func = some t.current_func.index ∧
      t.definitions[t.current_func.index]? = some d ∧ d.body = DefBody.func f ∧
      d.tag = DefTag.SYM_DEF_FUNC := by
  unfold symtabCurrentFunc at h
  simp only [hg, Bool.false_eq_true, if_false] at h
  unfold symtabIndex at h ⊢
  by_cases hid : defIdIsInvalid t.current_func = true
  · simp only [hid, if_true] at h; cases h
  · simp only [Bool.not_eq_true] at hid
    simp only [hid, Bool.false_eq_true, if_false] at h ⊢
    cases hd : t.definitions[t.current_func.index]? with
    | none => rw [hd] at h; cases h
    | some d =>
      rw [hd] at h
      simp only at h
      by_cases htag : d.tag = DefTag.SYM_DEF_FUNC
      · rw [if_pos htag] at h
        cases hb : d.body with
        | var v => rw [hb] at h; cases h
        | func f1 =>
          rw [hb] at h
          simp only [Option.some.injEq] at h
          subst h
          exact ⟨d, trivial, rfl, hb, htag⟩
      · rw [if_neg htag] at h; cases h

theorem isGlobalScope_of_pushed (t t1 : Symtab) (x : Key) (id : DefId)
    (hp : Pushed t t1 x id) : isGlobalScope t1 = isGlobalScope t := by
  obtain ⟨top, h1, h2⟩ := hp.vars
  have hne : t.vars_in_scope ≠ [] := by
    intro h; rw [h] at h1; simp [vecTop] at h1
  have hlen : t1.vars_in_scope.length = t.vars_in_scope.length := by
    rw [h2]
    have := List.length_pos.mpr hne
    simp only [List.length_append, List.length_dropLast, List.length_singleton]
    omega
  simp [isGlobalScope, vecLen, hlen]

/-- `symtabDefineVar` returns when its assertion holds and the table has room; it yields
the invalid id exactly for an identifier declared in the innermost scope, and then leaves
the table as it is. -/
theorem symtabDefineVar_spec (t : Symtab) (x : Key) (ty : DataType) (hinv : SymInv t)
    (hpre : isGlobalScope t = true ∨ ∃ f, symtabCurrentFunc t = some (some f))
    (hfit : declaredInScope t x ∨ Fits t) :
    ∃ t1 id, symtabDefineVar t x ty = some (t1, id) ∧
      (id = INVALID_DEF_ID ↔ declaredInScope t x) ∧ (declaredInScope t x → t1 = t) ∧
      (isGlobalScope t = false → ¬ declaredInScope t x →
        ∃ fd f, t1.definitions[t1.current_func.index]? = some fd ∧
          fd.body = DefBody.func f) := by
  obtain ⟨top, htop, _⟩ := vecTop_of_ne_nil _ hinv.scopes_ne
  have hot : ∃ offset tag,
      (if isGlobalScope t then some (t.global_count, DefTag.SYM_DEF_GLOBAL_VAR)
        else
          match symtabCurrentFunc t with
          | some (some f) => some (vecLen f.local_vars, DefTag.SYM_DEF_LOCAL_VAR)
          | _ => none) = some (offset, tag) := by
    by_cases hg : isGlobalScope t = true
    · rw [if_pos hg]; exact ⟨_, _, rfl⟩
    · rw [if_neg hg]
      rcases hpre with h | ⟨f, hf⟩
      · exact absurd h hg
      · rw [hf]; exact ⟨_, _, rfl⟩
  obtain ⟨offset, tag, hot⟩ := hot
  unfold symtabDefineVar
  rw [hot]
  simp only
  by_cases hd : declaredInScope t x
  · have hdef : define t { tag := tag, ident := x, body := DefBody.var { data_type := ty, offset := offset } } = some (t, INVALID_DEF_ID) := by
      rw [define_eq t _ top hinv htop, if_pos hd]
    rw [hdef]
    simp only
    rw [if_pos (by decide)]
    exact ⟨t, INVALID_DEF_ID, rfl, by simp [hd], fun _ => rfl, fun _ h => absurd hd h⟩
  · have hfit1 : Fits t := by
      rcases hfit with h | h
      · exact absurd h hd
      · exact h
    obtain ⟨self1, id, hdef, hiff⟩ := define_isSome t { tag := tag, ident := x, body := DefBody.var { data_type := ty, offset := offset } } hinv hfit1
    simp only at hiff
    obtain ⟨_, hcase⟩ := define_post t self1 _ id hinv hdef
    simp only at hcase
    rw [hdef]
    simp only
    have hid : ¬ defIdIsInvalid id = true := by
      rw [defIdIsInvalid_iff, hiff]; exact hd
    rw [if_neg hid]
    have hidne : ¬ id = INVALID_DEF_ID := by rw [hiff]; exact hd
    rcases hcase with ⟨h1, _⟩ | ⟨_, hp, hdefs, hcur, _⟩
    · exact absurd h1 hd
    · by_cases hg : isGlobalScope self1 = true
      · rw [if_pos hg]
        refine ⟨_, _, rfl, by simp [hd, hidne], fun h => absurd h hd, ?_⟩
        intro hgt _
        rw [← isGlobalScope_of_pushed t self1 x id hp, hg] at hgt
        cases hgt
      · rw [if_neg hg]
        have hgt : isGlobalScope t = false := by
          rw [← isGlobalScope_of_pushed t self1 x id hp]; simpa using hg
        rcases hpre with h | ⟨f, hf⟩
        · rw [hgt] at h; cases h
        · obtain ⟨d, h1, h2, h3, _⟩ := symtabCurrentFunc_some t f hgt hf
          have hidx : symtabIndex self1 self1.current_func = some t.current_func.index := by
            rw [hcur]; exact h1
          have hlt : t.current_func.index < t.definitions.length := by
            by_contra hge
            rw [List.getElem?_eq_none (by omega)] at h2
            cases h2
          have hget : self1.definitions[t.current_func.index]? = some d := by
            rw [hdefs, List.getElem?_append_left hlt]; exact h2
          rw [hidx]
          simp only
          rw [hget]
          simp only
          rw [h3]
          refine ⟨_, _, rfl, by simp [hd, hidne], fun h => absurd h hd, ?_⟩
          intro _ _
          have hlt1 : t.current_func.index < self1.definitions.length := by
            rw [hdefs]; simp; omega
          refine ⟨{ d with body := DefBody.func { f with local_vars := f.local_vars ++ [id] } }, { f with local_vars := f.local_vars ++ [id] }, ?_, rfl⟩
          simp only [hcur]
          rw [List.getElem?_set]
          simp [hlt1]

theorem symtabDefineParam_fail (t : Symtab) (x : Key) (ty : DataType) (hinv : SymInv t)
    (hg : isGlobalScope t = false) (hpre : ∃ f, symtabCurrentFunc t = some (some f))
    (hd : declaredInScope t x) : symtabDefineParam t x ty = some (t, false) := by
  obtain ⟨t1, id, h1, h2, h3, _⟩ := symtabDefineVar_spec t x ty hinv (Or.inr hpre) (Or.inl hd)
  unfold symtabDefineParam
  rw [hg, h1]
  simp only [Bool.false_eq_true, if_false]
  rw [if_pos ((defIdIsInvalid_iff id).mpr (h2.mpr hd)), h3 hd]

/-- `symtabDefineParam` returns outside the global scope when the current function is
valid and the table has room; it returns `false` exactly for an identifier declared in the
innermost scope. -/
theorem symtabDefineParam_spec (t : Symtab) (x : Key) (ty : DataType) (hinv : SymInv t)
    (hg : isGlobalScope t = false) (hpre : ∃ f, symtabCurrentFunc t = some (some f))
    (hfit : Fits t) :
    ∃ t1 ok, symtabDefineParam t x ty = some (t1, ok) ∧
      (ok = false ↔ declaredInScope t x) := by
  by_cases hd : declaredInScope t x
  · exact ⟨t, false, symtabDefineParam_fail t x ty hinv hg hpre hd, by simp [hd]⟩
  · obtain ⟨t1, id, h1, h2, _, h4⟩ :=
      symtabDefineVar_spec t x ty hinv (Or.inr hpre) (Or.inr hfit)
    obtain ⟨fd, f, hfd, hbody⟩ := h4 hg hd
    have hid : ¬ defIdIsInvalid id = true := by
      rw [defIdIsInvalid_iff, h2]; exact hd
    unfold symtabDefineParam
    rw [hg, h1]
    simp only [Bool.false_eq_true, if_false]
    rw [if_neg hid, hfd]
    simp only
    rw [hbody]
    exact ⟨_, true, rfl, by simp [hd]⟩

theorem symtabDefineFunc_fail (t : Symtab) (x : Key) (ty : DataType) (hinv : SymInv t)
    (hg : isGlobalScope t = true) (hd : declaredInScope t x) :
    symtabDefineFunc t x ty = some ({ t with current_func := INVALID_DEF_ID }, false) := by
  obtain ⟨top, htop, _⟩ := vecTop_of_ne_nil _ hinv.scopes_ne
  unfold symtabDefineFunc
  rw [hg]
  simp only [Bool.not_true, Bool.false_eq_true, if_false]
  rw [define_eq t _ top hinv htop, if_pos hd]
  simp only
  rw [if_pos (by decide)]

theorem room_after_insert (d d1 : Dict) (k : Key) (v old : Nat) (hwf : WF d)
    (hb : d.bits < 31) (h : dictInsert d k v = some (d1, old)) :
    d1.bits < 31 ∨ d1.left ≠ 0 := by
  obtain ⟨_, _, _, hbits, _, _, hh, ha⟩ := dictInsert_post d d1 k v old hwf h
  by_cases hl : d.left = 0
  · right
    have hsplit := pow_split d.bits (by have := hwf.bits_lo; omega)
    have hpos : 4 ≤ 2 ^ (d.bits - 2) * 2 := by
      have h3 : d.bits - 2 = (d.bits - 3) + 1 := by have := hwf.bits_lo; omega
      have hp : 0 < 2 ^ (d.bits - 3) := Nat.pow_pos (by norm_num)
      rw [h3, pow_succ]
      omega
    have hlag : leftAfterGrow d = 2 ^ d.bits / 4 * 3 := by
      unfold leftAfterGrow; rw [if_pos hl, hl]; simp
    rcases holds_or_absent d k with ⟨w, hw⟩ | habs
    · rw [(hh w hw).2, hlag, hsplit]; omega
    · have := (ha habs).2
      rw [hlag, hsplit] at this
      omega
  · left
    rw [hbits, if_neg hl]; exact hb

theorem reachable_exTabF : SymReachable exTabF :=
  @SymReachable.defineFunc symtabNew exTabF keyF 0 true SymReachable.new (by decide)

theorem reachable_exTabFA : SymReachable exTabFA :=
  @SymReachable.defineVar (symtabScopeEnter exTabF) exTabFA keyA 0 { index := 1 }
    (SymReachable.scopeEnter reachable_exTabF) (by decide)

/-! ### The claims about definitions and scopes -/

/-- C5: in a symbol table reachable from `symtabNew` whose operations all kept their
assertions, with room for one more definition in the 32 bit index range, the internal
`define` returns for every record with the identifier `x`, and it yields `INVALID_DEF_ID`
exactly if `x` has a declaration among those of the innermost scope; an identifier declared
only in enclosing scopes, or not at all, is defined.  When `symtabDefineVar` may be called
(global scope, or a valid current function), `symtabDefineVar(x)` returns with the same
outcome; when it may not, it has no result. -/
theorem define_fails_iff_declared_in_scope (t : Symtab) (x : Key) (ty : DataType)
    (hr : SymReachable t) (hfit : Fits t) :
    (∀ d : DefInfo, d.ident = x →
      ∃ t1 id, define t d = some (t1, id) ∧ (id = INVALID_DEF_ID ↔ declaredInScope t x)) ∧
    ((isGlobalScope t = true ∨ ∃ f, symtabCurrentFunc t = some (some f)) →
      ∃ t1 id, symtabDefineVar t x ty = some (t1, id) ∧
        (id = INVALID_DEF_ID ↔ declaredInScope t x)) ∧
    (¬ (isGlobalScope t = true ∨ ∃ f, symtabCurrentFunc t = some (some f)) →
      symtabDefineVar t x ty = none) := by
  refine ⟨?_, ?_, ?_⟩
  · intro d hd
    subst hd
    exact define_isSome t d hr.inv hfit
  · intro hpre
    obtain ⟨t1, id, h1, h2, _, _⟩ := symtabDefineVar_spec t x ty hr.inv hpre (Or.inr hfit)
    exact ⟨t1, id, h1, h2⟩
  · intro hpre
    have hg : ¬ isGlobalScope t = true := fun h => hpre (Or.inl h)
    have hc : ∀ f, symtabCurrentFunc t ≠ some (some f) := fun f h => hpre (Or.inr ⟨f, h⟩)
    unfold symtabDefineVar
    rw [if_neg hg]
    cases hcf : symtabCurrentFunc t with
    | none => rfl
    | some o =>
      cases o with
      | none => rfl
      | some f => exact absurd hcf (hc f)

theorem define_fails_iff_declared_in_scope_witness :
    ((declaredInScope exTabFA keyA ∧ ¬ declaredInScope exTabFA keyF) ∧
      (∀ d : DefInfo, d.ident = keyF →
        ∃ t1 id, define exTabFA d = some (t1, id) ∧
          (id = INVALID_DEF_ID ↔ declaredInScope exTabFA keyF)) ∧
      (symtabDefineVar exTabFA keyA 0 = some (exTabFA, INVALID_DEF_ID)) ∧
      (∃ t1 id, symtabDefineVar exTabFA keyF 0 = some (t1, id) ∧
        (id = INVALID_DEF_ID ↔ declaredInScope exTabFA keyF))) ∧
    (symtabCurrentFunc (symtabScopeEnter exTabX) = none ∧
      ¬ declaredInScope (symtabScopeEnter exTabX) keyX ∧
      (∀ d : DefInfo, d.ident = keyX →
        ∃ t1 id, define (symtabScopeEnter exTabX) d = some (t1, id) ∧
          (id = INVALID_DEF_ID ↔ declaredInScope (symtabScopeEnter exTabX) keyX)) ∧
      symtabDefineVar (symtabScopeEnter exTabX) keyX 0 = none) :=
  ⟨⟨by decide,
      (define_fails_iff_declared_in_scope exTabFA keyF 0 reachable_exTabFA (by decide)).1,
      by decide,
      (define_fails_iff_declared_in_scope exTabFA keyF 0 reachable_exTabFA
        (by decide)).2.1 (Or.inr ⟨_, rfl⟩)⟩,
    by decide, by decide,
    (define_fails_iff_declared_in_scope (symtabScopeEnter exTabX) keyX 0
      (SymReachable.scopeEnter (@SymReachable.defineVar symtabNew exTabX keyX intType
        { index := 0 } SymReachable.new (by decide))) (by decide)).1,
    (define_fails_iff_declared_in_scope (symtabScopeEnter exTabX) keyX 0
      (SymReachable.scopeEnter (@SymReachable.defineVar symtabNew exTabX keyX intType
        { index := 0 } SymReachable.new (by decide))) (by decide)).2.2
      (fun h => h.elim (fun h1 => absurd h1 (by decide))
        (fun h2 => h2.elim (fun _ h3 => Option.noConfusion
          ((by decide : symtabCurrentFunc (symtabScopeEnter exTabX) = none).symm.trans
            h3))))⟩

theorem vecTop_append_singleton {α : Type} (l : List α) (a : α) : vecTop (l ++ [a]) = some a := by
  simp [vecTop]

theorem not_declaredInScope_symtabScopeEnter (t : Symtab) (x : Key) :
    ¬ declaredInScope (symtabScopeEnter t) x := by
  unfold declaredInScope scopeDecls symtabScopeEnter
  simp [vecTop_append_singleton]

theorem isGlobalScope_symtabScopeEnter (t : Symtab) (hne : t.vars_in_scope ≠ []) :
    isGlobalScope (symtabScopeEnter t) = false := by
  have := List.length_pos.mpr hne
  simp only [isGlobalScope, vecLen, symtabScopeEnter, List.length_append, List.length_singleton,
    decide_eq_false_iff_not]
  omega

theorem resolveSpec_index_lt (decl : List SymtabSymbol) (x : Key) (L : Nat)
    (hne : resolveSpec decl x ≠ INVALID_DEF_ID) (hdefs : ∀ s ∈ decl, s.«def».index < L) :
    (resolveSpec decl x).index < L := by
  unfold resolveSpec at hne ⊢
  by_cases h : lastIdx decl x = NOVAL
  · rw [if_pos h] at hne; exact absurd rfl hne
  · rw [if_neg h] at hne ⊢
    cases hs : decl[lastIdx decl x]? with
    | none => rw [hs] at hne; exact absurd rfl hne
    | some s =>
      simp only
      exact hdefs s (List.mem_iff_getElem?.mpr ⟨_, hs⟩)

/-- Leaving the scope right after a definition made in a scope just entered restores the
declaration stack and the scope-count stack. -/
theorem leave_after_pushed (t t2 t3 : Symtab) (x : Key) (n : DefId)
    (hinv2 : SymInv t2) (hp : Pushed (symtabScopeEnter t) t2 x n)
    (hl : symtabScopeLeave t2 = some t3) :
    SymInv t3 ∧ t3.decl = t.decl ∧ t3.vars_in_scope = t.vars_in_scope := by
  obtain ⟨hinv3, _, top2, htop2, _, hvars3, hdecl3, _⟩ := symtabScopeLeave_post t2 t3 hinv2 hl
  obtain ⟨top, htop, hvars2⟩ := hp.vars
  have hte : (symtabScopeEnter t).vars_in_scope = t.vars_in_scope ++ [0] := rfl
  rw [hte, vecTop_append_singleton] at htop
  simp only [Option.some.injEq] at htop
  subst htop
  rw [hte, List.dropLast_concat] at hvars2
  rw [hvars2, vecTop_append_singleton] at htop2
  simp only [Option.some.injEq] at htop2
  subst htop2
  refine ⟨hinv3, ?_, ?_⟩
  · rw [hdecl3, hp.decl]
    have hd : (symtabScopeEnter t).decl = t.decl := rfl
    rw [hd]
    simp
  · rw [hvars3, hvars2, List.dropLast_concat]

/-- After a definition of `x` made in a scope just entered, `x` resolves to the new id,
which differs from the id `x` resolved to before; leaving the scope returns and restores
the old result. -/
theorem shadow_tail (t t2 : Symtab) (x : Key) (n o : DefId) (hinv : SymInv t)
    (hinv2 : SymInv t2) (hp : Pushed (symtabScopeEnter t) t2 x n)
    (ho1 : o = resolveSpec t.decl x) (ho : o ≠ INVALID_DEF_ID) (hb : t.map.bits < 31) :
    n ≠ o ∧ symtabResolve t2 x = some n ∧
      ∃ t3, symtabScopeLeave t2 = some t3 ∧ symtabResolve t3 x = some o := by
  have hinve := SymInv_symtabScopeEnter t hinv
  have hno : n ≠ o := by
    intro h
    have h1 := resolveSpec_index_lt t.decl x t.definitions.length (by rw [← ho1]; exact ho)
      hinv.defs
    rw [← ho1, ← h, hp.id_eq] at h1
    exact absurd h1 (lt_irrefl _)
  have hg2 : isGlobalScope t2 = false := by
    rw [isGlobalScope_of_pushed _ t2 x n hp]
    exact isGlobalScope_symtabScopeEnter t hinv.scopes_ne
  obtain ⟨old, hins⟩ := hp.map
  have hroom := room_after_insert _ _ _ _ _ hinve.core.map_wf hb hins
  obtain ⟨t3, hl⟩ := symtabScopeLeave_isSome t2 hinv2 hg2 hroom
  obtain ⟨hinv3, hdecl3, _⟩ := leave_after_pushed t t2 t3 x n hinv2 hp hl
  refine ⟨hno, symtabResolve_pushed _ t2 x n hinv2 hp, t3, hl, ?_⟩
  rw [symtabResolve_eq t3 x hinv3.core, hdecl3, ho1]

/-- C6: in a reachable symbol table in which `x` resolves to a valid id `o` (with room in
the 32 bit index range), after `symtabScopeEnter` the internal `define` of any record with
the identifier `x` succeeds with a valid id `n` different from `o`, `symtabResolve(x)` then
yields `n`, the matching `symtabScopeLeave` returns, and `symtabResolve(x)` yields `o`
again.  With a valid current function the same holds with the same `n` for a definition by
`symtabDefineVar` and by `symtabDefineParam`; without one these two have no result. -/
theorem shadowing_restores_outer (t : Symtab) (x : Key) (ty : DataType) (o : DefId)
    (hr : SymReachable t) (hres : symtabResolve t x = some o) (ho : o ≠ INVALID_DEF_ID)
    (hfit : t.decl.length < NOVAL ∧ t.definitions.length < NOVAL ∧ t.map.bits < 31) :
    ∃ n, n ≠ INVALID_DEF_ID ∧ n ≠ o ∧
      (∀ d : DefInfo, d.ident = x →
        ∃ t2 t3, define (symtabScopeEnter t) d = some (t2, n) ∧
          symtabResolve t2 x = some n ∧ symtabScopeLeave t2 = some t3 ∧
          symtabResolve t3 x = some o) ∧
      ((∃ f, symtabCurrentFunc (symtabScopeEnter t) = some (some f)) →
        (∃ t2 t3, symtabDefineVar (symtabScopeEnter t) x ty = some (t2, n) ∧
          symtabResolve t2 x = some n ∧ symtabScopeLeave t2 = some t3 ∧
          symtabResolve t3 x = some o) ∧
        (∃ t2 t3, symtabDefineParam (symtabScopeEnter t) x ty = some (t2, true) ∧
          symtabResolve t2 x = some n ∧ symtabScopeLeave t2 = some t3 ∧
          symtabResolve t3 x = some o)) ∧
      ((¬ ∃ f, symtabCurrentFunc (symtabScopeEnter t) = some (some f)) →
        symtabDefineVar (symtabScopeEnter t) x ty = none ∧
          symtabDefineParam (symtabScopeEnter t) x ty = none) := by
  have hinv := hr.inv
  have hinve := SymInv_symtabScopeEnter t hinv
  have hnd := not_declaredInScope_symtabScopeEnter t x
  have hge := isGlobalScope_symtabScopeEnter t hinv.scopes_ne
  have hfite : Fits (symtabScopeEnter t) := ⟨hfit.1, hfit.2.1, Or.inl hfit.2.2⟩
  have ho1 : o = resolveSpec t.decl x := by
    rw [symtabResolve_eq t x hinv.core] at hres
    simpa using hres.symm
  have hlen : (symtabScopeEnter t).definitions.length = t.definitions.length := rfl
  have hn : ({ index := t.definitions.length } : DefId) ≠ INVALID_DEF_ID := by
    intro h
    have h1 := congrArg DefId.index h
    simp only [INVALID_DEF_ID] at h1
    have := hfit.2.1
    simp only [NOVAL] at this
    omega
  have hno : ({ index := t.definitions.length } : DefId) ≠ o := by
    intro h
    have h1 := resolveSpec_index_lt t.decl x t.definitions.length (by rw [← ho1]; exact ho)
      hinv.defs
    rw [← ho1, ← h] at h1
    exact absurd h1 (lt_irrefl _)
  refine ⟨{ index := t.definitions.length }, hn, hno, ?_, ?_, ?_⟩
  · intro d hd
    subst hd
    obtain ⟨t2, id, hdef, _⟩ := define_isSome (symtabScopeEnter t) d hinve hfite
    obtain ⟨hinv2, hcase⟩ := define_post (symtabScopeEnter t) t2 d id hinve hdef
    have hp : Pushed (symtabScopeEnter t) t2 d.ident id := by
      rcases hcase with ⟨h1, _⟩ | ⟨_, h2, _⟩
      · exact absurd h1 hnd
      · exact h2
    have hid : id = { index := t.definitions.length } := by rw [hp.id_eq, hlen]
    subst hid
    obtain ⟨_, hres2, t3, hl, hres3⟩ :=
      shadow_tail t t2 d.ident _ o hinv hinv2 hp ho1 ho hfit.2.2
    exact ⟨t2, t3, hdef, hres2, hl, hres3⟩
  · intro hcur
    obtain ⟨t2, n, hdv, _, _, _⟩ :=
      symtabDefineVar_spec (symtabScopeEnter t) x ty hinve (Or.inr hcur) (Or.inr hfite)
    obtain ⟨hinv2, hcase⟩ := symtabDefineVar_post (symtabScopeEnter t) t2 x ty n hinve hdv
    have hp : Pushed (symtabScopeEnter t) t2 x n := by
      rcases hcase with ⟨h1, _⟩ | ⟨_, h2, _⟩
      · exact absurd h1 hnd
      · exact h2
    have hid : n = { index := t.definitions.length } := by rw [hp.id_eq, hlen]
    subst hid
    obtain ⟨_, hres2, t3, hl, hres3⟩ := shadow_tail t t2 x _ o hinv hinv2 hp ho1 ho hfit.2.2
    obtain ⟨t2p, ok, hdp, hokiff⟩ :=
      symtabDefineParam_spec (symtabScopeEnter t) x ty hinve hge hcur hfite
    have hok : ok = true := by
      cases ok with
      | true => rfl
      | false => exact absurd (hokiff.mp rfl) hnd
    subst hok
    obtain ⟨hinv2p, _, hcasep⟩ := symtabDefineParam_post (symtabScopeEnter t) t2p x ty true
      hinve hdp
    have hpp : Pushed (symtabScopeEnter t) t2p x { index := t.definitions.length } := by
      rcases hcasep with ⟨h1, _⟩ | ⟨_, id, h2, _⟩
      · exact absurd h1 hnd
      · have : id = { index := t.definitions.length } := by rw [h2.id_eq, hlen]
        rw [← this]; exact h2
    obtain ⟨_, hres2p, t3p, hlp, hres3p⟩ :=
      shadow_tail t t2p x _ o hinv hinv2p hpp ho1 ho hfit.2.2
    exact ⟨⟨t2, t3, hdv, hres2, hl, hres3⟩, ⟨t2p, t3p, hdp, hres2p, hlp, hres3p⟩⟩
  · intro hcur
    have hv : symtabDefineVar (symtabScopeEnter t) x ty = none := by
      unfold symtabDefineVar
      rw [hge]
      simp only [Bool.false_eq_true, if_false]
      cases hcf : symtabCurrentFunc (symtabScopeEnter t) with
      | none => rfl
      | some c =>
        cases c with
        | none => rfl
        | some f => exact absurd ⟨f, hcf⟩ hcur
    refine ⟨hv, ?_⟩
    unfold symtabDefineParam
    rw [hge, hv]
    rfl

theorem shadowing_restores_outer_witness :
    (symtabResolve exTabX keyX = some { index := 0 } ∧
      symtabCurrentFunc (symtabScopeEnter exTabX) = none ∧
      ∃ n, n ≠ INVALID_DEF_ID ∧ n ≠ { index := 0 } ∧
        (∀ d : DefInfo, d.ident = keyX →
          ∃ t2 t3, define (symtabScopeEnter exTabX) d = some (t2, n) ∧
            symtabResolve t2 keyX = some n ∧ symtabScopeLeave t2 = some t3 ∧
            symtabResolve t3 keyX = some { index := 0 }) ∧
        symtabDefineVar (symtabScopeEnter exTabX) keyX 0 = none ∧
        symtabDefineParam (symtabScopeEnter exTabX) keyX 0 = none) ∧
    (symtabResolve exTabF keyF = some { index := 0 } ∧
      ∃ n, n ≠ INVALID_DEF_ID ∧ n ≠ { index := 0 } ∧
        (∀ d : DefInfo, d.ident = keyF →
          ∃ t2 t3, define (symtabScopeEnter exTabF) d = some (t2, n) ∧
            symtabResolve t2 keyF = some n ∧ symtabScopeLeave t2 = some t3 ∧
            symtabResolve t3 keyF = some { index := 0 }) ∧
        (∃ t2 t3, symtabDefineVar (symtabScopeEnter exTabF) keyF 0 = some (t2, n) ∧
          symtabResolve t2 keyF = some n ∧ symtabScopeLeave t2 = some t3 ∧
          symtabResolve t3 keyF = some { index := 0 }) ∧
        (∃ t2 t3, symtabDefineParam (symtabScopeEnter exTabF) keyF 0 = some (t2, true) ∧
          symtabResolve t2 keyF = some n ∧ symtabScopeLeave t2 = some t3 ∧
          symtabResolve t3 keyF = some { index := 0 })) :=
  ⟨⟨by decide, by decide,
      (shadowing_restores_outer exTabX keyX 0 { index := 0 }
        (@SymReachable.defineVar symtabNew exTabX keyX intType { index := 0 }
          SymReachable.new (by decide))
        (by decide) (by decide) (by decide)).elim
        (fun n h => ⟨n, h.1, h.2.1, h.2.2.1,
          h.2.2.2.2 (fun hc => hc.elim (fun _ h3 => Option.noConfusion
            ((by decide : symtabCurrentFunc (symtabScopeEnter exTabX) = none).symm.trans
              h3)))⟩)⟩,
    by decide,
    (shadowing_restores_outer exTabF keyF 0 { index := 0 } reachable_exTabF (by decide)
      (by decide) (by decide)).elim
      (fun n h => ⟨n, h.1, h.2.1, h.2.2.1, h.2.2.2.1 ⟨_, rfl⟩⟩)⟩

/-- C8: in a reachable symbol table, when `symtabDefineVar`, `symtabDefineParam` or
`symtabDefineFunc` succeeds for `x`, the id of the new definition is the length of the
definition store before the call, the store is one record longer afterwards, and
`symtabResolve(x)` right afterwards yields that id (for a function it is also the new
`current_func`). -/
theorem successful_definition_id (t : Symtab) (x : Key) (ty : DataType)
    (hr : SymReachable t) :
    (∀ t1 id, symtabDefineVar t x ty = some (t1, id) → id ≠ INVALID_DEF_ID →
      id = { index := t.definitions.length } ∧
      t1.definitions.length = t.definitions.length + 1 ∧ symtabResolve t1 x = some id) ∧
    (∀ t1, symtabDefineParam t x ty = some (t1, true) →
      t1.definitions.length = t.definitions.length + 1 ∧
      symtabResolve t1 x = some { index := t.definitions.length }) ∧
    (∀ t1, symtabDefineFunc t x ty = some (t1, true) →
      t1.current_func = { index := t.definitions.length } ∧
      t1.definitions.length = t.definitions.length + 1 ∧
      symtabResolve t1 x = some { index := t.definitions.length }) := by
  refine ⟨?_, ?_, ?_⟩
  · intro t1 id h hid
    obtain ⟨hinv1, hcase⟩ := symtabDefineVar_post t t1 x ty id hr.inv h
    rcases hcase with ⟨_, _, h3⟩ | ⟨_, hp, _⟩
    · exact absurd h3 hid
    · exact ⟨hp.id_eq, hp.len, symtabResolve_pushed t t1 x id hinv1 hp⟩
  · intro t1 h
    obtain ⟨hinv1, _, hcase⟩ := symtabDefineParam_post t t1 x ty true hr.inv h
    rcases hcase with ⟨_, _, h3⟩ | ⟨_, id, hp, _⟩
    · cases h3
    · rw [← hp.id_eq]
      exact ⟨hp.len, symtabResolve_pushed t t1 x id hinv1 hp⟩
  · intro t1 h
    obtain ⟨hinv1, _, hcase⟩ := symtabDefineFunc_post t t1 x ty true hr.inv h
    rcases hcase with ⟨_, _, h3⟩ | ⟨_, id, hp, hcur, _⟩
    · cases h3
    · rw [← hp.id_eq]
      exact ⟨hcur, hp.len, symtabResolve_pushed t t1 x id hinv1 hp⟩

theorem successful_definition_id_witness :
    symtabDefineVar (symtabScopeEnter exTabF) keyA 0 = some (exTabFA, { index := 1 }) ∧
      (({ index := 1 } : DefId) = { index := (symtabScopeEnter exTabF).definitions.length } ∧
        exTabFA.definitions.length = (symtabScopeEnter exTabF).definitions.length + 1 ∧
        symtabResolve exTabFA keyA = some { index := 1 }) :=
  ⟨by decide,
    (successful_definition_id (symtabScopeEnter exTabF) keyA 0
      (SymReachable.scopeEnter reachable_exTabF)).1 exTabFA { index := 1 } (by decide)
      (by decide)⟩

/-- C9: in a reachable symbol table in which `x` is declared in the innermost scope,
`symtabDefineVar(x)` (its assertion holding) returns `INVALID_DEF_ID` and
`symtabDefineParam(x)` (outside the global scope) returns `false`, and both leave the whole
table as it is: definition store, declaration stack, scope-count stack, `global_count`,
`current_func` and dictionary, hence the result of every `symtabResolve`. -/
theorem duplicate_definition_leaves_table (t : Symtab) (x : Key) (ty : DataType)
    (hr : SymReachable t) (hd : declaredInScope t x)
    (hpre : isGlobalScope t = true ∨ ∃ f, symtabCurrentFunc t = some (some f)) :
    symtabDefineVar t x ty = some (t, INVALID_DEF_ID) ∧
      (isGlobalScope t = false → symtabDefineParam t x ty = some (t, false)) := by
  obtain ⟨t1, id, h1, h2, h3, _⟩ := symtabDefineVar_spec t x ty hr.inv hpre (Or.inl hd)
  constructor
  · rw [h1, h3 hd, h2.mpr hd]
  · intro hg
    rcases hpre with h | h
    · rw [hg] at h; cases h
    · exact symtabDefineParam_fail t x ty hr.inv hg h hd

theorem duplicate_definition_leaves_table_witness :
    declaredInScope exTabFA keyA ∧
      symtabDefineVar exTabFA keyA 0 = some (exTabFA, INVALID_DEF_ID) ∧
      (isGlobalScope exTabFA = false →
        symtabDefineParam exTabFA keyA 0 = some (exTabFA, false)) :=
  ⟨by decide,
    duplicate_definition_leaves_table exTabFA keyA 0 reachable_exTabFA (by decide)
      (Or.inr ⟨_, rfl⟩)⟩

/-- C10, as the code has it: in a reachable symbol table at global scope in which `x` is
declared at global scope, `symtabDefineFunc(x)` returns `false` and sets `current_func` to
`INVALID_DEF_ID`; the definition store, the declaration stack, the scope-count stack,
`global_count`, the dictionary and every `symtabResolve` result are as before. -/
theorem symtabDefineFunc_duplicate (t : Symtab) (x : Key) (ty : DataType)
    (hr : SymReachable t) (hg : isGlobalScope t = true) (hd : declaredInScope t x) :
    symtabDefineFunc t x ty = some ({ t with current_func := INVALID_DEF_ID }, false) ∧
      ∀ y, symtabResolve { t with current_func := INVALID_DEF_ID } y = symtabResolve t y :=
  ⟨symtabDefineFunc_fail t x ty hr.inv hg hd, fun _ => rfl⟩

theorem symtabDefineFunc_duplicate_witness :
    (isGlobalScope exTabF = true ∧ declaredInScope exTabF keyF) ∧
      symtabDefineFunc exTabF keyF 0
        = some ({ exTabF with current_func := INVALID_DEF_ID }, false) ∧
      ∀ y, symtabResolve { exTabF with current_func := INVALID_DEF_ID } y
        = symtabResolve exTabF y :=
  ⟨by decide, symtabDefineFunc_duplicate exTabF keyF 0 reachable_exTabF (by decide) (by decide)⟩

/-- C10, counterexample to the claim as stated: after a successful
`symtabDefineFunc("f")` on a new table `current_func` is the id 0; a second
`symtabDefineFunc("f")` returns `false` and leaves `current_func` at `INVALID_DEF_ID`. -/
theorem symtabDefineFunc_duplicate_resets_current_func :
    symtabDefineFunc symtabNew keyF 0 = some (exTabF, true) ∧
      (isGlobalScope exTabF = true ∧ declaredInScope exTabF keyF) ∧
      exTabF.current_func = { index := 0 } ∧
      ∃ t1, symtabDefineFunc exTabF keyF 0 = some (t1, false) ∧
        t1.current_func = INVALID_DEF_ID ∧ t1.current_func ≠ exTabF.current_func :=
  ⟨by decide, by decide, by decide,
    ⟨{ exTabF with current_func := INVALID_DEF_ID }, by decide, by decide, by decide⟩⟩

theorem vecTop_append_of_ne_nil (V cs : List Nat) (h : cs ≠ []) :
    vecTop (V ++ cs) = vecTop cs := by
  simp [vecTop, List.getLast?_append_of_ne_nil _ h]

/-- A successful definition changes the frames above a fixed part of the two stacks only,
and keeps their number. -/
theorem pushed_frame (t t1 : Symtab) (x : Key) (id : DefId) (V cs : List Nat)
    (D E : List SymtabSymbol) (hp : Pushed t t1 x id) (hcs : cs ≠ [])
    (hvars : t.vars_in_scope = V ++ cs) (hdecl : t.decl = D ++ E) (hsum : cs.sum = E.length) :
    ∃ cs1 E1, cs1 ≠ [] ∧ cs1.length = cs.length ∧ t1.vars_in_scope = V ++ cs1 ∧
      t1.decl = D ++ E1 ∧ cs1.sum = E1.length := by
  obtain ⟨top, htop, hv1⟩ := hp.vars
  rw [hvars, vecTop_append_of_ne_nil V cs hcs] at htop
  rw [hvars, List.dropLast_append_of_ne_nil V hcs] at hv1
  refine ⟨cs.dropLast ++ [top + 1],
    E ++ [{ ident := x, prev_record := lastIdx t.decl x, «def» := id }], by simp, ?_,
    by rw [hv1]; simp, ?_, ?_⟩
  · have := List.length_pos.mpr hcs
    simp only [List.length_append, List.length_dropLast, List.length_singleton]
    omega
  · rw [hp.decl, hdecl, List.append_assoc]
  · have := sum_dropLast cs top htop
    simp only [List.sum_append, List.sum_cons, List.sum_nil, List.length_append,
      List.length_singleton]
    omega

/-- Leaving a scope removes the top frame of the two stacks. -/
theorem leave_frame (t t1 : Symtab) (V cs : List Nat) (D E : List SymtabSymbol)
    (hinv : SymInv t) (hl : symtabScopeLeave t = some t1) (hcs : 2 ≤ cs.length)
    (hvars : t.vars_in_scope = V ++ cs) (hdecl : t.decl = D ++ E) (hsum : cs.sum = E.length) :
    SymInv t1 ∧ ∃ cs1 E1, cs1 ≠ [] ∧ cs1.length = cs.length - 1 ∧
      t1.vars_in_scope = V ++ cs1 ∧ t1.decl = D ++ E1 ∧ cs1.sum = E1.length := by
  have hne : cs ≠ [] := by
    intro h; rw [h] at hcs; simp at hcs
  obtain ⟨hinv1, _, top, htop, _, hv1, hd1, _⟩ := symtabScopeLeave_post t t1 hinv hl
  rw [hvars, vecTop_append_of_ne_nil V cs hne] at htop
  rw [hvars, List.dropLast_append_of_ne_nil V hne] at hv1
  have hle := vecTop_le_sum cs top htop
  have hs := sum_dropLast cs top htop
  refine ⟨hinv1, cs.dropLast, E.take (E.length - top), ?_, by simp, hv1, ?_, ?_⟩
  · intro h
    have := congrArg List.length h
    simp only [List.length_dropLast, List.length_nil] at this
    omega
  · rw [hd1, hdecl, List.take_append_eq_append_take]
    simp only [List.length_append]
    rw [List.take_of_length_le (by omega)]
    congr 2
    omega
  · rw [List.length_take]
    omega

theorem balanced_nil (depth : Nat) : balanced depth [] = decide (depth = 0) := by
  cases depth <;> rfl

/-- The operations between entering and leaving a scope change the two stacks above
their state at the start only. -/
theorem runOps_frame :
    ∀ (ops : List ScopeOp) (t t1 : Symtab) (V cs : List Nat) (D E : List SymtabSymbol),
      SymInv t → cs ≠ [] → balanced (cs.length - 1) ops = true →
      t.vars_in_scope = V ++ cs → t.decl = D ++ E → cs.sum = E.length →
      runOps ops t = some t1 →
      SymInv t1 ∧ ∃ c E1, t1.vars_in_scope = V ++ [c] ∧ t1.decl = D ++ E1 ∧ E1.length = c := by
  intro ops
  induction ops with
  | nil =>
    intro t t1 V cs D E hinv hcs hbal hvars hdecl hsum hrun
    simp only [runOps, Option.some.injEq] at hrun
    subst hrun
    rw [balanced_nil] at hbal
    have hlen : cs.length = 1 := by
      have := List.length_pos.mpr hcs
      have : cs.length - 1 = 0 := by simpa using hbal
      omega
    obtain ⟨c, rfl⟩ := List.length_eq_one.mp hlen
    exact ⟨hinv, c, E, hvars, hdecl, by simpa using hsum.symm⟩
  | cons op rest ih =>
    intro t t1 V cs D E hinv hcs hbal hvars hdecl hsum hrun
    rw [runOps] at hrun
    cases hop : runOp t op with
    | none => rw [hop] at hrun; cases hrun
    | some t2 =>
      rw [hop] at hrun
      simp only at hrun
      have hpos := List.length_pos.mpr hcs
      cases op with
      | defineVar x ty =>
        simp only [runOp] at hop
        cases hdv : symtabDefineVar t x ty with
        | none => rw [hdv] at hop; cases hop
        | some r =>
          obtain ⟨t3, id⟩ := r
          rw [hdv] at hop
          simp only [Option.some.injEq] at hop
          subst hop
          have hbal1 : balanced (cs.length - 1) rest = true := by
            simpa [balanced] using hbal
          obtain ⟨hinv3, hcase⟩ := symtabDefineVar_post t t3 x ty id hinv hdv
          rcases hcase with ⟨_, h2, _⟩ | ⟨_, hp, _⟩
          · subst h2
            exact ih t3 t1 V cs D E hinv hcs hbal1 hvars hdecl hsum hrun
          · obtain ⟨cs1, E1, h1, h2, h3, h4, h5⟩ := pushed_frame t t3 x id V cs D E hp hcs
              hvars hdecl hsum
            exact ih t3 t1 V cs1 D E1 hinv3 h1 (by rw [h2]; exact hbal1) h3 h4 h5 hrun
      | defineParam x ty =>
        simp only [runOp] at hop
        cases hdv : symtabDefineParam t x ty with
        | none => rw [hdv] at hop; cases hop
        | some r =>
          obtain ⟨t3, ok⟩ := r
          rw [hdv] at hop
          simp only [Option.some.injEq] at hop
          subst hop
          have hbal1 : balanced (cs.length - 1) rest = true := by
            simpa [balanced] using hbal
          obtain ⟨hinv3, _, hcase⟩ := symtabDefineParam_post t t3 x ty ok hinv hdv
          rcases hcase with ⟨_, h2, _⟩ | ⟨_, id, hp, _⟩
          · subst h2
            exact ih t3 t1 V cs D E hinv hcs hbal1 hvars hdecl hsum hrun
          · obtain ⟨cs1, E1, h1, h2, h3, h4, h5⟩ := pushed_frame t t3 x id V cs D E hp hcs
              hvars hdecl hsum
            exact ih t3 t1 V cs1 D E1 hinv3 h1 (by rw [h2]; exact hbal1) h3 h4 h5 hrun
      | enter =>
        simp only [runOp, Option.some.injEq] at hop
        subst hop
        have hbal1 : balanced ((cs ++ [0]).length - 1) rest = true := by
          have : (cs ++ [0]).length - 1 = cs.length - 1 + 1 := by
            simp only [List.length_append, List.length_singleton]; omega
          rw [this]
          simpa [balanced] using hbal
        refine ih (symtabScopeEnter t) t1 V (cs ++ [0]) D E (SymInv_symtabScopeEnter t hinv)
          (by simp) hbal1 ?_ hdecl (by simpa using hsum) hrun
        simp only [symtabScopeEnter, hvars, List.append_assoc]
      | leave =>
        simp only [runOp] at hop
        simp only [balanced, Bool.and_eq_true, decide_eq_true_eq] at hbal
        have hcs2 : 2 ≤ cs.length := by omega
        obtain ⟨hinv2, cs1, E1, h1, h2, h3, h4, h5⟩ := leave_frame t t2 V cs D E hinv hop hcs2
          hvars hdecl hsum
        exact ih t2 t1 V cs1 D E1 hinv2 h1 (by rw [h2]; exact hbal.2) h3 h4 h5 hrun

theorem runOps_append (a b : List ScopeOp) (t : Symtab) :
    runOps (a ++ b) t = (runOps a t).bind (runOps b) := by
  induction a generalizing t with
  | nil => rfl
  | cons op rest ih =>
    simp only [List.cons_append, runOps]
    cases runOp t op with
    | none => rfl
    | some t1 => exact ih t1

/-- C7: in a reachable symbol table `T`, when `symtabScopeEnter`, then any sequence of
variable and parameter definitions (successful or failed) and balanced nested scope
enter/leave pairs, then the matching `symtabScopeLeave` have been executed, the table has
the declaration stack and the scope-count stack of `T`, and `symtabResolve` yields for
every identifier what it yields in `T`. -/
theorem scope_round_trip (T T1 : Symtab) (ops : List ScopeOp) (hr : SymReachable T)
    (hbal : balanced 0 ops = true)
    (hrun : runOps (ScopeOp.enter :: ops ++ [ScopeOp.leave]) T = some T1) :
    T1.decl = T.decl ∧ T1.vars_in_scope = T.vars_in_scope ∧
      ∀ x, symtabResolve T1 x = symtabResolve T x := by
  have hinv := hr.inv
  rw [runOps_append] at hrun
  cases hmid : runOps (ScopeOp.enter :: ops) T with
  | none => rw [hmid] at hrun; cases hrun
  | some T2 =>
    rw [hmid] at hrun
    simp only [Option.some_bind, runOps, runOp] at hrun hmid
    obtain ⟨hinv2, c, E1, h1, h2, h3⟩ := runOps_frame ops (symtabScopeEnter T) T2
      T.vars_in_scope [0] T.decl [] (SymInv_symtabScopeEnter T hinv) (by simp)
      (by simpa using hbal) rfl (by simp [symtabScopeEnter]) (by simp) hmid
    cases hl : symtabScopeLeave T2 with
    | none => rw [hl] at hrun; cases hrun
    | some T3 =>
      rw [hl] at hrun
      simp only [Option.some.injEq] at hrun
      subst hrun
      obtain ⟨hinv3, _, top, htop, _, hv3, hd3, _⟩ := symtabScopeLeave_post T2 T3 hinv2 hl
      rw [h1, vecTop_append_singleton] at htop
      simp only [Option.some.injEq] at htop
      subst htop
      have hdecl : T3.decl = T.decl := by
        rw [hd3, h2]
        simp only [List.length_append, h3, Nat.add_sub_cancel]
        simp
      refine ⟨hdecl, by rw [hv3, h1, List.dropLast_concat], ?_⟩
      intro x
      rw [symtabResolve_eq T3 x hinv3.core, symtabResolve_eq T x hinv.core, hdecl]

theorem scope_round_trip_witness :
    runOps (ScopeOp.enter :: exOps ++ [ScopeOp.leave]) exTabF = some exRoundTrip ∧
      (exRoundTrip.decl = exTabF.decl ∧ exRoundTrip.vars_in_scope = exTabF.vars_in_scope ∧
        ∀ x, symtabResolve exRoundTrip x = symtabResolve exTabF x) :=
  ⟨by decide,
    scope_round_trip exTabF exRoundTrip exOps reachable_exTabF (by decide) (by decide)⟩

/-! ## Properties of the definition store -/

theorem symtabIndex_eq (t : Symtab) (id : DefId) :
    symtabIndex t id = if defIdIsInvalid id then none else some id.index := rfl

theorem updFunc_of_some (defs : List DefInfo) (c : Nat) (g : FuncInfo → FuncInfo)
    (fd : DefInfo) (f : FuncInfo) (h : defs[c]? = some fd) (hb : fd.body = DefBody.func f) :
    defs.set c { fd with body := DefBody.func (g f) } = updFunc defs c g := by
  unfold updFunc applyFunc
  rw [h]
  simp only [hb]

/-- What a returning `symtabDefineFunc` has done to the definition store. -/
theorem symtabDefineFunc_effect (t t1 : Symtab) (x : Key) (ty : DataType) (ok : Bool)
    (hinv : SymInv t) (h : symtabDefineFunc t x ty = some (t1, ok)) :
    isGlobalScope t = true ∧
      ((declaredInScope t x ∧ t1 = { t with current_func := INVALID_DEF_ID } ∧ ok = false) ∨
        (¬ declaredInScope t x ∧ t1.definitions = t.definitions ++ [funcRecord x ty] ∧
          t1.current_func = { index := t.definitions.length } ∧
          t1.global_count = t.global_count ∧
          ok = !defIdIsInvalid { index := t.definitions.length })) := by
  unfold symtabDefineFunc at h
  by_cases hg : isGlobalScope t = true
  · simp only [hg, Bool.not_true, Bool.false_eq_true, if_false] at h
    cases hdef : define t { tag := DefTag.SYM_DEF_FUNC, ident := x, body := DefBody.func { item_id := INVALID_ITEM_ID, return_type := ty, local_vars := [], param_count := 0 } } with
    | none => rw [hdef] at h; cases h
    | some r =>
      obtain ⟨self1, id⟩ := r
      rw [hdef] at h
      simp only at h
      obtain ⟨_, hcase⟩ := define_post t self1 _ id hinv hdef
      simp only at hcase
      have hres : t1 = { self1 with current_func := id } ∧ ok = !defIdIsInvalid id := by
        by_cases hid : defIdIsInvalid id = true
        · rw [if_pos hid] at h
          simp only [Option.some.injEq, Prod.mk.injEq] at h
          exact ⟨h.1.symm, by rw [← h.2, hid]; rfl⟩
        · rw [if_neg hid] at h
          simp only [Option.some.injEq, Prod.mk.injEq] at h
          simp only [Bool.not_eq_true] at hid
          exact ⟨h.1.symm, by rw [← h.2, hid]; rfl⟩
      obtain ⟨rfl, rfl⟩ := hres
      refine ⟨hg, ?_⟩
      rcases hcase with ⟨h1, h2, h3⟩ | ⟨h1, h2, h3, _, h5⟩
      · subst h2 h3
        exact Or.inl ⟨h1, rfl, by decide⟩
      · refine Or.inr ⟨h1, h3, h2.id_eq, h5, ?_⟩
        rw [h2.id_eq]
  · simp only [Bool.not_eq_true] at hg
    simp only [hg, Bool.not_false, if_true] at h
    cases h

/-- What a returning `symtabDefineVar` has done to the definition store. -/
theorem symtabDefineVar_effect (t t1 : Symtab) (x : Key) (ty : DataType) (id : DefId)
    (hinv : SymInv t) (h : symtabDefineVar t x ty = some (t1, id)) :
    (declaredInScope t x ∧ t1 = t ∧ id = INVALID_DEF_ID) ∨
      (¬ declaredInScope t x ∧ id = { index := t.definitions.length } ∧
        t1.current_func = t.current_func ∧
        ((isGlobalScope t = true ∧
            t1.definitions = t.definitions ++
              [varRecord DefTag.SYM_DEF_GLOBAL_VAR x ty t.global_count] ∧
            t1.global_count =
              (if defIdIsInvalid id then t.global_count else (t.global_count + 1) % U32)) ∨
          (isGlobalScope t = false ∧ t1.global_count = t.global_count ∧
            ∃ f, symtabCurrentFunc t = some (some f) ∧
              t1.definitions =
                (if defIdIsInvalid id then
                  t.definitions ++ [varRecord DefTag.SYM_DEF_LOCAL_VAR x ty f.local_vars.length]
                else
                  updFunc (t.definitions ++
                    [varRecord DefTag.SYM_DEF_LOCAL_VAR x ty f.local_vars.length])
                    t.current_func.index (addLocal id))))) := by
  unfold symtabDefineVar at h
  have key : ∀ (offset : Nat) (tag : DefTag),
      (match define t { tag := tag, ident := x, body := DefBody.var { data_type := ty, offset := offset } } with
        | none => none
        | some (self1, def_id) =>
          if defIdIsInvalid def_id = true then some (self1, def_id)
          else if isGlobalScope self1 = true then
            some ({ self1 with global_count := (self1.global_count + 1) % U32 }, def_id)
          else
            match symtabIndex self1 self1.current_func with
            | none => none
            | some i =>
              match self1.definitions[i]? with
              | none => none
              | some fd =>
                match fd.body with
                | DefBody.func f =>
                  some ({ self1 with definitions := self1.definitions.set i { fd with body := DefBody.func { f with local_vars := f.local_vars ++ [def_id] } } }, def_id)
                | DefBody.var _ => none) = some (t1, id) →
      (declaredInScope t x ∧ t1 = t ∧ id = INVALID_DEF_ID) ∨
        (¬ declaredInScope t x ∧ id = { index := t.definitions.length } ∧
          t1.current_func = t.current_func ∧
          t1.global_count =
            (if defIdIsInvalid id = true ∨ isGlobalScope t = false then t.global_count
              else (t.global_count + 1) % U32) ∧
          t1.definitions =
            (if defIdIsInvalid id = true ∨ isGlobalScope t = true then
              t.definitions ++ [varRecord tag x ty offset]
            else
              updFunc (t.definitions ++ [varRecord tag x ty offset])
                t.current_func.index (addLocal id))) := by
    intro offset tag h
    cases hdef : define t { tag := tag, ident := x, body := DefBody.var { data_type := ty, offset := offset } } with
    | none => rw [hdef] at h; cases h
    | some r =>
      obtain ⟨self1, def_id⟩ := r
      rw [hdef] at h
      simp only at h
      obtain ⟨_, hcase⟩ := define_post t self1 _ def_id hinv hdef
      simp only at hcase
      by_cases hid : defIdIsInvalid def_id = true
      · rw [if_pos hid] at h
        simp only [Option.some.injEq, Prod.mk.injEq] at h
        obtain ⟨rfl, rfl⟩ := h
        rcases hcase with ⟨h1, h2, h3⟩ | ⟨h1, h2, h3, h4, h5⟩
        · exact Or.inl ⟨h1, h2, h3⟩
        · refine Or.inr ⟨h1, h2.id_eq, h4, ?_, ?_⟩
          · rw [if_pos (Or.inl hid)]; exact h5
          · rw [if_pos (Or.inl hid)]; exact h3
      · rw [if_neg hid] at h
        rcases hcase with ⟨_, _, h3⟩ | ⟨h1, h2, h3, h4, h5⟩
        · exact absurd ((defIdIsInvalid_iff def_id).mpr h3) hid
        · have hgs := isGlobalScope_of_pushed t self1 x def_id h2
          by_cases hg : isGlobalScope self1 = true
          · rw [if_pos hg] at h
            simp only [Option.some.injEq, Prod.mk.injEq] at h
            obtain ⟨rfl, rfl⟩ := h
            rw [hgs] at hg
            refine Or.inr ⟨h1, h2.id_eq, h4, ?_, ?_⟩
            · simp [hid, hg, h5]
            · simp [hg, h3, varRecord]
          · rw [if_neg hg] at h
            rw [hgs] at hg
            simp only [Bool.not_eq_true] at hg hid
            rw [symtabIndex_eq] at h
            by_cases hci : defIdIsInvalid self1.current_func = true
            · simp only [hci, if_true] at h; cases h
            · simp only [Bool.not_eq_true] at hci
              simp only [hci, Bool.false_eq_true, if_false] at h
              cases hfd : self1.definitions[self1.current_func.index]? with
              | none => rw [hfd] at h; cases h
              | some fd =>
                rw [hfd] at h
                simp only at h
                cases hbody : fd.body with
                | var v => rw [hbody] at h; cases h
                | func f =>
                  rw [hbody] at h
                  simp only [Option.some.injEq, Prod.mk.injEq] at h
                  obtain ⟨rfl, rfl⟩ := h
                  refine Or.inr ⟨h1, h2.id_eq, h4, ?_, ?_⟩
                  · simp [hg, h5]
                  · simp only [hid, hg, Bool.false_eq_true, or_self, if_false]
                    have := updFunc_of_some self1.definitions self1.current_func.index
                      (addLocal def_id) fd f hfd hbody
                    rw [h3, h4]
                    rw [h3, h4] at this
                    exact this
  by_cases hg : isGlobalScope t = true
  · rw [if_pos hg] at h
    simp only at h
    rcases key _ _ h with h1 | ⟨h1, h2, h3, h4, h5⟩
    · exact Or.inl h1
    · refine Or.inr ⟨h1, h2, h3, Or.inl ⟨hg, ?_, ?_⟩⟩
      · simpa [hg] using h5
      · simpa [hg] using h4
  · rw [if_neg hg] at h
    simp only [Bool.not_eq_true] at hg
    cases hcf : symtabCurrentFunc t with
    | none => rw [hcf] at h; cases h
    | some r =>
      cases r with
      | none => rw [hcf] at h; cases h
      | some f =>
        rw [hcf] at h
        simp only at h
        rcases key _ _ h with h1 | ⟨h1, h2, h3, h4, h5⟩
        · exact Or.inl h1
        · refine Or.inr ⟨h1, h2, h3, Or.inr ⟨hg, ?_, f, rfl, ?_⟩⟩
          · simpa [hg] using h4
          · simpa [hg, vecLen] using h5

/-- What a returning `symtabDefineParam` has done to the definition store. -/
theorem symtabDefineParam_effect (t t1 : Symtab) (x : Key) (ty : DataType) (ok : Bool)
    (hinv : SymInv t) (h : symtabDefineParam t x ty = some (t1, ok)) :
    isGlobalScope t = false ∧
      ((declaredInScope t x ∧ t1 = t ∧ ok = false) ∨
        (¬ declaredInScope t x ∧ ok = !defIdIsInvalid { index := t.definitions.length } ∧
          t1.current_func = t.current_func ∧ t1.global_count = t.global_count ∧
          ∃ f, symtabCurrentFunc t = some (some f) ∧
            t1.definitions =
              (if defIdIsInvalid { index := t.definitions.length } then
                t.definitions ++ [varRecord DefTag.SYM_DEF_LOCAL_VAR x ty f.local_vars.length]
              else
                updFunc (updFunc (t.definitions ++
                    [varRecord DefTag.SYM_DEF_LOCAL_VAR x ty f.local_vars.length])
                    t.current_func.index (addLocal { index := t.definitions.length }))
                  t.current_func.index incParam))) := by
  unfold symtabDefineParam at h
  by_cases hg : isGlobalScope t = true
  · rw [if_pos hg] at h; cases h
  · rw [if_neg hg] at h
    simp only [Bool.not_eq_true] at hg
    refine ⟨hg, ?_⟩
    cases hvar : symtabDefineVar t x ty with
    | none => rw [hvar] at h; cases h
    | some r =>
      obtain ⟨self1, id⟩ := r
      rw [hvar] at h
      simp only at h
      rcases symtabDefineVar_effect t self1 x ty id hinv hvar with
        ⟨h1, h2, h3⟩ | ⟨h1, h2, h3, h4⟩
      · subst h2 h3
        rw [if_pos (by decide)] at h
        simp only [Option.some.injEq, Prod.mk.injEq] at h
        exact Or.inl ⟨h1, h.1.symm, h.2.symm⟩
      · rcases h4 with ⟨hgt, _⟩ | ⟨_, h5, f, h6, h7⟩
        · rw [hg] at hgt; cases hgt
        · subst h2
          by_cases hid : defIdIsInvalid { index := t.definitions.length } = true
          · rw [if_pos hid] at h
            simp only [Option.some.injEq, Prod.mk.injEq] at h
            obtain ⟨rfl, rfl⟩ := h
            rw [if_pos hid] at h7
            exact Or.inr ⟨h1, by rw [hid]; rfl, h3, h5, f, h6, by rw [if_pos hid]; exact h7⟩
          · rw [if_neg hid] at h
            rw [if_neg hid] at h7
            cases hfd : self1.definitions[self1.current_func.index]? with
            | none => rw [hfd] at h; cases h
            | some fd =>
              rw [hfd] at h
              simp only at h
              cases hbody : fd.body with
              | var v => rw [hbody] at h; cases h
              | func f1 =>
                rw [hbody] at h
                simp only [Option.some.injEq, Prod.mk.injEq] at h
                obtain ⟨rfl, rfl⟩ := h
                have hupd := updFunc_of_some self1.definitions self1.current_func.index
                  incParam fd f1 hfd hbody
                simp only [Bool.not_eq_true] at hid
                refine Or.inr ⟨h1, by rw [hid]; rfl, h3, h5, f, h6, ?_⟩
                simp only [hid, Bool.false_eq_true, if_false]
                rw [← h7, ← h3]
                exact hupd

theorem length_updFunc (defs : List DefInfo) (c : Nat) (g : FuncInfo → FuncInfo) :
    (updFunc defs c g).length = defs.length := by
  unfold updFunc
  cases defs[c]? with
  | none => rfl
  | some d => simp

theorem getElem?_updFunc (defs : List DefInfo) (c i : Nat) (g : FuncInfo → FuncInfo) :
    (updFunc defs c g)[i]? = if i = c then (defs[c]?).map (applyFunc g) else defs[i]? := by
  unfold updFunc
  cases hc : defs[c]? with
  | none =>
    by_cases h : i = c
    · subst h; simp [hc]
    · simp [h]
  | some d =>
    simp only [List.getElem?_set, Option.map_some']
    have hlt : c < defs.length := by
      by_contra hge
      rw [List.getElem?_eq_none (by omega)] at hc
      cases hc
    by_cases h : i = c
    · subst h; simp [hlt]
    · have h1 : ¬ c = i := fun hh => h hh.symm
      simp [h, h1]

theorem applyFunc_tag (g : FuncInfo → FuncInfo) (d : DefInfo) : (applyFunc g d).tag = d.tag := by
  unfold applyFunc
  cases d.body <;> rfl

theorem applyFunc_ident (g : FuncInfo → FuncInfo) (d : DefInfo) :
    (applyFunc g d).ident = d.ident := by
  unfold applyFunc
  cases d.body <;> rfl

theorem applyFunc_var (g : FuncInfo → FuncInfo) (d : DefInfo) (v : VarInfo)
    (h : d.body = DefBody.var v) : applyFunc g d = d := by
  unfold applyFunc
  rw [h]

theorem applyFunc_func (g : FuncInfo → FuncInfo) (d : DefInfo) (f : FuncInfo)
    (h : d.body = DefBody.func f) : (applyFunc g d).body = DefBody.func (g f) := by
  unfold applyFunc
  rw [h]

theorem applyFunc_body_func (g : FuncInfo → FuncInfo) (d : DefInfo) (f1 : FuncInfo)
    (h : (applyFunc g d).body = DefBody.func f1) : ∃ f, d.body = DefBody.func f ∧ f1 = g f := by
  cases hb : d.body with
  | var v => rw [applyFunc_var g d v hb, hb] at h; cases h
  | func f =>
    rw [applyFunc_func g d f hb] at h
    simp only [DefBody.func.injEq] at h
    exact ⟨f, rfl, h.symm⟩

theorem applyFunc_body_var (g : FuncInfo → FuncInfo) (d : DefInfo) (v : VarInfo)
    (h : (applyFunc g d).body = DefBody.var v) : d.body = DefBody.var v := by
  cases hb : d.body with
  | var v1 => rw [applyFunc_var g d v1 hb, hb] at h; exact h
  | func f => rw [applyFunc_func g d f hb] at h; cases h

/-- The records of the store after `updFunc`, one by one. -/
theorem updFunc_cases (defs : List DefInfo) (c i : Nat) (g : FuncInfo → FuncInfo)
    (d1 : DefInfo) (h : (updFunc defs c g)[i]? = some d1) :
    ∃ d, defs[i]? = some d ∧ (d1 = d ∨ (i = c ∧ d1 = applyFunc g d)) := by
  rw [getElem?_updFunc] at h
  by_cases hi : i = c
  · rw [if_pos hi] at h
    subst hi
    cases hd : defs[i]? with
    | none => rw [hd] at h; cases h
    | some d =>
      rw [hd] at h
      simp only [Option.map_some', Option.some.injEq] at h
      exact ⟨d, rfl, Or.inr ⟨rfl, h.symm⟩⟩
  · rw [if_neg hi] at h
    exact ⟨d1, h, Or.inl rfl⟩

theorem updFunc_var (defs : List DefInfo) (c i : Nat) (g : FuncInfo → FuncInfo)
    (d : DefInfo) (v : VarInfo) (h : defs[i]? = some d) (hb : d.body = DefBody.var v) :
    (updFunc defs c g)[i]? = some d := by
  rw [getElem?_updFunc]
  by_cases hi : i = c
  · rw [if_pos hi]
    subst hi
    rw [h]
    simp only [Option.map_some', applyFunc_var g d v hb]
  · rw [if_neg hi]; exact h

theorem getElem?_concat_cases (defs : List DefInfo) (r d : DefInfo) (i : Nat)
    (h : (defs ++ [r])[i]? = some d) :
    defs[i]? = some d ∨ (i = defs.length ∧ d = r) := by
  by_cases hi : i < defs.length
  · rw [List.getElem?_append_left hi] at h
    exact Or.inl h
  · by_cases hi2 : i = defs.length
    · subst hi2
      simp only [List.getElem?_concat_length, Option.some.injEq] at h
      exact Or.inr ⟨rfl, h.symm⟩
    · rw [List.getElem?_eq_none (by simp; omega)] at h
      cases h

theorem getElem?_concat_of_some (defs : List DefInfo) (r d : DefInfo) (i : Nat)
    (h : defs[i]? = some d) : (defs ++ [r])[i]? = some d := by
  have hlt : i < defs.length := by
    by_contra hge
    rw [List.getElem?_eq_none (by omega)] at h
    cases h
  rw [List.getElem?_append_left hlt]
  exact h

theorem Shape_append (defs : List DefInfo) (r : DefInfo) (hs : Shape defs)
    (hr : r.tag = DefTag.SYM_DEF_FUNC ↔ ∃ f, r.body = DefBody.func f) :
    Shape (defs ++ [r]) := by
  intro i d hd
  rcases getElem?_concat_cases defs r d i hd with h | ⟨_, h⟩
  · exact hs i d h
  · rw [h]; exact hr

theorem Shape_updFunc (defs : List DefInfo) (c : Nat) (g : FuncInfo → FuncInfo)
    (hs : Shape defs) : Shape (updFunc defs c g) := by
  intro i d1 hd1
  obtain ⟨d, hd, hcase⟩ := updFunc_cases defs c i g d1 hd1
  rcases hcase with h | ⟨_, h⟩
  · rw [h]; exact hs i d hd
  · rw [h, applyFunc_tag]
    constructor
    · intro ht
      obtain ⟨f, hf⟩ := (hs i d hd).mp ht
      exact ⟨g f, applyFunc_func g d f hf⟩
    · rintro ⟨f1, hf1⟩
      obtain ⟨f, hf, _⟩ := applyFunc_body_func g d f1 hf1
      exact (hs i d hd).mpr ⟨f, hf⟩

theorem ItemOk_append (defs : List DefInfo) (r : DefInfo) (hs : ItemOk defs)
    (hr : ∀ f, r.body = DefBody.func f → f.item_id = INVALID_ITEM_ID) :
    ItemOk (defs ++ [r]) := by
  intro i d f hd hb
  rcases getElem?_concat_cases defs r d i hd with h | ⟨_, h⟩
  · exact hs i d f h hb
  · rw [h] at hb; exact hr f hb

theorem ItemOk_updFunc (defs : List DefInfo) (c : Nat) (g : FuncInfo → FuncInfo)
    (hs : ItemOk defs) (hg : ∀ f, (g f).item_id = f.item_id) : ItemOk (updFunc defs c g) := by
  intro i d1 f1 hd1 hb1
  obtain ⟨d, hd, hcase⟩ := updFunc_cases defs c i g d1 hd1
  rcases hcase with h | ⟨_, h⟩
  · rw [h] at hb1; exact hs i d f1 hd hb1
  · rw [h] at hb1
    obtain ⟨f, hf, hf1⟩ := applyFunc_body_func g d f1 hb1
    rw [hf1, hg]
    exact hs i d f hd hf

theorem CurOk_append (defs : List DefInfo) (r : DefInfo) (cur : DefId)
    (hc : CurOk defs cur) : CurOk (defs ++ [r]) cur := by
  rcases hc with h | ⟨d, f, h1, h2, h3⟩
  · exact Or.inl h
  · exact Or.inr ⟨d, f, getElem?_concat_of_some defs r d _ h1, h2, h3⟩

theorem CurOk_updFunc (defs : List DefInfo) (c : Nat) (g : FuncInfo → FuncInfo) (cur : DefId)
    (hc : CurOk defs cur) : CurOk (updFunc defs c g) cur := by
  rcases hc with h | ⟨d, f, h1, h2, h3⟩
  · exact Or.inl h
  · right
    rw [getElem?_updFunc]
    by_cases hi : cur.index = c
    · rw [if_pos hi, ← hi, h1]
      exact ⟨applyFunc g d, g f, rfl, by rw [applyFunc_tag]; exact h2, applyFunc_func g d f h3⟩
    · rw [if_neg hi]
      exact ⟨d, f, h1, h2, h3⟩

theorem LocalsOk_append (defs : List DefInfo) (r : DefInfo) (hs : LocalsOk defs)
    (hr : ∀ f, r.body = DefBody.func f → f.local_vars = []) : LocalsOk (defs ++ [r]) := by
  intro i d f hd hb j id hj
  rcases getElem?_concat_cases defs r d i hd with h | ⟨_, h⟩
  · obtain ⟨dv, v, h1, h2, h3, h4⟩ := hs i d f h hb j id hj
    exact ⟨dv, v, getElem?_concat_of_some defs r dv _ h1, h2, h3, h4⟩
  · rw [h] at hb
    rw [hr f hb] at hj
    simp at hj

theorem LocalsOk_updFunc (defs : List DefInfo) (c : Nat) (g : FuncInfo → FuncInfo)
    (hs : LocalsOk defs) (hg : ∀ f, (g f).local_vars = f.local_vars) :
    LocalsOk (updFunc defs c g) := by
  intro i d1 f1 hd1 hb1 j id hj
  obtain ⟨d, hd, hcase⟩ := updFunc_cases defs c i g d1 hd1
  have hold : ∃ f, d.body = DefBody.func f ∧ f.local_vars[j]? = some id := by
    rcases hcase with h | ⟨_, h⟩
    · rw [h] at hb1; exact ⟨f1, hb1, hj⟩
    · rw [h] at hb1
      obtain ⟨f, hf, hf1⟩ := applyFunc_body_func g d f1 hb1
      rw [hf1, hg] at hj
      exact ⟨f, hf, hj⟩
  obtain ⟨f, hf, hjf⟩ := hold
  obtain ⟨dv, v, h1, h2, h3, h4⟩ := hs i d f hd hf j id hjf
  exact ⟨dv, v, updFunc_var defs c _ g dv v h1 h3, h2, h3, h4⟩

theorem LocalsOk_addLocal (defs : List DefInfo) (c : Nat) (id : DefId) (hs : LocalsOk defs)
    (hnew : ∀ fd f, defs[c]? = some fd → fd.body = DefBody.func f →
      ∃ dv v, defs[id.index]? = some dv ∧ dv.tag = DefTag.SYM_DEF_LOCAL_VAR ∧
        dv.body = DefBody.var v ∧ v.offset = f.local_vars.length) :
    LocalsOk (updFunc defs c (addLocal id)) := by
  intro i d1 f1 hd1 hb1 j id1 hj
  obtain ⟨d, hd, hcase⟩ := updFunc_cases defs c i (addLocal id) d1 hd1
  have hold : ∃ dv v, defs[id1.index]? = some dv ∧ dv.tag = DefTag.SYM_DEF_LOCAL_VAR ∧
      dv.body = DefBody.var v ∧ v.offset = j := by
    rcases hcase with h | ⟨hic, h⟩
    · rw [h] at hb1; exact hs i d f1 hd hb1 j id1 hj
    · rw [h] at hb1
      obtain ⟨f, hf, hf1⟩ := applyFunc_body_func (addLocal id) d f1 hb1
      rw [hf1] at hj
      simp only [addLocal] at hj
      by_cases hjl : j < f.local_vars.length
      · rw [List.getElem?_append_left hjl] at hj
        exact hs i d f hd hf j id1 hj
      · by_cases hj2 : j = f.local_vars.length
        · subst hj2
          simp only [List.getElem?_concat_length, Option.some.injEq] at hj
          subst hj
          subst hic
          exact hnew d f hd hf
        · rw [List.getElem?_eq_none (by simp; omega)] at hj
          cases hj
  obtain ⟨dv, v, h1, h2, h3, h4⟩ := hold
  exact ⟨dv, v, updFunc_var defs c _ _ dv v h1 h3, h2, h3, h4⟩

theorem filter_set_of_same (p : DefInfo → Bool) :
    ∀ (l : List DefInfo) (c : Nat) (d d1 : DefInfo), l[c]? = some d → p d1 = p d →
      (p d = true → d1 = d) → (l.set c d1).filter p = l.filter p := by
  intro l
  induction l with
  | nil => intro c d d1 h; simp at h
  | cons a rest ih =>
    intro c d d1 h hp hd
    cases c with
    | zero =>
      simp only [List.getElem?_cons_zero, Option.some.injEq] at h
      subst h
      simp only [List.set_cons_zero, List.filter_cons, hp]
      cases hpa : p a with
      | true => rw [hd hpa]
      | false => simp
    | succ c =>
      simp only [List.getElem?_cons_succ] at h
      simp only [List.set_cons_succ, List.filter_cons]
      rw [ih c d d1 h hp hd]

theorem globalOffsets_append (defs : List DefInfo) (r : DefInfo) :
    globalOffsets (defs ++ [r])
      = globalOffsets defs ++ (if isGlobalVar r then [offsetOf r] else []) := by
  unfold globalOffsets
  rw [List.filter_append, List.map_append]
  cases h : isGlobalVar r <;> simp [List.filter_cons, h]

theorem globalOffsets_updFunc (defs : List DefInfo) (c : Nat) (g : FuncInfo → FuncInfo)
    (hs : Shape defs) : globalOffsets (updFunc defs c g) = globalOffsets defs := by
  unfold globalOffsets updFunc
  cases hc : defs[c]? with
  | none => rfl
  | some d =>
    simp only
    rw [filter_set_of_same isGlobalVar defs c d (applyFunc g d) hc]
    · simp only [isGlobalVar, applyFunc_tag]
    · intro hgv
      simp only [isGlobalVar, decide_eq_true_eq] at hgv
      cases hb : d.body with
      | var v => exact applyFunc_var g d v hb
      | func f =>
        have := (hs c d hc).mpr ⟨f, hb⟩
        rw [this] at hgv
        cases hgv

theorem globalOffsets_length_le (defs : List DefInfo) :
    (globalOffsets defs).length ≤ defs.length := by
  unfold globalOffsets
  rw [List.length_map]
  exact List.length_filter_le _ _

theorem not_invalid_of_lt (n : Nat) (h : n < NOVAL) :
    defIdIsInvalid { index := n } = false := by
  simp only [defIdIsInvalid, decide_eq_false_iff_not]
  simp only [NOVAL] at h
  omega

theorem StoreInv_funcRecord (defs : List DefInfo) (cur : DefId) (gc : Nat) (x : Key)
    (ty : DataType) (h : StoreInv defs cur gc) :
    StoreInv (defs ++ [funcRecord x ty]) { index := defs.length } gc := by
  refine ⟨Shape_append defs _ h.shape ?_, ?_, ItemOk_append defs _ h.item ?_,
    LocalsOk_append defs _ h.locals ?_, ?_⟩
  · simp [funcRecord]
  · right
    exact ⟨funcRecord x ty, _, by simp, rfl, rfl⟩
  · intro f hf
    simp only [funcRecord, DefBody.func.injEq] at hf
    rw [← hf]
  · intro f hf
    simp only [funcRecord, DefBody.func.injEq] at hf
    rw [← hf]
  · intro hlen
    rw [globalOffsets_append]
    have h1 : isGlobalVar (funcRecord x ty) = false := by
      simp [isGlobalVar, funcRecord]
    rw [h1]
    simp only [Bool.false_eq_true, if_false, List.append_nil]
    apply h.globals
    simp only [List.length_append, List.length_singleton] at hlen
    omega

theorem StoreInv_globalVar (defs : List DefInfo) (cur : DefId) (gc : Nat) (x : Key)
    (ty : DataType) (h : StoreInv defs cur gc) :
    StoreInv (defs ++ [varRecord DefTag.SYM_DEF_GLOBAL_VAR x ty gc]) cur
      (if defIdIsInvalid { index := defs.length } then gc else (gc + 1) % U32) := by
  refine ⟨Shape_append defs _ h.shape ?_, CurOk_append defs _ cur h.cur,
    ItemOk_append defs _ h.item ?_, LocalsOk_append defs _ h.locals ?_, ?_⟩
  · simp [varRecord]
  · intro f hf; simp [varRecord] at hf
  · intro f hf; simp [varRecord] at hf
  · intro hlen
    simp only [List.length_append, List.length_singleton] at hlen
    have hold := h.globals (by omega)
    have hgc : gc ≤ defs.length := by
      have := globalOffsets_length_le defs
      rw [hold, List.length_range] at this
      exact this
    rw [not_invalid_of_lt defs.length (by omega)]
    simp only [Bool.false_eq_true, if_false]
    have hU := NOVAL_succ
    rw [Nat.mod_eq_of_lt (by omega), globalOffsets_append, hold, List.range_succ]
    have h1 : isGlobalVar (varRecord DefTag.SYM_DEF_GLOBAL_VAR x ty gc) = true := by
      simp [isGlobalVar, varRecord]
    rw [h1]
    simp [offsetOf, varRecord]

theorem StoreInv_localVar (defs : List DefInfo) (cur : DefId) (gc : Nat) (x : Key)
    (ty : DataType) (off : Nat) (h : StoreInv defs cur gc) :
    StoreInv (defs ++ [varRecord DefTag.SYM_DEF_LOCAL_VAR x ty off]) cur gc := by
  refine ⟨Shape_append defs _ h.shape ?_, CurOk_append defs _ cur h.cur,
    ItemOk_append defs _ h.item ?_, LocalsOk_append defs _ h.locals ?_, ?_⟩
  · simp [varRecord]
  · intro f hf; simp [varRecord] at hf
  · intro f hf; simp [varRecord] at hf
  · intro hlen
    simp only [List.length_append, List.length_singleton] at hlen
    rw [globalOffsets_append]
    have h1 : isGlobalVar (varRecord DefTag.SYM_DEF_LOCAL_VAR x ty off) = false := by
      simp [isGlobalVar, varRecord]
    rw [h1]
    simp only [Bool.false_eq_true, if_false, List.append_nil]
    exact h.globals (by omega)

theorem StoreInv_updFunc (defs : List DefInfo) (cur : DefId) (gc c : Nat)
    (g : FuncInfo → FuncInfo) (h : StoreInv defs cur gc)
    (hitem : ∀ f, (g f).item_id = f.item_id)
    (hloc : LocalsOk (updFunc defs c g)) : StoreInv (updFunc defs c g) cur gc := by
  refine ⟨Shape_updFunc defs c g h.shape, CurOk_updFunc defs c g cur h.cur,
    ItemOk_updFunc defs c g h.item hitem, hloc, ?_⟩
  intro hlen
  rw [length_updFunc] at hlen
  rw [globalOffsets_updFunc defs c g h.shape]
  exact h.globals hlen

/-- The store after a successful definition of a local variable. -/
theorem StoreInv_addLocal (defs : List DefInfo) (cur : DefId) (gc : Nat) (x : Key)
    (ty : DataType) (d0 : DefInfo) (f0 : FuncInfo) (h : StoreInv defs cur gc)
    (hd0 : defs[cur.index]? = some d0) (hb0 : d0.body = DefBody.func f0) :
    StoreInv (updFunc (defs ++ [varRecord DefTag.SYM_DEF_LOCAL_VAR x ty f0.local_vars.length])
      cur.index (addLocal { index := defs.length })) cur gc := by
  have h1 := StoreInv_localVar defs cur gc x ty f0.local_vars.length h
  apply StoreInv_updFunc _ cur gc cur.index (addLocal { index := defs.length }) h1
    (fun f => rfl)
  apply LocalsOk_addLocal _ _ _ h1.locals
  intro fd f hfd hfb
  have h2 := getElem?_concat_of_some defs
    (varRecord DefTag.SYM_DEF_LOCAL_VAR x ty f0.local_vars.length) d0 _ hd0
  rw [h2] at hfd
  simp only [Option.some.injEq] at hfd
  subst hfd
  rw [hb0] at hfb
  simp only [DefBody.func.injEq] at hfb
  subst hfb
  exact ⟨varRecord DefTag.SYM_DEF_LOCAL_VAR x ty f0.local_vars.length,
    { data_type := ty, offset := f0.local_vars.length }, by simp, rfl, rfl, rfl⟩

theorem StoreInv_incParam (defs : List DefInfo) (cur : DefId) (gc c : Nat)
    (h : StoreInv defs cur gc) : StoreInv (updFunc defs c incParam) cur gc :=
  StoreInv_updFunc defs cur gc c incParam h (fun _ => rfl)
    (LocalsOk_updFunc defs c incParam h.locals (fun _ => rfl))

theorem DefInv_symtabNew : DefInv symtabNew := by
  refine ⟨?_, Or.inl (by decide), ?_, ?_, ?_⟩
  · intro i d h; simp [symtabNew] at h
  · intro i d f h; simp [symtabNew] at h
  · intro i d f h; simp [symtabNew] at h
  · intro _; rfl

theorem DefInv_symtabDefineFunc (t t1 : Symtab) (x : Key) (ty : DataType) (ok : Bool)
    (hinv : SymInv t) (hd : DefInv t) (h : symtabDefineFunc t x ty = some (t1, ok)) :
    DefInv t1 := by
  obtain ⟨_, hcase⟩ := symtabDefineFunc_effect t t1 x ty ok hinv h
  rcases hcase with ⟨_, h2, _⟩ | ⟨_, h2, h3, h4, _⟩
  · subst h2
    exact ⟨hd.shape, Or.inl ((defIdIsInvalid_iff _).mpr rfl), hd.item, hd.locals, hd.globals⟩
  · unfold DefInv
    rw [h2, h3, h4]
    exact StoreInv_funcRecord _ _ _ x ty hd

theorem DefInv_symtabDefineVar (t t1 : Symtab) (x : Key) (ty : DataType) (id : DefId)
    (hinv : SymInv t) (hd : DefInv t) (h : symtabDefineVar t x ty = some (t1, id)) :
    DefInv t1 := by
  rcases symtabDefineVar_effect t t1 x ty id hinv h with ⟨_, h2, _⟩ | ⟨_, h2, h3, h4⟩
  · rw [h2]; exact hd
  · unfold DefInv
    rcases h4 with ⟨_, h5, h6⟩ | ⟨hg, h5, f, h6, h7⟩
    · rw [h5, h6, h3, h2]
      exact StoreInv_globalVar _ _ _ x ty hd
    · rw [h5, h3, h7]
      obtain ⟨d0, _, hd0, hb0, _⟩ := symtabCurrentFunc_some t f hg h6
      by_cases hid : defIdIsInvalid id = true
      · rw [if_pos hid]
        exact StoreInv_localVar _ _ _ x ty _ hd
      · rw [if_neg hid, h2]
        exact StoreInv_addLocal _ _ _ x ty d0 f hd hd0 hb0

theorem DefInv_symtabDefineParam (t t1 : Symtab) (x : Key) (ty : DataType) (ok : Bool)
    (hinv : SymInv t) (hd : DefInv t) (h : symtabDefineParam t x ty = some (t1, ok)) :
    DefInv t1 := by
  obtain ⟨hg, hcase⟩ := symtabDefineParam_effect t t1 x ty ok hinv h
  rcases hcase with ⟨_, h2, _⟩ | ⟨_, _, h3, h4, f, h6, h7⟩
  · rw [h2]; exact hd
  · unfold DefInv
    rw [h4, h3, h7]
    obtain ⟨d0, _, hd0, hb0, _⟩ := symtabCurrentFunc_some t f hg h6
    by_cases hid : defIdIsInvalid { index := t.definitions.length } = true
    · rw [if_pos hid]
      exact StoreInv_localVar _ _ _ x ty _ hd
    · rw [if_neg hid]
      exact StoreInv_incParam _ _ _ _ (StoreInv_addLocal _ _ _ x ty d0 f hd hd0 hb0)

theorem DefInv_symtabScopeLeave (t t1 : Symtab) (hinv : SymInv t) (hd : DefInv t)
    (h : symtabScopeLeave t = some t1) : DefInv t1 := by
  obtain ⟨_, _, top, _, _, _, _, h1, h2, h3⟩ := symtabScopeLeave_post t t1 hinv h
  unfold DefInv
  rw [h1, h2, h3]
  exact hd

/-- Every reachable symbol table satisfies the invariant of the definition store. -/
theorem SymReachable.defInv {t : Symtab} (h : SymReachable t) : DefInv t := by
  induction h with
  | new => exact DefInv_symtabNew
  | defineFunc hr hop ih => exact DefInv_symtabDefineFunc _ _ _ _ _ hr.inv ih hop
  | defineParam hr hop ih => exact DefInv_symtabDefineParam _ _ _ _ _ hr.inv ih hop
  | defineVar hr hop ih => exact DefInv_symtabDefineVar _ _ _ _ _ hr.inv ih hop
  | scopeEnter _ ih => exact ih
  | scopeLeave hr hop ih => exact DefInv_symtabScopeLeave _ _ hr.inv ih hop

theorem SymHist.reachable {t : Symtab} {calls : Nat → Nat} {last : Option DefId}
    {failed : Bool} (h : SymHist t calls last failed) : SymReachable t := by
  induction h with
  | new => exact SymReachable.new
  | defineFunc _ hop ih => exact SymReachable.defineFunc ih hop
  | defineParam _ hop ih => exact SymReachable.defineParam ih hop
  | defineVar _ hop ih => exact SymReachable.defineVar ih hop
  | scopeEnter _ ih => exact SymReachable.scopeEnter ih
  | scopeLeave _ hop ih => exact SymReachable.scopeLeave ih hop

/-- Every reachable symbol table has a history. -/
theorem SymReachable.hist {t : Symtab} (h : SymReachable t) :
    ∃ calls last failed, SymHist t calls last failed := by
  induction h with
  | new => exact ⟨_, _, _, SymHist.new⟩
  | defineFunc _ hop ih =>
    obtain ⟨c, l, f, hh⟩ := ih
    exact ⟨_, _, _, SymHist.defineFunc hh hop⟩
  | defineParam _ hop ih =>
    obtain ⟨c, l, f, hh⟩ := ih
    exact ⟨_, _, _, SymHist.defineParam hh hop⟩
  | defineVar _ hop ih =>
    obtain ⟨c, l, f, hh⟩ := ih
    exact ⟨_, _, _, SymHist.defineVar hh hop⟩
  | scopeEnter _ ih =>
    obtain ⟨c, l, f, hh⟩ := ih
    exact ⟨_, _, _, SymHist.scopeEnter hh⟩
  | scopeLeave _ hop ih =>
    obtain ⟨c, l, f, hh⟩ := ih
    exact ⟨_, _, _, SymHist.scopeLeave hh hop⟩

theorem ParamInv_append (defs : List DefInfo) (calls : Nat → Nat) (r : DefInfo)
    (h : ParamInv defs calls)
    (hr : ∀ f, r.body = DefBody.func f → f.param_count = 0) : ParamInv (defs ++ [r]) calls := by
  refine ⟨?_, ?_⟩
  · intro i d f hd hb
    rcases getElem?_concat_cases defs r d i hd with h1 | ⟨h1, h2⟩
    · exact h.count i d f h1 hb
    · rw [h2] at hb
      rw [h.zero i (by omega), hr f hb]
      exact ⟨rfl, Nat.zero_le _⟩
  · intro i hi
    simp only [List.length_append, List.length_singleton] at hi
    exact h.zero i (by omega)

theorem ParamInv_updFunc (defs : List DefInfo) (calls : Nat → Nat) (c : Nat)
    (g : FuncInfo → FuncInfo) (h : ParamInv defs calls)
    (hg : ∀ f, (g f).param_count = f.param_count ∧ f.local_vars.length ≤ (g f).local_vars.length) :
    ParamInv (updFunc defs c g) calls := by
  refine ⟨?_, ?_⟩
  · intro i d1 f1 hd1 hb1
    obtain ⟨d, hd, hcase⟩ := updFunc_cases defs c i g d1 hd1
    rcases hcase with h1 | ⟨_, h1⟩
    · rw [h1] at hb1; exact h.count i d f1 hd hb1
    · rw [h1] at hb1
      obtain ⟨f, hf, hf1⟩ := applyFunc_body_func g d f1 hb1
      obtain ⟨h2, h3⟩ := h.count i d f hd hf
      rw [hf1, (hg f).1]
      exact ⟨h2, le_trans h3 (hg f).2⟩
  · intro i hi
    rw [length_updFunc] at hi
    exact h.zero i hi

/-- A successful parameter definition: one more local variable and one more parameter
for the function at index `c`, and one more counted call. -/
theorem ParamInv_param (defs : List DefInfo) (calls : Nat → Nat) (c : Nat) (id : DefId)
    (h : ParamInv defs calls) (hc : c < defs.length) :
    ParamInv (updFunc (updFunc defs c (addLocal id)) c incParam)
      (fun i => if i = c then calls i + 1 else calls i) := by
  refine ⟨?_, ?_⟩
  · intro i d2 f2 hd2 hb2
    obtain ⟨d1, hd1, hcase1⟩ := updFunc_cases _ c i incParam d2 hd2
    obtain ⟨d, hd, hcase⟩ := updFunc_cases defs c i (addLocal id) d1 hd1
    by_cases hi : i = c
    · subst hi
      show f2.param_count = (if i = i then calls i + 1 else calls i) % U32 ∧
        (if i = i then calls i + 1 else calls i) ≤ f2.local_vars.length
      rw [if_pos rfl]
      have e1 := getElem?_updFunc defs i i (addLocal id)
      rw [if_pos rfl, hd, hd1] at e1
      have e2 := getElem?_updFunc (updFunc defs i (addLocal id)) i i incParam
      rw [if_pos rfl, hd1, hd2] at e2
      simp only [Option.map_some', Option.some.injEq] at e1 e2
      rw [e2] at hb2
      obtain ⟨f1, hf1, hf2⟩ := applyFunc_body_func incParam d1 f2 hb2
      rw [e1] at hf1
      obtain ⟨f, hf, hf1'⟩ := applyFunc_body_func (addLocal id) d f1 hf1
      obtain ⟨h2, h3⟩ := h.count i d f hd hf
      rw [hf2, hf1']
      simp only [incParam, addLocal, List.length_append, List.length_singleton]
      rw [h2]
      exact ⟨by rw [Nat.mod_add_mod], by omega⟩
    · show f2.param_count = (if i = c then calls i + 1 else calls i) % U32 ∧
        (if i = c then calls i + 1 else calls i) ≤ f2.local_vars.length
      rw [if_neg hi]
      have e1 : d1 = d := by
        rcases hcase with h1 | ⟨h1, _⟩
        · exact h1
        · exact absurd h1 hi
      have e2 : d2 = d1 := by
        rcases hcase1 with h1 | ⟨h1, _⟩
        · exact h1
        · exact absurd h1 hi
      rw [e2, e1] at hb2
      exact h.count i d f2 hd hb2
  · intro i hi
    rw [length_updFunc, length_updFunc] at hi
    show (if i = c then calls i + 1 else calls i) = 0
    rw [if_neg (by omega)]
    exact h.zero i hi

theorem symtabCurrentFunc_lt (t : Symtab) (f : FuncInfo) (hg : isGlobalScope t = false)
    (h : symtabCurrentFunc t = some (some f)) : t.current_func.index < t.definitions.length := by
  obtain ⟨d, _, hd, _⟩ := symtabCurrentFunc_some t f hg h
  by_contra hge
  rw [List.getElem?_eq_none (by omega)] at hd
  cases hd

/-- The parameter counts of a symbol table with a history agree with the history. -/
theorem SymHist.paramInv {t : Symtab} {calls : Nat → Nat} {last : Option DefId}
    {failed : Bool} (h : SymHist t calls last failed) : ParamInv t.definitions calls := by
  induction h with
  | new =>
    refine ⟨?_, fun _ _ => rfl⟩
    intro i d f hd
    simp [symtabNew] at hd
  | defineFunc hh hop ih =>
    obtain ⟨_, hcase⟩ := symtabDefineFunc_effect _ _ _ _ _ hh.reachable.inv hop
    rcases hcase with ⟨_, h2, _⟩ | ⟨_, h2, _⟩
    · rw [h2]; exact ih
    · rw [h2]
      apply ParamInv_append _ _ _ ih
      intro f hf
      simp only [funcRecord, DefBody.func.injEq] at hf
      rw [← hf]
  | @defineParam t t1 calls last failed x ty ok hh hop ih =>
    obtain ⟨hg, hcase⟩ := symtabDefineParam_effect _ _ _ _ _ hh.reachable.inv hop
    rcases hcase with ⟨_, h2, h3⟩ | ⟨_, h2, _, _, f, h6, h7⟩
    · subst h3
      rw [h2]
      simpa using ih
    · rw [h7]
      by_cases hid : defIdIsInvalid { index := t.definitions.length } = true
      · rw [hid] at h2
        simp only [Bool.not_true] at h2
        subst h2
        rw [if_pos hid]
        simp only [Bool.false_eq_true, false_and, if_false]
        apply ParamInv_append _ _ _ ih
        intro f1 hf1
        simp [varRecord] at hf1
      · simp only [Bool.not_eq_true] at hid
        rw [hid] at h2
        simp only [Bool.not_false] at h2
        subst h2
        simp only [hid, Bool.false_eq_true, if_false, true_and]
        apply ParamInv_param
        · apply ParamInv_append _ _ _ ih
          intro f1 hf1
          simp [varRecord] at hf1
        · have := symtabCurrentFunc_lt t f hg h6
          simp only [List.length_append, List.length_singleton]
          omega
  | @defineVar t t1 calls last failed x ty id hh hop ih =>
    rcases symtabDefineVar_effect _ _ _ _ _ hh.reachable.inv hop with
      ⟨_, h2, _⟩ | ⟨_, _, _, h4⟩
    · rw [h2]; exact ih
    · have hvar : ∀ tag off, ParamInv (t.definitions ++ [varRecord tag x ty off]) calls := by
        intro tag off
        apply ParamInv_append _ _ _ ih
        intro f1 hf1
        simp [varRecord] at hf1
      rcases h4 with ⟨_, h5, _⟩ | ⟨_, _, f, _, h7⟩
      · rw [h5]; exact hvar _ _
      · rw [h7]
        by_cases hid : defIdIsInvalid id = true
        · rw [if_pos hid]; exact hvar _ _
        · rw [if_neg hid]
          apply ParamInv_updFunc _ _ _ _ (hvar _ _)
          intro f1
          simp [addLocal]
  | scopeEnter _ ih => exact ih
  | scopeLeave hh hop ih =>
    obtain ⟨_, _, top, _, _, _, _, h1, _⟩ := symtabScopeLeave_post _ _ hh.reachable.inv hop
    rw [h1]; exact ih

/-- The current function of a symbol table with a history agrees with the history. -/
theorem SymHist.lastInv {t : Symtab} {calls : Nat → Nat} {last : Option DefId}
    {failed : Bool} (h : SymHist t calls last failed) : LastInv t.current_func last failed := by
  induction h with
  | new =>
    unfold LastInv
    exact ⟨fun h => (by cases h), fun _ => rfl⟩
  | @defineFunc t t1 calls last failed x ty ok hh hop ih =>
    obtain ⟨_, hcase⟩ := symtabDefineFunc_effect _ _ _ _ _ hh.reachable.inv hop
    unfold LastInv
    rcases hcase with ⟨_, h2, h3⟩ | ⟨_, _, h3, _, h5⟩
    · subst h3 h2
      exact ⟨fun _ => rfl, fun h => by cases h⟩
    · cases ok with
      | true =>
        refine ⟨fun h => (by cases h), fun _ => ?_⟩
        rw [if_pos rfl]
        refine ⟨rfl, ?_⟩
        rw [h3]
        cases hv : defIdIsInvalid { index := t.definitions.length } with
        | false => rfl
        | true => rw [hv] at h5; cases h5
      | false =>
        refine ⟨fun _ => ?_, fun h => by cases h⟩
        rw [h3]
        apply (defIdIsInvalid_iff _).mp
        cases hv : defIdIsInvalid { index := t.definitions.length } with
        | true => rfl
        | false => rw [hv] at h5; cases h5
  | defineParam hh hop ih =>
    obtain ⟨_, hcase⟩ := symtabDefineParam_effect _ _ _ _ _ hh.reachable.inv hop
    rcases hcase with ⟨_, h2, _⟩ | ⟨_, _, h3, _⟩
    · rw [h2]; exact ih
    · rw [h3]; exact ih
  | defineVar hh hop ih =>
    rcases symtabDefineVar_effect _ _ _ _ _ hh.reachable.inv hop with
      ⟨_, h2, _⟩ | ⟨_, _, h3, _⟩
    · rw [h2]; exact ih
    · rw [h3]; exact ih
  | scopeEnter _ ih => exact ih
  | scopeLeave hh hop ih =>
    obtain ⟨_, _, top, _, _, _, _, _, h2, _⟩ := symtabScopeLeave_post _ _ hh.reachable.inv hop
    rw [h2]; exact ih

/-! ### The claims about the definition store -/

theorem symtabCurrentFunc_global_iff (t : Symtab) :
    symtabCurrentFunc t = some none ↔ isGlobalScope t = true := by
  unfold symtabCurrentFunc
  by_cases hg : isGlobalScope t = true
  · simp [hg]
  · simp only [hg, if_false, iff_false]
    cases symtabIndex t t.current_func with
    | none => simp
    | some i =>
      simp only
      cases t.definitions[i]? with
      | none => simp
      | some d =>
        simp only
        by_cases ht : d.tag = DefTag.SYM_DEF_FUNC
        · rw [if_pos ht]
          cases d.body with
          | func f => simp
          | var v => simp
        · rw [if_neg ht]; simp

theorem symtabCurrentFunc_of_record (t : Symtab) (d : DefInfo) (f : FuncInfo)
    (hg : isGlobalScope t = false) (hv : defIdIsInvalid t.current_func = false)
    (hd : t.definitions[t.current_func.index]? = some d) (ht : d.tag = DefTag.SYM_DEF_FUNC)
    (hb : d.body = DefBody.func f) : symtabCurrentFunc t = some (some f) := by
  unfold symtabCurrentFunc symtabIndex
  simp only [hg, hv, Bool.false_eq_true, if_false, hd, ht, if_true, hb]

theorem symtabCurrentFunc_invalid (t : Symtab) (hg : isGlobalScope t = false)
    (hv : t.current_func = INVALID_DEF_ID) : symtabCurrentFunc t = none := by
  unfold symtabCurrentFunc symtabIndex
  have : defIdIsInvalid t.current_func = true := (defIdIsInvalid_iff _).mpr hv
  simp only [hg, this, Bool.false_eq_true, if_false, if_true]

/-- C20: `symtabNew` has an empty definition store, an empty declaration stack, the
scope-count stack `[0]` (so it is at global scope), the invalid `current_func` and
`global_count` 0; on it `symtabResolve` returns `INVALID_DEF_ID` for every identifier and
`symtabCurrentFunc` returns the NULL pointer. -/
theorem symtabNew_spec :
    symtabNew.definitions = [] ∧ symtabNew.decl = [] ∧ symtabNew.vars_in_scope = [0] ∧
      isGlobalScope symtabNew = true ∧ symtabNew.current_func = INVALID_DEF_ID ∧
      defIdIsInvalid symtabNew.current_func = true ∧ symtabNew.global_count = 0 ∧
      (∀ x, symtabResolve symtabNew x = some INVALID_DEF_ID) ∧
      symtabCurrentFunc symtabNew = some none := by
  refine ⟨rfl, rfl, rfl, by decide, rfl, by decide, rfl, ?_, by decide⟩
  intro x
  rw [symtabResolve_eq symtabNew x SymInv_symtabNew.core]
  rcases lastIdx_cases symtabNew.decl x with ⟨h, _⟩ | ⟨h, _⟩
  · unfold resolveSpec
    rw [if_pos h]
  · simp [symtabNew] at h

/-- C19: in a reachable symbol table, a successful `symtabDefineFunc(x, ty)` was made at
global scope; it appends the function record with the identifier `x`, the return type
`ty`, the invalid item id, `param_count` 0 and no local variables, and sets `current_func`
to the id of that record (the length of the store before the call); `global_count` and all
earlier records are as before. -/
theorem symtabDefineFunc_success (t t1 : Symtab) (x : Key) (ty : DataType)
    (hr : SymReachable t) (h : symtabDefineFunc t x ty = some (t1, true)) :
    isGlobalScope t = true ∧
      t1.definitions = t.definitions ++
        [{ tag := DefTag.SYM_DEF_FUNC, ident := x,
           body := DefBody.func { item_id := INVALID_ITEM_ID, return_type := ty,
                                  local_vars := [], param_count := 0 } }] ∧
      t1.current_func = { index := t.definitions.length } ∧
      defIdIsInvalid t1.current_func = false ∧
      t1.global_count = t.global_count ∧
      (∀ (i : Nat) (d : DefInfo), t.definitions[i]? = some d → t1.definitions[i]? = some d) := by
  obtain ⟨hg, hcase⟩ := symtabDefineFunc_effect t t1 x ty true hr.inv h
  rcases hcase with ⟨_, _, h3⟩ | ⟨_, h2, h3, h4, h5⟩
  · cases h3
  · refine ⟨hg, h2, h3, ?_, h4, ?_⟩
    · rw [h3]
      cases hv : defIdIsInvalid { index := t.definitions.length } with
      | false => rfl
      | true => rw [hv] at h5; cases h5
    · intro i d hd
      rw [h2]
      exact getElem?_concat_of_some _ _ _ _ hd

theorem symtabDefineFunc_success_witness :
    symtabDefineFunc symtabNew keyF 0 = some (exTabF, true) ∧
      (isGlobalScope symtabNew = true ∧
        exTabF.definitions = symtabNew.definitions ++
          [{ tag := DefTag.SYM_DEF_FUNC, ident := keyF,
             body := DefBody.func { item_id := INVALID_ITEM_ID, return_type := 0,
                                    local_vars := [], param_count := 0 } }] ∧
        exTabF.current_func = { index := symtabNew.definitions.length } ∧
        defIdIsInvalid exTabF.current_func = false ∧
        exTabF.global_count = symtabNew.global_count ∧
        (∀ (i : Nat) (d : DefInfo), symtabNew.definitions[i]? = some d →
          exTabF.definitions[i]? = some d)) :=
  ⟨by decide, symtabDefineFunc_success symtabNew exTabF keyF 0 SymReachable.new (by decide)⟩

/-- C17, refuted as stated: on the new symbol table, whose definition store is empty,
`symtabIndex` does not yield the NULL pointer for the id 0, but the address of
`definitions[0]`, which lies outside the store. -/
theorem symtabIndex_not_bounds_checked :
    symtabNew.definitions.length = 0 ∧ symtabIndex symtabNew { index := 0 } = some 0 ∧
      symtabNew.definitions[0]? = none :=
  ⟨rfl, rfl, rfl⟩

/-- C17, as the code has it: `symtabIndex` yields the NULL pointer exactly for
`INVALID_DEF_ID`; for every other id it yields the address of `definitions[id.index]`
without looking at the length of the store, which is the address of the stored record when
the id is below that length. -/
theorem symtabIndex_spec (t : Symtab) (id : DefId) :
    (symtabIndex t id = none ↔ id = INVALID_DEF_ID) ∧
      (id ≠ INVALID_DEF_ID → symtabIndex t id = some id.index) ∧
      (id ≠ INVALID_DEF_ID → id.index < t.definitions.length →
        ∃ d, symtabIndex t id = some id.index ∧ t.definitions[id.index]? = some d) := by
  have hne : id ≠ INVALID_DEF_ID → symtabIndex t id = some id.index := by
    intro h
    rw [symtabIndex_eq]
    have : ¬ defIdIsInvalid id = true := fun hv => h ((defIdIsInvalid_iff id).mp hv)
    rw [if_neg this]
  refine ⟨?_, hne, ?_⟩
  · constructor
    · intro h
      by_contra hv
      rw [hne hv] at h
      cases h
    · intro h
      rw [symtabIndex_eq, if_pos ((defIdIsInvalid_iff id).mpr h)]
  · intro h hlt
    exact ⟨t.definitions[id.index], hne h, List.getElem?_eq_getElem hlt⟩

theorem symtabIndex_spec_witness :
    (({ index := 0 } : DefId) ≠ INVALID_DEF_ID ∧ 0 < exTabF.definitions.length) ∧
      ∃ d, symtabIndex exTabF { index := 0 } = some 0 ∧ exTabF.definitions[0]? = some d :=
  ⟨⟨by decide, by decide⟩,
    (symtabIndex_spec exTabF { index := 0 }).2.2 (by decide) (by decide)⟩

/-- C18, refuted as stated: after a successful `symtabDefineFunc("f")`, a second
`symtabDefineFunc("f")`, which fails, and `symtabScopeEnter`, the table is in a non-global
scope and the most recently successfully defined function is "f" with the id 0, whose
function record is in the store, but `current_func` is invalid and `symtabCurrentFunc`
has no result: it reads the tag through the NULL pointer. -/
theorem symtabCurrentFunc_after_failed_definition :
    SymHist exTabDupScope (fun _ => 0) (some { index := 0 }) true ∧
      isGlobalScope exTabDupScope = false ∧
      exTabDupScope.definitions[0]? = some (funcRecord keyF 0) ∧
      exTabDupScope.current_func = INVALID_DEF_ID ∧
      symtabIndex exTabDupScope exTabDupScope.current_func = none ∧
      symtabCurrentFunc exTabDupScope = none :=
  ⟨SymHist.scopeEnter
      (@SymHist.defineFunc exTabF (afterDefineFunc exTabF keyF 0) (fun _ => 0)
        (some { index := 0 }) false keyF 0 false
        (@SymHist.defineFunc symtabNew exTabF (fun _ => 0) none false keyF 0 true
          SymHist.new (by decide))
        (by decide)),
    by decide, by decide, by decide, by decide, by decide⟩

/-- C18, as the code has it: in a reachable symbol table, `symtabCurrentFunc` returns the
NULL pointer exactly at global scope, whatever `current_func` is; in a non-global scope,
when the most recent `symtabDefineFunc` call succeeded and defined the function with the
id `n`, the assertion on the tag holds and the function information of the record `n` is
returned; when the most recent `symtabDefineFunc` call failed or there was none,
`current_func` is invalid and there is no result. -/
theorem symtabCurrentFunc_spec (t : Symtab) (calls : Nat → Nat) (last : Option DefId)
    (failed : Bool) (h : SymHist t calls last failed) :
    (symtabCurrentFunc t = some none ↔ isGlobalScope t = true) ∧
      (isGlobalScope t = false → failed = false → ∀ n, last = some n →
        ∃ d f, t.definitions[n.index]? = some d ∧ d.tag = DefTag.SYM_DEF_FUNC ∧
          d.body = DefBody.func f ∧ symtabCurrentFunc t = some (some f)) ∧
      (isGlobalScope t = false → (failed = true ∨ last = none) →
        symtabCurrentFunc t = none) := by
  have hl := h.lastInv
  have hc := h.reachable.defInv.cur
  refine ⟨symtabCurrentFunc_global_iff t, ?_, ?_⟩
  · intro hg hf n hn
    have h2 := hl.2 hf
    rw [hn] at h2
    obtain ⟨h3, h4⟩ := h2
    rcases hc with hc | ⟨d, f, hd, ht, hb⟩
    · rw [h3, h4] at hc; cases hc
    · refine ⟨d, f, ?_, ht, hb, symtabCurrentFunc_of_record t d f hg ?_ hd ht hb⟩
      · rw [← h3]; exact hd
      · rw [h3]; exact h4
  · intro hg hf
    apply symtabCurrentFunc_invalid t hg
    cases hfd : failed with
    | true => exact hl.1 hfd
    | false =>
      have h2 := hl.2 hfd
      rcases hf with hf | hf
      · rw [hfd] at hf; cases hf
      · rw [hf] at h2; exact h2

theorem symtabCurrentFunc_spec_witness :
    SymHist (symtabScopeEnter exTabF) (fun _ => 0) (some { index := 0 }) false ∧
      isGlobalScope (symtabScopeEnter exTabF) = false ∧
      ∃ d f, (symtabScopeEnter exTabF).definitions[0]? = some d ∧
        d.tag = DefTag.SYM_DEF_FUNC ∧ d.body = DefBody.func f ∧
        symtabCurrentFunc (symtabScopeEnter exTabF) = some (some f) :=
  ⟨SymHist.scopeEnter
      (@SymHist.defineFunc symtabNew exTabF (fun _ => 0) none false keyF 0 true
        SymHist.new (by decide)),
    by decide,
    (symtabCurrentFunc_spec (symtabScopeEnter exTabF) (fun _ => 0) (some { index := 0 }) false
      (SymHist.scopeEnter
        (@SymHist.defineFunc symtabNew exTabF (fun _ => 0) none false keyF 0 true
          SymHist.new (by decide)))).2.1 (by decide) rfl { index := 0 } rfl⟩

/-- A function has at most as many local variables as the store has records. -/
theorem LocalsOk_length_le (defs : List DefInfo) (h : LocalsOk defs) (i : Nat) (d : DefInfo)
    (f : FuncInfo) (hd : defs[i]? = some d) (hb : d.body = DefBody.func f) :
    f.local_vars.length ≤ defs.length := by
  have hnd : (f.local_vars.map (fun id => id.index)).Nodup := by
    rw [List.nodup_iff_getElem?_ne_getElem?]
    intro a b hab hlen heq
    rw [List.length_map] at hlen
    have ha : a < f.local_vars.length := by omega
    rw [List.getElem?_map, List.getElem?_map, List.getElem?_eq_getElem ha,
      List.getElem?_eq_getElem hlen] at heq
    simp only [Option.map_some', Option.some.injEq] at heq
    obtain ⟨dv1, v1, h1, _, h3, h4⟩ := h i d f hd hb a _ (List.getElem?_eq_getElem ha)
    obtain ⟨dv2, v2, k1, _, k3, k4⟩ := h i d f hd hb b _ (List.getElem?_eq_getElem hlen)
    rw [heq, k1] at h1
    simp only [Option.some.injEq] at h1
    subst h1
    rw [k3] at h3
    simp only [DefBody.var.injEq] at h3
    subst h3
    omega
  have hsub : f.local_vars.map (fun id => id.index) ⊆ List.range defs.length := by
    intro n hn
    rw [List.mem_map] at hn
    obtain ⟨id, hid, rfl⟩ := hn
    obtain ⟨j, hj⟩ := List.mem_iff_getElem?.mp hid
    obtain ⟨dv, v, h1, _⟩ := h i d f hd hb j id hj
    rw [List.mem_range]
    by_contra hge
    rw [List.getElem?_eq_none (by omega)] at h1
    cases h1
  have := (List.subperm_of_subset hnd hsub).length_le
  simpa using this

/-- Within the 32 bit index range the parameter count of a function is the number of
successful parameter definitions of its history. -/
theorem SymHist.param_count_eq {t : Symtab} {calls : Nat → Nat} {last : Option DefId}
    {failed : Bool} (h : SymHist t calls last failed) (hroom : t.definitions.length ≤ NOVAL)
    (i : Nat) (d : DefInfo) (f : FuncInfo) (hd : t.definitions[i]? = some d)
    (hb : d.body = DefBody.func f) :
    f.param_count = calls i ∧ f.param_count ≤ t.definitions.length := by
  obtain ⟨h1, h2⟩ := h.paramInv.count i d f hd hb
  have h3 := LocalsOk_length_le _ h.reachable.defInv.locals i d f hd hb
  have h4 : calls i < U32 := by
    simp only [NOVAL] at hroom
    simp only [U32]
    omega
  rw [Nat.mod_eq_of_lt h4] at h1
  exact ⟨h1, by omega⟩

/-- The store after a successful parameter definition, record by record. -/
theorem getElem?_param_store (defs : List DefInfo) (r : DefInfo) (c : Nat) (id : DefId)
    (d0 : DefInfo) (f : FuncInfo) (hd0 : defs[c]? = some d0) (hb0 : d0.body = DefBody.func f) :
    (updFunc (updFunc (defs ++ [r]) c (addLocal id)) c incParam)[c]? =
        some { d0 with body := DefBody.func (incParam (addLocal id f)) } ∧
      ∀ (i : Nat) (d : DefInfo), i ≠ c → defs[i]? = some d →
        (updFunc (updFunc (defs ++ [r]) c (addLocal id)) c incParam)[i]? = some d := by
  constructor
  · rw [getElem?_updFunc, if_pos rfl, getElem?_updFunc, if_pos rfl,
      getElem?_concat_of_some defs r d0 c hd0]
    simp [applyFunc, hb0]
  · intro i d hi hd
    rw [getElem?_updFunc, if_neg hi, getElem?_updFunc, if_neg hi]
    exact getElem?_concat_of_some defs r d i hd

/-- The store after a successful definition of a local variable, record by record. -/
theorem getElem?_local_store (defs : List DefInfo) (r : DefInfo) (c : Nat) (id : DefId)
    (d0 : DefInfo) (f : FuncInfo) (hd0 : defs[c]? = some d0) (hb0 : d0.body = DefBody.func f) :
    (updFunc (defs ++ [r]) c (addLocal id))[c]? =
        some { d0 with body := DefBody.func (addLocal id f) } ∧
      (updFunc (defs ++ [r]) c (addLocal id))[defs.length]? = some r ∧
      ∀ (i : Nat) (d : DefInfo), i ≠ c → defs[i]? = some d →
        (updFunc (defs ++ [r]) c (addLocal id))[i]? = some d := by
  have hc : c < defs.length := by
    by_contra hge
    rw [List.getElem?_eq_none (by omega)] at hd0
    cases hd0
  refine ⟨?_, ?_, ?_⟩
  · rw [getElem?_updFunc, if_pos rfl, getElem?_concat_of_some defs r d0 c hd0]
    simp [applyFunc, hb0]
  · rw [getElem?_updFunc, if_neg (by omega)]
    simp
  · intro i d hi hd
    rw [getElem?_updFunc, if_neg hi]
    exact getElem?_concat_of_some defs r d i hd

theorem SymHist_exTabF : SymHist exTabF (fun _ => 0) (some { index := 0 }) false :=
  @SymHist.defineFunc symtabNew exTabF (fun _ => 0) none false keyF 0 true SymHist.new
    (by decide)

/-- C11: in a symbol table with a history (a reachable one) whose store lies within the
32 bit index range, the `param_count` of every function record is the number of
successful `symtabDefineParam` calls made while that function was the current one.  In a
non-global scope with the valid current function `f`, `symtabDefineParam` returns when the
table has room; a successful call leaves the current function with `param_count` one
higher and every other record as it was, and a failed call leaves every record as it was. -/
theorem symtabDefineParam_param_count (t : Symtab) (calls : Nat → Nat) (last : Option DefId)
    (failed : Bool) (x : Key) (ty : DataType) (h : SymHist t calls last failed)
    (hroom : t.definitions.length ≤ NOVAL) :
    (∀ (i : Nat) (d : DefInfo) (f : FuncInfo), t.definitions[i]? = some d →
        d.body = DefBody.func f → f.param_count = calls i) ∧
      (∀ f, isGlobalScope t = false → symtabCurrentFunc t = some (some f) →
        (Fits t → ∃ t1 ok, symtabDefineParam t x ty = some (t1, ok)) ∧
        (∀ t1, symtabDefineParam t x ty = some (t1, true) →
          (∃ d1 f1, t1.definitions[t.current_func.index]? = some d1 ∧
            d1.tag = DefTag.SYM_DEF_FUNC ∧ d1.body = DefBody.func f1 ∧
            f1.param_count = f.param_count + 1) ∧
          (∀ (i : Nat) (d : DefInfo), i ≠ t.current_func.index →
            t.definitions[i]? = some d → t1.definitions[i]? = some d)) ∧
        (∀ t1, symtabDefineParam t x ty = some (t1, false) →
          ∀ (i : Nat) (d : DefInfo), t.definitions[i]? = some d →
            t1.definitions[i]? = some d)) := by
  refine ⟨fun i d f hd hb => (h.param_count_eq hroom i d f hd hb).1, ?_⟩
  intro f hg hf
  obtain ⟨d0, _, hd0, hb0, ht0⟩ := symtabCurrentFunc_some t f hg hf
  refine ⟨?_, ?_, ?_⟩
  · intro hfit
    obtain ⟨t1, ok, h1, _⟩ := symtabDefineParam_spec t x ty h.reachable.inv hg ⟨f, hf⟩ hfit
    exact ⟨t1, ok, h1⟩
  · intro t1 hop
    obtain ⟨_, hcase⟩ := symtabDefineParam_effect t t1 x ty true h.reachable.inv hop
    rcases hcase with ⟨_, _, h3⟩ | ⟨_, h2, _, _, f1, h6, h7⟩
    · cases h3
    · have hv : defIdIsInvalid { index := t.definitions.length } = false := by
        cases hv : defIdIsInvalid { index := t.definitions.length } with
        | false => rfl
        | true => rw [hv] at h2; cases h2
      rw [hf] at h6
      simp only [Option.some.injEq] at h6
      subst h6
      rw [hv] at h7
      simp only [Bool.false_eq_true, if_false] at h7
      obtain ⟨k1, k2⟩ := getElem?_param_store t.definitions
        (varRecord DefTag.SYM_DEF_LOCAL_VAR x ty f.local_vars.length) t.current_func.index
        { index := t.definitions.length } d0 f hd0 hb0
      rw [h7]
      refine ⟨⟨_, _, k1, ht0, rfl, ?_⟩, k2⟩
      have hle := (h.param_count_eq hroom _ d0 f hd0 hb0).2
      have hne : t.definitions.length ≠ NOVAL := by
        intro he
        rw [he] at hv
        revert hv
        decide
      simp only [incParam, addLocal]
      apply Nat.mod_eq_of_lt
      simp only [NOVAL] at hroom hne
      simp only [U32]
      omega
  · intro t1 hop i d hd
    obtain ⟨_, hcase⟩ := symtabDefineParam_effect t t1 x ty false h.reachable.inv hop
    rcases hcase with ⟨_, h2, _⟩ | ⟨_, h2, _, _, f1, _, h7⟩
    · rw [h2]; exact hd
    · have hv : defIdIsInvalid { index := t.definitions.length } = true := by
        cases hv : defIdIsInvalid { index := t.definitions.length } with
        | true => rfl
        | false => rw [hv] at h2; cases h2
      rw [hv] at h7
      simp only [if_true] at h7
      rw [h7]
      exact getElem?_concat_of_some _ _ _ _ hd

theorem symtabDefineParam_param_count_witness :
    (SymHist (symtabScopeEnter exTabF) (fun _ => 0) (some { index := 0 }) false ∧
        (symtabScopeEnter exTabF).definitions.length ≤ NOVAL ∧
        symtabDefineParam (symtabScopeEnter exTabF) keyA intType = some (scenParam, true)) ∧
      ∃ d1 f1, scenParam.definitions[(symtabScopeEnter exTabF).current_func.index]? = some d1 ∧
        d1.tag = DefTag.SYM_DEF_FUNC ∧ d1.body = DefBody.func f1 ∧
        f1.param_count = (scenFunc [] 0).param_count + 1 :=
  ⟨⟨SymHist.scopeEnter SymHist_exTabF, by decide, by decide⟩,
    ((symtabDefineParam_param_count (symtabScopeEnter exTabF) (fun _ => 0)
      (some { index := 0 }) false keyA intType (SymHist.scopeEnter SymHist_exTabF)
      (by decide)).2 (scenFunc [] 0) (by decide) (by decide)).2.1 scenParam (by decide) |>.1⟩

theorem invalid_cases (n : Nat) (hroom : n ≤ NOVAL) :
    (defIdIsInvalid { index := n } = true ∧ n = NOVAL) ∨
      (defIdIsInvalid { index := n } = false ∧ n < NOVAL) := by
  by_cases h : n = NOVAL
  · left
    exact ⟨(defIdIsInvalid_iff _).mpr (by rw [h]; rfl), h⟩
  · right
    have : n < NOVAL := by omega
    exact ⟨not_invalid_of_lt n this, this⟩

theorem reachable_scenParam : SymReachable scenParam :=
  @SymReachable.defineParam (symtabScopeEnter exTabF) scenParam keyA intType true
    (SymReachable.scopeEnter reachable_exTabF) (by decide)

theorem reachable_exTabX : SymReachable exTabX :=
  @SymReachable.defineVar symtabNew exTabX keyX intType { index := 0 } SymReachable.new
    (by decide)

/-- C12: in a reachable symbol table whose store lies within the 32 bit index range,
`global_count` is the number of global variable records of the store, and the `i`-th of
them has the offset `i`.  At global scope `symtabDefineVar` returns when `x` is declared or
the table has room; a successful call appends a global variable record whose offset is
`global_count` before the call and increments `global_count` by 1; a failed one leaves
`global_count` as it is.  Two globals "x", "y" defined in this order on a new table get the
offsets 0 and 1, and `global_count` ends at 2. -/
theorem global_offsets (t : Symtab) (x : Key) (ty : DataType) (hr : SymReachable t)
    (hroom : t.definitions.length ≤ NOVAL) :
    (t.definitions.filter isGlobalVar).length = t.global_count ∧
      (∀ (i : Nat) (d : DefInfo), (t.definitions.filter isGlobalVar)[i]? = some d →
        ∃ v, d.tag = DefTag.SYM_DEF_GLOBAL_VAR ∧ d.body = DefBody.var v ∧ v.offset = i) ∧
      (isGlobalScope t = true →
        ((declaredInScope t x ∨ Fits t) → ∃ t1 id, symtabDefineVar t x ty = some (t1, id)) ∧
        (∀ t1 id, symtabDefineVar t x ty = some (t1, id) → id ≠ INVALID_DEF_ID →
          id = { index := t.definitions.length } ∧
          t1.definitions = t.definitions ++
            [{ tag := DefTag.SYM_DEF_GLOBAL_VAR, ident := x,
               body := DefBody.var { data_type := ty, offset := t.global_count } }] ∧
          t1.global_count = t.global_count + 1) ∧
        (∀ t1, symtabDefineVar t x ty = some (t1, INVALID_DEF_ID) →
          t1.global_count = t.global_count)) ∧
      (symtabDefineVar symtabNew keyX intType = some (exTabX, { index := 0 }) ∧
        symtabDefineVar exTabX keyY intType = some (exTabXY, { index := 1 }) ∧
        exTabXY.definitions =
          [{ tag := DefTag.SYM_DEF_GLOBAL_VAR, ident := keyX,
             body := DefBody.var { data_type := intType, offset := 0 } },
           { tag := DefTag.SYM_DEF_GLOBAL_VAR, ident := keyY,
             body := DefBody.var { data_type := intType, offset := 1 } }] ∧
        exTabXY.global_count = 2) := by
  have hoff := hr.defInv.globals hroom
  have hlen : (t.definitions.filter isGlobalVar).length = t.global_count := by
    have := congrArg List.length hoff
    simpa [globalOffsets] using this
  refine ⟨hlen, ?_, ?_, by decide, by decide, by decide, by decide⟩
  · intro i d hd
    have hmem : d ∈ t.definitions.filter isGlobalVar := List.mem_iff_getElem?.mpr ⟨i, hd⟩
    rw [List.mem_filter] at hmem
    obtain ⟨hmem, htag⟩ := hmem
    simp only [isGlobalVar, decide_eq_true_eq] at htag
    obtain ⟨k, hk⟩ := List.mem_iff_getElem?.mp hmem
    have hshape := hr.defInv.shape k d hk
    have hi : (globalOffsets t.definitions)[i]? = some (offsetOf d) := by
      unfold globalOffsets
      rw [List.getElem?_map, hd]
      rfl
    rw [hoff] at hi
    have hi2 : offsetOf d = i := by
      have hlt : i < t.global_count := by
        by_contra hge
        rw [List.getElem?_eq_none (by simpa using hge)] at hi
        cases hi
      rw [List.getElem?_range hlt] at hi
      simp only [Option.some.injEq] at hi
      exact hi.symm
    cases hb : d.body with
    | func f =>
      have := hshape.mpr ⟨f, hb⟩
      rw [htag] at this
      cases this
    | var v =>
      refine ⟨v, htag, rfl, ?_⟩
      unfold offsetOf at hi2
      rw [hb] at hi2
      exact hi2
  · intro hg
    refine ⟨?_, ?_, ?_⟩
    · intro hfit
      obtain ⟨t1, id, h1, _⟩ := symtabDefineVar_spec t x ty hr.inv (Or.inl hg) hfit
      exact ⟨t1, id, h1⟩
    · intro t1 id hop hid
      rcases symtabDefineVar_effect t t1 x ty id hr.inv hop with
        ⟨_, _, h3⟩ | ⟨_, h2, _, h4⟩
      · exact absurd h3 hid
      · rcases h4 with ⟨_, h5, h6⟩ | ⟨hg2, _⟩
        · refine ⟨h2, h5, ?_⟩
          have hv : ¬ defIdIsInvalid id = true := fun hv => hid ((defIdIsInvalid_iff id).mp hv)
          rw [if_neg hv] at h6
          rw [h6]
          apply Nat.mod_eq_of_lt
          have hl := List.length_filter_le isGlobalVar t.definitions
          rcases invalid_cases t.definitions.length hroom with ⟨hc, _⟩ | ⟨_, hc⟩
          · rw [h2] at hv; exact absurd hc hv
          · simp only [NOVAL] at hc
            simp only [U32]
            omega
        · rw [hg] at hg2; cases hg2
    · intro t1 hop
      rcases symtabDefineVar_effect t t1 x ty INVALID_DEF_ID hr.inv hop with
        ⟨_, h2, _⟩ | ⟨_, _, _, h4⟩
      · rw [h2]
      · rcases h4 with ⟨_, _, h6⟩ | ⟨_, h5, _⟩
        · rw [h6, if_pos ((defIdIsInvalid_iff _).mpr rfl)]
        · exact h5

theorem global_offsets_witness :
    (SymReachable exTabX ∧ exTabX.definitions.length ≤ NOVAL ∧ isGlobalScope exTabX = true ∧
        symtabDefineVar exTabX keyY intType = some (exTabXY, { index := 1 })) ∧
      (({ index := 1 } : DefId) = { index := exTabX.definitions.length } ∧
        exTabXY.definitions = exTabX.definitions ++
          [{ tag := DefTag.SYM_DEF_GLOBAL_VAR, ident := keyY,
             body := DefBody.var { data_type := intType, offset := exTabX.global_count } }] ∧
        exTabXY.global_count = exTabX.global_count + 1) :=
  ⟨⟨reachable_exTabX, by decide, by decide, by decide⟩,
    ((global_offsets exTabX keyY intType reachable_exTabX (by decide)).2.2.1 (by decide)).2.1
      exTabXY { index := 1 } (by decide) (by decide)⟩

/-- C13: in a reachable symbol table, for every function record `f` of the store and every
`j` below the number of its local variables, the definition at the `j`-th id of
`f.local_vars` is a local variable record with the offset `j`.  In a non-global scope with
the valid current function `f`, `symtabDefineVar` returns when `x` is declared or the table
has room, and a successful call creates a local variable record whose offset is the number
of ids in `f.local_vars` before the call and appends the new id to that list. -/
theorem local_offsets (t : Symtab) (x : Key) (ty : DataType) (hr : SymReachable t) :
    (∀ (i : Nat) (d : DefInfo) (f : FuncInfo), t.definitions[i]? = some d →
        d.body = DefBody.func f → ∀ j, j < f.local_vars.length →
          ∃ id dv v, f.local_vars[j]? = some id ∧ t.definitions[id.index]? = some dv ∧
            dv.tag = DefTag.SYM_DEF_LOCAL_VAR ∧ dv.body = DefBody.var v ∧ v.offset = j) ∧
      (∀ f, isGlobalScope t = false → symtabCurrentFunc t = some (some f) →
        ((declaredInScope t x ∨ Fits t) → ∃ t1 id, symtabDefineVar t x ty = some (t1, id)) ∧
        (∀ t1 id, symtabDefineVar t x ty = some (t1, id) → id ≠ INVALID_DEF_ID →
          id = { index := t.definitions.length } ∧
          t1.definitions[id.index]? =
            some { tag := DefTag.SYM_DEF_LOCAL_VAR, ident := x,
                   body := DefBody.var { data_type := ty, offset := f.local_vars.length } } ∧
          (∃ d1 f1, t1.definitions[t.current_func.index]? = some d1 ∧
            d1.tag = DefTag.SYM_DEF_FUNC ∧ d1.body = DefBody.func f1 ∧
            f1.local_vars = f.local_vars ++ [id]) ∧
          t1.current_func = t.current_func ∧
          (∀ (i : Nat) (d : DefInfo), i ≠ t.current_func.index →
            t.definitions[i]? = some d → t1.definitions[i]? = some d))) := by
  constructor
  · intro i d f hd hb j hj
    obtain ⟨dv, v, h1, h2, h3, h4⟩ :=
      hr.defInv.locals i d f hd hb j _ (List.getElem?_eq_getElem hj)
    exact ⟨_, dv, v, List.getElem?_eq_getElem hj, h1, h2, h3, h4⟩
  · intro f hg hf
    obtain ⟨d0, _, hd0, hb0, ht0⟩ := symtabCurrentFunc_some t f hg hf
    constructor
    · intro hfit
      obtain ⟨t1, id, h1, _⟩ := symtabDefineVar_spec t x ty hr.inv (Or.inr ⟨f, hf⟩) hfit
      exact ⟨t1, id, h1⟩
    · intro t1 id hop hid
      rcases symtabDefineVar_effect t t1 x ty id hr.inv hop with
        ⟨_, _, h3⟩ | ⟨_, h2, h3, h4⟩
      · exact absurd h3 hid
      · rcases h4 with ⟨hg2, _⟩ | ⟨_, _, f1, h6, h7⟩
        · rw [hg] at hg2; cases hg2
        · rw [hf] at h6
          simp only [Option.some.injEq] at h6
          subst h6
          have hv : ¬ defIdIsInvalid id = true := fun hv => hid ((defIdIsInvalid_iff id).mp hv)
          rw [if_neg hv] at h7
          obtain ⟨k1, k2, k3⟩ := getElem?_local_store t.definitions
            (varRecord DefTag.SYM_DEF_LOCAL_VAR x ty f.local_vars.length) t.current_func.index
            id d0 f hd0 hb0
          rw [h7]
          refine ⟨h2, ?_, ⟨_, _, k1, ht0, rfl, rfl⟩, h3, k3⟩
          rw [h2]
          rw [h2] at k2
          exact k2

theorem local_offsets_witness :
    (SymReachable scenParam ∧ isGlobalScope scenParam = false ∧
        symtabCurrentFunc scenParam = some (some (scenFunc [{ index := 1 }] 1)) ∧
        symtabDefineVar scenParam keyB intType = some (scenVar, { index := 2 })) ∧
      (({ index := 2 } : DefId) = { index := scenParam.definitions.length } ∧
        scenVar.definitions[2]? =
          some { tag := DefTag.SYM_DEF_LOCAL_VAR, ident := keyB,
                 body := DefBody.var { data_type := intType,
                                       offset := (scenFunc [{ index := 1 }] 1).local_vars.length } }) :=
  ⟨⟨reachable_scenParam, by decide, by decide, by decide⟩,
    ⟨(((local_offsets scenParam keyB intType reachable_scenParam).2
        (scenFunc [{ index := 1 }] 1) (by decide) (by decide)).2
        scenVar { index := 2 } (by decide) (by decide)).1,
      (((local_offsets scenParam keyB intType reachable_scenParam).2
        (scenFunc [{ index := 1 }] 1) (by decide) (by decide)).2
        scenVar { index := 2 } (by decide) (by decide)).2.1⟩⟩

/-- C14: on a new symbol table, `symtabDefineFunc("f", int)` succeeds; after
`symtabScopeEnter`, `symtabDefineParam("a", int)` succeeds and leaves "f" with
`param_count` 1 and "a" with the offset 0; `symtabDefineVar("b", int)` succeeds with the
offset 1; after `symtabScopeLeave`, `symtabResolve("f")` returns the id of "f" while
`symtabResolve("a")` and `symtabResolve("b")` return `INVALID_DEF_ID`, and the records of
"a" and "b" are still in the definition store. -/
theorem scenario_function_scope :
    symtabDefineFunc symtabNew keyF intType = some (exTabF, true) ∧
      exTabF.current_func = { index := 0 } ∧
      symtabDefineParam (symtabScopeEnter exTabF) keyA intType = some (scenParam, true) ∧
      scenParam.definitions =
        [{ tag := DefTag.SYM_DEF_FUNC, ident := keyF,
           body := DefBody.func (scenFunc [{ index := 1 }] 1) },
         { tag := DefTag.SYM_DEF_LOCAL_VAR, ident := keyA,
           body := DefBody.var { data_type := intType, offset := 0 } }] ∧
      symtabDefineVar scenParam keyB intType = some (scenVar, { index := 2 }) ∧
      scenVar.definitions[2]? =
        some { tag := DefTag.SYM_DEF_LOCAL_VAR, ident := keyB,
               body := DefBody.var { data_type := intType, offset := 1 } } ∧
      symtabScopeLeave scenVar = some scenLeft ∧
      symtabResolve scenLeft keyF = some { index := 0 } ∧
      symtabResolve scenLeft keyA = some INVALID_DEF_ID ∧
      symtabResolve scenLeft keyB = some INVALID_DEF_ID ∧
      scenLeft.definitions =
        [{ tag := DefTag.SYM_DEF_FUNC, ident := keyF,
           body := DefBody.func (scenFunc [{ index := 1 }, { index := 2 }] 1) },
         { tag := DefTag.SYM_DEF_LOCAL_VAR, ident := keyA,
           body := DefBody.var { data_type := intType, offset := 0 } },
         { tag := DefTag.SYM_DEF_LOCAL_VAR, ident := keyB,
           body := DefBody.var { data_type := intType, offset := 1 } }] := by
  refine ⟨by decide, by decide, by decide, by decide, by decide, by decide, by decide,
    by decide, by decide, by decide, by decide⟩

/-! ### The conversion into the definition table -/

theorem symtabResolve_congr (t1 t2 : Symtab) (x : Key) (hm : t1.map = t2.map)
    (hd : t1.decl = t2.decl) : symtabResolve t1 x = symtabResolve t2 x := by
  unfold symtabResolve
  rw [hm, hd]

theorem symDefTableLoop_global (rest : List Item) (p : Nat) (tab : Symtab) :
    symDefTableLoop (Item.ITEM_GLOBAL_VAR :: rest) p tab = symDefTableLoop rest (p + 1) tab := by
  simp only [symDefTableLoop]

theorem symDefTableLoop_skip (rest : List Item) (p : Nat) (tab : Symtab) (ident : Key)
    (id : DefId) (h : symtabResolve tab ident = some id) (hv : defIdIsInvalid id = true) :
    symDefTableLoop (Item.ITEM_FUNC_DEF ident :: rest) p tab
      = symDefTableLoop rest (p + 1) tab := by
  simp only [symDefTableLoop, h, symtabIndex, hv, if_true]

theorem symDefTableLoop_set (rest : List Item) (p : Nat) (tab : Symtab) (ident : Key)
    (id : DefId) (d : DefInfo) (f : FuncInfo) (h : symtabResolve tab ident = some id)
    (hv : defIdIsInvalid id = false) (hd : tab.definitions[id.index]? = some d)
    (ht : d.tag = DefTag.SYM_DEF_FUNC) (hb : d.body = DefBody.func f) :
    symDefTableLoop (Item.ITEM_FUNC_DEF ident :: rest) p tab
      = symDefTableLoop rest (p + 1)
          { tab with definitions := tab.definitions.set id.index (itemSet d f p) } := by
  simp only [symDefTableLoop, h, symtabIndex, hv, Bool.false_eq_true, if_false, hd, ht,
    if_true, hb, itemSet]

/-- What a returning loop step for a function definition has done. -/
theorem symDefTableLoop_func_inv (rest : List Item) (p : Nat) (tab tab1 : Symtab)
    (ident : Key) (h : symDefTableLoop (Item.ITEM_FUNC_DEF ident :: rest) p tab = some tab1) :
    symDefTableLoop rest (p + 1) tab = some tab1 ∨
      ∃ (id : DefId) (d : DefInfo) (f : FuncInfo),
        tab.definitions[id.index]? = some d ∧ d.body = DefBody.func f ∧
        symDefTableLoop rest (p + 1)
          { tab with definitions := tab.definitions.set id.index (itemSet d f p) }
          = some tab1 := by
  cases hres : symtabResolve tab ident with
  | none => simp [symDefTableLoop, hres] at h
  | some id =>
    cases hv : defIdIsInvalid id with
    | true =>
      rw [symDefTableLoop_skip rest p tab ident id hres hv] at h
      exact Or.inl h
    | false =>
      cases hd : tab.definitions[id.index]? with
      | none =>
        simp [symDefTableLoop, hres, symtabIndex, hv, hd] at h
      | some d =>
        by_cases ht : d.tag = DefTag.SYM_DEF_FUNC
        · cases hb : d.body with
          | var v => simp [symDefTableLoop, hres, symtabIndex, hv, hd, ht, hb] at h
          | func f =>
            rw [symDefTableLoop_set rest p tab ident id d f hres hv hd ht hb] at h
            exact Or.inr ⟨id, d, f, hd, hb, h⟩
        · simp [symDefTableLoop, hres, symtabIndex, hv, hd, ht] at h

theorem eraseItem_setItem (d : DefInfo) (f : FuncInfo) (p : Nat)
    (hb : d.body = DefBody.func f) :
    eraseItem (itemSet d f p) = eraseItem d := by
  simp [eraseItem, applyFunc, hb, itemSet]

theorem map_set_of_same (g : DefInfo → DefInfo) :
    ∀ (l : List DefInfo) (c : Nat) (d d1 : DefInfo), l[c]? = some d → g d1 = g d →
      (l.set c d1).map g = l.map g := by
  intro l
  induction l with
  | nil => intro c d d1 h; simp at h
  | cons a rest ih =>
    intro c d d1 h hg
    cases c with
    | zero =>
      simp only [List.getElem?_cons_zero, Option.some.injEq] at h
      subst h
      simp only [List.set_cons_zero, List.map_cons, hg]
    | succ c =>
      simp only [List.getElem?_cons_succ] at h
      simp only [List.set_cons_succ, List.map_cons]
      rw [ih c d d1 h hg]

/-- A returning loop of `symDefTableNew` changes nothing but item ids. -/
theorem symDefTableLoop_post :
    ∀ (items : List Item) (p : Nat) (tab tab1 : Symtab),
      symDefTableLoop items p tab = some tab1 →
      tab1.map = tab.map ∧ tab1.decl = tab.decl ∧ tab1.global_count = tab.global_count ∧
        tab1.definitions.map eraseItem = tab.definitions.map eraseItem := by
  intro items
  induction items with
  | nil =>
    intro p tab tab1 h
    simp only [symDefTableLoop, Option.some.injEq] at h
    subst h
    exact ⟨rfl, rfl, rfl, rfl⟩
  | cons it rest ih =>
    intro p tab tab1 h
    cases it with
    | ITEM_GLOBAL_VAR =>
      rw [symDefTableLoop_global] at h
      exact ih _ _ _ h
    | ITEM_FUNC_DEF ident =>
      rcases symDefTableLoop_func_inv rest p tab tab1 ident h with h1 | ⟨id, d, f, hd, hb, h1⟩
      · exact ih _ _ _ h1
      · obtain ⟨k1, k2, k3, k4⟩ := ih _ _ _ h1
        refine ⟨k1, k2, k3, ?_⟩
        rw [k4]
        exact map_set_of_same eraseItem _ _ d _ hd (eraseItem_setItem d f p hb)

theorem lastItemFrom_none (t : Symtab) (i : Nat) :
    ∀ (items : List Item) (p : Nat) (acc : Option Nat),
      (∀ (k : Nat) (it : Item), items[k]? = some it → resolvesTo t it i = false) →
      lastItemFrom t items p i acc = acc := by
  intro items
  induction items with
  | nil => intro p acc _; rfl
  | cons it rest ih =>
    intro p acc h
    have h0 := h 0 it (by simp)
    simp only [lastItemFrom, h0, Bool.false_eq_true, if_false]
    exact ih (p + 1) acc (fun k it1 hk => h (k + 1) it1 (by simpa using hk))

theorem lastItemFrom_some (t : Symtab) (i : Nat) :
    ∀ (items : List Item) (p : Nat) (acc : Option Nat) (k : Nat) (it : Item),
      items[k]? = some it → resolvesTo t it i = true →
      (∀ (q : Nat) (it1 : Item), k < q → items[q]? = some it1 → resolvesTo t it1 i = false) →
      lastItemFrom t items p i acc = some (p + k) := by
  intro items
  induction items with
  | nil => intro p acc k it h; simp at h
  | cons it0 rest ih =>
    intro p acc k it h hres hlater
    cases k with
    | zero =>
      simp only [List.getElem?_cons_zero, Option.some.injEq] at h
      subst h
      simp only [lastItemFrom, hres, if_true, Nat.add_zero]
      exact lastItemFrom_none t i rest (p + 1) (some p)
        (fun q it1 hq => hlater (q + 1) it1 (Nat.succ_pos q) (by simpa using hq))
    | succ k =>
      simp only [List.getElem?_cons_succ] at h
      simp only [lastItemFrom]
      rw [ih (p + 1) _ k it h hres
        (fun q it1 hq hq1 => hlater (q + 1) it1 (by omega) (by simpa using hq1))]
      congr 1
      omega

theorem patchRec_set (a : Option Nat) (d : DefInfo) (f : FuncInfo) (p : Nat)
    (hb : d.body = DefBody.func f) :
    ∃ f1, (patchRec a d).body = DefBody.func f1 ∧ (patchRec a d).tag = d.tag ∧
      itemSet (patchRec a d) f1 p = patchRec (some p) d := by
  cases a with
  | none => exact ⟨f, hb, rfl, by simp [patchRec, itemSet, applyFunc, hb, setItem]⟩
  | some q =>
    exact ⟨setItem q f, by simp [patchRec, applyFunc, hb], by simp [patchRec, applyFunc, hb],
      by simp [patchRec, itemSet, applyFunc, hb, setItem]⟩

theorem getElem?_set_cases (l : List DefInfo) (j i : Nat) (d d1 : DefInfo)
    (h : l[j]? = some d) :
    (l.set j d1)[i]? = if i = j then some d1 else l[i]? := by
  have hlt : j < l.length := by
    by_contra hge
    rw [List.getElem?_eq_none (by omega)] at h
    cases h
  simp only [List.getElem?_set]
  by_cases hi : i = j
  · subst hi; simp [hlt]
  · have h1 : ¬ j = i := fun hh => hi hh.symm
    simp [hi, h1]

theorem resolvesTo_invalid (t : Symtab) (ident : Key) (r : DefId) (i : Nat)
    (hres : symtabResolve t ident = some r) (hv : defIdIsInvalid r = true) :
    resolvesTo t (Item.ITEM_FUNC_DEF ident) i = false := by
  unfold resolvesTo
  simp only [hres, Option.some.injEq, Bool.and_eq_false_imp, decide_eq_true_eq]
  intro h
  rw [← h, hv]
  rfl

theorem resolvesTo_valid (t : Symtab) (ident : Key) (r : DefId) (i : Nat)
    (hres : symtabResolve t ident = some r) (hv : defIdIsInvalid r = false) :
    resolvesTo t (Item.ITEM_FUNC_DEF ident) i = decide (i = r.index) := by
  simp only [resolvesTo]
  rw [hres]
  by_cases hi : i = r.index
  · subst hi
    simp [hv]
  · have : ¬ r = { index := i } := by
      intro h
      rw [h] at hi
      exact hi rfl
    simp [hi, this]

/-- The loop of `symDefTableNew` returns when every function definition item resolves to
nothing or to a function record, and it gives every record the position of the last item
that resolves to it. -/
theorem symDefTableLoop_spec (t : Symtab) (hinv : SymInv t) (hshape : Shape t.definitions) :
    ∀ (items : List Item) (p : Nat) (tab : Symtab) (acc : Nat → Option Nat),
      (∀ ident id, Item.ITEM_FUNC_DEF ident ∈ items → symtabResolve t ident = some id →
        id = INVALID_DEF_ID ∨
          ∃ d, t.definitions[id.index]? = some d ∧ d.tag = DefTag.SYM_DEF_FUNC) →
      tab.map = t.map → tab.decl = t.decl →
      (∀ i, tab.definitions[i]? = (t.definitions[i]?).map (patchRec (acc i))) →
      ∃ tab1, symDefTableLoop items p tab = some tab1 ∧
        ∀ i, tab1.definitions[i]?
          = (t.definitions[i]?).map (patchRec (lastItemFrom t items p i (acc i))) := by
  intro items
  induction items with
  | nil =>
    intro p tab acc _ _ _ hpt
    exact ⟨tab, by simp only [symDefTableLoop], hpt⟩
  | cons it rest ih =>
    intro p tab acc hit hm hd hpt
    have hit1 : ∀ ident id, Item.ITEM_FUNC_DEF ident ∈ rest → symtabResolve t ident = some id →
        id = INVALID_DEF_ID ∨
          ∃ d, t.definitions[id.index]? = some d ∧ d.tag = DefTag.SYM_DEF_FUNC :=
      fun ident id hmem => hit ident id (List.mem_cons_of_mem _ hmem)
    cases it with
    | ITEM_GLOBAL_VAR =>
      rw [symDefTableLoop_global]
      obtain ⟨tab1, h1, h2⟩ := ih (p + 1) tab acc hit1 hm hd hpt
      refine ⟨tab1, h1, ?_⟩
      intro i
      rw [h2 i]
      simp [lastItemFrom, resolvesTo]
    | ITEM_FUNC_DEF ident =>
      have hrest : symtabResolve t ident = some (resolveSpec t.decl ident) :=
        symtabResolve_eq t ident hinv.core
      have hres : symtabResolve tab ident = some (resolveSpec t.decl ident) := by
        rw [symtabResolve_congr tab t ident hm hd]
        exact hrest
      have hlast : ∀ (i : Nat) (a : Option Nat),
          lastItemFrom t (Item.ITEM_FUNC_DEF ident :: rest) p i a
            = lastItemFrom t rest (p + 1) i
                (if resolvesTo t (Item.ITEM_FUNC_DEF ident) i then some p else a) :=
        fun _ _ => rfl
      generalize resolveSpec t.decl ident = r at hrest hres
      cases hv : defIdIsInvalid r with
      | true =>
        rw [symDefTableLoop_skip rest p tab ident r hres hv]
        obtain ⟨tab1, h1, h2⟩ := ih (p + 1) tab acc hit1 hm hd hpt
        refine ⟨tab1, h1, ?_⟩
        intro i
        rw [hlast, resolvesTo_invalid t ident r i hrest hv]
        exact h2 i
      | false =>
        have hne : r ≠ INVALID_DEF_ID := by
          intro h
          rw [(defIdIsInvalid_iff _).mpr h] at hv
          cases hv
        rcases hit ident r (List.mem_cons_self _ _) hrest with h | ⟨d, hdj, htag⟩
        · exact absurd h hne
        · obtain ⟨f, hb⟩ := (hshape _ d hdj).mp htag
          have hj := hpt r.index
          rw [hdj] at hj
          simp only [Option.map_some'] at hj
          obtain ⟨f1, k1, k2, k3⟩ := patchRec_set (acc r.index) d f p hb
          rw [symDefTableLoop_set rest p tab ident r _ f1 hres hv hj (k2.trans htag) k1]
          have hpt1 : ∀ i, (tab.definitions.set r.index (itemSet (patchRec (acc r.index) d) f1 p))[i]?
              = (t.definitions[i]?).map (patchRec
                  (if resolvesTo t (Item.ITEM_FUNC_DEF ident) i then some p else acc i)) := by
            intro i
            rw [getElem?_set_cases _ _ i _ _ hj, resolvesTo_valid t ident r i hrest hv]
            by_cases hi : i = r.index
            · rw [if_pos hi, hi, hdj, k3]
              simp
            · rw [if_neg hi, hpt i]
              simp [hi]
          obtain ⟨tab1, h1, h2⟩ := ih (p + 1)
            { tab with definitions := tab.definitions.set r.index (itemSet (patchRec (acc r.index) d) f1 p) }
            (fun i => if resolvesTo t (Item.ITEM_FUNC_DEF ident) i then some p else acc i)
            hit1 hm hd hpt1
          refine ⟨tab1, h1, ?_⟩
          intro i
          rw [hlast]
          exact h2 i

theorem eraseItem_of_invalid (d : DefInfo)
    (h : ∀ f, d.body = DefBody.func f → f.item_id = INVALID_ITEM_ID) : eraseItem d = d := by
  unfold eraseItem applyFunc
  cases hb : d.body with
  | var v => rfl
  | func f =>
    have h1 := h f hb
    cases d with
    | mk tag ident body =>
      cases f with
      | mk item_id return_type local_vars param_count =>
        simp only at hb h1
        subst hb h1
        rfl

theorem getElem?_of_map_eq (g : DefInfo → DefInfo) (l1 l2 : List DefInfo)
    (h : l1.map g = l2.map g) (i : Nat) (d : DefInfo) (hd : l2[i]? = some d) :
    ∃ d1, l1[i]? = some d1 ∧ g d1 = g d := by
  have h1 := congrArg (fun l => l[i]?) h
  simp only [List.getElem?_map, hd, Option.map_some'] at h1
  cases h2 : l1[i]? with
  | none => rw [h2] at h1; cases h1
  | some d1 =>
    rw [h2] at h1
    simp only [Option.map_some', Option.some.injEq] at h1
    exact ⟨d1, rfl, h1⟩

/-- The result of `symDefTableNew` in terms of the table its loop leaves. -/
theorem symDefTableNew_of_loop (t tab1 : Symtab) (ast : Program) (hinv : SymInv t)
    (h : symDefTableLoop ast.items 0 t = some tab1) :
    symDefTableNew t ast = some { definitions := tab1.definitions,
                                  global_count := t.global_count,
                                  main_func := resolveSpec t.decl mainIdent } := by
  obtain ⟨k1, k2, k3, _⟩ := symDefTableLoop_post _ _ _ _ h
  unfold symDefTableNew
  rw [h]
  simp only
  rw [symtabResolve_congr tab1 t mainIdent k1 k2, symtabResolve_eq t mainIdent hinv.core]
  simp only [k3]

theorem symDefTableNew_inv (t : Symtab) (ast : Program) (r : SymDefTable) (hinv : SymInv t)
    (h : symDefTableNew t ast = some r) :
    ∃ tab1, symDefTableLoop ast.items 0 t = some tab1 ∧
      r = { definitions := tab1.definitions, global_count := t.global_count,
            main_func := resolveSpec t.decl mainIdent } := by
  cases hl : symDefTableLoop ast.items 0 t with
  | none =>
    unfold symDefTableNew at h
    rw [hl] at h
    cases h
  | some tab1 =>
    rw [symDefTableNew_of_loop t tab1 ast hinv hl] at h
    simp only [Option.some.injEq] at h
    exact ⟨tab1, rfl, h.symm⟩

theorem resolvesTo_true (t : Symtab) (it : Item) (i : Nat) (h : resolvesTo t it i = true) :
    ∃ ident, it = Item.ITEM_FUNC_DEF ident ∧ symtabResolve t ident = some { index := i } ∧
      ({ index := i } : DefId) ≠ INVALID_DEF_ID := by
  cases it with
  | ITEM_GLOBAL_VAR => simp [resolvesTo] at h
  | ITEM_FUNC_DEF ident =>
    simp only [resolvesTo, Bool.and_eq_true, decide_eq_true_eq, Bool.not_eq_true'] at h
    refine ⟨ident, rfl, h.1, ?_⟩
    intro hh
    rw [(defIdIsInvalid_iff _).mpr hh] at h
    cases h.2

theorem exProgram_items_ok (ident : Key) (id : DefId)
    (hmem : Item.ITEM_FUNC_DEF ident ∈ exProgram.items)
    (hres : symtabResolve exTabF ident = some id) :
    id = INVALID_DEF_ID ∨
      ∃ d, exTabF.definitions[id.index]? = some d ∧ d.tag = DefTag.SYM_DEF_FUNC := by
  simp only [exProgram, List.mem_cons, Item.ITEM_FUNC_DEF.injEq, List.not_mem_nil,
    false_or, or_false, reduceCtorEq] at hmem
  have hF : symtabResolve exTabF keyF = some { index := 0 } := by decide
  have hA : symtabResolve exTabF keyA = some INVALID_DEF_ID := by decide
  rcases hmem with h | h | h
  · rw [h, hF] at hres
    simp only [Option.some.injEq] at hres
    subst hres
    exact Or.inr ⟨funcRecord keyF 0, by decide, rfl⟩
  · rw [h, hA] at hres
    simp only [Option.some.injEq] at hres
    exact Or.inl hres.symm
  · rw [h, hF] at hres
    simp only [Option.some.injEq] at hres
    subst hres
    exact Or.inr ⟨funcRecord keyF 0, by decide, rfl⟩

/-- C15: for a reachable symbol table and an item list (within the range of the
`unsigned int` loop counter) in which the identifier of every function definition item
resolves to nothing or to a function record, `symDefTableNew` returns, and for every record
`d` of the store: its item id was invalid before; afterwards it differs from `d` at most in
the item id; it is `d` itself if no function definition item resolves to it (so global
variable items change nothing); and it is `d` with the item id `k` if `k` is the position
of the last function definition item whose identifier resolves to it. -/
theorem symDefTableNew_item_ids (t : Symtab) (ast : Program) (hr : SymReachable t)
    (_hlen : ast.items.length < U32)
    (hitems : ∀ ident id, Item.ITEM_FUNC_DEF ident ∈ ast.items →
      symtabResolve t ident = some id →
        id = INVALID_DEF_ID ∨
          ∃ d, t.definitions[id.index]? = some d ∧ d.tag = DefTag.SYM_DEF_FUNC) :
    ∃ r, symDefTableNew t ast = some r ∧ r.definitions.length = t.definitions.length ∧
      ∀ (i : Nat) (d : DefInfo), t.definitions[i]? = some d →
        (∀ f, d.body = DefBody.func f → f.item_id = INVALID_ITEM_ID) ∧
        (∃ d1, r.definitions[i]? = some d1 ∧ eraseItem d1 = eraseItem d) ∧
        ((∀ (k : Nat) (it : Item), ast.items[k]? = some it → resolvesTo t it i = false) →
          r.definitions[i]? = some d) ∧
        (∀ (k : Nat) (it : Item), ast.items[k]? = some it → resolvesTo t it i = true →
          (∀ (q : Nat) (it1 : Item), k < q → ast.items[q]? = some it1 →
            resolvesTo t it1 i = false) →
          ∃ f, d.tag = DefTag.SYM_DEF_FUNC ∧ d.body = DefBody.func f ∧
            r.definitions[i]? = some (itemSet d f k)) := by
  obtain ⟨tab1, h1, h2⟩ := symDefTableLoop_spec t hr.inv hr.defInv.shape ast.items 0 t
    (fun _ => none) hitems rfl rfl (fun i => by cases t.definitions[i]? <;> rfl)
  obtain ⟨_, _, _, k4⟩ := symDefTableLoop_post _ _ _ _ h1
  refine ⟨_, symDefTableNew_of_loop t tab1 ast hr.inv h1, ?_, ?_⟩
  · have := congrArg List.length k4
    simpa using this
  · intro i d hd
    have h3 := h2 i
    rw [hd] at h3
    simp only [Option.map_some'] at h3
    refine ⟨fun f hb => hr.defInv.item i d f hd hb,
      getElem?_of_map_eq eraseItem _ _ k4 i d hd, ?_, ?_⟩
    · intro hnone
      show tab1.definitions[i]? = some d
      rw [h3, lastItemFrom_none t i ast.items 0 none hnone]
      rfl
    · intro k it hk hres hlater
      obtain ⟨ident, hit, hres1, hne⟩ := resolvesTo_true t it i hres
      have hmem : Item.ITEM_FUNC_DEF ident ∈ ast.items := by
        rw [← hit]
        exact List.mem_iff_getElem?.mpr ⟨k, hk⟩
      rcases hitems ident _ hmem hres1 with h | ⟨d0, hd0, htag⟩
      · exact absurd h hne
      · rw [hd] at hd0
        simp only [Option.some.injEq] at hd0
        subst hd0
        obtain ⟨f, hb⟩ := (hr.defInv.shape i d hd).mp htag
        refine ⟨f, htag, hb, ?_⟩
        show tab1.definitions[i]? = some (itemSet d f k)
        rw [h3, lastItemFrom_some t i ast.items 0 none k it hk hres hlater]
        simp [patchRec, applyFunc, hb, itemSet, setItem]

theorem symDefTableNew_item_ids_witness :
    (SymReachable exTabF ∧ exProgram.items.length < U32 ∧
        symDefTableNew exTabF exProgram = some exFrozen ∧
        exProgram.items[3]? = some (Item.ITEM_FUNC_DEF keyF) ∧
        resolvesTo exTabF (Item.ITEM_FUNC_DEF keyF) 0 = true) ∧
      ∃ r, symDefTableNew exTabF exProgram = some r ∧
        r.definitions.length = exTabF.definitions.length :=
  ⟨⟨reachable_exTabF, by decide, by decide, by decide, by decide⟩,
    (symDefTableNew_item_ids exTabF exProgram reachable_exTabF (by decide)
      exProgram_items_ok).imp (fun _ h => ⟨h.1, h.2.1⟩)⟩

/-- C16: for a reachable symbol table (and an item list within the range of the
`unsigned int` loop counter), the definition table returned by `symDefTableNew` has as many
definitions as the store of the symbol table, the record at every index is the record of
the store at that index up to the item id, `global_count` is that of the symbol table, and
`main_func` is the result of `symtabResolve("main")` on the symbol table, which is
`INVALID_DEF_ID` when no declaration of "main" is on the declaration stack. -/
theorem symDefTableNew_snapshot (t : Symtab) (ast : Program) (r : SymDefTable)
    (hr : SymReachable t) (_hlen : ast.items.length < U32)
    (h : symDefTableNew t ast = some r) :
    r.definitions.length = t.definitions.length ∧
      (∀ (i : Nat) (d : DefInfo), t.definitions[i]? = some d →
        ∃ d1, r.definitions[i]? = some d1 ∧ eraseItem d1 = d) ∧
      (∀ (i : Nat), t.definitions[i]? = none → r.definitions[i]? = none) ∧
      r.global_count = t.global_count ∧
      symtabResolve t mainIdent = some r.main_func ∧
      (mainIdent ∉ t.decl.map (fun s => s.ident) → r.main_func = INVALID_DEF_ID) := by
  obtain ⟨tab1, h1, h2⟩ := symDefTableNew_inv t ast r hr.inv h
  obtain ⟨_, _, _, k4⟩ := symDefTableLoop_post _ _ _ _ h1
  subst h2
  have hlen : tab1.definitions.length = t.definitions.length := by
    have := congrArg List.length k4
    simpa using this
  refine ⟨hlen, ?_, ?_, rfl, symtabResolve_eq t mainIdent hr.inv.core, ?_⟩
  · intro i d hd
    obtain ⟨d1, k1, k2⟩ := getElem?_of_map_eq eraseItem _ _ k4 i d hd
    refine ⟨d1, k1, ?_⟩
    rw [k2]
    exact eraseItem_of_invalid d (fun f hb => hr.defInv.item i d f hd hb)
  · intro i hi
    show tab1.definitions[i]? = none
    rw [List.getElem?_eq_none_iff] at hi ⊢
    omega
  · intro hmain
    show resolveSpec t.decl mainIdent = INVALID_DEF_ID
    rcases lastIdx_cases t.decl mainIdent with ⟨h3, _⟩ | ⟨h3, s, h4, h5⟩
    · unfold resolveSpec
      rw [if_pos h3]
    · exfalso
      apply hmain
      rw [List.mem_map]
      exact ⟨s, List.mem_iff_getElem?.mpr ⟨_, h4⟩, h5⟩

theorem symDefTableNew_snapshot_witness :
    (SymReachable exTabF ∧ exProgram.items.length < U32 ∧
        symDefTableNew exTabF exProgram = some exFrozen) ∧
      (exFrozen.definitions.length = exTabF.definitions.length ∧
        exFrozen.global_count = exTabF.global_count ∧
        symtabResolve exTabF mainIdent = some exFrozen.main_func) :=
  ⟨⟨reachable_exTabF, by decide, by decide⟩,
    ⟨(symDefTableNew_snapshot exTabF exProgram exFrozen reachable_exTabF (by decide)
        (by decide)).1,
      (symDefTableNew_snapshot exTabF exProgram exFrozen reachable_exTabF (by decide)
        (by decide)).2.2.2.1,
      (symDefTableNew_snapshot exTabF exProgram exFrozen reachable_exTabF (by decide)
        (by decide)).2.2.2.2.1⟩⟩

/-! ## Further properties of the dictionary -/

theorem reachable_runDict :
    ∀ (ops : List DictOp) (d d1 : Dict), Reachable d → runDict ops d = some d1 →
      Reachable d1 := by
  intro ops
  induction ops with
  | nil =>
    intro d d1 hr h
    simp only [runDict, Option.some.injEq] at h
    rw [← h]
    exact hr
  | cons op rest ih =>
    intro d d1 hr h
    cases op with
    | insert k v =>
      cases hi : dictInsert d k v with
      | none => simp [runDict, hi] at h
      | some r =>
        obtain ⟨d2, old⟩ := r
        simp only [runDict, hi] at h
        exact ih d2 d1 (Reachable.insert hr hi) h
    | remove k =>
      cases hi : dictRemove d k with
      | none => simp [runDict, hi] at h
      | some r =>
        obtain ⟨d2, old⟩ := r
        simp only [runDict, hi] at h
        exact ih d2 d1 (Reachable.remove hr hi) h

theorem reachable_exTomb : Reachable exTomb :=
  reachable_runDict exTombOps dictInit exTomb Reachable.init (by decide)

theorem reachable_exFull : Reachable exFull :=
  reachable_runDict exFullOps dictInit exFull Reachable.init (by decide)

theorem entryAt_key_of_getElem? {data : List DictEntry} {i : Nat} {e : DictEntry} {k : Key}
    (h : data[i]? = some e) (hk : e.key = KeyPtr.str k) :
    (entryAt data i).key = KeyPtr.str k := by
  rw [entryAt_of_getElem? h]
  exact hk

theorem absent_iff_not_holds (d : Dict) (k : Key) : Absent d k ↔ ∀ w, ¬ Holds d k w := by
  constructor
  · intro h w hw
    exact hw.not_absent h
  · intro h
    rcases holds_or_absent d k with ⟨w, hw⟩ | ha
    · exact absurd hw (h w)
    · exact ha

theorem absent_congr (d d1 : Dict) (k : Key) (h : ∀ w, Holds d1 k w ↔ Holds d k w) :
    Absent d1 k ↔ Absent d k := by
  rw [absent_iff_not_holds, absent_iff_not_holds]
  constructor
  · intro h1 w hw
    exact h1 w ((h w).mpr hw)
  · intro h1 w hw
    exact h1 w ((h w).mp hw)

/-- C23: in every dictionary reachable from `dictInit` by returning calls of `dictInsert`
and `dictRemove` (the growth of the table and the reuse of formerly used entries
included), no two entries of the array hold the same key. -/
theorem key_uniqueness (d : Dict) (hr : Reachable d) :
    ∀ (i j : Nat) (e1 e2 : DictEntry) (k : Key), d.data[i]? = some e1 →
      d.data[j]? = some e2 → e1.key = KeyPtr.str k → e2.key = KeyPtr.str k → i = j := by
  intro i j e1 e2 k h1 h2 k1 k2
  exact hr.wf.inv.uniq i j k (entryAt_key_of_getElem? h1 k1) (entryAt_key_of_getElem? h2 k2)

theorem key_uniqueness_witness :
    Reachable exFull ∧
      ∀ (i j : Nat) (e1 e2 : DictEntry) (k : Key), exFull.data[i]? = some e1 →
        exFull.data[j]? = some e2 → e1.key = KeyPtr.str k → e2.key = KeyPtr.str k → i = j :=
  ⟨reachable_exFull, key_uniqueness exFull reachable_exFull⟩

/-- C24: in every dictionary reachable from `dictInit`, the array has `2 ^ bits` entries
with `3 ≤ bits` (and `bits ≤ 31`), and `left` plus the number of entries that hold a key
is `3 * 2 ^ bits / 4`; hence at most 75% of the entries hold a key, and the decrement of
`left` in a returning `dictInsert` of a new key starts from a positive value. -/
theorem load_factor_invariant (d : Dict) (hr : Reachable d) :
    3 ≤ d.bits ∧ d.bits ≤ 31 ∧ d.data.length = 2 ^ d.bits ∧
      d.left + occupied d.data = 3 * 2 ^ d.bits / 4 ∧
      4 * occupied d.data ≤ 3 * d.data.length ∧
      (∀ k v d1 old, dictInsert d k v = some (d1, old) → Absent d k →
        0 < leftAfterGrow d ∧ d1.left + 1 = leftAfterGrow d) := by
  have hwf := hr.wf
  have hp := pow_split d.bits (by have := hwf.bits_lo; omega)
  have hc := hwf.count
  refine ⟨hwf.bits_lo, hwf.bits_hi, hwf.inv.len, ?_, ?_, ?_⟩
  · rw [hc, hp]
    omega
  · rw [hwf.inv.len, hp]
    omega
  · intro k v d1 old h ha
    obtain ⟨_, _, _, _, _, _, _, h8⟩ := dictInsert_post d d1 k v old hwf h
    have := (h8 ha).2
    exact ⟨by omega, this⟩

theorem load_factor_invariant_witness :
    Reachable exFull ∧
      (3 ≤ exFull.bits ∧ exFull.bits ≤ 31 ∧ exFull.data.length = 2 ^ exFull.bits ∧
        exFull.left + occupied exFull.data = 3 * 2 ^ exFull.bits / 4) :=
  ⟨reachable_exFull,
    ⟨(load_factor_invariant exFull reachable_exFull).1,
      (load_factor_invariant exFull reachable_exFull).2.1,
      (load_factor_invariant exFull reachable_exFull).2.2.1,
      (load_factor_invariant exFull reachable_exFull).2.2.2.1⟩⟩

/-- C25: for every reachable dictionary `d` with less than `2 ^ 31` entries, `grow`
returns a table with `bits` one higher and twice as many entries, `left` increased by
three quarters of the old number of entries, no formerly used entry, every key stored at
most once, and exactly the pairs of key and value stored in `d`; so `dictGet` returns the
same result for every key before and after. -/
theorem grow_preserves (d : Dict) (hr : Reachable d) (hb : d.bits < 31) :
    ∃ d1, grow d = some d1 ∧ d1.bits = d.bits + 1 ∧ d1.data.length = 2 * d.data.length ∧
      d1.left = d.left + d.data.length / 4 * 3 ∧
      (∀ (i : Nat) (e : DictEntry), d1.data[i]? = some e → e.key ≠ KeyPtr.prevUsed) ∧
      (∀ k w, Holds d1 k w ↔ Holds d k w) ∧
      (∀ (i j : Nat) (e1 e2 : DictEntry) (k : Key), d1.data[i]? = some e1 →
        d1.data[j]? = some e2 → e1.key = KeyPtr.str k → e2.key = KeyPtr.str k → i = j) ∧
      occupied d1.data = occupied d.data ∧
      (∀ k, dictGet d1 k = dictGet d k) := by
  have hwf := hr.wf
  obtain ⟨d1, h1, hwf1, h2, h3, h4, h5⟩ := grow_spec d hwf hb
  have hp := pow_split d.bits (by have := hwf.bits_lo; omega)
  have hp1 := pow_split d1.bits (by have := hwf1.bits_lo; omega)
  have hlen := hwf.inv.len
  have hlen1 := hwf1.inv.len
  have hpow : 2 ^ d1.bits = 2 * 2 ^ d.bits := by rw [h2, pow_succ]; omega
  have hpow2 : 2 ^ (d1.bits - 2) = 2 * 2 ^ (d.bits - 2) := by omega
  refine ⟨d1, h1, h2, by omega, by rw [h3, hlen], ?_, h5, ?_, ?_, ?_⟩
  · intro i e he hk
    apply h4 i
    rw [entryAt_of_getElem? he]
    exact hk
  · intro i j e1 e2 k a1 a2 k1 k2
    exact hwf1.inv.uniq i j k (entryAt_key_of_getElem? a1 k1) (entryAt_key_of_getElem? a2 k2)
  · have c := hwf.count
    have c1 := hwf1.count
    rw [h3, hpow2] at c1
    rw [hp] at c1
    omega
  · intro k
    exact dictGet_congr d d1 k hwf hwf1 (fun w => h5 k w)

theorem grow_preserves_witness :
    (Reachable exFull ∧ exFull.bits < 31) ∧
      ∃ d1, grow exFull = some d1 ∧ d1.bits = exFull.bits + 1 ∧
        d1.data.length = 2 * exFull.data.length ∧
        d1.left = exFull.left + exFull.data.length / 4 * 3 :=
  ⟨⟨reachable_exFull, by decide⟩,
    (grow_preserves exFull reachable_exFull (by decide)).imp
      (fun _ h => ⟨h.1, h.2.1, h.2.2.1, h.2.2.2.1⟩)⟩

theorem keyProbe_length (b : Nat) (k : Key) : (keyProbe b k).length = 2 ^ b := by
  simp [keyProbe, probeSeq]

theorem keyProbe_getElem? (b : Nat) (k : Key) (j : Nat) (hj : j < 2 ^ b) :
    (keyProbe b k)[j]?
      = some (probeIdx (fnvHash k % 2 ^ b) (stepOf (fnvHash k) b) (2 ^ b) j) := by
  simp [keyProbe, probeSeq, List.getElem?_map, List.getElem?_range hj]

/-- C26: for every capacity `2 ^ bits`, every start index `i0` and every odd step `s`, the
indices `(i0 + j * s) mod 2 ^ bits` for `j < 2 ^ bits` are pairwise distinct, and the index
is back at `i0` at `j = 2 ^ bits` and not before.  The step `locate` derives from the hash
is odd.  So for every table with `2 ^ bits` entries (`2 ≤ bits ≤ 31`, where the shifts are
defined) and every key, the `2 ^ bits` indices `locate` may probe are pairwise distinct, and
`locate` returns within `2 ^ bits` passes of its loop, with the result of running the body
of the loop over these indices. -/
theorem probe_termination (bits i0 s : Nat) (hs : s % 2 = 1) :
    (∀ j1 j2, j1 < 2 ^ bits → j2 < 2 ^ bits →
        probeIdx i0 s (2 ^ bits) j1 = probeIdx i0 s (2 ^ bits) j2 → j1 = j2) ∧
      (i0 < 2 ^ bits → probeIdx i0 s (2 ^ bits) (2 ^ bits) = i0 ∧
        ∀ j, 0 < j → j < 2 ^ bits → probeIdx i0 s (2 ^ bits) j ≠ i0) ∧
      (∀ hash b, stepOf hash b % 2 = 1) ∧
      (∀ (d : Dict) (key : Key), 2 ≤ d.bits → d.bits ≤ 31 → d.data.length = 2 ^ d.bits →
        (keyProbe d.bits key).Nodup ∧ (keyProbe d.bits key).length = 2 ^ d.bits ∧
        (∀ j, j < 2 ^ d.bits → (keyProbe d.bits key)[j]? =
          some (probeIdx (fnvHash key % 2 ^ d.bits) (stepOf (fnvHash key) d.bits)
            (2 ^ d.bits) j)) ∧
        locate d key = some
          (decide ((scan d.data key (keyProbe d.bits key) LocState.UNUSED none).1
              = LocState.MATCH),
            (scan d.data key (keyProbe d.bits key) LocState.UNUSED none).2)) := by
  refine ⟨fun j1 j2 h1 h2 h => probeIdx_inj i0 s bits j1 j2 hs h1 h2 h, ?_,
    fun hash b => stepOf_odd hash b, ?_⟩
  · intro hi
    exact ⟨probeIdx_cap i0 s (2 ^ bits) hi,
      fun j h0 hj => probeIdx_ne_initial i0 s bits j hs hi h0 hj⟩
  · intro d key hb2 hb hlen
    exact ⟨keyProbe_nodup d.bits key, keyProbe_length d.bits key,
      fun j hj => keyProbe_getElem? d.bits key j hj, locate_eq_scan d key hb2 hb hlen⟩

theorem probe_termination_witness :
    3 % 2 = 1 ∧ (4 < 2 ^ 3 → probeIdx 4 3 (2 ^ 3) (2 ^ 3) = 4 ∧
      ∀ j, 0 < j → j < 2 ^ 3 → probeIdx 4 3 (2 ^ 3) j ≠ 4) :=
  ⟨by decide, (probe_termination 3 4 3 (by decide)).2.1⟩

/-- The first entry on the probe sequence of `k` that holds no key. -/
theorem find_unused_first {b : Nat} {data : List DictEntry} {k : Key} {r : Nat}
    (h : (keyProbe b k).find? (fun a => isUnused (entryAt data a)) = some r) :
    ∃ pre post, keyProbe b k = pre ++ r :: post ∧ isUnused (entryAt data r) = true ∧
      ∀ a ∈ pre, isUnused (entryAt data a) = false := by
  rw [List.find?_eq_some] at h
  obtain ⟨h1, pre, post, h2, h3⟩ := h
  refine ⟨pre, post, h2, h1, ?_⟩
  intro a ha
  have := h3 a ha
  simpa using this

/-- What `locate` yields in a dictionary that satisfies the invariant. -/
theorem locate_cases (d : Dict) (k : Key) (hwf : WF d) :
    (∀ i, (entryAt d.data i).key = KeyPtr.str k → locate d k = some (true, some i)) ∧
      (Absent d k → ∃ r pre post, locate d k = some (false, some r) ∧
        keyProbe d.bits k = pre ++ r :: post ∧ r < d.data.length ∧
        isUnused (entryAt d.data r) = true ∧
        ∀ a ∈ pre, isUnused (entryAt d.data a) = false) := by
  have hb2 : 2 ≤ d.bits := by have := hwf.bits_lo; omega
  constructor
  · intro i hi
    exact locate_found d k i hb2 hwf.bits_hi hwf.inv hi
  · intro ha
    obtain ⟨r, hr⟩ := find_unused_isSome d.bits d.data k hwf.inv.len hwf.occupied_lt
    obtain ⟨pre, post, h1, h2, h3⟩ := find_unused_first hr
    have hlt := (find_unused_spec hr).1
    rw [← hwf.inv.len] at hlt
    refine ⟨r, pre, post, ?_, h1, hlt, h2, h3⟩
    rw [locate_absent d k hb2 hwf.bits_hi hwf.inv.len ha, hr]

/-- C27: in a reachable dictionary, if the key `k` is stored in the entry `i`, `locate`
reports it as found with exactly the index `i`, whatever stands before it on the probe
sequence of `k`.  If `k` is not stored, `locate` reports it as not found and yields the
first entry on the probe sequence of `k` that holds no key: every entry before it holds a
key, so it is the first formerly used entry if that comes before the first never used
entry, and the first never used entry otherwise. -/
theorem locate_tombstone_precedence (d : Dict) (k : Key) (hr : Reachable d) :
    (∀ (i : Nat) (e : DictEntry), d.data[i]? = some e → e.key = KeyPtr.str k →
        locate d k = some (true, some i)) ∧
      (Absent d k → ∃ r pre post, locate d k = some (false, some r) ∧
        keyProbe d.bits k = pre ++ r :: post ∧ r < d.data.length ∧
        ((entryAt d.data r).key = KeyPtr.prevUsed ∨ (entryAt d.data r).key = KeyPtr.null) ∧
        ∀ a ∈ pre, ∃ k1, (entryAt d.data a).key = KeyPtr.str k1 ∧ k1 ≠ k) := by
  obtain ⟨h1, h2⟩ := locate_cases d k hr.wf
  constructor
  · intro i e he hk
    exact h1 i (entryAt_key_of_getElem? he hk)
  · intro ha
    obtain ⟨r, pre, post, k1, k2, k3, k4, k5⟩ := h2 ha
    refine ⟨r, pre, post, k1, k2, k3, ?_, ?_⟩
    · simp only [isUnused, isNeverUsed, isPrevUsed, Bool.or_eq_true, decide_eq_true_eq] at k4
      exact k4.symm
    · intro a hmem
      obtain ⟨k1, hk1⟩ := key_of_not_unused (k5 a hmem)
      refine ⟨k1, hk1, ?_⟩
      intro heq
      rw [heq] at hk1
      exact ha a hk1

theorem locate_tombstone_precedence_witness :
    (Reachable exTomb ∧ exTomb.data[4]? = some { key := KeyPtr.prevUsed, val := 1 } ∧
        exTomb.data[5]? = some { key := KeyPtr.str (letterKey 8), val := 2 } ∧
        keyProbe exTomb.bits (letterKey 8) = [4, 5, 6, 7, 0, 1, 2, 3]) ∧
      locate exTomb (letterKey 8) = some (true, some 5) :=
  ⟨⟨reachable_exTomb, by decide, by decide, by decide⟩,
    (locate_tombstone_precedence exTomb (letterKey 8) reachable_exTomb).1 5
      { key := KeyPtr.str (letterKey 8), val := 2 } (by decide) rfl⟩

/-- C28: in a reachable dictionary, `locate` returns for every key and writes its result:
either the key is reported as found, with the index of the entry that holds it, or the
index it yields is that of an entry of the array that holds no key (never used or formerly
used).  So a returning `dictInsert` of a key leaves every other key with its value. -/
theorem locate_result_defined (d : Dict) (k : Key) (hr : Reachable d) :
    (∃ found r e, locate d k = some (found, some r) ∧ d.data[r]? = some e ∧
        (found = true → e.key = KeyPtr.str k) ∧
        (found = false → Absent d k ∧ (e.key = KeyPtr.null ∨ e.key = KeyPtr.prevUsed))) ∧
      (∀ v d1 old, dictInsert d k v = some (d1, old) →
        ∀ k1 w, k1 ≠ k → (Holds d1 k1 w ↔ Holds d k1 w)) := by
  obtain ⟨h1, h2⟩ := locate_cases d k hr.wf
  constructor
  · rcases holds_or_absent d k with ⟨w, i, hi⟩ | ha
    · have hk : (entryAt d.data i).key = KeyPtr.str k := by rw [hi]
      refine ⟨true, i, entryAt d.data i, h1 i hk, getElem?_eq_entryAt (lt_length_of_key hk),
        fun _ => hk, fun h => by cases h⟩
    · obtain ⟨r, pre, post, k1, _, k3, k4, _⟩ := h2 ha
      refine ⟨false, r, entryAt d.data r, k1, getElem?_eq_entryAt k3, fun h => (by cases h),
        fun _ => ⟨ha, ?_⟩⟩
      simp only [isUnused, isNeverUsed, isPrevUsed, Bool.or_eq_true, decide_eq_true_eq] at k4
      exact k4
  · intro v d1 old h
    obtain ⟨_, _, _, _, _, h6, _⟩ := dictInsert_post d d1 k v old hr.wf h
    exact h6

theorem locate_result_defined_witness :
    (Reachable exFull ∧ (∀ e ∈ exFull.data, e.key ≠ KeyPtr.null)) ∧
      ∃ found r e, locate exFull (letterKey 0) = some (found, some r) ∧
        exFull.data[r]? = some e ∧ (found = true → e.key = KeyPtr.str (letterKey 0)) ∧
        (found = false → Absent exFull (letterKey 0) ∧
          (e.key = KeyPtr.null ∨ e.key = KeyPtr.prevUsed)) :=
  ⟨⟨reachable_exFull, by decide⟩,
    (locate_result_defined exFull (letterKey 0) reachable_exFull).1⟩

/-- Insertions of new, distinct keys while `left` lasts: the table does not grow and
`left` goes down by one with each key. -/
theorem insertAll_spec :
    ∀ (ks : List (Key × Nat)) (d : Dict), WF d → (∀ p ∈ ks, p.2 ≠ NOVAL) →
      (ks.map Prod.fst).Nodup → (∀ p ∈ ks, Absent d p.1) → ks.length ≤ d.left →
      ∃ d1, insertAll d ks = some d1 ∧ WF d1 ∧ d1.bits = d.bits ∧
        d1.left + ks.length = d.left ∧
        (∀ k, k ∉ ks.map Prod.fst → Absent d k → Absent d1 k) := by
  intro ks
  induction ks with
  | nil =>
    intro d hwf _ _ _ _
    exact ⟨d, rfl, hwf, rfl, rfl, fun _ _ h => h⟩
  | cons p rest ih =>
    intro d hwf hv hnd habs hlen
    obtain ⟨k, v⟩ := p
    simp only [List.length_cons] at hlen
    simp only [List.map_cons, List.nodup_cons] at hnd
    have hleft : d.left ≠ 0 := by omega
    obtain ⟨d1, old, h1, hwf1, hb1, _, hoth, _, hnew⟩ :=
      dictInsert_noGrow d k v hwf (hv (k, v) (List.mem_cons_self _ _)) hleft
    have hk := hnew (habs (k, v) (List.mem_cons_self _ _))
    have hkeep : ∀ k1, k1 ≠ k → Absent d k1 → Absent d1 k1 := by
      intro k1 hne ha
      exact (absent_congr d d1 k1 (fun w => hoth k1 w hne)).mpr ha
    obtain ⟨d2, h2, hwf2, hb2, hl2, habs2⟩ := ih d1 hwf1
      (fun p hp => hv p (List.mem_cons_of_mem _ hp)) hnd.2
      (fun p hp => hkeep p.1
        (fun heq => hnd.1 (by rw [← heq]; exact List.mem_map_of_mem Prod.fst hp))
        (habs p (List.mem_cons_of_mem _ hp)))
      (by omega)
    refine ⟨d2, ?_, hwf2, by rw [hb2, hb1], ?_, ?_⟩
    · simp only [insertAll, h1]
      exact h2
    · simp only [List.length_cons]
      omega
    · intro k1 hk1 ha
      simp only [List.map_cons, List.mem_cons, not_or] at hk1
      exact habs2 k1 hk1.2 (hkeep k1 hk1.1 ha)

/-- C29: a returning `dictInsert` on a reachable dictionary leaves a table of twice the
capacity if `left` is 0 at the call and a table of the same capacity otherwise, whether
the key is stored or not; it returns unless the capacity would have to exceed `2 ^ 31`.
`dictInit` has 8 entries and `left` 6; six insertions of distinct keys into it leave 8
entries and `left` 0, and a seventh insertion of a new key leaves 16 entries and `left` 5. -/
theorem dictInsert_grows_iff (d : Dict) (k : Key) (v : Nat) (hr : Reachable d) :
    (∀ d1 old, dictInsert d k v = some (d1, old) →
        d.data.length = 2 ^ d.bits ∧ d1.data.length = 2 ^ d1.bits ∧
        (d.left = 0 → d1.data.length = 2 * d.data.length) ∧
        (d.left ≠ 0 → d1.data.length = d.data.length)) ∧
      (v ≠ NOVAL → (d.bits < 31 ∨ d.left ≠ 0) → ∃ d1 old, dictInsert d k v = some (d1, old)) ∧
      (dictInit.data.length = 8 ∧ dictInit.left = 6) ∧
      (∀ (ks : List (Key × Nat)), ks.length = 6 → (ks.map Prod.fst).Nodup →
        (∀ p ∈ ks, p.2 ≠ NOVAL) →
        ∃ d6, insertAll dictInit ks = some d6 ∧ d6.data.length = 8 ∧ d6.left = 0 ∧
          ∀ k7 v7, k7 ∉ ks.map Prod.fst → v7 ≠ NOVAL →
            ∃ d7, dictInsert d6 k7 v7 = some (d7, NOVAL) ∧ d7.data.length = 16 ∧
              d7.left = 5) := by
  refine ⟨?_, ?_, ⟨rfl, rfl⟩, ?_⟩
  · intro d1 old h
    obtain ⟨_, _, hwf1, hb, _⟩ := dictInsert_post d d1 k v old hr.wf h
    have hlen := hr.wf.inv.len
    have hlen1 := hwf1.inv.len
    refine ⟨hlen, hlen1, ?_, ?_⟩
    · intro h0
      rw [if_pos h0] at hb
      rw [hlen1, hlen, hb, pow_succ]
      omega
    · intro h0
      rw [if_neg h0] at hb
      rw [hlen1, hlen, hb]
  · intro hv hroom
    obtain ⟨d1, old, h1, _⟩ := dictInsert_spec d k v hr.wf hv hroom
    exact ⟨d1, old, h1⟩
  · intro ks hlen hnd hv
    obtain ⟨d6, h1, hwf6, hb6, hl6, habs6⟩ := insertAll_spec ks dictInit WF_dictInit hv hnd
      (fun p _ => absent_dictInit p.1) (by rw [hlen]; exact Nat.le_of_eq rfl)
    have hbits : d6.bits = 3 := hb6
    have hleft : d6.left = 0 := by
      have : dictInit.left = 6 := rfl
      omega
    refine ⟨d6, h1, ?_, hleft, ?_⟩
    · rw [hwf6.inv.len, hbits]
      rfl
    · intro k7 v7 hk7 hv7
      obtain ⟨d7, old, h7, hwf7, hb7, _, _, _, hnew⟩ :=
        dictInsert_spec d6 k7 v7 hwf6 hv7 (Or.inl (by omega))
      have ha := habs6 k7 hk7 (absent_dictInit k7)
      obtain ⟨ho, hl⟩ := hnew ha
      rw [if_pos hleft, hbits] at hb7
      refine ⟨d7, by rw [h7, ho], ?_, ?_⟩
      · rw [hwf7.inv.len, hb7]
        rfl
      · have : leftAfterGrow d6 = 6 := by
          unfold leftAfterGrow
          rw [hleft, hbits]
          rfl
        omega

theorem dictInsert_grows_iff_witness :
    Reachable exFull ∧
      ∃ d6, insertAll dictInit exSix = some d6 ∧ d6.data.length = 8 ∧ d6.left = 0 ∧
        ∀ k7 v7, k7 ∉ exSix.map Prod.fst → v7 ≠ NOVAL →
          ∃ d7, dictInsert d6 k7 v7 = some (d7, NOVAL) ∧ d7.data.length = 16 ∧ d7.left = 5 :=
  ⟨reachable_exFull,
    (dictInsert_grows_iff exFull (letterKey 0) 1 reachable_exFull).2.2.2 exSix (by decide)
      (by decide) (by decide)⟩

theorem charToHash_of_lt (c : Nat) (h : c < 128) : charToHash c = c := by
  unfold charToHash
  have h1 : c % 256 = c := Nat.mod_eq_of_lt (by omega)
  rw [h1, if_pos h]

theorem fnvLoop_eq_foldl :
    ∀ (key : Key) (hash : Nat),
      fnvLoop hash key
        = key.foldl (fun h b => ((h ^^^ charToHash b) * FNVHashPrime) % U32) hash := by
  intro key
  induction key with
  | nil => intro hash; rfl
  | cons c rest ih =>
    intro hash
    simp only [fnvLoop, List.foldl_cons]
    exact ih _

theorem fnvLoop_ascii :
    ∀ (key : Key) (hash : Nat), (∀ c ∈ key, c < 128) →
      fnvLoop hash key = key.foldl (fun h b => ((h ^^^ b) * 0x01000193) % 2 ^ 32) hash := by
  intro key
  induction key with
  | nil => intro hash _; rfl
  | cons c rest ih =>
    intro hash h
    simp only [fnvLoop, List.foldl_cons]
    rw [charToHash_of_lt c (h c (List.mem_cons_self _ _)),
      ih _ (fun a ha => h a (List.mem_cons_of_mem _ ha))]
    rfl

/-- C30: `fnvHash`, documented as the FNV-1a hash function, departs from FNV-1a on the key
that consists of the byte 200: the code yields 3438500471, FNV-1a of that byte is
1292581751; the `char` is converted without a cast to `unsigned char`, so it is
sign-extended to 0xFFFFFFC8 before the exclusive or. -/
theorem fnvHash_byte_200 :
    fnvHash [200] = 3438500471 ∧ fnv1a [200] = 1292581751 ∧ charToHash 200 = 4294967240 :=
  ⟨by decide, by decide, by decide⟩

/-- What the loop of `fnvHash` computes: the left fold
`h -> ((h xor c) * 0x01000193) mod 2^32` from `0x811c9dc5` over the bytes of the key, each
byte converted from `char` to the 32 bit hash type; for a key of bytes below 128 this is the
FNV-1a hash of the bytes; `fnvHash("")` is `0x811c9dc5` and `fnvHash("a")` is
`0xe40c292c`. -/
theorem fnvHash_spec (key : Key) :
    fnvHash key
        = key.foldl (fun h b => ((h ^^^ charToHash b) * 0x01000193) % 2 ^ 32) 0x811c9dc5 ∧
      ((∀ c ∈ key, c < 128) → fnvHash key = fnv1a key) ∧
      fnvHash [] = 0x811c9dc5 ∧ fnvHash [97] = 0xe40c292c := by
  refine ⟨fnvLoop_eq_foldl key FNVHashSeed, ?_, rfl, by decide⟩
  intro h
  exact fnvLoop_ascii key FNVHashSeed h

theorem fnvHash_spec_witness :
    (∀ c ∈ letterKey 0, c < 128) ∧ fnvHash (letterKey 0) = fnv1a (letterKey 0) :=
  ⟨by decide, (fnvHash_spec (letterKey 0)).2.1 (by decide)⟩

/-! ## Properties of the calculator and the printer -/

theorem zeroLoop_spec :
    ∀ (n i : Nat) (vs : List Int), i + n ≤ vs.length →
      ∃ r, zeroLoop n i vs = some r ∧ r.length = vs.length ∧
        ∀ j, r[j]? = if i ≤ j ∧ j < i + n then some 0 else vs[j]? := by
  intro n
  induction n with
  | zero =>
    intro i vs _
    refine ⟨vs, rfl, rfl, ?_⟩
    intro j
    rw [if_neg (by omega)]
  | succ n ih =>
    intro i vs h
    have hi : i < vs.length := by omega
    obtain ⟨r, h1, h2, h3⟩ := ih (i + 1) (vs.set i 0) (by rw [List.length_set]; omega)
    refine ⟨r, ?_, ?_, ?_⟩
    · simp only [zeroLoop, hi, if_true]
      exact h1
    · rw [h2, List.length_set]
    · intro j
      rw [h3 j, List.getElem?_set]
      by_cases hj : i = j
      · subst hj
        simp [hi]
      · by_cases hj2 : i + 1 ≤ j ∧ j < i + 1 + n
        · rw [if_pos hj2, if_pos (by omega)]
        · rw [if_neg hj2, if_neg hj, if_neg (by omega)]

theorem zeroLoop_envRel (vs : List Int) (h : vs.length = 26) :
    ∃ r, zeroLoop 26 0 vs = some r ∧ EnvRel r (fun _ => 0) := by
  obtain ⟨r, h1, h2, h3⟩ := zeroLoop_spec 26 0 vs (by omega)
  refine ⟨r, h1, by rw [h2, h], ?_⟩
  intro i hi
  rw [h3 i, if_pos (by omega)]

theorem varIndex_of_varOk (var : Char) (h : varOk var = true) :
    varIndex var = some (varSlot var) ∧ varSlot var < 26 := by
  simp only [varOk, decide_eq_true_eq] at h
  unfold varIndex varSlot
  constructor
  · have h1 : (0 : Int) ≤ (var.toNat : Int) - 97 ∧ (var.toNat : Int) - 97 < 26 := by omega
    simp only [h1, and_self, if_true, Option.some.injEq]
    omega
  · omega

theorem binop_of_ok (self : Calculator) (v : Int) (h : intOk v = true) :
    Calculator.binop self (some v) = some { self with result := v } := by
  simp only [Calculator.binop, h, if_true]

/-- Under the precondition, `visitExpr` of the calculator stores the value of the
expression in `result` and changes nothing else. -/
theorem calc_visitExpr_eq (env : Nat → Int) :
    ∀ (e : Expr) (self : Calculator), EnvRel self.var_values env → exprOk env e = true →
      Calculator.visitExpr self e = some { self with result := exprValue env e } := by
  intro e
  induction e with
  | EXPR_INT val => intro self _ _; rfl
  | EXPR_VAR var =>
    intro self hrel hok
    obtain ⟨h1, h2⟩ := varIndex_of_varOk var hok
    simp only [Calculator.visitExpr, h1, hrel.2 _ h2, exprValue]
  | EXPR_ADD l r ihl ihr =>
    intro self hrel hok
    simp only [exprOk, Bool.and_eq_true] at hok
    have hl := ihl self hrel hok.1.1
    have hr := ihr { var_values := self.var_values, result := exprValue env l } hrel hok.1.2
    simp only [Calculator.visitExpr, hl, hr, exprValue]
    exact binop_of_ok _ _ hok.2
  | EXPR_SUB l r ihl ihr =>
    intro self hrel hok
    simp only [exprOk, Bool.and_eq_true] at hok
    have hl := ihl self hrel hok.1.1
    have hr := ihr { var_values := self.var_values, result := exprValue env l } hrel hok.1.2
    simp only [Calculator.visitExpr, hl, hr, exprValue]
    exact binop_of_ok _ _ hok.2
  | EXPR_MUL l r ihl ihr =>
    intro self hrel hok
    simp only [exprOk, Bool.and_eq_true] at hok
    have hl := ihl self hrel hok.1.1
    have hr := ihr { var_values := self.var_values, result := exprValue env l } hrel hok.1.2
    simp only [Calculator.visitExpr, hl, hr, exprValue]
    exact binop_of_ok _ _ hok.2
  | EXPR_DIV l r ihl ihr =>
    intro self hrel hok
    simp only [exprOk, Bool.and_eq_true, decide_eq_true_eq] at hok
    have hl := ihl self hrel hok.1.1.1
    have hr := ihr { var_values := self.var_values, result := exprValue env l } hrel hok.1.1.2
    simp only [Calculator.visitExpr, hl, hr, exprValue]
    rw [if_neg hok.1.2]
    exact binop_of_ok _ _ hok.2

/-- Under the precondition, `visitStmt` of the calculator leaves the value of the
statement in `result` and the values of the variables after the statement in the array. -/
theorem calc_visitStmt_eq (env : Nat → Int) (s : Stmt) (self : Calculator)
    (hrel : EnvRel self.var_values env) (hok : stmtOk env s = true) :
    ∃ s1, Calculator.visitStmt self s = some s1 ∧ s1.result = stmtValue env s ∧
      EnvRel s1.var_values (stmtEnv env s) := by
  cases s with
  | STMT_EXPR e =>
    refine ⟨_, calc_visitExpr_eq env e self hrel hok, rfl, hrel⟩
  | STMT_SET var e =>
    simp only [stmtOk, Bool.and_eq_true] at hok
    obtain ⟨h1, h2⟩ := varIndex_of_varOk var hok.1
    have hlt : varSlot var < self.var_values.length := by rw [hrel.1]; exact h2
    refine ⟨{ var_values := self.var_values.set (varSlot var) (exprValue env e), result := 0 },
      ?_, rfl, ?_, ?_⟩
    · simp only [Calculator.visitStmt, calc_visitExpr_eq env e self hrel hok.2, h1, hlt,
        if_true]
    · simp only [List.length_set]
      exact hrel.1
    · intro i hi
      simp only [List.getElem?_set, stmtEnv]
      by_cases hiv : varSlot var = i
      · subst hiv
        simp [hlt]
      · have hiv2 : ¬ i = varSlot var := fun h => hiv h.symm
        rw [if_neg hiv, if_neg hiv2]
        exact hrel.2 i hi

/-- Under the precondition, the loop over the statements leaves the value of the last
statement in `result` (the former `result` if there is no statement). -/
theorem calc_visitStmts_eq :
    ∀ (stmts : List Stmt) (env : Nat → Int) (self : Calculator),
      EnvRel self.var_values env → progOk env stmts = true →
      ∃ s1, Calculator.visitStmts self stmts = some s1 ∧
        EnvRel s1.var_values (progEnv env stmts) ∧
        s1.result = (match stmts.getLast? with
          | none => self.result
          | some s => stmtValue (progEnv env stmts.dropLast) s) := by
  intro stmts
  induction stmts with
  | nil =>
    intro env self hrel _
    exact ⟨self, rfl, hrel, rfl⟩
  | cons s rest ih =>
    intro env self hrel hok
    simp only [progOk, Bool.and_eq_true] at hok
    obtain ⟨s1, h1, h2, h3⟩ := calc_visitStmt_eq env s self hrel hok.1
    obtain ⟨s2, k1, k2, k3⟩ := ih (stmtEnv env s) s1 h3 hok.2
    refine ⟨s2, ?_, k2, ?_⟩
    · simp only [Calculator.visitStmts, h1]
      exact k1
    · rw [k3]
      cases rest with
      | nil => simp [progEnv, h2]
      | cons t rest1 =>
        simp only [List.getLast?_cons_cons, List.dropLast_cons₂, progEnv]
        cases hlast : (t :: rest1).getLast? with
        | none => simp at hlast
        | some x => rfl

theorem progValue_concat (pre : List Stmt) (s : Stmt) :
    progValue (pre ++ [s]) = stmtValue (progEnv (fun _ => 0) pre) s := by
  simp [progValue]

/-- C21: for a calculator with its array of 26 variables and a program that meets the
precondition (variable names from "a" to "z", no division by zero, no value outside
`int`), `calculatorCalc` returns the value of the last statement of the program, whatever
the calculator held before: all variables are 0 at the start; an expression statement has
the integer value of its expression under the values set by the assignments before it; an
assignment stores the value of its expression in the variable and has the value 0; the
empty program has the value 0.  The tests of `calculator.c` evaluate to 6, 2, 8, 2, 0, 3
and 19. -/
theorem calculatorCalc_value (self : Calculator) (root : Root)
    (hlen : self.var_values.length = 26) :
    (progOk (fun _ => 0) root.stmt_list = true →
        ∃ c, calculatorCalc self root = some (c, progValue root.stmt_list) ∧
          c.result = progValue root.stmt_list ∧
          c.var_values.length = 26 ∧
          (∀ i, i < 26 → c.var_values[i]? = some (progEnv (fun _ => 0) root.stmt_list i))) ∧
      (root.stmt_list = [] → progValue root.stmt_list = 0) ∧
      (∀ pre e, root.stmt_list = pre ++ [Stmt.STMT_EXPR e] →
        progValue root.stmt_list = exprValue (progEnv (fun _ => 0) pre) e) ∧
      (∀ pre var e, root.stmt_list = pre ++ [Stmt.STMT_SET var e] →
        progValue root.stmt_list = 0 ∧
        progEnv (fun _ => 0) root.stmt_list (varSlot var)
          = exprValue (progEnv (fun _ => 0) pre) e) ∧
      ((∃ c, calculatorCalc self (exOp Expr.EXPR_ADD) = some (c, 6)) ∧
        (∃ c, calculatorCalc self (exOp Expr.EXPR_SUB) = some (c, 2)) ∧
        (∃ c, calculatorCalc self (exOp Expr.EXPR_MUL) = some (c, 8)) ∧
        (∃ c, calculatorCalc self (exOp Expr.EXPR_DIV) = some (c, 2)) ∧
        (∃ c, calculatorCalc self exSet = some (c, 0)) ∧
        (∃ c, calculatorCalc self exVars = some (c, 3)) ∧
        (∃ c, calculatorCalc self exComplex = some (c, 19))) := by
  have main : ∀ (r : Root), progOk (fun _ => 0) r.stmt_list = true →
      ∃ c, calculatorCalc self r = some (c, progValue r.stmt_list) ∧
        c.result = progValue r.stmt_list ∧ c.var_values.length = 26 ∧
        (∀ i, i < 26 → c.var_values[i]? = some (progEnv (fun _ => 0) r.stmt_list i)) := by
    intro r hok
    obtain ⟨vs, h1, h2⟩ := zeroLoop_envRel self.var_values hlen
    obtain ⟨c, k1, k2, k3⟩ := calc_visitStmts_eq r.stmt_list (fun _ => 0)
      { var_values := vs, result := 0 } h2 hok
    have hval : c.result = progValue r.stmt_list := by
      rw [k3]
      unfold progValue
      cases r.stmt_list.getLast? <;> rfl
    refine ⟨c, ?_, hval, k2.1, k2.2⟩
    simp only [calculatorCalc, h1, Calculator.visitRoot, k1, hval]
  have test : ∀ (r : Root) (v : Int), progOk (fun _ => 0) r.stmt_list = true →
      progValue r.stmt_list = v → ∃ c, calculatorCalc self r = some (c, v) := by
    intro r v hok hv
    obtain ⟨c, h1, _⟩ := main r hok
    exact ⟨c, by rw [h1, hv]⟩
  refine ⟨main root, ?_, ?_, ?_, ?_⟩
  · intro h
    rw [h]
    rfl
  · intro pre e h
    rw [h, progValue_concat]
    rfl
  · intro pre var e h
    rw [h, progValue_concat]
    refine ⟨rfl, ?_⟩
    have : ∀ (l : List Stmt) (env : Nat → Int),
        progEnv env (l ++ [Stmt.STMT_SET var e]) (varSlot var)
          = exprValue (progEnv env l) e := by
      intro l
      induction l with
      | nil => intro env; simp [progEnv, stmtEnv]
      | cons a rest ih => intro env; exact ih (stmtEnv env a)
    exact this pre _
  · exact ⟨test _ 6 (by decide) (by decide), test _ 2 (by decide) (by decide),
      test _ 8 (by decide) (by decide), test _ 2 (by decide) (by decide),
      test _ 0 (by decide) (by decide), test _ 3 (by decide) (by decide),
      test _ 19 (by decide) (by decide)⟩

theorem calculatorCalc_value_witness :
    (exCalc.var_values.length = 26 ∧ progOk (fun _ => 0) exComplex.stmt_list = true ∧
        progValue exComplex.stmt_list = 19) ∧
      ∃ c, calculatorCalc exCalc exComplex = some (c, progValue exComplex.stmt_list) :=
  ⟨⟨by decide, by decide, by decide⟩,
    ((calculatorCalc_value exCalc exComplex (by decide)).1 (by decide)).imp
      (fun _ h => h.1)⟩

/-- The function `visitExpr` of the printer appends the text of the expression. -/
theorem print_visitExpr_eq :
    ∀ (e : Expr) (self : Printer),
      Printer.visitExpr self e = { out := self.out ++ exprText e } := by
  intro e
  induction e with
  | EXPR_INT val => intro self; rfl
  | EXPR_VAR var => intro self; rfl
  | EXPR_ADD l r ihl ihr =>
    intro self
    simp only [Printer.visitExpr, Printer.fprintf, ihl, ihr, exprText, List.append_assoc]
  | EXPR_SUB l r ihl ihr =>
    intro self
    simp only [Printer.visitExpr, Printer.fprintf, ihl, ihr, exprText, List.append_assoc]
  | EXPR_MUL l r ihl ihr =>
    intro self
    simp only [Printer.visitExpr, Printer.fprintf, ihl, ihr, exprText, List.append_assoc]
  | EXPR_DIV l r ihl ihr =>
    intro self
    simp only [Printer.visitExpr, Printer.fprintf, ihl, ihr, exprText, List.append_assoc]

/-- The function `visitStmt` of the printer appends the text of the statement. -/
theorem print_visitStmt_eq (s : Stmt) (self : Printer) :
    Printer.visitStmt self s = { out := self.out ++ stmtText s } := by
  cases s with
  | STMT_EXPR e => exact print_visitExpr_eq e self
  | STMT_SET var e =>
    simp only [Printer.visitStmt, Printer.fprintf, print_visitExpr_eq, stmtText,
      List.append_assoc]

/-- The loop over the statements appends their texts in order. -/
theorem print_visitStmts_eq :
    ∀ (stmts : List Stmt) (self : Printer),
      Printer.visitStmts self stmts = { out := self.out ++ (stmts.map stmtText).flatten } := by
  intro stmts
  induction stmts with
  | nil => intro self; simp [Printer.visitStmts]
  | cons s rest ih =>
    intro self
    simp only [Printer.visitStmts, print_visitStmt_eq, ih, List.map_cons, List.flatten_cons,
      List.append_assoc]

/-- C22: for every program, `printerFormat` appends to the output the texts of the
statements of the program one after the other, where an expression statement is the text of
its expression and an assignment is the variable, "=", the text of the expression and a
newline; the text of an expression is the decimal number of a literal, the character of a
variable, and "(" lhs op rhs ")" with op one of + - * / for a binary operation.  The tests
of `printer.c` print "(4+2)", "(4-2)", "(4*2)", "(4/2)", "a=1" followed by a newline (which
the test removes before it compares) and "a=1", a newline and "(a+a)". -/
theorem printerFormat_text (self : Printer) (root : Root) :
    printerFormat self root = { out := self.out ++ rootText root } ∧
      rootText root = (root.stmt_list.map stmtText).flatten ∧
      (∀ e, stmtText (Stmt.STMT_EXPR e) = exprText e) ∧
      (∀ var e, stmtText (Stmt.STMT_SET var e)
        = [var] ++ "=".toList ++ exprText e ++ "\n".toList) ∧
      (∀ val, exprText (Expr.EXPR_INT val) = decimalText val) ∧
      (∀ var, exprText (Expr.EXPR_VAR var) = [var]) ∧
      (∀ l r, exprText (Expr.EXPR_ADD l r)
        = "(".toList ++ exprText l ++ "+".toList ++ exprText r ++ ")".toList) ∧
      (∀ l r, exprText (Expr.EXPR_SUB l r)
        = "(".toList ++ exprText l ++ "-".toList ++ exprText r ++ ")".toList) ∧
      (∀ l r, exprText (Expr.EXPR_MUL l r)
        = "(".toList ++ exprText l ++ "*".toList ++ exprText r ++ ")".toList) ∧
      (∀ l r, exprText (Expr.EXPR_DIV l r)
        = "(".toList ++ exprText l ++ "/".toList ++ exprText r ++ ")".toList) ∧
      (decimalText 4 = "4".toList ∧ decimalText 1234567890 = "1234567890".toList ∧
        decimalText 0 = "0".toList ∧ decimalText (-2147483648) = "-2147483648".toList) ∧
      ((printerFormat { out := [] } (exOp Expr.EXPR_ADD)).out = "(4+2)".toList ∧
        (printerFormat { out := [] } (exOp Expr.EXPR_SUB)).out = "(4-2)".toList ∧
        (printerFormat { out := [] } (exOp Expr.EXPR_MUL)).out = "(4*2)".toList ∧
        (printerFormat { out := [] } (exOp Expr.EXPR_DIV)).out = "(4/2)".toList ∧
        (printerFormat { out := [] } exSet).out = "a=1\n".toList ∧
        trimBack (printerFormat { out := [] } exSet).out = "a=1".toList ∧
        (printerFormat { out := [] } exSetAdd).out = "a=1\n(a+a)".toList) := by
  refine ⟨print_visitStmts_eq root.stmt_list self, rfl, fun _ => rfl, fun _ _ => rfl,
    fun _ => rfl, fun _ => rfl, fun _ _ => rfl, fun _ _ => rfl, fun _ _ => rfl,
    fun _ _ => rfl, ⟨by decide, by decide, by decide, by decide⟩,
    ⟨by decide, by decide, by decide, by decide, by decide, by decide, by decide⟩⟩

/-! ## Invariants of the symbol table -/

/-- No reachable dictionary stores the value `-1u`. -/
theorem Reachable.no_noval {d : Dict} (h : Reachable d) :
    ∀ k w, Holds d k w → w ≠ NOVAL := by
  induction h with
  | init =>
    intro k w hw
    exact absurd (absent_dictInit k) hw.not_absent
  | @insert d d1 k v old hr hop ih =>
    intro k1 w hw
    obtain ⟨hv, _, hwf1, _, hk, hoth, _⟩ := dictInsert_post d d1 k v old hr.wf hop
    by_cases hk1 : k1 = k
    · subst hk1
      rw [Holds.unique hwf1.inv hw hk]
      exact hv
    · exact ih k1 w ((hoth k1 w hk1).mp hw)
  | @remove d d1 k old hr hop ih =>
    intro k1 w hw
    obtain ⟨_, _, ha, hoth, _⟩ := dictRemove_post d d1 k old hr.wf hop
    by_cases hk1 : k1 = k
    · subst hk1
      exact absurd ha hw.not_absent
    · exact ih k1 w ((hoth k1 w hk1).mp hw)

theorem scopeLeaveLoop_map_reachable :
    ∀ (n : Nat) (t t1 : Symtab), Reachable t.map → scopeLeaveLoop n t = some t1 →
      Reachable t1.map := by
  intro n
  induction n with
  | zero =>
    intro t t1 hr h
    simp only [scopeLeaveLoop, Option.some.injEq] at h
    rw [← h]
    exact hr
  | succ n ih =>
    intro t t1 hr h
    rw [scopeLeaveLoop] at h
    cases hpop : vecPop t.decl with
    | none => rw [hpop] at h; cases h
    | some r =>
      obtain ⟨decl1, sym⟩ := r
      rw [hpop] at h
      simp only at h
      by_cases hp : sym.prev_record = NOVAL
      · rw [if_pos hp] at h
        cases hrem : dictRemove t.map sym.ident with
        | none => rw [hrem] at h; cases h
        | some r1 =>
          obtain ⟨map1, old⟩ := r1
          rw [hrem] at h
          exact ih _ t1 (Reachable.remove hr hrem) h
      · rw [if_neg hp] at h
        cases hins : dictInsert t.map sym.ident sym.prev_record with
        | none => rw [hins] at h; cases h
        | some r1 =>
          obtain ⟨map1, old⟩ := r1
          rw [hins] at h
          exact ih _ t1 (Reachable.insert hr hins) h

theorem Pushed.dict_reachable {t t1 : Symtab} {x : Key} {id : DefId} (hp : Pushed t t1 x id)
    (hr : Reachable t.map) : Reachable t1.map := by
  obtain ⟨old, h⟩ := hp.map
  exact Reachable.insert hr h

/-- The dictionary of a reachable symbol table is a reachable dictionary. -/
theorem SymReachable.map_reachable {t : Symtab} (h : SymReachable t) : Reachable t.map := by
  induction h with
  | new => exact Reachable.init
  | defineFunc hr hop ih =>
    obtain ⟨_, _, hcase⟩ := symtabDefineFunc_post _ _ _ _ _ hr.inv hop
    rcases hcase with ⟨_, h2, _⟩ | ⟨_, id, hp, _⟩
    · rw [h2]; exact ih
    · exact hp.dict_reachable ih
  | defineParam hr hop ih =>
    obtain ⟨_, _, hcase⟩ := symtabDefineParam_post _ _ _ _ _ hr.inv hop
    rcases hcase with ⟨_, h2, _⟩ | ⟨_, id, hp, _⟩
    · rw [h2]; exact ih
    · exact hp.dict_reachable ih
  | defineVar hr hop ih =>
    obtain ⟨_, hcase⟩ := symtabDefineVar_post _ _ _ _ _ hr.inv hop
    rcases hcase with ⟨_, h2, _⟩ | ⟨_, hp, _⟩
    · rw [h2]; exact ih
    · exact hp.dict_reachable ih
  | scopeEnter _ ih => exact ih
  | @scopeLeave t t1 hr hop ih =>
    unfold symtabScopeLeave at hop
    by_cases hg : isGlobalScope t = true
    · rw [if_pos hg] at hop; cases hop
    · rw [if_neg hg] at hop
      cases hpop : vecPop t.vars_in_scope with
      | none => rw [hpop] at hop; cases hop
      | some r =>
        obtain ⟨vars1, count⟩ := r
        rw [hpop] at hop
        simp only at hop
        exact scopeLeaveLoop_map_reachable count { t with vars_in_scope := vars1 } t1 ih hop

theorem lastIdx_topmost (D : List SymtabSymbol) (x : Key) (hlen : D.length < U32)
    (j : Nat) (s1 : SymtabSymbol) (hj : lastIdx D x < j) (h : D[j]? = some s1) :
    s1.ident ≠ x := by
  intro hx
  have hmem : x ∈ (D.drop j).map (fun s => s.ident) := by
    rw [List.mem_map]
    refine ⟨s1, List.mem_iff_getElem?.mpr ⟨0, ?_⟩, hx⟩
    rw [List.getElem?_drop]
    exact h
  have := ((mem_drop_iff_lastIdx D x hlen j).mp hmem).2
  omega

theorem lastIdx_unique (D : List SymtabSymbol) (x : Key) (hlen : D.length < U32)
    (i : Nat) (s : SymtabSymbol) (hi : D[i]? = some s) (hx : s.ident = x)
    (htop : ∀ (j : Nat) (s1 : SymtabSymbol), i < j → D[j]? = some s1 → s1.ident ≠ x) :
    lastIdx D x = i := by
  rcases lastIdx_cases D x with ⟨_, h2⟩ | ⟨_, s0, h3, h4⟩
  · exfalso
    apply h2
    rw [List.mem_map]
    exact ⟨s, List.mem_iff_getElem?.mpr ⟨i, hi⟩, hx⟩
  · rcases Nat.lt_trichotomy (lastIdx D x) i with h | h | h
    · exact absurd hx (lastIdx_topmost D x hlen i s h hi)
    · exact h
    · exact absurd h4 (htop _ s0 h h3)

/-- What the value of `lastIdx` means: the sentinel if no record has the identifier,
otherwise the index of the topmost record with the identifier. -/
theorem lastIdx_spec (D : List SymtabSymbol) (x : Key) (hlen : D.length < U32) :
    (lastIdx D x = NOVAL ∧ ∀ (j : Nat) (s1 : SymtabSymbol), D[j]? = some s1 → s1.ident ≠ x) ∨
      (lastIdx D x < D.length ∧ (∃ s, D[lastIdx D x]? = some s ∧ s.ident = x) ∧
        ∀ (j : Nat) (s1 : SymtabSymbol), lastIdx D x < j → D[j]? = some s1 → s1.ident ≠ x) := by
  rcases lastIdx_cases D x with ⟨h1, h2⟩ | ⟨h1, h2⟩
  · left
    refine ⟨h1, ?_⟩
    intro j s1 hj hx
    apply h2
    rw [List.mem_map]
    exact ⟨s1, List.mem_iff_getElem?.mpr ⟨j, hj⟩, hx⟩
  · right
    exact ⟨h1, h2, fun j s1 hj h => lastIdx_topmost D x hlen j s1 hj h⟩

theorem lt_NOVAL_of_lt_length {n len : Nat} (h : n < len) (hlen : len < U32) : n ≠ NOVAL := by
  simp only [U32] at hlen
  simp only [NOVAL]
  omega

/-- C31: in a reachable symbol table, for every identifier `x`: if the record `i` of the
declaration stack is the topmost one with the identifier `x`, the dictionary maps `x` to
`i` and `symtabResolve(x)` returns the id of that record; if no record has the identifier
`x`, the dictionary has no entry for `x`, `dictGet` yields `-1u` and `symtabResolve(x)`
returns `INVALID_DEF_ID`; every index the dictionary holds for `x` is below the length of
the declaration stack and names a record with the identifier `x`; and the `prev_record` of
a record with the identifier `x` is the sentinel `-1u` if no lower record has the
identifier `x`, and otherwise the index of the next lower record with the identifier `x`. -/
theorem nearest_binding (t : Symtab) (x : Key) (hr : SymReachable t) :
    (∀ (i : Nat) (s : SymtabSymbol), t.decl[i]? = some s → s.ident = x →
        (∀ (j : Nat) (s1 : SymtabSymbol), i < j → t.decl[j]? = some s1 → s1.ident ≠ x) →
        dictGet t.map x = some i ∧ Holds t.map x i ∧ symtabResolve t x = some s.«def») ∧
      ((∀ (j : Nat) (s1 : SymtabSymbol), t.decl[j]? = some s1 → s1.ident ≠ x) →
        dictGet t.map x = some NOVAL ∧ Absent t.map x ∧
        symtabResolve t x = some INVALID_DEF_ID) ∧
      (∀ w, Holds t.map x w →
        w < t.decl.length ∧ ∃ s, t.decl[w]? = some s ∧ s.ident = x) ∧
      (∀ (i : Nat) (s : SymtabSymbol), t.decl[i]? = some s → s.ident = x →
        (s.prev_record = NOVAL ∧
          ∀ (j : Nat) (s1 : SymtabSymbol), j < i → t.decl[j]? = some s1 → s1.ident ≠ x) ∨
        (s.prev_record < i ∧ (∃ s0, t.decl[s.prev_record]? = some s0 ∧ s0.ident = x) ∧
          ∀ (j : Nat) (s1 : SymtabSymbol), s.prev_record < j → j < i →
            t.decl[j]? = some s1 → s1.ident ≠ x)) := by
  have hc := hr.inv.core
  have hget := hc.nearest x
  have hres := symtabResolve_eq t x hc
  have hnov := hr.map_reachable.no_noval
  refine ⟨?_, ?_, ?_, ?_⟩
  · intro i s hi hx htop
    have hlast := lastIdx_unique t.decl x hc.decl_lt i s hi hx htop
    have hilt : i < t.decl.length := by
      by_contra hge
      rw [List.getElem?_eq_none (by omega)] at hi
      cases hi
    have hne := lt_NOVAL_of_lt_length hilt hc.decl_lt
    rw [hlast] at hget
    refine ⟨hget, ?_, ?_⟩
    · rcases holds_or_absent t.map x with ⟨w, hw⟩ | ha
      · have := dictGet_of_holds t.map x w hc.map_wf hw
        rw [hget] at this
        simp only [Option.some.injEq] at this
        rw [this]
        exact hw
      · have := dictGet_of_absent t.map x hc.map_wf ha
        rw [hget] at this
        simp only [Option.some.injEq] at this
        exact absurd this hne
    · rw [hres]
      unfold resolveSpec
      rw [hlast, if_neg hne, hi]
  · intro hnone
    have hlast : lastIdx t.decl x = NOVAL := by
      rcases lastIdx_cases t.decl x with ⟨h1, _⟩ | ⟨_, s, h2, h3⟩
      · exact h1
      · exact absurd h3 (hnone _ s h2)
    rw [hlast] at hget
    refine ⟨hget, ?_, ?_⟩
    · rcases holds_or_absent t.map x with ⟨w, hw⟩ | ha
      · have := dictGet_of_holds t.map x w hc.map_wf hw
        rw [hget] at this
        simp only [Option.some.injEq] at this
        exact absurd this.symm (hnov x w hw)
      · exact ha
    · rw [hres]
      unfold resolveSpec
      rw [if_pos hlast]
  · intro w hw
    have := dictGet_of_holds t.map x w hc.map_wf hw
    rw [hget] at this
    simp only [Option.some.injEq] at this
    have hne := hnov x w hw
    rcases lastIdx_cases t.decl x with ⟨h1, _⟩ | ⟨h1, h2⟩
    · rw [← this] at hne
      exact absurd h1 hne
    · rw [← this]
      exact ⟨h1, h2⟩
  · intro i s hi hx
    have hilt : i < t.decl.length := by
      by_contra hge
      rw [List.getElem?_eq_none (by omega)] at hi
      cases hi
    have hp := hc.prev i s hi
    rw [hx] at hp
    have hlen : (t.decl.take i).length = i := by
      rw [List.length_take]
      omega
    have htake : ∀ (j : Nat), j < i → (t.decl.take i)[j]? = t.decl[j]? := by
      intro j hj
      rw [List.getElem?_take_of_lt hj]
    rcases lastIdx_spec (t.decl.take i) x (by rw [hlen]; exact lt_trans hilt hc.decl_lt) with
      ⟨h1, h2⟩ | ⟨h1, ⟨s0, h2, h3⟩, h4⟩
    · left
      refine ⟨by rw [hp, h1], ?_⟩
      intro j s1 hj hs1
      exact h2 j s1 (by rw [htake j hj]; exact hs1)
    · right
      rw [hlen] at h1
      rw [← hp] at h1 h2 h4
      refine ⟨h1, ⟨s0, by rw [← htake _ h1]; exact h2, h3⟩, ?_⟩
      intro j s1 hj1 hj2 hs1
      exact h4 j s1 hj1 (by rw [htake j hj2]; exact hs1)

theorem nearest_binding_witness :
    SymReachable scenParam ∧
      ∀ w, Holds scenParam.map keyA w →
        w < scenParam.decl.length ∧ ∃ s, scenParam.decl[w]? = some s ∧ s.ident = keyA :=
  ⟨reachable_scenParam, (nearest_binding scenParam keyA reachable_scenParam).2.2.1⟩

theorem Pushed.vars_length {t t1 : Symtab} {x : Key} {id : DefId} (hp : Pushed t t1 x id)
    (hne : t.vars_in_scope ≠ []) : t1.vars_in_scope.length = t.vars_in_scope.length := by
  obtain ⟨top, _, h⟩ := hp.vars
  rw [h, List.length_append, List.length_dropLast, List.length_singleton]
  have : 0 < t.vars_in_scope.length := List.length_pos.mpr hne
  omega

/-- C32: in a reachable symbol table the scope-count stack is not empty, and the table is
at global scope exactly at scope depth 0 (the length of the stack minus 1).
`symtabScopeEnter` increases the depth by 1 and leaves the definition store, the
declaration stack, the dictionary, `current_func`, `global_count` and every
`symtabResolve` result as they are.  `symtabScopeLeave` does not return at depth 0 (its
assertion fails), returns at a depth of at least 1 when the dictionary has room, and
decreases the depth by 1, leaving a non-empty stack.  `symtabDefineVar`,
`symtabDefineParam` and `symtabDefineFunc` leave the depth as it is. -/
theorem scope_state_machine (t : Symtab) (hr : SymReachable t) :
    (t.vars_in_scope ≠ [] ∧ (isGlobalScope t = true ↔ scopeDepth t = 0)) ∧
      (scopeDepth (symtabScopeEnter t) = scopeDepth t + 1 ∧
        (symtabScopeEnter t).definitions = t.definitions ∧
        (symtabScopeEnter t).decl = t.decl ∧ (symtabScopeEnter t).map = t.map ∧
        (symtabScopeEnter t).current_func = t.current_func ∧
        (symtabScopeEnter t).global_count = t.global_count ∧
        ∀ x, symtabResolve (symtabScopeEnter t) x = symtabResolve t x) ∧
      ((scopeDepth t = 0 → symtabScopeLeave t = none) ∧
        (1 ≤ scopeDepth t → (t.map.bits < 31 ∨ t.map.left ≠ 0) →
          ∃ t1, symtabScopeLeave t = some t1) ∧
        (∀ t1, symtabScopeLeave t = some t1 →
          1 ≤ scopeDepth t ∧ scopeDepth t1 + 1 = scopeDepth t ∧ t1.vars_in_scope ≠ [] ∧
          t1.vars_in_scope = t.vars_in_scope.dropLast)) ∧
      ((∀ x ty t1 id, symtabDefineVar t x ty = some (t1, id) → scopeDepth t1 = scopeDepth t) ∧
        (∀ x ty t1 ok, symtabDefineParam t x ty = some (t1, ok) →
          scopeDepth t1 = scopeDepth t) ∧
        (∀ x ty t1 ok, symtabDefineFunc t x ty = some (t1, ok) →
          scopeDepth t1 = scopeDepth t ∧ scopeDepth t = 0)) := by
  have hinv := hr.inv
  have hne := hinv.scopes_ne
  have hpos : 0 < t.vars_in_scope.length := List.length_pos.mpr hne
  have hglob : isGlobalScope t = true ↔ scopeDepth t = 0 := by
    simp only [isGlobalScope, vecLen, decide_eq_true_eq, scopeDepth]
    omega
  refine ⟨⟨hne, hglob⟩, ?_, ?_, ?_⟩
  · refine ⟨?_, rfl, rfl, rfl, rfl, rfl, fun x => symtabResolve_congr _ _ x rfl rfl⟩
    simp only [scopeDepth, symtabScopeEnter, List.length_append, List.length_singleton]
    omega
  · refine ⟨?_, ?_, ?_⟩
    · intro h0
      unfold symtabScopeLeave
      rw [if_pos (hglob.mpr h0)]
    · intro h1 hroom
      have hg : isGlobalScope t = false := by
        cases hgv : isGlobalScope t with
        | false => rfl
        | true => have := hglob.mp hgv; omega
      exact symtabScopeLeave_isSome t hinv hg hroom
    · intro t1 hl
      obtain ⟨hinv1, hg, top, _, _, hv, _⟩ := symtabScopeLeave_post t t1 hinv hl
      have h1 : 1 ≤ scopeDepth t := by
        by_contra h0
        have := hglob.mpr (by omega)
        rw [hg] at this
        cases this
      refine ⟨h1, ?_, hinv1.scopes_ne, hv⟩
      simp only [scopeDepth] at h1 ⊢
      rw [hv, List.length_dropLast]
      omega
  · refine ⟨?_, ?_, ?_⟩
    · intro x ty t1 id h
      obtain ⟨_, hcase⟩ := symtabDefineVar_post t t1 x ty id hinv h
      rcases hcase with ⟨_, h2, _⟩ | ⟨_, hp, _⟩
      · rw [h2]
      · simp only [scopeDepth, hp.vars_length hne]
    · intro x ty t1 ok h
      obtain ⟨_, _, hcase⟩ := symtabDefineParam_post t t1 x ty ok hinv h
      rcases hcase with ⟨_, h2, _⟩ | ⟨_, id, hp, _⟩
      · rw [h2]
      · simp only [scopeDepth, hp.vars_length hne]
    · intro x ty t1 ok h
      obtain ⟨_, hg, hcase⟩ := symtabDefineFunc_post t t1 x ty ok hinv h
      refine ⟨?_, hglob.mp hg⟩
      rcases hcase with ⟨_, h2, _⟩ | ⟨_, id, hp, _⟩
      · rw [h2]
        rfl
      · simp only [scopeDepth, hp.vars_length hne]

theorem reachable_scenVar : SymReachable scenVar :=
  @SymReachable.defineVar scenParam scenVar keyB intType { index := 2 } reachable_scenParam
    (by decide)

theorem scope_state_machine_witness :
    SymReachable scenVar ∧
      ∃ t1, symtabScopeLeave scenVar = some t1 ∧ scopeDepth t1 + 1 = scopeDepth scenVar :=
  ⟨reachable_scenVar,
    ⟨scenLeft, by decide,
      ((scope_state_machine scenVar reachable_scenVar).2.2.1.2.2 scenLeft (by decide)).2.1⟩⟩

theorem scopeDecls_of_frame (t : Symtab) (V : List Nat) (c : Nat) (D E : List SymtabSymbol)
    (hv : t.vars_in_scope = V ++ [c]) (hd : t.decl = D ++ E) (hE : E.length = c) :
    scopeDecls t = E := by
  have hlast : (V ++ [c]).getLast? = some c := by simp
  unfold scopeDecls vecTop
  rw [hv, hlast, hd]
  simp only [List.length_append]
  rw [hE, Nat.add_sub_cancel, List.drop_left]

/-- C34: in a reachable symbol table the sum of the entries of the scope-count stack is the
length of the declaration stack.  So a returning `symtabScopeLeave` pops as many records
as the top of the scope-count stack says, which are on the declaration stack: the records
of the innermost scope, and the sum is the length again afterwards; outside the global scope
the call returns when the dictionary has room.  After `symtabScopeEnter` and a balanced
sequence of definitions and inner scopes, the records of the innermost scope are exactly
those pushed since the scope was entered, and `symtabScopeLeave` pops exactly these. -/
theorem scope_counts_sum (t : Symtab) (hr : SymReachable t) :
    t.vars_in_scope.sum = t.decl.length ∧
      (∀ t1, symtabScopeLeave t = some t1 →
        ∃ top, vecTop t.vars_in_scope = some top ∧ top ≤ t.decl.length ∧
          (scopeDecls t).length = top ∧ t.decl = t1.decl ++ scopeDecls t ∧
          t1.vars_in_scope.sum = t1.decl.length) ∧
      (isGlobalScope t = false → (t.map.bits < 31 ∨ t.map.left ≠ 0) →
        ∃ t1, symtabScopeLeave t = some t1) ∧
      (∀ ops t2, balanced 0 ops = true → runOps ops (symtabScopeEnter t) = some t2 →
        ∃ E, t2.decl = t.decl ++ E ∧ scopeDecls t2 = E ∧
          ∀ t3, symtabScopeLeave t2 = some t3 → t3.decl = t.decl) := by
  have hinv := hr.inv
  refine ⟨hinv.scopes_sum, ?_, fun hg hroom => symtabScopeLeave_isSome t hinv hg hroom, ?_⟩
  · intro t1 hl
    obtain ⟨hinv1, _, top, htop, hle, _, hd, _⟩ := symtabScopeLeave_post t t1 hinv hl
    have hsc : scopeDecls t = t.decl.drop (t.decl.length - top) := by
      unfold scopeDecls
      rw [htop]
    refine ⟨top, htop, hle, ?_, ?_, hinv1.scopes_sum⟩
    · rw [hsc, List.length_drop]
      omega
    · rw [hsc, hd, List.take_append_drop]
  · intro ops t2 hbal hrun
    obtain ⟨hinv2, c, E, hv, hd, hE⟩ := runOps_frame ops (symtabScopeEnter t) t2
      t.vars_in_scope [0] t.decl [] (SymInv_symtabScopeEnter t hinv) (by simp) hbal rfl
      (by simp [symtabScopeEnter]) rfl hrun
    refine ⟨E, hd, scopeDecls_of_frame t2 _ c _ E hv hd hE, ?_⟩
    intro t3 hl
    obtain ⟨_, _, top, htop, _, _, hd3, _⟩ := symtabScopeLeave_post t2 t3 hinv2 hl
    have hlast : (t.vars_in_scope ++ [c]).getLast? = some c := by simp
    have : top = c := by
      unfold vecTop at htop
      rw [hv, hlast] at htop
      simpa using htop.symm
    rw [hd3, hd, this, List.length_append, hE, Nat.add_sub_cancel, List.take_left]

theorem scope_counts_sum_witness :
    SymReachable scenVar ∧
      ∃ top, vecTop scenVar.vars_in_scope = some top ∧ top ≤ scenVar.decl.length ∧
        (scopeDecls scenVar).length = top ∧ scenVar.decl = scenLeft.decl ++ scopeDecls scenVar ∧
        scenLeft.vars_in_scope.sum = scenLeft.decl.length :=
  ⟨reachable_scenVar,
    (scope_counts_sum scenVar reachable_scenVar).2.1 scenLeft (by decide)⟩

theorem stableRec_refl (d : DefInfo) : stableRec d d := by
  refine ⟨rfl, rfl, ?_⟩
  cases d.body <;> rfl

theorem stableRec_trans {d d1 d2 : DefInfo} (h1 : stableRec d d1) (h2 : stableRec d1 d2) :
    stableRec d d2 := by
  obtain ⟨a1, a2, a3⟩ := h1
  obtain ⟨b1, b2, b3⟩ := h2
  refine ⟨b1.trans a1, b2.trans a2, ?_⟩
  cases hb : d.body <;> cases hb1 : d1.body <;> cases hb2 : d2.body <;>
    simp only [hb, hb1, hb2] at a3 b3 ⊢
  · exact b3.trans a3
  · exact b3.trans a3

theorem stableRec_applyFunc (g : FuncInfo → FuncInfo) (d : DefInfo)
    (hg : ∀ f, (g f).return_type = f.return_type) : stableRec d (applyFunc g d) := by
  refine ⟨applyFunc_tag g d, applyFunc_ident g d, ?_⟩
  cases hb : d.body with
  | var v => rw [applyFunc_var g d v hb, hb]
  | func f =>
    rw [applyFunc_func g d f hb]
    exact hg f

theorem StableStore.refl (defs : List DefInfo) : StableStore defs defs :=
  ⟨Nat.le_refl _, fun _ d h => ⟨d, h, stableRec_refl d⟩⟩

theorem StableStore.trans {a b c : List DefInfo} (h1 : StableStore a b)
    (h2 : StableStore b c) : StableStore a c := by
  refine ⟨Nat.le_trans h1.1 h2.1, ?_⟩
  intro i d hd
  obtain ⟨d1, k1, k2⟩ := h1.2 i d hd
  obtain ⟨d2, k3, k4⟩ := h2.2 i d1 k1
  exact ⟨d2, k3, stableRec_trans k2 k4⟩

theorem StableStore_append (defs : List DefInfo) (r : DefInfo) :
    StableStore defs (defs ++ [r]) := by
  refine ⟨by simp, ?_⟩
  intro i d hd
  exact ⟨d, getElem?_concat_of_some defs r d i hd, stableRec_refl d⟩

theorem StableStore_updFunc (defs : List DefInfo) (c : Nat) (g : FuncInfo → FuncInfo)
    (hg : ∀ f, (g f).return_type = f.return_type) : StableStore defs (updFunc defs c g) := by
  refine ⟨by rw [length_updFunc], ?_⟩
  intro i d hd
  rw [getElem?_updFunc]
  by_cases hi : i = c
  · rw [if_pos hi, ← hi, hd]
    exact ⟨applyFunc g d, rfl, stableRec_applyFunc g d hg⟩
  · rw [if_neg hi]
    exact ⟨d, hd, stableRec_refl d⟩

theorem StableStore_symtabDefineFunc (t t1 : Symtab) (x : Key) (ty : DataType) (ok : Bool)
    (hinv : SymInv t) (h : symtabDefineFunc t x ty = some (t1, ok)) :
    StableStore t.definitions t1.definitions := by
  obtain ⟨_, hcase⟩ := symtabDefineFunc_effect t t1 x ty ok hinv h
  rcases hcase with ⟨_, h2, _⟩ | ⟨_, h2, _⟩
  · rw [h2]
    exact StableStore.refl _
  · rw [h2]
    exact StableStore_append _ _

theorem StableStore_symtabDefineVar (t t1 : Symtab) (x : Key) (ty : DataType) (id : DefId)
    (hinv : SymInv t) (h : symtabDefineVar t x ty = some (t1, id)) :
    StableStore t.definitions t1.definitions := by
  rcases symtabDefineVar_effect t t1 x ty id hinv h with ⟨_, h2, _⟩ | ⟨_, _, _, h4⟩
  · rw [h2]
    exact StableStore.refl _
  · rcases h4 with ⟨_, h5, _⟩ | ⟨_, _, f, _, h7⟩
    · rw [h5]
      exact StableStore_append _ _
    · rw [h7]
      by_cases hid : defIdIsInvalid id = true
      · rw [if_pos hid]
        exact StableStore_append _ _
      · rw [if_neg hid]
        exact (StableStore_append _ _).trans
          (StableStore_updFunc _ _ (addLocal id) (fun _ => rfl))

theorem StableStore_symtabDefineParam (t t1 : Symtab) (x : Key) (ty : DataType) (ok : Bool)
    (hinv : SymInv t) (h : symtabDefineParam t x ty = some (t1, ok)) :
    StableStore t.definitions t1.definitions := by
  obtain ⟨_, hcase⟩ := symtabDefineParam_effect t t1 x ty ok hinv h
  rcases hcase with ⟨_, h2, _⟩ | ⟨_, _, _, _, f, _, h7⟩
  · rw [h2]
    exact StableStore.refl _
  · rw [h7]
    by_cases hid : defIdIsInvalid { index := t.definitions.length } = true
    · rw [if_pos hid]
      exact StableStore_append _ _
    · rw [if_neg hid]
      exact ((StableStore_append _ _).trans
        (StableStore_updFunc _ _ (addLocal { index := t.definitions.length })
          (fun _ => rfl))).trans
        (StableStore_updFunc _ _ incParam (fun _ => rfl))

theorem SymSteps.sym_reachable {t t1 : Symtab} (hr : SymReachable t) (h : SymSteps t t1) :
    SymReachable t1 := by
  induction h with
  | refl => exact hr
  | defineFunc _ hop ih => exact SymReachable.defineFunc ih hop
  | defineParam _ hop ih => exact SymReachable.defineParam ih hop
  | defineVar _ hop ih => exact SymReachable.defineVar ih hop
  | scopeEnter _ ih => exact SymReachable.scopeEnter ih
  | scopeLeave _ hop ih => exact SymReachable.scopeLeave ih hop

/-- The operations of the symbol table keep every record of the store at its index, up to
the parts that are not fixed at the definition. -/
theorem SymSteps.stable {t t1 : Symtab} (hr : SymReachable t) (h : SymSteps t t1) :
    StableStore t.definitions t1.definitions := by
  induction h with
  | refl => exact StableStore.refl _
  | defineFunc hs hop ih =>
    exact ih.trans (StableStore_symtabDefineFunc _ _ _ _ _ (hs.sym_reachable hr).inv hop)
  | defineParam hs hop ih =>
    exact ih.trans (StableStore_symtabDefineParam _ _ _ _ _ (hs.sym_reachable hr).inv hop)
  | defineVar hs hop ih =>
    exact ih.trans (StableStore_symtabDefineVar _ _ _ _ _ (hs.sym_reachable hr).inv hop)
  | scopeEnter _ ih => exact ih
  | scopeLeave hs hop ih =>
    obtain ⟨_, _, top, _, _, _, _, h1, _⟩ := symtabScopeLeave_post _ _ (hs.sym_reachable hr).inv hop
    rw [h1]
    exact ih

theorem stableRec_of_eraseItem (d d1 : DefInfo) (h : eraseItem d1 = eraseItem d) :
    stableRec d d1 := by
  cases d with
  | mk tag ident body =>
    cases d1 with
    | mk tag1 ident1 body1 =>
      cases body <;> cases body1 <;>
        simp only [eraseItem, applyFunc, DefInfo.mk.injEq, DefBody.func.injEq,
          DefBody.var.injEq, FuncInfo.mk.injEq, reduceCtorEq, and_false] at h
      · exact ⟨h.1, h.2.1, h.2.2.2.1⟩
      · exact ⟨h.1, h.2.1, h.2.2⟩

theorem stableRec_iff (d d1 : DefInfo) :
    stableRec d d1 ↔
      d1.tag = d.tag ∧ d1.ident = d.ident ∧
        (∀ v, d.body = DefBody.var v → d1.body = DefBody.var v) ∧
        (∀ f, d.body = DefBody.func f →
          ∃ f1, d1.body = DefBody.func f1 ∧ f1.return_type = f.return_type) := by
  unfold stableRec
  cases hb : d.body <;> cases hb1 : d1.body <;> simp

theorem not_invalid_length (n : Nat) (h : n < NOVAL) :
    ({ index := n } : DefId) ≠ INVALID_DEF_ID := by
  intro hh
  have := (defIdIsInvalid_iff _).mpr hh
  rw [not_invalid_of_lt n h] at this
  cases this

/-- What the three definition operations do to the length of the store, in a table with
room in the 32 bit index range. -/
theorem define_lengths (t : Symtab) (x : Key) (ty : DataType) (hinv : SymInv t)
    (hroom : t.definitions.length < NOVAL) :
    (∀ t1 id, symtabDefineVar t x ty = some (t1, id) →
        (id = INVALID_DEF_ID → t1.definitions = t.definitions) ∧
        (id ≠ INVALID_DEF_ID → t1.definitions.length = t.definitions.length + 1)) ∧
      (∀ t1 ok, symtabDefineParam t x ty = some (t1, ok) →
        (ok = false → t1.definitions = t.definitions) ∧
        (ok = true → t1.definitions.length = t.definitions.length + 1)) ∧
      (∀ t1 ok, symtabDefineFunc t x ty = some (t1, ok) →
        (ok = false → t1.definitions = t.definitions) ∧
        (ok = true → t1.definitions.length = t.definitions.length + 1)) := by
  have hv := not_invalid_of_lt _ hroom
  refine ⟨?_, ?_, ?_⟩
  · intro t1 id h
    rcases symtabDefineVar_effect t t1 x ty id hinv h with ⟨_, h2, h3⟩ | ⟨_, h2, _, h4⟩
    · exact ⟨fun _ => by rw [h2], fun hne => absurd h3 hne⟩
    · have hid : id ≠ INVALID_DEF_ID := by
        rw [h2]
        exact not_invalid_length _ hroom
      refine ⟨fun h0 => absurd h0 hid, fun _ => ?_⟩
      rcases h4 with ⟨_, h5, _⟩ | ⟨_, _, f, _, h7⟩
      · rw [h5]
        simp
      · rw [h7]
        split_ifs
        · simp
        · rw [length_updFunc]
          simp
  · intro t1 ok h
    obtain ⟨_, hcase⟩ := symtabDefineParam_effect t t1 x ty ok hinv h
    rcases hcase with ⟨_, h2, h3⟩ | ⟨_, h2, _, _, f, _, h7⟩
    · refine ⟨fun _ => by rw [h2], fun h1 => ?_⟩
      rw [h3] at h1
      cases h1
    · rw [hv] at h2 h7
      simp only [Bool.not_false] at h2
      simp only [Bool.false_eq_true, if_false] at h7
      refine ⟨fun h0 => ?_, fun _ => ?_⟩
      · rw [h2] at h0
        cases h0
      · rw [h7, length_updFunc, length_updFunc]
        simp
  · intro t1 ok h
    obtain ⟨_, hcase⟩ := symtabDefineFunc_effect t t1 x ty ok hinv h
    rcases hcase with ⟨_, h2, h3⟩ | ⟨_, h2, _, _, h5⟩
    · refine ⟨fun _ => by rw [h2], fun h1 => ?_⟩
      rw [h3] at h1
      cases h1
    · rw [hv] at h5
      simp only [Bool.not_false] at h5
      refine ⟨fun h0 => ?_, fun _ => ?_⟩
      · rw [h5] at h0
        cases h0
      · rw [h2]
        simp

/-- C33: starting from a reachable symbol table, no sequence of operations of the symbol
table removes or reorders records of the definition store: the store does not get shorter,
and every record stays at its index with its tag, its identifier and, for a variable, its
data type and offset, for a function, its return type.  `symtabScopeEnter` and
`symtabScopeLeave` leave the store as it is, so the records of local variables stay after
their scope is left; with room in the 32 bit index range a successful definition makes the
store one record longer and a failed one leaves it as it is; and `symDefTableNew` yields a
store of the same length with every record kept in the same sense.  (`symtabResolve` only
reads the table.) -/
theorem definitions_append_only (t : Symtab) (hr : SymReachable t) :
    (∀ t1, SymSteps t t1 → t.definitions.length ≤ t1.definitions.length ∧
        ∀ (i : Nat) (d : DefInfo), t.definitions[i]? = some d →
          ∃ d1, t1.definitions[i]? = some d1 ∧ stableRec d d1) ∧
      (∀ d d1, stableRec d d1 ↔
        d1.tag = d.tag ∧ d1.ident = d.ident ∧
          (∀ v, d.body = DefBody.var v → d1.body = DefBody.var v) ∧
          (∀ f, d.body = DefBody.func f →
            ∃ f1, d1.body = DefBody.func f1 ∧ f1.return_type = f.return_type)) ∧
      ((symtabScopeEnter t).definitions = t.definitions ∧
        ∀ t1, symtabScopeLeave t = some t1 → t1.definitions = t.definitions) ∧
      (t.definitions.length < NOVAL → ∀ x ty,
        (∀ t1 id, symtabDefineVar t x ty = some (t1, id) →
          (id = INVALID_DEF_ID → t1.definitions = t.definitions) ∧
          (id ≠ INVALID_DEF_ID → t1.definitions.length = t.definitions.length + 1)) ∧
        (∀ t1 ok, symtabDefineParam t x ty = some (t1, ok) →
          (ok = false → t1.definitions = t.definitions) ∧
          (ok = true → t1.definitions.length = t.definitions.length + 1)) ∧
        (∀ t1 ok, symtabDefineFunc t x ty = some (t1, ok) →
          (ok = false → t1.definitions = t.definitions) ∧
          (ok = true → t1.definitions.length = t.definitions.length + 1))) ∧
      (∀ ast r, symDefTableNew t ast = some r →
        r.definitions.length = t.definitions.length ∧
        ∀ (i : Nat) (d : DefInfo), t.definitions[i]? = some d →
          ∃ d1, r.definitions[i]? = some d1 ∧ stableRec d d1) := by
  refine ⟨fun t1 hs => hs.stable hr, stableRec_iff, ⟨rfl, ?_⟩,
    fun hroom x ty => define_lengths t x ty hr.inv hroom, ?_⟩
  · intro t1 hl
    obtain ⟨_, _, top, _, _, _, _, h1, _⟩ := symtabScopeLeave_post t t1 hr.inv hl
    exact h1
  · intro ast r h
    obtain ⟨tab1, h1, h2⟩ := symDefTableNew_inv t ast r hr.inv h
    obtain ⟨_, _, _, k4⟩ := symDefTableLoop_post _ _ _ _ h1
    subst h2
    refine ⟨?_, ?_⟩
    · have := congrArg List.length k4
      simpa using this
    · intro i d hd
      obtain ⟨d1, k1, k2⟩ := getElem?_of_map_eq eraseItem _ _ k4 i d hd
      exact ⟨d1, k1, stableRec_of_eraseItem d d1 k2⟩

theorem definitions_append_only_witness :
    SymReachable scenVar ∧ symtabScopeLeave scenVar = some scenLeft ∧
      scenLeft.definitions = scenVar.definitions :=
  ⟨reachable_scenVar, by decide,
    (definitions_append_only scenVar reachable_scenVar).2.2.1.2 scenLeft (by decide)⟩

end Analysis
